import Mathlib

/-!
# genefer22: residue extraction, vector classes, outer transform and engine construction

A shallow embedding of the integer code, the vector classes, the outer
transform and the engine construction of genefer22 (`src/src/main.cpp`,
`src/src/transformCPUf64s.h`) together with the properties of its
specification.

Conventions of the embedding.

* `int64_t` values are modelled by `Int`.  Signed overflow is undefined
  behaviour in C++; the digits handed to `unbalance` are roundings of
  transform outputs and stay far below `2^61`, where no intermediate value of
  the carry loops can overflow (`digitStep_bounded`).
* An array `int64_t zi[size]` is a `List Int` of length `size`.
* A `while` loop is a function with a fuel argument that counts the passes
  allowed; running out of fuel is `none`.
* A read outside an array is `none`.
* A `double` is an element of an exact arithmetic: a commutative ring for the
  butterflies, an ordered field with floor for roundings, the reals where the
  specification speaks of them.  Rounding errors, NaN and infinities are not
  modelled.
* An array of `Complex` or of `Vc` is a map from double offsets to doubles
  (two doubles per `Complex`); in-place code is a function on such maps.
-/

namespace Genefer

/-! ## ComplexITransform::unbalance (main.cpp, lines 28-78) -/

/-- The loop body shared by both carry loops of `unbalance`:
`f += zi[i]; r = f % base; if (r < 0) r += base; zi[i] = r; f -= r; f /= base;`
with the truncating `%` and `/` of C++.  Returns the digit written and the
new carry.  Here the carry and the digits are unbounded integers; `digitStep64`
is the same body on `int64_t`. -/
def digitStep (base f z : Int) : Int × Int :=
  let f1 := f + z
  let r0 := Int.tmod f1 base
  let r := if r0 < 0 then r0 + base else r0
  let f2 := f1 - r
  (r, Int.tdiv f2 base)

/-- The first `for` loop of `unbalance` (lines 34-42): a full carry pass over
all `size` digits, started with carry `f`. -/
def firstPass (base : Int) : Int → List Int → List Int × Int
  | f, [] => ([], f)
  | f, z :: zs =>
    let s := digitStep base f z
    let rest := firstPass base s.2 zs
    (s.1 :: rest.1, rest.2)

/-- The inner `for` loop of the `while` loop (lines 48-57): a carry pass that
stops (`break`) as soon as the carry is zero, leaving the remaining digits
untouched. -/
def carryPass (base : Int) : Int → List Int → List Int × Int
  | f, [] => ([], f)
  | f, z :: zs =>
    let s := digitStep base f z
    if s.2 = 0 then (s.1 :: zs, s.2)
    else
      let rest := carryPass base s.2 zs
      (s.1 :: rest.1, rest.2)

/-- The scan of lines 61-69: `isMinusOne` is true when every digit is zero. -/
def isMinusOne (zi : List Int) : Bool :=
  zi.all (fun z => decide (z = 0))

/-- The `while (f != 0)` loop of `unbalance` (lines 44-77).  `fuel` bounds the
number of passes; the result is the digit array and the carry `f` at the exit
of the loop, or `none` when `fuel` passes were not enough. -/
def whileLoop (base : Int) : Nat → Int → List Int → Option (List Int × Int)
  | 0, f, zi => if f = 0 then some (zi, f) else none
  | fuel + 1, f, zi =>
    if f = 0 then some (zi, f)
    else
      let p := carryPass base (-f) zi
      if p.2 = 1 ∧ isMinusOne p.1 = true then some (p.1.set 0 (-1), p.2)
      else whileLoop base fuel p.2 p.1

/-- Number of passes granted to the `while` loop for an initial carry `f`. -/
def passBound (f : Int) : Nat := f.natAbs + 2

/-- The function `ComplexITransform::unbalance` for base `b`: first pass, then
the re-propagation loop.  The result is the final content of `zi`. -/
def unbalance (b : Nat) (zi : List Int) : Option (List Int) :=
  let p := firstPass (b : Int) 0 zi
  (whileLoop (b : Int) (passBound p.2) p.2 p.1).map Prod.fst

/-! ## ComplexITransform::isOne (main.cpp, lines 88-107) -/

/-- Lines 97-98: `isOne = (zi[0] == 1)` and, when that holds, the conjunction
of `zi[k] == 0` over `1 <= k < size`. -/
def isOneFlag (zi : List Int) : Bool :=
  let isOne := decide (zi.getD 0 0 = 1)
  if isOne then (zi.drop 1).foldl (fun acc z => acc && decide (z = 0)) isOne else isOne

/-- The cast `(unsigned char)` of an `int64_t`: the value modulo 256. -/
def toUChar (z : Int) : Nat := (z % 256).toNat

/-- Lines 100-102: `res = 0; for (i = 8; i != 0; --i)
res = (res << 8) | (unsigned char)zi[size - i];` on a 64-bit unsigned `res`. -/
def fingerprint (size : Nat) (zi : List Int) : Nat :=
  [8, 7, 6, 5, 4, 3, 2, 1].foldl
    (fun res i => ((res <<< 8) % 2 ^ 64) ||| toUChar (zi.getD (size - i) 0)) 0

/-- The function `ComplexITransform::isOne`, given the digits `zi` that `getZi`
delivered: the pair of the returned boolean and the value stored in `residue`.
For `size < 8` the index `size - i` leaves the array, which is `none`. -/
def isOne (b : Nat) (zi : List Int) : Option (Bool × Nat) :=
  let size := zi.length
  if size < 8 then none
  else (unbalance b zi).map (fun z => (isOneFlag z, fingerprint size z))

/-! ## Specification vocabulary -/

/-- The integer `sum_i zi[i] * b^i` represented by a digit vector. -/
def digitSum (b : Int) (zi : List Int) : Int :=
  ((List.range zi.length).map (fun i => zi.getD i 0 * b ^ i)).sum

/-- The special encoding `(-1, 0, ..., 0)` of the residue `-1` on `n` digits. -/
def minusOneVec (n : Nat) : List Int := (List.replicate n 0).set 0 (-1)

/-- Canonical digits: every digit lies in `[0, b)`. -/
def Canonical (b : Int) (zi : List Int) : Prop := ∀ z ∈ zi, 0 ≤ z ∧ z < b

/-- Balanced digits: every digit lies in `(-b/2, b/2]`. -/
def Balanced (b : Int) (zi : List Int) : Prop := ∀ z ∈ zi, -b < 2 * z ∧ 2 * z ≤ b

/-- Horner form of `digitSum`: `z0 + b * (z1 + b * (z2 + ...))`. -/
def horner (b : Int) : List Int → Int
  | [] => 0
  | z :: zs => z + b * horner b zs

/-- Termination measure of the `while` loop of `unbalance` on its carry `f`. -/
def passMeasure (f : Int) : Nat :=
  if f = 0 then 0 else if f = -1 then 1 else if f = 1 then 2 else f.natAbs + 1

/-! ## Vd and Vcx (main.cpp, lines 126-347) -/

/-- The class `Vd<N>`: an array `double r[N]` of `N` lanes.  The lanes are taken in
a type `α`; `shift` only moves lanes and flips signs, which is exact on
doubles. -/
structure Vd (α : Type) (N : Nat) where
  r : Fin N → α

/-- The accessor `Vd::operator[]`. -/
def Vd.get {α : Type} {N : Nat} (v : Vd α N) (i : Fin N) : α := v.r i

/-- The update `Vd::set(i, f)`: `r[i] = f`. -/
def Vd.set {α : Type} {N : Nat} (v : Vd α N) (i : Fin N) (f : α) : Vd α N :=
  ⟨Function.update v.r i f⟩

/-- The class `Vcx<N>`: a vector of real parts and a vector of imaginary parts. -/
structure Vcx (α : Type) (N : Nat) where
  re : Vd α N
  im : Vd α N

/-- The loop of `Vcx::shift` (lines 339-343), from index `i` down to 1:
`for (; i > 0; --i) { re.set(i, re[i - 1]); im.set(i, im[i - 1]); }`. -/
def Vcx.shiftLoop {α : Type} {N : Nat} (x : Vcx α N) : (i : Nat) → i < N → Vcx α N
  | 0, _ => x
  | i + 1, h =>
    Vcx.shiftLoop
      ⟨x.re.set ⟨i + 1, h⟩ (x.re.get ⟨i, Nat.lt_of_succ_lt h⟩),
        x.im.set ⟨i + 1, h⟩ (x.im.get ⟨i, Nat.lt_of_succ_lt h⟩)⟩
      i (Nat.lt_of_succ_lt h)

/-- The method `Vcx::shift(rhs, rotate)` (lines 336-346), for a lane count
`N > 0`: the loop started at `N - 1`, then
`re.set(0, rotate ? -rhs.im[N - 1] : rhs.re[N - 1]);`
`im.set(0, rotate ?  rhs.re[N - 1] : rhs.im[N - 1]);`. -/
def Vcx.shift {α : Type} [Neg α] {N : Nat} (x rhs : Vcx α N) (rotate : Bool) (hN : 0 < N) :
    Vcx α N :=
  let y := x.shiftLoop (N - 1) (Nat.sub_lt hN Nat.one_pos)
  let last : Fin N := ⟨N - 1, Nat.sub_lt hN Nat.one_pos⟩
  ⟨y.re.set ⟨0, hN⟩ (if rotate then -rhs.im.get last else rhs.re.get last),
    y.im.set ⟨0, hN⟩ (if rotate then rhs.re.get last else rhs.im.get last)⟩

/-! ## transformCPUf64s: memory layout and copy (transformCPUf64s.h) -/

namespace transformCPUf64s

/-- Modelled from the spec: the size `sizeof(Complex)` of the type `Complex` of
`f64vector.h`, which is not among the sources; a complex sample takes 16 bytes
(two doubles, as `struct Complex` of main.cpp). -/
def sizeofComplex : Nat := 16

/-- Modelled from the spec: the size `sizeof(Vc)` of the type `Vcx<VSIZE>` of
`f64vector.h`, which is not among the sources; a complex pair of two lanes of
`VSIZE` doubles takes `2 * VSIZE * 8` bytes (as `Vcx` of main.cpp). -/
def sizeofVc (VSIZE : Nat) : Nat := 2 * VSIZE * 8

/-- The constant `n_io` (line 174). -/
def n_io (N : Nat) : Nat :=
  if N ≤ 2 ^ 11 then 64 else if N ≤ 2 ^ 13 then 256 else if N ≤ 2 ^ 17 then 1024 else 4096

/-- The constant `n_io_inv = N / n_io / VSIZE` (line 176). -/
def n_io_inv (N VSIZE : Nat) : Nat := N / n_io N / VSIZE

/-- The constant `n_gap` (line 177). -/
def n_gap (VSIZE : Nat) : Nat := if VSIZE ≤ 4 then 64 else 16 * VSIZE

/-- The function `index(k)` (line 179). -/
def index (N VSIZE k : Nat) : Nat :=
  let j := k / n_io N
  let i := k % n_io N
  j * (n_io N + n_gap VSIZE / sizeofComplex) + i

/-- The constant `wSize` (line 181). -/
def wSize (N : Nat) : Nat := N / 8 * sizeofComplex

/-- The constant `wsSize` (line 182). -/
def wsSize (N : Nat) : Nat := N / 8 * sizeofComplex

/-- The constant `zSize` (line 183). -/
def zSize (N VSIZE : Nat) : Nat := index N VSIZE N * sizeofComplex + 1024

/-- The constant `fcSize` (line 184). -/
def fcSize (N VSIZE : Nat) : Nat := 64 * n_io_inv N VSIZE * sizeofVc VSIZE

/-- The constant `wOffset` (line 186). -/
def wOffset : Nat := 0

/-- The constant `wsOffset` (line 187). -/
def wsOffset (N : Nat) : Nat := wOffset + wSize N

/-- The constant `zlOffset` (line 188). -/
def zlOffset (N : Nat) : Nat := wsOffset N + wsSize N

/-- The constant `zhOffset` (line 189). -/
def zhOffset (N VSIZE : Nat) : Nat := zlOffset N + zSize N VSIZE

/-- The constant `fcOffset` (line 190). -/
def fcOffset (N VSIZE : Nat) : Nat := zhOffset N VSIZE + zSize N VSIZE

/-- The constant `zlpOffset` (line 191). -/
def zlpOffset (N VSIZE : Nat) : Nat := fcOffset N VSIZE + fcSize N VSIZE

/-- The constant `zhpOffset` (line 192). -/
def zhpOffset (N VSIZE : Nat) : Nat := zlpOffset N VSIZE + zSize N VSIZE

/-- The constant `zrOffset` (line 193). -/
def zrOffset (N VSIZE : Nat) : Nat := zhpOffset N VSIZE + zSize N VSIZE

/-- The member `_mem_size` set by the constructor (line 627), for `num_regs`
registers. -/
def mem_size (N VSIZE num_regs : Nat) : Nat :=
  wSize N + wsSize N + 2 * zSize N VSIZE + fcSize N VSIZE + 2 * zSize N VSIZE
    + (num_regs - 1) * 2 * zSize N VSIZE + 2 * 1024 * 1024

/-- The byte offset in `_mem` of register `r`, as computed in `copy` and
`initMultiplicand`: `(r == 0) ? zlOffset : zrOffset + (r - 1) * zSize`. -/
def regOffset (N VSIZE r : Nat) : Nat :=
  if r = 0 then zlOffset N else zrOffset N VSIZE + (r - 1) * zSize N VSIZE

/-- The number `index(N) / VSIZE` of `Vc` words that `copy` moves and that
`getZi` reads from `zl`. -/
def wordCount (N VSIZE : Nat) : Nat := index N VSIZE N / VSIZE

/-- The assignment `z_dst[k] = z_src[k]` of one `Vc` word, on the buffer `_mem`
seen as a map from byte offsets to bytes; `dst` and `src` are the byte offsets
of `z_dst` and `z_src`. -/
def assignVc {α : Type} (VSIZE : Nat) (dst src : Nat) (mem : Nat → α) (k : Nat) : Nat → α :=
  fun a =>
    if dst + k * sizeofVc VSIZE ≤ a ∧ a < dst + (k + 1) * sizeofVc VSIZE
    then mem (src + (a - dst)) else mem a

/-- The method `copy(dst, src)` (lines 847-852):
`for (k = 0; k < index(N) / VSIZE; ++k) z_dst[k] = z_src[k];`. -/
def copy {α : Type} (N VSIZE : Nat) (mem : Nat → α) (dst src : Nat) : Nat → α :=
  (List.range (wordCount N VSIZE)).foldl
    (assignVc VSIZE (regOffset N VSIZE dst) (regOffset N VSIZE src)) mem

/-- The content of register `r` that `getZi` decodes: the bytes of its
`index(N) / VSIZE` words, by offset inside the register. -/
def regWords {α : Type} (N VSIZE : Nat) (mem : Nat → α) (r : Nat) : Nat → Option α :=
  fun i => if i < wordCount N VSIZE * sizeofVc VSIZE then some (mem (regOffset N VSIZE r + i))
    else none

end transformCPUf64s

/-- A two-lane vector used as a concrete input of `shift`: lanes `(1, 2)` and
`(7, 8)` as `(re, im)` pairs. -/
def shiftInputX : Vcx Int 2 := ⟨⟨![1, 7]⟩, ⟨![2, 8]⟩⟩

/-- A two-lane vector used as a concrete `rhs` of `shift`: its last lane is
`(3, 5)`. -/
def shiftInputRhs : Vcx Int 2 := ⟨⟨![0, 3]⟩, ⟨![0, 5]⟩⟩

/-- A buffer content used as a concrete input of `copy`: byte `a` holds
`a % 251`. -/
def copyInputMem : Nat → Nat := fun a => a % 251

/-! ## Thread ranges (main.cpp, lines 827-829; transformCPUf64s.h, lines 255-257, 563, 595) -/

/-- The lower bound `l_min = thread_id * S / num_threads` of the range of a
thread, for `S = s_io` in pass 1 and `S = n_io_s` in pass 2. -/
def l_min (num_threads S thread_id : Nat) : Nat := thread_id * S / num_threads

/-- The upper bound
`l_max = (thread_id + 1 == num_threads) ? S : (thread_id + 1) * S / num_threads`. -/
def l_max (num_threads S thread_id : Nat) : Nat :=
  if thread_id + 1 = num_threads then S else (thread_id + 1) * S / num_threads

/-- The range computation at the head of `pass1`, with the division of
`size_t` made explicit: dividing by a zero thread count is `none`. -/
def pass1Range (num_threads s_io thread_id : Nat) : Option (Nat × Nat) :=
  if num_threads = 0 then none
  else some (l_min num_threads s_io thread_id, l_max num_threads s_io thread_id)

namespace transformCPUf64s

/-- The constant `n_io_s = n_io / 4 / 2` (line 175). -/
def n_io_s (N : Nat) : Nat := n_io N / 4 / 2

/-- The tile `lh = thread_id * n_io_s / num_threads` that `pass2_1` loads,
carries and stores (line 595). -/
def pass2_1_lh (N num_threads thread_id : Nat) : Nat := thread_id * n_io_s N / num_threads

/-- The half-blocks `lh` that `pass2_0` processes for a thread (line 563-564):
`for (lh = l_min; lh < l_max; ++lh)`. -/
def pass2_0_range (N num_threads thread_id : Nat) : List Nat :=
  List.range' (l_min num_threads (n_io_s N) thread_id)
    (l_max num_threads (n_io_s N) thread_id - l_min num_threads (n_io_s N) thread_id)

end transformCPUf64s

/-! ## CZIT_CPU_vec_mt: layout constants (main.cpp, lines 583-600) -/

namespace CZIT_CPU_vec_mt

/-- The constant `n_io = 16 * 4` (line 583). -/
def n_io : Nat := 16 * 4

/-- The constant `n_io_s = n_io / 4 / 2` (line 584). -/
def n_io_s : Nat := n_io / 4 / 2

/-- The constant `n_io_inv = N / n_io / VSIZE` (line 585). -/
def n_io_inv (N VSIZE : Nat) : Nat := N / n_io / VSIZE

/-- The function `index(k)` (line 600), with `sizeof(Complex) = 16`. -/
def index (k : Nat) : Nat :=
  let j := k / n_io
  let i := k % n_io
  j * (n_io + 64 / 16) + i

end CZIT_CPU_vec_mt

/-! ## Engine construction (transformCPUf64s.h, lines 623-652 and 857-883) -/

namespace transformCPUf64s

/-- The preprocessor macros that select the branches of
`create_transformCPUf64s`; they are set by the build, outside the sources. -/
structure BuildMacros where
  DTRANSFORM : Bool
  IBDTRANSFORM : Bool
  SBDTRANSFORM : Bool
deriving DecidableEq, Repr

/-- The scalar members of a `transformCPUf64s<N, VSIZE>` object after its
constructor: the template parameters, the arguments handed to the base class
`transform(N, n, b, kind)` and the members of the initializer list (lines
624-629).  The buffers `_mem`, `_mem_copy` hold floating-point tables and are
left out. -/
structure Engine where
  N : Nat
  VSIZE : Nat
  n : Nat
  b : Nat
  num_threads : Nat
  mem_size : Nat
  cache_size : Nat
  checkError : Bool
deriving DecidableEq, Repr

/-- The constructor `transformCPUf64s(b, n, num_threads, num_regs, checkError)`
for the template parameters `N`, `VSIZE` (lines 623-652).  It has no failing
path of its own: every argument is stored as given. -/
def construct (N VSIZE b n num_threads num_regs : Nat) (checkError : Bool) : Engine :=
  { N := N, VSIZE := VSIZE, n := n, b := b,
    num_threads := num_threads,
    mem_size := mem_size N VSIZE num_regs,
    cache_size := wSize N + wsSize N + 2 * zSize N VSIZE + fcSize N VSIZE,
    checkError := checkError }

/-- The first if-chain of `create_transformCPUf64s` (lines 863-867), compiled
unless `DTRANSFORM` or `IBDTRANSFORM` is defined. -/
def createSmall (VSIZE b n num_threads num_regs : Nat) (checkError : Bool) : Option Engine :=
  if n = 12 then some (construct (2 ^ 11) VSIZE b n num_threads num_regs checkError)
  else if n = 13 then some (construct (2 ^ 12) VSIZE b n num_threads num_regs checkError)
  else if n = 14 then some (construct (2 ^ 13) VSIZE b n num_threads num_regs checkError)
  else if n = 15 then some (construct (2 ^ 14) VSIZE b n num_threads num_regs checkError)
  else if n = 16 then some (construct (2 ^ 15) VSIZE b n num_threads num_regs checkError)
  else none

/-- The second if-chain of `create_transformCPUf64s` (lines 870-876), compiled
when `SBDTRANSFORM` is defined; `p` is the pointer left by the first chain. -/
def createLarge (VSIZE b n num_threads num_regs : Nat) (checkError : Bool)
    (p : Option Engine) : Option Engine :=
  if n = 17 then some (construct (2 ^ 16) VSIZE b n num_threads num_regs checkError)
  else if n = 18 then some (construct (2 ^ 17) VSIZE b n num_threads num_regs checkError)
  else if n = 19 then some (construct (2 ^ 18) VSIZE b n num_threads num_regs checkError)
  else if n = 20 then some (construct (2 ^ 19) VSIZE b n num_threads num_regs checkError)
  else if n = 21 then some (construct (2 ^ 20) VSIZE b n num_threads num_regs checkError)
  else if n = 22 then some (construct (2 ^ 21) VSIZE b n num_threads num_regs checkError)
  else if n = 23 then some (construct (2 ^ 22) VSIZE b n num_threads num_regs checkError)
  else p

/-- The function `create_transformCPUf64s<VSIZE>(b, n, num_threads, num_regs,
checkError)` (lines 857-883): the created engine, or the message of the
`std::runtime_error` thrown. -/
def create_transformCPUf64s (m : BuildMacros) (VSIZE b n num_threads num_regs : Nat)
    (checkError : Bool) : Except String Engine :=
  let p0 : Option Engine := none
  let p1 := if m.DTRANSFORM || m.IBDTRANSFORM then p0
    else createSmall VSIZE b n num_threads num_regs checkError
  let p2 := if m.SBDTRANSFORM then createLarge VSIZE b n num_threads num_regs checkError p1
    else p1
  match p2 with
  | none => Except.error "exponent is not supported"
  | some e => Except.ok e

/-- The build that compiles both if-chains: `SBDTRANSFORM` defined,
`DTRANSFORM` and `IBDTRANSFORM` not defined. -/
def fullBuild : BuildMacros :=
  { DTRANSFORM := false, IBDTRANSFORM := false, SBDTRANSFORM := true }

/-- The start of `squareDup` (lines 767-788): with more than one thread every
thread runs `pass1(thread_id)`, otherwise `pass1(0)` runs; the result is the
list of pass-1 ranges, `none` when a range computation divides by zero. -/
def squareDupPass1 (e : Engine) : Option (List (Nat × Nat)) :=
  if 1 < e.num_threads then
    (List.range e.num_threads).mapM' (fun t => pass1Range e.num_threads (e.N / n_io e.N) t)
  else
    (pass1Range e.num_threads (e.N / n_io e.N) 0).map (fun r => [r])

end transformCPUf64s

namespace genefer

/-- The selection of the engine in `genefer::check` (main.cpp, lines
1194-1199): the pair `(N, VSIZE)` of the `CZIT_CPU_vec_mt` created for the
size `n`, or the message of the `std::runtime_error` thrown. -/
def check_select (n : Nat) : Except String (Nat × Nat) :=
  if n = 1024 then Except.ok (1024, 8)
  else if n = 2048 then Except.ok (2048, 8)
  else if n = 4096 then Except.ok (4096, 2)
  else if n = 8192 then Except.ok (8192, 4)
  else Except.error "exponent is not supported"

end genefer

/-! ## Vd and Vcx: arithmetic (main.cpp, lines 134-334) -/

section VectorArithmetic

variable {α : Type} {N : Nat}

/-- The constructor `Vd(const double & f)`: `r[0] = f`, the other lanes are 0. -/
def Vd.ofScalar [Zero α] (f : α) : Vd α N := ⟨fun i => if i.val = 0 then f else 0⟩

/-- The operator `Vd::operator+`, lane by lane. -/
instance Vd.instAdd [Add α] : Add (Vd α N) := ⟨fun a b => ⟨fun i => a.r i + b.r i⟩⟩

/-- The operator `Vd::operator-` (binary), lane by lane. -/
instance Vd.instSub [Sub α] : Sub (Vd α N) := ⟨fun a b => ⟨fun i => a.r i - b.r i⟩⟩

/-- The operator `Vd::operator*(const Vd &)`, lane by lane. -/
instance Vd.instMul [Mul α] : Mul (Vd α N) := ⟨fun a b => ⟨fun i => a.r i * b.r i⟩⟩

/-- The operator `Vd::operator*(const double &)`: every lane times `f`. -/
def Vd.scale [Mul α] (a : Vd α N) (f : α) : Vd α N := ⟨fun i => a.r i * f⟩

/-- The function `std::max(a, b)`: `(a < b) ? b : a`. -/
def stdMax [LT α] [DecidableRel (fun a b : α => a < b)] (a b : α) : α := if a < b then b else a

/-- The function `std::round`: nearest integer, halfway cases away from zero. -/
def stdRound [LinearOrderedField α] [FloorRing α] (x : α) : α :=
  if 0 ≤ x then ((⌊x + 1 / 2⌋ : Int) : α) else ((⌈x - 1 / 2⌉ : Int) : α)

/-- The method `Vd::abs`: `std::fabs` of every lane. -/
def Vd.abs [LinearOrderedField α] (a : Vd α N) : Vd α N := ⟨fun i => |a.r i|⟩

/-- The method `Vd::round`: `std::round` of every lane. -/
def Vd.round [LinearOrderedField α] [FloorRing α] (a : Vd α N) : Vd α N :=
  ⟨fun i => stdRound (a.r i)⟩

/-- The method `Vd::max(const Vd & rhs)`: `r[i] = std::max(r[i], rhs.r[i])`. -/
def Vd.max [LinearOrderedField α] (a rhs : Vd α N) : Vd α N :=
  ⟨fun i => stdMax (a.r i) (rhs.r i)⟩

/-- The method `double Vd::max() const`: `m = r[0]`, then `m = std::max(m, r[i])`
for `i = 1 .. N - 1`. -/
def Vd.hmax [LinearOrderedField α] (a : Vd α N) (hN : 0 < N) : α :=
  (List.finRange N).tail.foldl (fun m i => stdMax m (a.r i)) (a.r ⟨0, hN⟩)

/-- The constructor `Vcx(const double & real)`: `re(real), im(0.0)`. -/
def Vcx.ofReal [Zero α] (real : α) : Vcx α N := ⟨Vd.ofScalar real, Vd.ofScalar 0⟩

/-- The operator `Vcx::operator+`. -/
instance Vcx.instAdd [Add α] : Add (Vcx α N) := ⟨fun a b => ⟨a.re + b.re, a.im + b.im⟩⟩

/-- The operator `Vcx::operator-`. -/
instance Vcx.instSub [Sub α] : Sub (Vcx α N) := ⟨fun a b => ⟨a.re - b.re, a.im - b.im⟩⟩

/-- The operator `Vcx::operator*(const Vcx &)`: the complex product
`Vcx(re * rhs.re - im * rhs.im, im * rhs.re + re * rhs.im)`. -/
instance Vcx.instMul [Mul α] [Add α] [Sub α] : Mul (Vcx α N) :=
  ⟨fun a b => ⟨a.re * b.re - a.im * b.im, a.im * b.re + a.re * b.im⟩⟩

/-- The operator `Vcx::operator*(const double &)`. -/
def Vcx.scale [Mul α] (a : Vcx α N) (f : α) : Vcx α N := ⟨a.re.scale f, a.im.scale f⟩

/-- The method `Vcx::addi`: `Vcx(re - rhs.im, im + rhs.re)`. -/
def Vcx.addi [Add α] [Sub α] (a rhs : Vcx α N) : Vcx α N := ⟨a.re - rhs.im, a.im + rhs.re⟩

/-- The method `Vcx::subi`: `Vcx(re + rhs.im, im - rhs.re)`. -/
def Vcx.subi [Add α] [Sub α] (a rhs : Vcx α N) : Vcx α N := ⟨a.re + rhs.im, a.im - rhs.re⟩

/-- The method `Vcx::sub_i`: `Vcx(rhs.im - im, re - rhs.re)`. -/
def Vcx.sub_i [Sub α] (a rhs : Vcx α N) : Vcx α N := ⟨rhs.im - a.im, a.re - rhs.re⟩

/-- The method `Vcx::mul1i`: `Vcx(re - im, im + re)`. -/
def Vcx.mul1i [Add α] [Sub α] (a : Vcx α N) : Vcx α N := ⟨a.re - a.im, a.im + a.re⟩

/-- The method `Vcx::mul1mi`: `Vcx(re + im, im - re)`. -/
def Vcx.mul1mi [Add α] [Sub α] (a : Vcx α N) : Vcx α N := ⟨a.re + a.im, a.im - a.re⟩

/-- The method `Vcx::sqr`: `Vcx(re * re - im * im, (re + re) * im)`. -/
def Vcx.sqr [Mul α] [Add α] [Sub α] (a : Vcx α N) : Vcx α N :=
  ⟨a.re * a.re - a.im * a.im, (a.re + a.re) * a.im⟩

/-- The method `Vcx::mulW`:
`Vcx((re - im * rhs.im) * rhs.re, (im + re * rhs.im) * rhs.re)`. -/
def Vcx.mulW [Mul α] [Add α] [Sub α] (a rhs : Vcx α N) : Vcx α N :=
  ⟨(a.re - a.im * rhs.im) * rhs.re, (a.im + a.re * rhs.im) * rhs.re⟩

/-- The method `Vcx::mulWconj`:
`Vcx((re + im * rhs.im) * rhs.re, (im - re * rhs.im) * rhs.re)`. -/
def Vcx.mulWconj [Mul α] [Add α] [Sub α] (a rhs : Vcx α N) : Vcx α N :=
  ⟨(a.re + a.im * rhs.im) * rhs.re, (a.im - a.re * rhs.im) * rhs.re⟩

/-- The method `Vcx::abs`. -/
def Vcx.abs [LinearOrderedField α] (a : Vcx α N) : Vcx α N := ⟨a.re.abs, a.im.abs⟩

/-- The method `Vcx::round`. -/
def Vcx.round [LinearOrderedField α] [FloorRing α] (a : Vcx α N) : Vcx α N :=
  ⟨a.re.round, a.im.round⟩

/-- The method `Vcx::max(const Vcx & rhs)`. -/
def Vcx.max [LinearOrderedField α] (a rhs : Vcx α N) : Vcx α N :=
  ⟨a.re.max rhs.re, a.im.max rhs.im⟩

/-- The method `double Vcx::max() const`: `std::max(re.max(), im.max())`. -/
def Vcx.hmax [LinearOrderedField α] (a : Vcx α N) (hN : 0 < N) : α :=
  stdMax (a.re.hmax hN) (a.im.hmax hN)

/-- The vector `Vc::broadcast(&w)` of a stored twiddle `w = (real, imag)`: every
lane holds the same pair. -/
def Vcx.broadcast (w : α × α) : Vcx α N := ⟨⟨fun _ => w.1⟩, ⟨fun _ => w.2⟩⟩

/-- The complex number held by lane `i` of a vector of real lanes. -/
def Vcx.lane (a : Vcx ℝ N) (i : Fin N) : ℂ := ⟨a.re.r i, a.im.r i⟩

end VectorArithmetic

/-! ## Error of a squaring (main.cpp, lines 972-1011 and 1140-1142) -/

/-- The error accumulation of `pass2` for one thread: `err = Vc(0.0)`, then for
every vector `o` met by the carry loop, in loop order, `oi = o.round()`,
`d = Vc(o - oi).abs()`, `err.max(d)`; the value returned is `err.max()`. -/
def pass2Err {α : Type} [LinearOrderedField α] [FloorRing α] {W : Nat} (hW : 0 < W)
    (os : List (Vcx α W)) : α :=
  (os.foldl (fun err o => err.max ((o - o.round).abs)) (Vcx.ofReal 0)).hmax hW

/-- The end of `squareDup` (lines 1140-1142): `err = 0`, then
`err = std::max(err, e[i])` over the values returned by the threads. -/
def squareDupErr {α : Type} [LinearOrderedField α] (e : List α) : α :=
  e.foldl stdMax 0

/-- Lanes between 0 and one half (the invariant of the error accumulator). -/
def Vd.InHalf {α : Type} [LinearOrderedField α] {N : Nat} (a : Vd α N) : Prop :=
  ∀ i, 0 ≤ a.r i ∧ a.r i ≤ 1 / 2

/-- A two-lane vector of rational values `o` used as a concrete input of the
error accumulation: lanes `(1/4, -3/8)` and `(7/2, 2)`. -/
def errInputO : Vcx ℚ 2 := ⟨⟨![1 / 4, 7 / 2]⟩, ⟨![-3 / 8, 2]⟩⟩

/-- Lane-wise negation of a `Vd` (the unary `operator-` that main.cpp keeps as a
comment at line 180); used to state properties. -/
instance Vd.instNeg {α : Type} {N : Nat} [Neg α] : Neg (Vd α N) := ⟨fun a => ⟨fun i => -a.r i⟩⟩

/-- The complex number `c + i * c * t` denoted by lane `i` of a stored twiddle
`(c, t)`. -/
def Vcx.twiddle {N : Nat} (w : Vcx ℝ N) (i : Fin N) : ℂ := ⟨w.re.r i, w.re.r i * w.im.r i⟩

/-! ## Vradix4 and Vradix8 (main.cpp, lines 354-482) -/

/-- The class `Vradix4<N>`: the array `Vc z[4]`. -/
structure Vradix4 (α : Type) (N : Nat) where
  z0 : Vcx α N
  z1 : Vcx α N
  z2 : Vcx α N
  z3 : Vcx α N

namespace Vradix4

variable {α : Type} [CommRing α] {N : Nat}

/-- The method `forward4e(w0, w1)` (lines 393-398). -/
def forward4e (v : Vradix4 α N) (w0 w1 : Vcx α N) : Vradix4 α N :=
  let u0 := v.z0
  let u2 := v.z2.mulW w0
  let u1 := v.z1
  let u3 := v.z3.mulW w0
  let v0 := u0 + u2
  let v2 := u0 - u2
  let v1 := (u1 + u3).mulW w1
  let v3 := (u1 - u3).mulW w1
  ⟨v0 + v1, v0 - v1, v2.addi v3, v2.subi v3⟩

/-- The method `forward4o(w0, w2)` (lines 400-405). -/
def forward4o (v : Vradix4 α N) (w0 w2 : Vcx α N) : Vradix4 α N :=
  let u0 := v.z0
  let u2 := v.z2.mulW w0
  let u1 := v.z1
  let u3 := v.z3.mulW w0
  let v0 := u0.addi u2
  let v2 := u0.subi u2
  let v1 := (u1.addi u3).mulW w2
  let v3 := (u1.subi u3).mulW w2
  ⟨v0 + v1, v0 - v1, v2.addi v3, v2.subi v3⟩

/-- The method `backward4e(w0, w1)` (lines 407-412). -/
def backward4e (v : Vradix4 α N) (w0 w1 : Vcx α N) : Vradix4 α N :=
  let v0 := v.z0
  let v1 := v.z1
  let v2 := v.z2
  let v3 := v.z3
  let u0 := v0 + v1
  let u1 := (v0 - v1).mulWconj w1
  let u2 := v2 + v3
  let u3 := (v2 - v3).mulWconj w1
  ⟨u0 + u2, u1.subi u3, (u0 - u2).mulWconj w0, (u1.addi u3).mulWconj w0⟩

/-- The method `backward4o(w0, w2)` (lines 414-419). -/
def backward4o (v : Vradix4 α N) (w0 w2 : Vcx α N) : Vradix4 α N :=
  let v0 := v.z0
  let v1 := v.z1
  let v2 := v.z2
  let v3 := v.z3
  let u0 := v0 + v1
  let u1 := (v0 - v1).mulWconj w2
  let u2 := v2 + v3
  let u3 := (v2 - v3).mulWconj w2
  ⟨u0 + u2, u1.subi u3, (u2.sub_i u0).mulWconj w0, (u3.subi u1).mulWconj w0⟩

/-- The method `forward4_0(w0)` (lines 421-426); `csqrt2_2` is the constant of
line 349, whose ideal value is the square root of one half. -/
def forward4_0 (csqrt2_2 : α) (v : Vradix4 α N) (w0 : Vcx α N) : Vradix4 α N :=
  let u0 := v.z0
  let u2 := v.z2.mul1i
  let u1 := v.z1.mulW w0
  let u3 := v.z3.mulWconj w0
  let v0 := u0 + u2.scale csqrt2_2
  let v2 := u0 - u2.scale csqrt2_2
  let v1 := u1.addi u3
  let v3 := u3.addi u1
  ⟨v0 + v1, v0 - v1, v2 + v3, v2 - v3⟩

/-- The method `backward4_0(w0)` (lines 428-433). -/
def backward4_0 (csqrt2_2 : α) (v : Vradix4 α N) (w0 : Vcx α N) : Vradix4 α N :=
  let v0 := v.z0
  let v1 := v.z1
  let v2 := v.z2
  let v3 := v.z3
  let u0 := v0 + v1
  let u1 := v0 - v1
  let u2 := v2 + v3
  let u3 := v2 - v3
  ⟨u0 + u2, (u1.subi u3).mulWconj w0, ((u0 - u2).mul1mi).scale csqrt2_2, (u3.subi u1).mulW w0⟩

/-- The method `square4e(w)` (lines 435-441). -/
def square4e (v : Vradix4 α N) (w : Vcx α N) : Vradix4 α N :=
  let u0 := v.z0
  let u2 := v.z2.mulW w
  let u1 := v.z1
  let u3 := v.z3.mulW w
  let v0 := u0 + u2
  let v2 := u0 - u2
  let v1 := u1 + u3
  let v3 := u1 - u3
  let s0 := v0.sqr + v1.sqr.mulW w
  let s1 := (v0 + v0) * v1
  let s2 := v2.sqr - v3.sqr.mulW w
  let s3 := (v2 + v2) * v3
  ⟨s0 + s2, s1 + s3, (s0 - s2).mulWconj w, (s1 - s3).mulWconj w⟩

/-- The method `square4o(w)` (lines 443-449). -/
def square4o (v : Vradix4 α N) (w : Vcx α N) : Vradix4 α N :=
  let u0 := v.z0
  let u2 := v.z2.mulW w
  let u1 := v.z1
  let u3 := v.z3.mulW w
  let v0 := u0.addi u2
  let v2 := u0.subi u2
  let v1 := u1.addi u3
  let v3 := u3.addi u1
  let s0 := (v1.sqr.mulW w).subi v0.sqr
  let s1 := (v0 + v0) * v1
  let s2 := v2.sqr.addi (v3.sqr.mulW w)
  let s3 := (v2 + v2) * v3
  ⟨s2.addi s0, s1.subi s3, (s0.addi s2).mulWconj w, (s3.subi s1).mulWconj w⟩

end Vradix4

/-- The class `Vcx8s<N>` of transformCPUf64s.h: the array `Vc z[8]`. -/
structure Vcx8s (α : Type) (N : Nat) where
  z : Fin 8 → Vcx α N

/-- The method `Vcx8s::square4e(w)` (transformCPUf64s.h, lines 64-70): it
rewrites `z[0..3]` and leaves `z[4..7]`. -/
def Vcx8s.square4e {α : Type} [CommRing α] {N : Nat} (v : Vcx8s α N) (w : Vcx α N) :
    Vcx8s α N :=
  let u0 := v.z 0
  let u2 := (v.z 2).mulW w
  let u1 := v.z 1
  let u3 := (v.z 3).mulW w
  let v0 := u0 + u2
  let v2 := u0 - u2
  let v1 := u1 + u3
  let v3 := u1 - u3
  let s0 := v0.sqr + v1.sqr.mulW w
  let s1 := (v0 + v0) * v1
  let s2 := v2.sqr - v3.sqr.mulW w
  let s3 := (v2 + v2) * v3
  ⟨fun k =>
    if k = 0 then s0 + s2
    else if k = 2 then (s0 - s2).mulWconj w
    else if k = 1 then s1 + s3
    else if k = 3 then (s1 - s3).mulWconj w
    else v.z k⟩

/-- The class `Vradix8<N>`: the array `Vc z[8]`. -/
structure Vradix8 (α : Type) (N : Nat) where
  z0 : Vcx α N
  z1 : Vcx α N
  z2 : Vcx α N
  z3 : Vcx α N
  z4 : Vcx α N
  z5 : Vcx α N
  z6 : Vcx α N
  z7 : Vcx α N

/-- The constants of main.cpp, lines 349-352: `csqrt2_2` and the stored twiddles
`cs2pi_1_16`, `cs2pi_1_32`, `cs2pi_5_32` as pairs `(real, imag)`.  Their ideal
values are irrational, so exact arithmetic takes them as parameters. -/
structure Consts (α : Type) where
  csqrt2_2 : α
  cs2pi_1_16 : α × α
  cs2pi_1_32 : α × α
  cs2pi_5_32 : α × α

/-- The decimal values that main.cpp gives to the constants (lines 349-352). -/
def sourceConsts : Consts ℚ :=
  { csqrt2_2 := 0.707106781186547524400844362104849039284835937688
    cs2pi_1_16 := (0.92387953251128675612818318939678828682,
      0.41421356237309504880168872420969807857)
    cs2pi_1_32 := (0.98078528040323044912618223613423903697,
      0.19891236737965800691159762264467622860)
    cs2pi_5_32 := (0.55557023301960222474283081394853287438,
      1.49660576266548901760113513494247691870) }

namespace Vradix8

variable {α : Type} [CommRing α] {N : Nat}

/-- The method `forward8_0()` (lines 467-479). -/
def forward8_0 (c : Consts α) (v : Vradix8 α N) : Vradix8 α N :=
  let w0 : Vcx α N := Vcx.broadcast c.cs2pi_1_16
  let u0 := v.z0
  let u4 := v.z4.mul1i
  let u2 := v.z2.mulW w0
  let u6 := v.z6.mul1i.mulW w0
  let u1 := v.z1
  let u5 := v.z5.mul1i
  let u3 := v.z3.mulW w0
  let u7 := v.z7.mul1i.mulW w0
  let v0 := u0 + u4.scale c.csqrt2_2
  let v4 := u0 - u4.scale c.csqrt2_2
  let v2 := u2 + u6.scale c.csqrt2_2
  let v6 := u2 - u6.scale c.csqrt2_2
  let w1 : Vcx α N := Vcx.broadcast c.cs2pi_1_32
  let w2 : Vcx α N := Vcx.broadcast c.cs2pi_5_32
  let v1 := (u1 + u5.scale c.csqrt2_2).mulW w1
  let v5 := (u1 - u5.scale c.csqrt2_2).mulW w2
  let v3 := (u3 + u7.scale c.csqrt2_2).mulW w1
  let v7 := (u3 - u7.scale c.csqrt2_2).mulW w2
  let s0 := v0 + v2
  let s2 := v0 - v2
  let s1 := v1 + v3
  let s3 := v1 - v3
  let s4 := v4.addi v6
  let s6 := v4.subi v6
  let s5 := v5.addi v7
  let s7 := v5.subi v7
  ⟨s0 + s1, s0 - s1, s2.addi s3, s2.subi s3, s4 + s5, s4 - s5, s6.addi s7, s6.subi s7⟩

/-- The method `backward8_0()` (lines 481-492). -/
def backward8_0 (c : Consts α) (v : Vradix8 α N) : Vradix8 α N :=
  let s0 := v.z0
  let s1 := v.z1
  let s2 := v.z2
  let s3 := v.z3
  let s4 := v.z4
  let s5 := v.z5
  let s6 := v.z6
  let s7 := v.z7
  let w1 : Vcx α N := Vcx.broadcast c.cs2pi_1_32
  let w2 : Vcx α N := Vcx.broadcast c.cs2pi_5_32
  let v0 := s0 + s1
  let v1 := (s0 - s1).mulWconj w1
  let v2 := s2 + s3
  let v3 := (s2 - s3).mulWconj w1
  let v4 := s4 + s5
  let v5 := (s4 - s5).mulWconj w2
  let v6 := s6 + s7
  let v7 := (s6 - s7).mulWconj w2
  let u0 := v0 + v2
  let u2 := v0 - v2
  let u4 := v4 + v6
  let u6 := v4 - v6
  let u1 := v1.subi v3
  let u3 := v1.addi v3
  let u5 := v5.subi v7
  let u7 := v5.addi v7
  let w0 : Vcx α N := Vcx.broadcast c.cs2pi_1_16
  ⟨u0 + u4, u1 + u5, (u2.subi u6).mulWconj w0, (u3.subi u7).mulWconj w0,
    ((u0 - u4).mul1mi).scale c.csqrt2_2, ((u1 - u5).mul1mi).scale c.csqrt2_2,
    (u6.subi u2).mulW w0, (u7.subi u3).mulW w0⟩

end Vradix8

/-! ## Memory access of the radix classes (main.cpp, lines 138-148, 221-246, 362-370) -/

section MemoryAccess

variable {α : Type} {V : Nat}

/-- The function `Vcx::read(mem)` in the `COMPACT` layout, for the pointer
`mem = &z[p]` into an array of `Complex`: with `dmem = (double *)mem` the real
lanes are `dmem[0 .. N)` and the imaginary lanes `dmem[N .. 2N)`.  The array is
seen as the map from double offsets to values. -/
def Vcx.read (z : Nat → α) (p : Nat) : Vcx α V :=
  ⟨⟨fun l => z (2 * p + l.val)⟩, ⟨fun l => z (2 * p + V + l.val)⟩⟩

/-- The method `Vcx::write(mem)` in the `COMPACT` layout, for `mem = &z[p]`. -/
def Vcx.write (v : Vcx α V) (z : Nat → α) (p : Nat) : Nat → α :=
  fun d =>
    if h : 2 * p ≤ d ∧ d < 2 * p + V then v.re.r ⟨d - 2 * p, by omega⟩
    else if h2 : 2 * p + V ≤ d ∧ d < 2 * p + 2 * V then v.im.r ⟨d - (2 * p + V), by omega⟩
    else z d

/-- The constructor `Vradix4(mem, step)` for `mem = &z[p]`:
`z[i] = Vc::read(&mem[i * step])`. -/
def Vradix4.load (z : Nat → α) (p step : Nat) : Vradix4 α V :=
  ⟨Vcx.read z (p + 0 * step), Vcx.read z (p + 1 * step), Vcx.read z (p + 2 * step),
    Vcx.read z (p + 3 * step)⟩

/-- The method `Vradix4::store(mem, step)` for `mem = &z[p]`:
`z[i].write(&mem[i * step])` for `i = 0, 1, 2, 3`. -/
def Vradix4.store (v : Vradix4 α V) (z : Nat → α) (p step : Nat) : Nat → α :=
  v.z3.write (v.z2.write (v.z1.write (v.z0.write z (p + 0 * step)) (p + 1 * step))
    (p + 2 * step)) (p + 3 * step)

/-- The constructor `Vradix8(mem, step)` for `mem = &z[p]`. -/
def Vradix8.load (z : Nat → α) (p step : Nat) : Vradix8 α V :=
  ⟨Vcx.read z (p + 0 * step), Vcx.read z (p + 1 * step), Vcx.read z (p + 2 * step),
    Vcx.read z (p + 3 * step), Vcx.read z (p + 4 * step), Vcx.read z (p + 5 * step),
    Vcx.read z (p + 6 * step), Vcx.read z (p + 7 * step)⟩

/-- The method `Vradix8::store(mem, step)` for `mem = &z[p]`. -/
def Vradix8.store (v : Vradix8 α V) (z : Nat → α) (p step : Nat) : Nat → α :=
  v.z7.write (v.z6.write (v.z5.write (v.z4.write (v.z3.write (v.z2.write (v.z1.write
    (v.z0.write z (p + 0 * step)) (p + 1 * step)) (p + 2 * step)) (p + 3 * step))
    (p + 4 * step)) (p + 5 * step)) (p + 6 * step)) (p + 7 * step)

/-- A counted loop `for (j = 0; j < hi; j += step) body(j)` with `step > 0`: the
body runs for `j = 0, step, 2 * step, ...` below `hi`. -/
def forStep {σ : Type} (hi step : Nat) (body : Nat → σ → σ) (s : σ) : σ :=
  (List.range ((hi + step - 1) / step)).foldl (fun s k => body (k * step) s) s

end MemoryAccess

/-! ## CZIT_CPU_vec_mt: outer transform (main.cpp, lines 602-819) -/

namespace CZIT_CPU_vec_mt

section OuterTransform

variable {α : Type} [CommRing α]

/-- The loop nest shared by the static functions `forward4e`, `forward4o`,
`backward4e`, `backward4o` (lines 602-656) called as `f<stepi, count>(mi, &z[p], ...)`:
`for (j = 0; j < mi; j += (stepi == 1) ? VSIZE : stepi)`
`for (i = 0; i < count; i += (count != 1) ? VSIZE : 1)`
`{ zi = &z[j + i]; Vr4 vr(zi, mi); vr.op(...); vr.store(zi, mi); }`. -/
def loop4 (V stepi count : Nat) (op : Vradix4 α V → Vradix4 α V) (mi : Nat)
    (z : Nat → α) (p : Nat) : Nat → α :=
  forStep mi (if stepi = 1 then V else stepi) (fun j z =>
    forStep count (if count ≠ 1 then V else 1) (fun i z =>
      (op (Vradix4.load z (p + (j + i)) mi)).store z (p + (j + i)) mi) z) z

/-- The function `forward4e<stepi, count>(mi, &z[p], w0, w1)` (lines 602-614). -/
def forward4e (V stepi count mi : Nat) (z : Nat → α) (p : Nat) (w0 w1 : Vcx α V) : Nat → α :=
  loop4 V stepi count (fun vr => vr.forward4e w0 w1) mi z p

/-- The function `forward4o<stepi, count>(mi, &z[p], w0, w2)` (lines 616-628). -/
def forward4o (V stepi count mi : Nat) (z : Nat → α) (p : Nat) (w0 w2 : Vcx α V) : Nat → α :=
  loop4 V stepi count (fun vr => vr.forward4o w0 w2) mi z p

/-- The function `backward4e<stepi, count>(mi, &z[p], w0, w1)` (lines 630-642). -/
def backward4e (V stepi count mi : Nat) (z : Nat → α) (p : Nat) (w0 w1 : Vcx α V) : Nat → α :=
  loop4 V stepi count (fun vr => vr.backward4e w0 w1) mi z p

/-- The function `backward4o<stepi, count>(mi, &z[p], w0, w2)` (lines 644-656). -/
def backward4o (V stepi count mi : Nat) (z : Nat → α) (p : Nat) (w0 w2 : Vcx α V) : Nat → α :=
  loop4 V stepi count (fun vr => vr.backward4o w0 w2) mi z p

/-- The loop nest of `forward4_0` and `backward4_0` (lines 704-732):
`for (j = 0; j < mi; j += stepi) for (i = 0; i < count; i += VSIZE)`. -/
def loop4_0 (V stepi count : Nat) (op : Vradix4 α V → Vradix4 α V) (mi : Nat)
    (z : Nat → α) (p : Nat) : Nat → α :=
  forStep mi stepi (fun j z =>
    forStep count V (fun i z =>
      (op (Vradix4.load z (p + (j + i)) mi)).store z (p + (j + i)) mi) z) z

/-- The function `forward4_0<stepi, count>(mi, &z[p])` (lines 704-717). -/
def forward4_0 (V stepi count : Nat) (c : Consts α) (mi : Nat) (z : Nat → α) (p : Nat) :
    Nat → α :=
  loop4_0 V stepi count
    (fun vr => Vradix4.forward4_0 c.csqrt2_2 vr (Vcx.broadcast c.cs2pi_1_16)) mi z p

/-- The function `backward4_0<stepi, count>(mi, &z[p])` (lines 719-732). -/
def backward4_0 (V stepi count : Nat) (c : Consts α) (mi : Nat) (z : Nat → α) (p : Nat) :
    Nat → α :=
  loop4_0 V stepi count
    (fun vr => Vradix4.backward4_0 c.csqrt2_2 vr (Vcx.broadcast c.cs2pi_1_16)) mi z p

/-- The loop nest of `forward8_0` and `backward8_0` (lines 734-760), on `Vradix8`. -/
def loop8_0 (V stepi count : Nat) (op : Vradix8 α V → Vradix8 α V) (mi : Nat)
    (z : Nat → α) (p : Nat) : Nat → α :=
  forStep mi stepi (fun j z =>
    forStep count V (fun i z =>
      (op (Vradix8.load z (p + (j + i)) mi)).store z (p + (j + i)) mi) z) z

/-- The function `forward8_0<stepi, count>(mi, &z[p])` (lines 734-746). -/
def forward8_0 (V stepi count : Nat) (c : Consts α) (mi : Nat) (z : Nat → α) (p : Nat) :
    Nat → α :=
  loop8_0 V stepi count (fun vr => vr.forward8_0 c) mi z p

/-- The function `backward8_0<stepi, count>(mi, &z[p])` (lines 748-760). -/
def backward8_0 (V stepi count : Nat) (c : Consts α) (mi : Nat) (z : Nat → α) (p : Nat) :
    Nat → α :=
  loop8_0 V stepi count (fun vr => vr.backward8_0 c) mi z p

/-- The loop `for (; s >= 4 * 2; s /= 4);` at the head of `forward_out`
(line 782); `fuel` bounds the number of divisions. -/
def reduceS : Nat → Nat → Nat
  | 0, s => s
  | fuel + 1, s => if 4 * 2 ≤ s then reduceS fuel (s / 4) else s

/-- The body of the stage loop of `forward_out` (lines 789-797) for one
`(mi, s)`: the loop over `j < s`. -/
def forwardStage (V : Nat) (w122i : Nat → α × α) (lh mi s : Nat) (z : Nat → α) : Nat → α :=
  (List.range s).foldl (fun z j =>
    let k := 2 * 4 * lh + 8 * mi * j
    let w0 : Vcx α V := Vcx.broadcast (w122i (s + 3 * j + 0))
    let w1 : Vcx α V := Vcx.broadcast (w122i (s + 3 * j + 1))
    let z1 := forward4e V (index n_io) (2 * 4) mi z (k + 0 * 4 * mi) w0 w1
    let w2 : Vcx α V := Vcx.broadcast (w122i (s + 3 * j + 2))
    forward4o V (index n_io) (2 * 4) mi z1 (k + 1 * 4 * mi) w0 w2) z

/-- The stage loop of `forward_out` (line 787):
`for (mi = ...; mi >= index(n_io); mi /= 4, s *= 4)`; `fuel` bounds the number of
stages. -/
def forwardStages (V : Nat) (w122i : Nat → α × α) (lh : Nat) :
    Nat → Nat → Nat → (Nat → α) → (Nat → α)
  | 0, _, _, z => z
  | fuel + 1, mi, s, z =>
    if index n_io ≤ mi then
      forwardStages V w122i lh fuel (mi / 4) (s * 4) (forwardStage V w122i lh mi s z)
    else z

/-- The function `forward_out(z, lh, w122i)` (lines 780-799) of
`CZIT_CPU_vec_mt<N, VSIZE>`. -/
def forward_out (N V : Nat) (c : Consts α) (z : Nat → α) (lh : Nat) (w122i : Nat → α × α) :
    Nat → α :=
  let s := reduceS N ((N / 4) / n_io / 2)
  let z1 :=
    if s = 4 then forward8_0 V (index n_io) (2 * 4) c (index (N / 8)) z (2 * 4 * lh)
    else forward4_0 V (index n_io) (2 * 4) c (index (N / 4)) z (2 * 4 * lh)
  forwardStages V w122i lh N (index (if s = 4 then N / 32 else N / 16)) s z1

/-- The body of the stage loop of `backward_out` (lines 806-814) for one
`(mi, s)`. -/
def backwardStage (V : Nat) (w122i : Nat → α × α) (lh mi s : Nat) (z : Nat → α) : Nat → α :=
  (List.range s).foldl (fun z j =>
    let k := 2 * 4 * lh + 8 * mi * j
    let w0 : Vcx α V := Vcx.broadcast (w122i (s + 3 * j + 0))
    let w1 : Vcx α V := Vcx.broadcast (w122i (s + 3 * j + 1))
    let z1 := backward4e V (index n_io) (2 * 4) mi z (k + 0 * 4 * mi) w0 w1
    let w2 : Vcx α V := Vcx.broadcast (w122i (s + 3 * j + 2))
    backward4o V (index n_io) (2 * 4) mi z1 (k + 1 * 4 * mi) w0 w2) z

/-- The stage loop of `backward_out` (line 804):
`for (mi = index(n_io); s >= 2; mi *= 4, s /= 4)`; it returns the array and the
final `s`. -/
def backwardStages (V : Nat) (w122i : Nat → α × α) (lh : Nat) :
    Nat → Nat → Nat → (Nat → α) → (Nat → α) × Nat
  | 0, _, s, z => (z, s)
  | fuel + 1, mi, s, z =>
    if 2 ≤ s then
      backwardStages V w122i lh fuel (mi * 4) (s / 4) (backwardStage V w122i lh mi s z)
    else (z, s)

/-- The function `backward_out(z, lh, w122i)` (lines 801-819) of
`CZIT_CPU_vec_mt<N, VSIZE>`. -/
def backward_out (N V : Nat) (c : Consts α) (z : Nat → α) (lh : Nat) (w122i : Nat → α × α) :
    Nat → α :=
  let r := backwardStages V w122i lh N (index n_io) ((N / 4) / n_io / 2) z
  if r.2 = 1 then backward8_0 V (index n_io) (2 * 4) c (index (N / 8)) r.1 (2 * 4 * lh)
  else backward4_0 V (index n_io) (2 * 4) c (index (N / 4)) r.1 (2 * 4 * lh)

end OuterTransform

end CZIT_CPU_vec_mt

/-! ## Vocabulary for the properties of the butterflies -/

/-- Every lane of a stored twiddle `(c, t)` satisfies `c^2 * (1 + t^2) = 1`: the
complex number `c + i*c*t` has modulus one. -/
def Vcx.UnitTwiddle {α : Type} [CommRing α] {N : Nat} (w : Vcx α N) : Prop :=
  ∀ i, w.re.r i ^ 2 * (1 + w.im.r i ^ 2) = 1

/-- The multiplication of the four vectors of a `Vradix4` by a scalar. -/
def Vradix4.scale {α : Type} [Mul α] {N : Nat} (v : Vradix4 α N) (c : α) : Vradix4 α N :=
  ⟨v.z0.scale c, v.z1.scale c, v.z2.scale c, v.z3.scale c⟩

/-- The multiplication of the eight vectors of a `Vradix8` by a scalar. -/
def Vradix8.scale {α : Type} [Mul α] {N : Nat} (v : Vradix8 α N) (c : α) : Vradix8 α N :=
  ⟨v.z0.scale c, v.z1.scale c, v.z2.scale c, v.z3.scale c, v.z4.scale c, v.z5.scale c,
    v.z6.scale c, v.z7.scale c⟩

/-- Ideal constants: `csqrt2_2^2 = 1/2`, the three stored twiddles have modulus
one, and `cs2pi_1_16 = (c, t)` is the eighth root of `-1` whose square
`c^2 * (1 - t^2) + i * 2 * c^2 * t` is `csqrt2_2 * (1 + i)`. -/
structure Consts.Ideal {α : Type} [CommRing α] (c : Consts α) : Prop where
  sqrt : 2 * c.csqrt2_2 ^ 2 = 1
  unit16 : c.cs2pi_1_16.1 ^ 2 * (1 + c.cs2pi_1_16.2 ^ 2) = 1
  unit32 : c.cs2pi_1_32.1 ^ 2 * (1 + c.cs2pi_1_32.2 ^ 2) = 1
  unit532 : c.cs2pi_5_32.1 ^ 2 * (1 + c.cs2pi_5_32.2 ^ 2) = 1
  sq16re : c.cs2pi_1_16.1 ^ 2 * (1 - c.cs2pi_1_16.2 ^ 2) = c.csqrt2_2
  sq16im : 2 * c.cs2pi_1_16.1 ^ 2 * c.cs2pi_1_16.2 = c.csqrt2_2

/-! ## Footprints and locality of the in-place loops -/

/-- The double offsets of the vector written by `Vcx::write(&z[p])`. -/
def cell (V p d : Nat) : Prop := 2 * p ≤ d ∧ d < 2 * p + 2 * V

/-- The double offsets of the four vectors of a `Vradix4` at `&z[p]` with step `mi`. -/
def fp4 (V p mi d : Nat) : Prop :=
  cell V p d ∨ cell V (p + mi) d ∨ cell V (p + 2 * mi) d ∨ cell V (p + 3 * mi) d

/-- The double offsets of the eight vectors of a `Vradix8` at `&z[p]` with step `mi`. -/
def fp8 (V p mi d : Nat) : Prop :=
  cell V p d ∨ cell V (p + mi) d ∨ cell V (p + 2 * mi) d ∨ cell V (p + 3 * mi) d ∨
    cell V (p + 4 * mi) d ∨ cell V (p + 5 * mi) d ∨ cell V (p + 6 * mi) d ∨
    cell V (p + 7 * mi) d

/-- The double offsets of eight consecutive complex samples starting at `&z[p]` in
each of the rows `a, ..., a + n - 1`; a row is `index(n_io) = 68` samples long. -/
def rows (p a n d : Nat) : Prop :=
  ∃ r, a ≤ r ∧ r < a + n ∧ 2 * (p + 68 * r) ≤ d ∧ d < 2 * (p + 68 * r) + 16

/-- The double offsets of the slice `lh` of a transform of size `N`: the eight
columns `8 * lh, ..., 8 * lh + 7` of each of the `N / n_io` rows. -/
def slice (N lh d : Nat) : Prop := rows (2 * 4 * lh) 0 (N / CZIT_CPU_vec_mt.n_io) d

/-- The action `A` on arrays writes only offsets of `fp`, and what it writes
there is determined by the values on `fp` and commutes with the multiplication
by a scalar. -/
def IsLocal {α : Type} [Mul α] (fp : Nat → Prop) (A : (Nat → α) → Nat → α) : Prop :=
  (∀ z d, ¬ fp d → A z d = z d) ∧
  ∀ (c : α) (z z' : Nat → α), (∀ d, fp d → z' d = z d * c) → ∀ d, fp d → A z' d = A z d * c

/-- The actions `F` and `B` are local to `fp`, and `B` after `F` multiplies the
values on `fp` by `c`. -/
def StagePair {α : Type} [Mul α] (fp : Nat → Prop) (F B : (Nat → α) → Nat → α) (c : α) :
    Prop :=
  IsLocal fp F ∧ IsLocal fp B ∧ ∀ z d, fp d → B (F z) d = z d * c

/-- The body of the loops on `Vradix4`: `Vr4 vr(zi, mi); vr.op(...); vr.store(zi, mi)`
for `zi = &z[p]`. -/
def Vradix4.site {α : Type} {V : Nat} (op : Vradix4 α V → Vradix4 α V) (mi : Nat)
    (p : Nat) (z : Nat → α) : Nat → α :=
  (op (Vradix4.load z p mi)).store z p mi

/-- The body of the loops on `Vradix8`. -/
def Vradix8.site {α : Type} {V : Nat} (op : Vradix8 α V → Vradix8 α V) (mi : Nat)
    (p : Nat) (z : Nat → α) : Nat → α :=
  (op (Vradix8.load z p mi)).store z p mi

/-! ## getZi (main.cpp, lines 1145-1173; transformCPUf64s.h, lines 664-691) -/

/-- The function `std::llround`: nearest integer, halfway cases away from zero. -/
def llround {α : Type} [LinearOrderedField α] [FloorRing α] (x : α) : Int :=
  if 0 ≤ x then ⌊x + 1 / 2⌋ else ⌈x - 1 / 2⌉

/-- The function `std::lround`: nearest integer, halfway cases away from zero. -/
def lround {α : Type} [LinearOrderedField α] [FloorRing α] (x : α) : Int :=
  if 0 ≤ x then ⌊x + 1 / 2⌋ else ⌈x - 1 / 2⌉

/-- The operator `Vcx::operator[]` of main.cpp (line 302): `Complex(re[i], im[i])`;
`getZi` calls it with `i < N` only. -/
def Vcx.nth {α : Type} [Zero α] {N : Nat} (v : Vcx α N) (i : Nat) : α × α :=
  if h : i < N then (v.re.r ⟨i, h⟩, v.im.r ⟨i, h⟩) else (0, 0)

namespace CZIT_CPU_vec_mt

section GetZi

variable {α : Type}

/-- In-place code on an array, run on the array that starts at the double offset
`B` of the memory: it sees the memory from `B` on, and what it writes at offset
`d` of the array lands at `B + d`. -/
def atBase (B : Nat) (A : (Nat → α) → Nat → α) (heap : Nat → α) : Nat → α :=
  fun a => if B ≤ a then A (fun d => heap (B + d)) (a - B) else heap a

/-- The array of `Complex` that starts at the double offset `B` of the memory. -/
def complexAt (B : Nat) (heap : Nat → α) : Nat → α × α :=
  fun j => (heap (B + 2 * j), heap (B + 2 * j + 1))

/-- The loop `for (k = 0; k < index(N); ++k) z_copy[k] = z[k];` (line 1151), for
`z` at the double offset `zB` and `z_copy` at `copyB`. -/
def copyLoop (N zB copyB : Nat) (heap : Nat → α) : Nat → α :=
  (List.range (index N)).foldl (fun h k a =>
    if a = copyB + 2 * k then h (zB + 2 * k)
    else if a = copyB + 2 * k + 1 then h (zB + 2 * k + 1) else h a) heap

/-- The loop `for (lh = 0; lh < n_io / 4 / 2; ++lh) backward_out(z_copy, lh, w122i);`
(lines 1153-1156), the twiddles `_w122i` at the double offset `wB`. -/
def backwardLoop [CommRing α] (N V : Nat) (c : Consts α) (wB copyB : Nat) (heap : Nat → α) :
    Nat → α :=
  (List.range (n_io / 4 / 2)).foldl (fun h lh =>
    atBase copyB (fun zc => backward_out N V c zc lh (complexAt wB h)) h) heap

/-- The decoding loop of `getZi` (lines 1158-1170) on the array `z_copy`. -/
def decodeLoop [LinearOrderedField α] [FloorRing α] (N V : Nat) (sb : α) (z_copy : Nat → α)
    (zi : Nat → Int) : Nat → Int :=
  let n_io_N : α := (n_io : α) / (N : α)
  forStep (N / 2) (V / 2) (fun k zi =>
    let ki := index (2 * k)
    let vc : Vcx α V := Vcx.read z_copy ki
    (List.range (V / 2)).foldl (fun zi i =>
      let z1 := vc.nth (2 * i + 0)
      let z2 := vc.nth (2 * i + 1)
      Function.update (Function.update zi (k + i) (llround ((z1.1 + sb * z2.1) * n_io_N)))
        (k + i + N / 2) (llround ((z1.2 + sb * z2.2) * n_io_N))) zi) zi

/-- The method `getZi(zi)` (lines 1145-1173) of `CZIT_CPU_vec_mt<N, VSIZE>` on the
memory seen as a map from double offsets to doubles: `_z` starts at `zB`,
`_w122i` at `wB`, and `new Complex[index(N)]` returns the block of `2 * index(N)`
doubles at `copyB`.  It returns the memory before `delete[] z_copy` and the
array `zi`, whose entries are kept as integers. -/
def getZi [LinearOrderedField α] [FloorRing α] (N V : Nat) (c : Consts α) (sb : α)
    (zB wB copyB : Nat) (heap : Nat → α) (zi : Nat → Int) : (Nat → α) × (Nat → Int) :=
  let heap1 := copyLoop N zB copyB heap
  let heap2 := backwardLoop N V c wB copyB heap1
  (heap2, decodeLoop N V sb (fun d => heap2 (copyB + d)) zi)

end GetZi

end CZIT_CPU_vec_mt

namespace transformCPUf64s

section GetZi

variable {α : Type}

/-- The data members of `transformCPUf64s` that `getZi` can reach (lines 198-200):
`_error` and the buffers `_mem` and `_mem_copy`, seen as maps from double offsets
(byte offset divided by 8) to doubles. -/
structure State (α : Type) where
  error : α
  mem : Nat → α
  mem_copy : Nat → α

/-- Modelled from the spec: the static routines `Vr4::backward4e`,
`Vr4::backward4o`, `Vr4::backward4_0`, `Vr8::backward8_0` and the lane access
`vc[i]` of f64vector.h, which is not among the sources.  A routine is called with
a pointer into a buffer and works in place: it is a map on that buffer, given
the double offset of the pointer. -/
structure Kernels (α : Type) where
  backward4e : Nat → Nat → Nat → Nat → α × α → α × α → (Nat → α) → Nat → α
  backward4o : Nat → Nat → Nat → Nat → α × α → α × α → (Nat → α) → Nat → α
  backward4_0 : Nat → Nat → Nat → Nat → (Nat → α) → Nat → α
  backward8_0 : Nat → Nat → Nat → Nat → (Nat → α) → Nat → α
  lane : (Nat → α) → Nat → Nat → α × α

/-- The body of the stage loop of `backward_out` (lines 233-241) for one
`(mi, s)`; `zl` and `zh` are the double offsets of the two pointers, and a `Vc`
takes `2 * VSIZE` doubles. -/
def backwardStage (N VSIZE : Nat) (K : Kernels α) (zl zh : Nat) (w122i : Nat → α × α)
    (mi s : Nat) (buf : Nat → α) : Nat → α :=
  let stepi := index N VSIZE (n_io N) / VSIZE
  (List.range s).foldl (fun buf j =>
    let k := 8 * mi * j
    let w0 := w122i (s + 3 * j + 0)
    let w1 := w122i (s + 3 * j + 1)
    let b1 := K.backward4e mi stepi (2 * 4 / VSIZE) (zl + (k + 0 * 4 * mi) * (2 * VSIZE)) w0 w1 buf
    let b2 := K.backward4e mi stepi (2 * 4 / VSIZE) (zh + (k + 0 * 4 * mi) * (2 * VSIZE)) w0 w1 b1
    let w2 := w122i (s + 3 * j + 2)
    let b3 := K.backward4o mi stepi (2 * 4 / VSIZE) (zl + (k + 1 * 4 * mi) * (2 * VSIZE)) w0 w2 b2
    K.backward4o mi stepi (2 * 4 / VSIZE) (zh + (k + 1 * 4 * mi) * (2 * VSIZE)) w0 w2 b3) buf

/-- The stage loop of `backward_out` (line 231):
`for (mi = stepi; s >= 2; mi *= 4, s /= 4)`; it returns the buffer and the final
`s`, and `fuel` bounds the number of stages. -/
def backwardStages (N VSIZE : Nat) (K : Kernels α) (zl zh : Nat) (w122i : Nat → α × α) :
    Nat → Nat → Nat → (Nat → α) → (Nat → α) × Nat
  | 0, _, s, buf => (buf, s)
  | fuel + 1, mi, s, buf =>
    if 2 ≤ s then
      backwardStages N VSIZE K zl zh w122i fuel (mi * 4) (s / 4)
        (backwardStage N VSIZE K zl zh w122i mi s buf)
    else (buf, s)

/-- The function `backward_out(zl, zh, w122i)` (lines 226-246) of
`transformCPUf64s<N, VSIZE>`, on the buffer that holds `zl` and `zh`. -/
def backward_out (N VSIZE : Nat) (K : Kernels α) (zl zh : Nat) (w122i : Nat → α × α)
    (buf : Nat → α) : Nat → α :=
  let stepi := index N VSIZE (n_io N) / VSIZE
  let r := backwardStages N VSIZE K zl zh w122i N stepi ((N / 4) / n_io N / 2) buf
  if r.2 = 1 then
    K.backward8_0 (index N VSIZE (N / 8) / VSIZE) stepi (2 * 4 / VSIZE) zh
      (K.backward8_0 (index N VSIZE (N / 8) / VSIZE) stepi (2 * 4 / VSIZE) zl r.1)
  else
    K.backward4_0 (index N VSIZE (N / 4) / VSIZE) stepi (2 * 4 / VSIZE) zh
      (K.backward4_0 (index N VSIZE (N / 4) / VSIZE) stepi (2 * 4 / VSIZE) zl r.1)

/-- The method `getZi(zi)` (lines 664-691) of `transformCPUf64s<N, VSIZE>`: the
copy of `zl` and `zh` into `_mem_copy`, `backward_out` on every slice of the copy,
and the decoding of `zl_copy`.  It returns the members and the array `zi`, whose
entries are kept as integers. -/
def getZi [LinearOrderedField α] [FloorRing α] (N VSIZE : Nat) (K : Kernels α) (s : State α)
    (zi : Nat → Int) : State α × (Nat → Int) :=
  let zl := zlOffset N / 8
  let zh := zhOffset N VSIZE / 8
  let zl_copy := 0
  let zh_copy := zSize N VSIZE / 8
  let copy1 := (List.range (index N VSIZE N / VSIZE)).foldl (fun buf k =>
    let buf1 : Nat → α := fun a =>
      if zl_copy + k * (2 * VSIZE) ≤ a ∧ a < zl_copy + (k + 1) * (2 * VSIZE)
      then s.mem (zl + (a - zl_copy)) else buf a
    fun a =>
      if zh_copy + k * (2 * VSIZE) ≤ a ∧ a < zh_copy + (k + 1) * (2 * VSIZE)
      then s.mem (zh + (a - zh_copy)) else buf1 a) s.mem_copy
  let w122i : Nat → α × α := fun j => (s.mem (wOffset / 8 + 2 * j), s.mem (wOffset / 8 + 2 * j + 1))
  let copy2 := (List.range (n_io N / 4 / 2)).foldl (fun buf lh =>
    backward_out N VSIZE K (zl_copy + 2 * 4 / VSIZE * lh * (2 * VSIZE))
      (zh_copy + 2 * 4 / VSIZE * lh * (2 * VSIZE)) w122i buf) copy1
  let n_io_N : α := (n_io N : α) / (N : α)
  let zi' := forStep N VSIZE (fun k zi =>
    (List.range VSIZE).foldl (fun zi i =>
      let zc := K.lane copy2 (zl_copy + index N VSIZE k / VSIZE * (2 * VSIZE)) i
      Function.update (Function.update zi (k + i + 0 * N) (lround (zc.1 * n_io_N)))
        (k + i + 1 * N) (lround (zc.2 * n_io_N))) zi) zi
  ({ s with mem_copy := copy2 }, zi')

end GetZi

end transformCPUf64s

/-! ## bitRev (main.cpp, lines 593-598) -/

/-- The loop of `bitRev`:
`for (k = n, j = i; k > 1; k /= 2, j /= 2) r = (2 * r) | (j % 2);`
with `fuel` bounding the number of iterations. -/
def bitRevLoop : Nat → Nat → Nat → Nat → Nat
  | 0, _, _, r => r
  | fuel + 1, k, j, r =>
    if 1 < k then bitRevLoop fuel (k / 2) (j / 2) ((2 * r) ||| (j % 2)) else r

/-- The function `bitRev(i, n)` (main.cpp, lines 593-598); `k` is halved at each
iteration, so `n` iterations are enough. -/
def bitRev (i n : Nat) : Nat := bitRevLoop n n i 0

/-- The number whose `m` low bits are those of `j` in the opposite order. -/
def revBits : Nat → Nat → Nat
  | 0, _ => 0
  | m + 1, j => (j % 2) * 2 ^ m + revBits m (j / 2)

/-- The method `Vcx8s::square4o(w)` (transformCPUf64s.h, lines 72-78): it
rewrites `z[4..7]` and leaves `z[0..3]`. -/
def Vcx8s.square4o {α : Type} [CommRing α] {N : Nat} (v : Vcx8s α N) (w : Vcx α N) :
    Vcx8s α N :=
  let u4 := v.z 4
  let u6 := (v.z 6).mulW w
  let u5 := v.z 5
  let u7 := (v.z 7).mulW w
  let v4 := u4.addi u6
  let v6 := u4.subi u6
  let v5 := u5.addi u7
  let v7 := u7.addi u5
  let s4 := (v5.sqr.mulW w).subi v4.sqr
  let s5 := (v4 + v4) * v5
  let s6 := v6.sqr.addi (v7.sqr.mulW w)
  let s7 := (v6 + v6) * v7
  ⟨fun k =>
    if k = 4 then s6.addi s4
    else if k = 6 then (s4.addi s6).mulWconj w
    else if k = 5 then s5.subi s7
    else if k = 7 then (s7.subi s5).mulWconj w
    else v.z k⟩

/-- The method `Vcx8s::mul4_forward(w)` (transformCPUf64s.h, lines 80-86). -/
def Vcx8s.mul4_forward {α : Type} [CommRing α] {N : Nat} (v : Vcx8s α N) (w : Vcx α N) :
    Vcx8s α N :=
  let u0 := v.z 0
  let u2 := (v.z 2).mulW w
  let u1 := v.z 1
  let u3 := (v.z 3).mulW w
  let u4 := v.z 4
  let u6 := (v.z 6).mulW w
  let u5 := v.z 5
  let u7 := (v.z 7).mulW w
  ⟨fun k =>
    if k = 0 then u0 + u2
    else if k = 2 then u0 - u2
    else if k = 1 then u1 + u3
    else if k = 3 then u1 - u3
    else if k = 4 then u4.addi u6
    else if k = 6 then u4.subi u6
    else if k = 5 then u5.addi u7
    else u7.addi u5⟩

/-- The method `Vcx8s::mul4(rhs, w)` (transformCPUf64s.h, lines 88-103). -/
def Vcx8s.mul4 {α : Type} [CommRing α] {N : Nat} (v rhs : Vcx8s α N) (w : Vcx α N) :
    Vcx8s α N :=
  let u0 := v.z 0
  let u2 := (v.z 2).mulW w
  let u1 := v.z 1
  let u3 := (v.z 3).mulW w
  let v0 := u0 + u2
  let v2 := u0 - u2
  let v1 := u1 + u3
  let v3 := u1 - u3
  let vp0 := rhs.z 0
  let vp2 := rhs.z 2
  let vp1 := rhs.z 1
  let vp3 := rhs.z 3
  let s0 := v0 * vp0 + (v1 * vp1).mulW w
  let s1 := v0 * vp1 + vp0 * v1
  let s2 := v2 * vp2 - (v3 * vp3).mulW w
  let s3 := v2 * vp3 + vp2 * v3
  let u4 := v.z 4
  let u6 := (v.z 6).mulW w
  let u5 := v.z 5
  let u7 := (v.z 7).mulW w
  let v4 := u4.addi u6
  let v6 := u4.subi u6
  let v5 := u5.addi u7
  let v7 := u7.addi u5
  let vp4 := rhs.z 4
  let vp6 := rhs.z 6
  let vp5 := rhs.z 5
  let vp7 := rhs.z 7
  let s4 := ((v5 * vp5).mulW w).subi (v4 * vp4)
  let s5 := v4 * vp5 + vp4 * v5
  let s6 := (v6 * vp6).addi ((v7 * vp7).mulW w)
  let s7 := v6 * vp7 + vp6 * v7
  ⟨fun k =>
    if k = 0 then s0 + s2
    else if k = 2 then (s0 - s2).mulWconj w
    else if k = 1 then s1 + s3
    else if k = 3 then (s1 - s3).mulWconj w
    else if k = 4 then s6.addi s4
    else if k = 6 then (s4.addi s6).mulWconj w
    else if k = 5 then s5.subi s7
    else (s7.subi s5).mulWconj w⟩

/-! ## The tile `Vcx8` and its transpositions (main.cpp, lines 302-303 and 540-566) -/

/-- The operator `Vcx::operator[]` (main.cpp, line 302) at a lane in range:
`Complex(re[i], im[i])`. -/
def Vcx.get {α : Type} {N : Nat} (v : Vcx α N) (i : Fin N) : α × α := (v.re.get i, v.im.get i)

/-- The update `Vcx::set(i, z)` (main.cpp, line 303):
`re.set(i, z.real); im.set(i, z.imag)`. -/
def Vcx.set {α : Type} {N : Nat} (v : Vcx α N) (i : Fin N) (z : α × α) : Vcx α N :=
  ⟨v.re.set i z.1, v.im.set i z.2⟩

/-- The class `Vcx8<N>` of main.cpp: the array `Vc z[8]`. -/
structure Vcx8 (α : Type) (N : Nat) where
  z : Fin 8 → Vcx α N

namespace Vcx8

variable {α : Type} {N : Nat}

/-- The statement `vc8.z[k].set(l, c)`. -/
def setZ (vc8 : Vcx8 α N) (k : Fin 8) (l : Fin N) (c : α × α) : Vcx8 α N :=
  ⟨Function.update vc8.z k ((vc8.z k).set l c)⟩

/-- The vector index `ind / N` for `ind = 8 * i + j`, which is below 8. -/
def flatRow (i : Fin N) (j : Fin 8) : Fin 8 :=
  ⟨(8 * i.val + j.val) / N, by
    have hi := i.isLt
    have hj := j.isLt
    exact (Nat.div_lt_iff_lt_mul (by omega)).2 (by omega)⟩

/-- The lane index `ind % N` for `ind = 8 * i + j`. -/
def flatLane (i : Fin N) (j : Fin 8) : Fin N :=
  ⟨(8 * i.val + j.val) % N, Nat.mod_lt _ (by have hi := i.isLt; omega)⟩

/-- The method `transpose_in()` (lines 540-552): for `i < N`, for `j < 8`,
`ind = 8 * i + j; vc8.z[j].set(i, z[ind / N][ind % N])`.  The local `vc8` is
declared without initial value, so its initial contents are a parameter. -/
def transpose_in (v vc8 : Vcx8 α N) : Vcx8 α N :=
  (List.finRange N).foldl
    (fun acc i => (List.finRange 8).foldl
      (fun acc j => acc.setZ j i ((v.z (flatRow i j)).get (flatLane i j))) acc) vc8

/-- The method `transpose_out()` (lines 554-566): for `i < N`, for `j < 8`,
`ind = 8 * i + j; vc8.z[ind / N].set(ind % N, z[j][i])`. -/
def transpose_out (v vc8 : Vcx8 α N) : Vcx8 α N :=
  (List.finRange N).foldl
    (fun acc i => (List.finRange 8).foldl
      (fun acc j => acc.setZ (flatRow i j) (flatLane i j) ((v.z j).get i)) acc) vc8

end Vcx8

/-! ## The carry of `Vcx8s::mul_carry` (transformCPUf64s.h, lines 105-140) -/

namespace Vcx8s

variable {α : Type} [LinearOrderedField α] [FloorRing α] {N : Nat}

/-- The loop `for (size_t i = 0; i < 8; ++i)` of `mul_carry` (lines 109-118),
from the index `i` on, on the array `z` and the running carry `f`; `fuel` bounds
the number of iterations. -/
def mul_carryLoop (g b b_inv t2_n : α) :
    Nat → Nat → (Fin 8 → Vcx α N) → Vcx α N → (Fin 8 → Vcx α N) × Vcx α N
  | 0, _, z, f => (z, f)
  | fuel + 1, i, z, f =>
    if h : i < 8 then
      let zi := z ⟨i, h⟩
      let of := zi.scale t2_n
      let o := of.round
      let o_b := (o.scale b_inv).round
      let f_i := f + (o - o_b.scale b).scale g
      let f_b := (f_i.scale b_inv).round
      mul_carryLoop g b b_inv t2_n fuel (i + 1)
        (Function.update z ⟨i, h⟩ (f_i - f_b.scale b)) (f_b + o_b.scale g)
    else (z, f)

/-- The method `mul_carry(f_prev, g, b, b_inv, t2_n)` (lines 105-121): the tile
after the call and the returned carry. -/
def mul_carry (v : Vcx8s α N) (f_prev : Vcx α N) (g b b_inv t2_n : α) :
    Vcx8s α N × Vcx α N :=
  let r := mul_carryLoop g b b_inv t2_n 8 0 v.z f_prev
  (⟨r.1⟩, r.2)

/-- The loop of the overload of `mul_carry` with the argument `Vc & err`
(lines 127-137): the same body with `err.max(Vc(of - o).abs())` after the
computation of `o`. -/
def mul_carryErrLoop (g b b_inv t2_n : α) :
    Nat → Nat → (Fin 8 → Vcx α N) → Vcx α N → Vcx α N →
      (Fin 8 → Vcx α N) × Vcx α N × Vcx α N
  | 0, _, z, f, err => (z, f, err)
  | fuel + 1, i, z, f, err =>
    if h : i < 8 then
      let zi := z ⟨i, h⟩
      let of := zi.scale t2_n
      let o := of.round
      let err1 := err.max (of - o).abs
      let o_b := (o.scale b_inv).round
      let f_i := f + (o - o_b.scale b).scale g
      let f_b := (f_i.scale b_inv).round
      mul_carryErrLoop g b b_inv t2_n fuel (i + 1)
        (Function.update z ⟨i, h⟩ (f_i - f_b.scale b)) (f_b + o_b.scale g) err1
    else (z, f, err)

/-- The method `mul_carry(f_prev, g, b, b_inv, t2_n, err)` (lines 123-140): the
tile after the call, the returned carry and the value of `err` after the call. -/
def mul_carry_err (v : Vcx8s α N) (f_prev : Vcx α N) (g b b_inv t2_n : α) (err : Vcx α N) :
    Vcx8s α N × Vcx α N × Vcx α N :=
  let r := mul_carryErrLoop g b b_inv t2_n 8 0 v.z f_prev err
  (⟨r.1⟩, r.2.1, r.2.2)

/-- The two calls of `pass2_0` (transformCPUf64s.h, lines 578-580):
`if (!checkError) f[j] = z8.mul_carry(f_prev, g, b, b_inv, 2.0 / N);
else f[j] = z8.mul_carry(f_prev, g, b, b_inv, 2.0 / N, err);`
with the tile, `f[j]` and `err` after the statement. -/
def pass2_0_mul_carry (checkError : Bool) (z8 : Vcx8s α N) (f_prev : Vcx α N)
    (g b b_inv t2_n : α) (err : Vcx α N) : Vcx8s α N × Vcx α N × Vcx α N :=
  if !checkError then
    let r := z8.mul_carry f_prev g b b_inv t2_n
    (r.1, r.2, err)
  else z8.mul_carry_err f_prev g b b_inv t2_n err

end Vcx8s

/-- One real or imaginary lane of the body of the loop of `mul_carry`: the digit
written back and the carry passed on, from the lane `z` of `z[i]` and the lane
`f` of the running carry. -/
def mul_carryLane {α : Type} [LinearOrderedField α] [FloorRing α]
    (g b b_inv t2_n z f : α) : α × α :=
  let o := stdRound (z * t2_n)
  let o_b := stdRound (o * b_inv)
  let f_i := f + (o - o_b * b) * g
  let f_b := stdRound (f_i * b_inv)
  (f_i - f_b * b, f_b + o_b * g)

/-! ## The carry propagation `Vcx8s::carry` (transformCPUf64s.h, lines 143-159) -/

/-- The method `Vd::isZero` (main.cpp, line 178):
`zero = true; for (i < N) zero &= (r[i] == 0.0); return zero`. -/
def Vd.isZero {α : Type} [Zero α] [DecidableEq α] {N : Nat} (a : Vd α N) : Bool :=
  (List.finRange N).foldl (fun zero i => zero && decide (a.r i = 0)) true

/-- The method `Vcx::isZero` (main.cpp, line 305): `re.isZero() & im.isZero()`. -/
def Vcx.isZero {α : Type} [Zero α] [DecidableEq α] {N : Nat} (a : Vcx α N) : Bool :=
  a.re.isZero && a.im.isZero

namespace Vcx8s

variable {α : Type} [LinearOrderedField α] [FloorRing α] {N : Nat}

/-- The method `carry(f_i, b, b_inv)` from the index `i` of its loop on:
`for (i < 8 - 1) { f += zi.round(); f_o = Vc(f * b_inv).round(); zi = f - f_o * b;
f = f_o; if (f.isZero()) return; }` and then `z[8 - 1] = f + z[8 - 1].round()`;
`fuel` bounds the number of iterations. -/
def carryLoop (b b_inv : α) : Nat → Nat → (Fin 8 → Vcx α N) → Vcx α N → (Fin 8 → Vcx α N)
  | 0, _, z, _ => z
  | fuel + 1, i, z, f =>
    if h : i < 8 - 1 then
      let zi := z ⟨i, Nat.lt_of_lt_of_le h (by decide)⟩
      let f1 := f + zi.round
      let f_o := (f1.scale b_inv).round
      let z1 := Function.update z ⟨i, Nat.lt_of_lt_of_le h (by decide)⟩ (f1 - f_o.scale b)
      if f_o.isZero then z1 else carryLoop b b_inv fuel (i + 1) z1 f_o
    else Function.update z 7 (f + (z 7).round)

/-- The method `carry(f_i, b, b_inv)` (lines 143-159): the tile after the call. -/
def carry (v : Vcx8s α N) (f_i : Vcx α N) (b b_inv : α) : Vcx8s α N :=
  ⟨carryLoop b b_inv 8 0 v.z f_i⟩

/-- The carry that enters the position `k` of the tile when the loop of `carry`
gets there: `f_i` at position 0, and `round((f + round(z[k])) * b_inv)` after the
position `k`. -/
def carryAt (v : Vcx8s α N) (f_i : Vcx α N) (b_inv : α) : Nat → Vcx α N
  | 0 => f_i
  | k + 1 =>
    if h : k < 8 then ((carryAt v f_i b_inv k + (v.z ⟨k, h⟩).round).scale b_inv).round
    else carryAt v f_i b_inv k

end Vcx8s

/-! ## The carry loop of `pass2` (main.cpp, lines 989-1003) -/

namespace CZIT_CPU_vec_mt

variable {α : Type} [LinearOrderedField α] [FloorRing α] {N : Nat}

/-- The remainder `r` of one iteration of the carry loop of `pass2` (lines
993-997): `o = (z0 + z1 * sb) * t2_n, oi = o.round()`, `f_i = f_k_f + oi * g`,
`f_o = Vc(f_i * b_inv).round()`, `r = f_i - f_o * b`. -/
def pass2_r (sb b b_inv t2_n g : α) (z0 z1 f_k_f : Vcx α N) : Vcx α N :=
  let o := (z0 + z1.scale sb).scale t2_n
  let oi := o.round
  let f_i := f_k_f + oi.scale g
  let f_o := (f_i.scale b_inv).round
  f_i - f_o.scale b

/-- The split of a remainder in the base `sqrt(b)` (lines 999-1000 of `pass2`, and
the same two lines in `pass3`): `irh = Vc(r * sb_inv).round()`,
`z0 = (r - irh * isb) - irh * fsb; z1 = irh`. -/
def split_base (isb fsb sb_inv : α) (r : Vcx α N) : Vcx α N × Vcx α N :=
  let irh := (r.scale sb_inv).round
  ((r - irh.scale isb) - irh.scale fsb, irh)

/-- The body of the carry loop of `pass2` (lines 991-1001) on the pair
`z0 = zt[2 * l]`, `z1 = zt[2 * l + 1]`, the running carry `f_k_f` and `err`: the
values of `z0`, `z1`, `f_k_f` and `err` after the iteration. -/
def pass2_body (sb isb fsb b b_inv sb_inv t2_n g : α) (z0 z1 f_k_f err : Vcx α N) :
    Vcx α N × Vcx α N × Vcx α N × Vcx α N :=
  let o := (z0 + z1.scale sb).scale t2_n
  let oi := o.round
  let d := (o - oi).abs
  let f_i := f_k_f + oi.scale g
  let err1 := err.max d
  let f_o := (f_i.scale b_inv).round
  let r := f_i - f_o.scale b
  let irh := (r.scale sb_inv).round
  ((r - irh.scale isb) - irh.scale fsb, irh, f_o, err1)

end CZIT_CPU_vec_mt

/-! ## The twiddle tables (main.cpp, lines 1083-1103; transformCPUf64s.h, lines 631-651) -/

/-- The body of the loop on `j` of one stage `s` of the construction of `w122i`:
`w_s = &w122i[2 * s / 4]`, `r = bitRev(j, 2 * s) + 1`, and the three stores
`w_s[3 * j + 0] = exp2iPi(r, 8 * s)`, `w_s[3 * j + 1] = exp2iPi(r, 2 * 8 * s)`,
`w_s[3 * j + 2] = exp2iPi(r + 2 * s, 2 * 8 * s)`, each as the triple of the
index in `w122i` and the two arguments of `exp2iPi`. -/
def w122iStores (s j : Nat) : List (Nat × Nat × Nat) :=
  let r := bitRev j (2 * s) + 1
  [(2 * s / 4 + (3 * j + 0), r, 8 * s), (2 * s / 4 + (3 * j + 1), r, 2 * 8 * s),
    (2 * s / 4 + (3 * j + 2), r + 2 * s, 2 * 8 * s)]

/-- The loop `for (size_t j = 0; j < s / 2; ++j)` of one stage: its stores in
order. -/
def w122iStage (s : Nat) : List (Nat × Nat × Nat) :=
  (List.range (s / 2)).flatMap (w122iStores s)

/-- The loop `for (size_t s = ...; s >= 4; s /= 4)` from the value `s` on: the
stores in order; `fuel` bounds the number of iterations. -/
def w122iLoop : Nat → Nat → List (Nat × Nat × Nat)
  | 0, _ => []
  | fuel + 1, s => if 4 ≤ s then w122iStage s ++ w122iLoop fuel (s / 4) else []

/-- The stores to `w122i` made by the constructor: the loop starts at
`s = N / 16`. -/
def w122iWrites (N : Nat) : List (Nat × Nat × Nat) := w122iLoop N (N / 16)

/-- The stores to `ws` made by the constructor: for `j < N / 8 / VSIZE` and
`i < VSIZE`, `ws[j].set(i, exp2iPi(bitRev(VSIZE * j + i, 2 * (N / 4)) + 1,
8 * (N / 4)))`, each as the pair `(j, i)` and the two arguments of `exp2iPi`. -/
def wsWrites (N VSIZE : Nat) : List ((Nat × Nat) × Nat × Nat) :=
  (List.range (N / 8 / VSIZE)).flatMap (fun j =>
    (List.range VSIZE).map (fun i =>
      ((j, i), bitRev (VSIZE * j + i) (2 * (N / 4)) + 1, 8 * (N / 4))))

/-! ## ComplexITransform::unbalance and isOne on `int64_t` (main.cpp, lines 28-107) -/

/-- The value that an `int64_t` takes when the exact result of an addition, a
subtraction or a negation is `x`: the representative of `x` modulo `2^64` in
`[-2^63, 2^63)`.  Signed overflow, which C++ leaves undefined, is taken as the
wrap-around of two's complement arithmetic. -/
def wrap64 (x : Int) : Int := (x + 2 ^ 63) % 2 ^ 64 - 2 ^ 63

/-- The loop body shared by both carry loops of `unbalance`, on `int64_t`:
`f += zi[i]; r = f % base; if (r < 0) r += base; zi[i] = r; f -= r; f /= base;`
with the truncating `%` and `/` of C++, which cannot overflow for a positive
`base`.  Returns the digit written and the new carry. -/
def digitStep64 (base f z : Int) : Int × Int :=
  let f1 := wrap64 (f + z)
  let r0 := Int.tmod f1 base
  let r := if r0 < 0 then wrap64 (r0 + base) else r0
  let f2 := wrap64 (f1 - r)
  (r, Int.tdiv f2 base)

/-- The first `for` loop of `unbalance` (lines 34-42) on `int64_t`. -/
def firstPass64 (base : Int) : Int → List Int → List Int × Int
  | f, [] => ([], f)
  | f, z :: zs =>
    let s := digitStep64 base f z
    let rest := firstPass64 base s.2 zs
    (s.1 :: rest.1, rest.2)

/-- The inner `for` loop of the `while` loop (lines 48-57) on `int64_t`, with its
`break` when the carry is zero. -/
def carryPass64 (base : Int) : Int → List Int → List Int × Int
  | f, [] => ([], f)
  | f, z :: zs =>
    let s := digitStep64 base f z
    if s.2 = 0 then (s.1 :: zs, s.2)
    else
      let rest := carryPass64 base s.2 zs
      (s.1 :: rest.1, rest.2)

/-- The `while (f != 0)` loop of `unbalance` (lines 44-77) on `int64_t`, with
`f = -f` at the head of each pass.  `fuel` bounds the number of passes; the
result is `none` when `fuel` passes were not enough. -/
def whileLoop64 (base : Int) : Nat → Int → List Int → Option (List Int × Int)
  | 0, f, zi => if f = 0 then some (zi, f) else none
  | fuel + 1, f, zi =>
    if f = 0 then some (zi, f)
    else
      let p := carryPass64 base (wrap64 (-f)) zi
      if p.2 = 1 ∧ isMinusOne p.1 = true then some (p.1.set 0 (-1), p.2)
      else whileLoop64 base fuel p.2 p.1

/-- The function `ComplexITransform::unbalance` on `int64_t` digits, for the base
`b` (a `uint32_t`). -/
def unbalance64 (b : Nat) (zi : List Int) : Option (List Int) :=
  let p := firstPass64 (b : Int) 0 zi
  (whileLoop64 (b : Int) (passBound p.2) p.2 p.1).map Prod.fst

/-- The function `ComplexITransform::isOne` on the `int64_t` digits `zi` that
`getZi` delivered: the pair of the returned boolean and the value stored in
`residue`.  For `size < 8` the index `size - i` leaves the array, which is
`none`. -/
def isOne64 (b : Nat) (zi : List Int) : Option (Bool × Nat) :=
  let size := zi.length
  if size < 8 then none
  else (unbalance64 b zi).map (fun z => (isOneFlag z, fingerprint size z))

/-! # Lemmas and theorems -/
theorem neg_lt_tmod (a b : Int) (hb : 0 < b) : -b < Int.tmod a b := by
  obtain ⟨n, rfl⟩ := Int.eq_ofNat_of_zero_le hb.le
  cases a with
  | ofNat m =>
    have : (0:Int) ≤ Int.tmod (Int.ofNat m) (n:Int) := Int.tmod_nonneg _ (Int.ofNat_nonneg m)
    omega
  | negSucc m =>
    have h : Int.tmod (Int.negSucc m) (n : Int) = -((((m + 1) % n : Nat)) : Int) := rfl
    rw [h]
    have hn : 0 < n := by exact_mod_cast hb
    have := Nat.mod_lt (m + 1) hn
    omega

theorem digitStep_eq (base f z : Int) (hb : 0 < base) :
    digitStep base f z = ((f + z) % base, (f + z) / base) := by
  have h1 : Int.tmod (f + z) base + base * Int.tdiv (f + z) base = f + z :=
    Int.tmod_add_tdiv _ _
  have h2 : Int.tmod (f + z) base < base := Int.tmod_lt_of_pos _ hb
  have h3 : -base < Int.tmod (f + z) base := neg_lt_tmod _ _ hb
  have hne : base ≠ 0 := ne_of_gt hb
  have key : ∀ r q : Int, r + base * q = f + z → 0 ≤ r → r < base →
      (r, Int.tdiv (f + z - r) base) = ((f + z) % base, (f + z) / base) := by
    intro r q e h0 hlt
    obtain ⟨hq, hr⟩ := (Int.ediv_emod_unique hb).2 ⟨e, h0, hlt⟩
    have e2 : f + z - r = base * q := by linarith
    rw [e2, Int.mul_tdiv_cancel_left _ hne, hq, hr]
  unfold digitStep
  simp only
  by_cases hneg : Int.tmod (f + z) base < 0
  · rw [if_pos hneg]
    exact key _ (Int.tdiv (f + z) base - 1) (by linarith) (by linarith) (by linarith)
  · rw [if_neg hneg]
    exact key _ (Int.tdiv (f + z) base) h1 (by linarith) h2

/-- No overflow in the loop body: when the carry and the digit are bounded by
`M` in absolute value, the digit written lies in `[0, base)` and the new carry
is again bounded by `M`; the sum `f + zi[i]` is bounded by `2 * M`.  With
`M = 2^61` every intermediate value fits in an `int64_t`. -/
theorem digitStep_bounded (base f z M : Int) (hb : 2 ≤ base)
    (hf : -M ≤ f ∧ f ≤ M) (hz : -M ≤ z ∧ z ≤ M) :
    (0 ≤ (digitStep base f z).1 ∧ (digitStep base f z).1 < base) ∧
      (-M ≤ (digitStep base f z).2 ∧ (digitStep base f z).2 ≤ M) := by
  have hb0 : 0 < base := by omega
  rw [digitStep_eq base f z hb0]
  have e := Int.emod_add_ediv (f + z) base
  have h0 : 0 ≤ (f + z) % base := Int.emod_nonneg _ (ne_of_gt hb0)
  have h1 : (f + z) % base < base := Int.emod_lt_of_pos _ hb0
  refine ⟨⟨h0, h1⟩, ?_, ?_⟩
  · by_contra h
    have h' : (f + z) / base + 1 ≤ -M := by omega
    nlinarith [mul_nonneg (show (0:Int) ≤ base - 2 by omega)
      (show (0:Int) ≤ -((f + z) / base + 1) by omega)]
  · by_contra h
    have h' : M + 1 ≤ (f + z) / base := by omega
    nlinarith [mul_nonneg (show (0:Int) ≤ base - 2 by omega)
      (show (0:Int) ≤ (f + z) / base by omega)]

theorem firstPass_eq (base : Int) (hb : 0 < base) (f : Int) (zi : List Int) :
    firstPass base f zi =
      match zi with
      | [] => ([], f)
      | z :: zs => ((f + z) % base :: (firstPass base ((f + z) / base) zs).1,
          (firstPass base ((f + z) / base) zs).2) := by
  cases zi with
  | nil => rfl
  | cons z zs => simp only [firstPass, digitStep_eq base f z hb]

theorem carryPass_eq (base : Int) (hb : 0 < base) (f : Int) (zi : List Int) :
    carryPass base f zi =
      match zi with
      | [] => ([], f)
      | z :: zs =>
        if (f + z) / base = 0 then ((f + z) % base :: zs, (f + z) / base)
        else ((f + z) % base :: (carryPass base ((f + z) / base) zs).1,
          (carryPass base ((f + z) / base) zs).2) := by
  cases zi with
  | nil => rfl
  | cons z zs => simp only [carryPass, digitStep_eq base f z hb]

theorem digitSum_eq_horner (b : Int) (zi : List Int) : digitSum b zi = horner b zi := by
  induction zi with
  | nil => rfl
  | cons z zs ih =>
    unfold digitSum at ih ⊢
    simp only [List.length_cons, List.range_succ_eq_map, List.map_cons, List.sum_cons,
      List.map_map, horner]
    rw [← ih]
    simp only [List.getD_cons_zero, pow_zero, mul_one]
    congr 1
    rw [← List.sum_map_mul_left]
    congr 1
    apply List.map_congr_left
    intro i _
    simp only [Function.comp, List.getD_cons_succ, pow_succ]
    ring

theorem firstPass_spec (base : Int) (hb : 0 < base) (zi : List Int) (f : Int) :
    (firstPass base f zi).1.length = zi.length ∧ Canonical base (firstPass base f zi).1 ∧
      f + horner base zi
        = horner base (firstPass base f zi).1 + (firstPass base f zi).2 * base ^ zi.length := by
  induction zi generalizing f with
  | nil => simp [firstPass, horner, Canonical]
  | cons z zs ih =>
    rw [firstPass_eq base hb]
    obtain ⟨h1, h2, h3⟩ := ih ((f + z) / base)
    refine ⟨by simp [h1], ?_, ?_⟩
    · intro x hx
      rcases List.mem_cons.1 hx with rfl | hx
      · exact ⟨Int.emod_nonneg _ (ne_of_gt hb), Int.emod_lt_of_pos _ hb⟩
      · exact h2 x hx
    · have e := Int.emod_add_ediv (f + z) base
      simp only [horner, List.length_cons, pow_succ]
      linear_combination base * h3 - e

theorem carryPass_spec (base : Int) (hb : 0 < base) (zi : List Int) (f : Int)
    (hc : Canonical base zi) :
    (carryPass base f zi).1.length = zi.length ∧ Canonical base (carryPass base f zi).1 ∧
      f + horner base zi
        = horner base (carryPass base f zi).1 + (carryPass base f zi).2 * base ^ zi.length := by
  induction zi generalizing f with
  | nil => simp [carryPass, horner, Canonical]
  | cons z zs ih =>
    have hc2 : Canonical base zs := fun x hx => hc x (List.mem_cons_of_mem _ hx)
    have e := Int.emod_add_ediv (f + z) base
    have hr : 0 ≤ (f + z) % base ∧ (f + z) % base < base :=
      ⟨Int.emod_nonneg _ (ne_of_gt hb), Int.emod_lt_of_pos _ hb⟩
    rw [carryPass_eq base hb]
    by_cases hq : (f + z) / base = 0
    · simp only [hq, if_true]
      refine ⟨by simp, ?_, ?_⟩
      · intro x hx
        rcases List.mem_cons.1 hx with rfl | hx
        · exact hr
        · exact hc2 x hx
      · rw [hq] at e
        simp only [horner]
        linear_combination -e
    · simp only [hq, if_false]
      obtain ⟨h1, h2, h3⟩ := ih ((f + z) / base) hc2
      refine ⟨by simp [h1], ?_, ?_⟩
      · intro x hx
        rcases List.mem_cons.1 hx with rfl | hx
        · exact hr
        · exact h2 x hx
      · simp only [horner, List.length_cons, pow_succ]
        linear_combination base * h3 - e

theorem horner_bounds (base : Int) (hb : 0 < base) (zi : List Int) (hc : Canonical base zi) :
    0 ≤ horner base zi ∧ horner base zi < base ^ zi.length := by
  induction zi with
  | nil => simp [horner]
  | cons z zs ih =>
    have hc2 : Canonical base zs := fun x hx => hc x (List.mem_cons_of_mem _ hx)
    obtain ⟨h0, h1⟩ := ih hc2
    obtain ⟨hz0, hz1⟩ := hc z (List.mem_cons_self _ _)
    simp only [horner, List.length_cons, pow_succ]
    constructor
    · positivity
    · nlinarith

theorem allZero_of_horner_eq_zero (base : Int) (hb : 0 < base) (zi : List Int)
    (hc : Canonical base zi) (h : horner base zi = 0) : ∀ z ∈ zi, z = 0 := by
  induction zi with
  | nil => simp
  | cons z zs ih =>
    have hc2 : Canonical base zs := fun x hx => hc x (List.mem_cons_of_mem _ hx)
    obtain ⟨h0, _⟩ := horner_bounds base hb zs hc2
    obtain ⟨hz0, hz1⟩ := hc z (List.mem_cons_self _ _)
    simp only [horner] at h
    have hh : horner base zs = 0 := by
      by_contra hne
      have : 1 ≤ horner base zs := by omega
      nlinarith
    have hz : z = 0 := by rw [hh] at h; linarith
    intro x hx
    rcases List.mem_cons.1 hx with rfl | hx
    · exact hz
    · exact ih hc2 hh x hx

theorem isMinusOne_iff (zi : List Int) : isMinusOne zi = true ↔ ∀ z ∈ zi, z = 0 := by
  simp [isMinusOne, List.all_eq_true]

theorem eq_replicate_of_allZero (zi : List Int) (h : ∀ z ∈ zi, z = 0) :
    zi = List.replicate zi.length 0 :=
  List.eq_replicate_iff.2 ⟨rfl, h⟩

theorem horner_replicate_zero (b : Int) (n : Nat) : horner b (List.replicate n 0) = 0 := by
  induction n with
  | zero => rfl
  | succ n ih => simp [List.replicate_succ, horner, ih]

theorem minusOneVec_succ (n : Nat) : minusOneVec (n + 1) = -1 :: List.replicate n 0 := by
  simp [minusOneVec, List.replicate_succ]

theorem horner_minusOneVec (b : Int) (n : Nat) (hn : 0 < n) : horner b (minusOneVec n) = -1 := by
  obtain ⟨m, rfl⟩ := Nat.exists_eq_succ_of_ne_zero (Nat.pos_iff_ne_zero.1 hn)
  simp [minusOneVec_succ, horner, horner_replicate_zero]

theorem passMeasure_le_passBound (f : Int) : passMeasure f ≤ passBound f := by
  unfold passMeasure passBound
  split_ifs <;> omega

theorem passMeasure_le (f : Int) : passMeasure f ≤ f.natAbs + 1 := by
  unfold passMeasure
  split_ifs <;> omega

/-- One pass of the `while` loop strictly decreases the measure unless it ends
in the all-zero state with carry one. -/
theorem passMeasure_decreases (B D D1 f f1 : Int) (hB : 2 ≤ B) (hD0 : 0 ≤ D) (hD : D < B)
    (hE0 : 0 ≤ D1) (hE : D1 < B) (hf : f ≠ 0) (e : -f + D = D1 + f1 * B)
    (hns : ¬ (f1 = 1 ∧ D1 = 0)) : passMeasure f1 < passMeasure f := by
  by_cases hm : f = -1
  · subst hm
    have h1 : 0 ≤ f1 := by
      by_contra h
      have : f1 ≤ -1 := by omega
      nlinarith
    have h2 : f1 ≤ 1 := by
      by_contra h
      have : 2 ≤ f1 := by omega
      nlinarith
    have h3 : f1 ≠ 1 := by
      intro h
      apply hns
      refine ⟨h, ?_⟩
      subst h
      linarith
    have : f1 = 0 := by omega
    subst this
    simp [passMeasure]
  by_cases hp : f = 1
  · subst hp
    have h1 : -1 ≤ f1 := by
      by_contra h
      have : f1 ≤ -2 := by omega
      nlinarith
    have h2 : f1 ≤ 0 := by
      by_contra h
      have : 1 ≤ f1 := by omega
      nlinarith
    have : f1 = 0 ∨ f1 = -1 := by omega
    rcases this with rfl | rfl <;> simp [passMeasure]
  · have hlt : f1.natAbs < f.natAbs := by
      rcases lt_or_gt_of_ne hf with hneg | hpos
      · have hf2 : f ≤ -2 := by omega
        have h1 : 0 ≤ f1 := by
          by_contra h
          have : f1 ≤ -1 := by omega
          nlinarith
        have h2 : f1 < -f := by
          by_contra h
          have h' : -f ≤ f1 := by omega
          nlinarith [mul_nonneg (show (0:Int) ≤ -f - 1 by omega) (show (0:Int) ≤ B - 2 by omega)]
        omega
      · have hf2 : 2 ≤ f := by omega
        have h1 : f1 ≤ 0 := by
          by_contra h
          have : 1 ≤ f1 := by omega
          nlinarith
        have h2 : -f < f1 := by
          by_contra h
          have h' : f1 ≤ -f := by omega
          nlinarith [mul_nonneg (show (0:Int) ≤ f - 1 by omega) (show (0:Int) ≤ B - 2 by omega)]
        omega
    have := passMeasure_le f1
    have hfm : passMeasure f = f.natAbs + 1 := by
      unfold passMeasure
      rw [if_neg hf, if_neg hm, if_neg hp]
    omega

theorem two_le_pow_length (base : Int) (hb : 2 ≤ base) (zi : List Int) (hne : zi ≠ []) :
    2 ≤ base ^ zi.length := by
  obtain ⟨z, zs, rfl⟩ := List.exists_cons_of_ne_nil hne
  have h1 : (1 : Int) ≤ base ^ zs.length := one_le_pow₀ (by omega)
  simp only [List.length_cons, pow_succ]
  nlinarith

/-- Outcome of the `while` loop: with enough fuel it returns, either with carry
zero and canonical digits of the same residue, or with carry one and the
special vector when the residue is `-1`. -/
theorem whileLoop_spec (base : Int) (hb : 2 ≤ base) (fuel : Nat) :
    ∀ (f : Int) (zi : List Int), Canonical base zi → (f = 0 ∨ zi ≠ []) →
      passMeasure f ≤ fuel →
      ∃ zi' f', whileLoop base fuel f zi = some (zi', f') ∧ zi'.length = zi.length ∧
        ((f' = 0 ∧ Canonical base zi' ∧
            horner base zi' ≡ horner base zi - f [ZMOD base ^ zi.length + 1]) ∨
         (f' = 1 ∧ zi' = minusOneVec zi.length ∧ zi ≠ [] ∧
            horner base zi - f ≡ -1 [ZMOD base ^ zi.length + 1])) := by
  have hb0 : 0 < base := by omega
  induction fuel with
  | zero =>
    intro f zi hc _ hm
    have hf : f = 0 := by
      by_contra h
      unfold passMeasure at hm
      rw [if_neg h] at hm
      split_ifs at hm <;> omega
    subst hf
    exact ⟨zi, 0, by simp [whileLoop], rfl, Or.inl ⟨rfl, hc, by simp [Int.ModEq]⟩⟩
  | succ fuel ih =>
    intro f zi hc hne hm
    by_cases hf : f = 0
    · subst hf
      exact ⟨zi, 0, by simp [whileLoop], rfl, Or.inl ⟨rfl, hc, by simp [Int.ModEq]⟩⟩
    · have hne' : zi ≠ [] := hne.resolve_left hf
      obtain ⟨hl, hc1, he⟩ := carryPass_spec base hb0 zi (-f) hc
      obtain ⟨hD0, hD⟩ := horner_bounds base hb0 zi hc
      obtain ⟨hE0, hE⟩ := horner_bounds base hb0 _ hc1
      rw [hl] at hE
      have hB := two_le_pow_length base hb zi hne'
      simp only [whileLoop, if_neg hf]
      by_cases hs : (carryPass base (-f) zi).2 = 1 ∧ isMinusOne (carryPass base (-f) zi).1 = true
      · rw [if_pos hs]
        obtain ⟨hs1, hs2⟩ := hs
        have hz := eq_replicate_of_allZero _ ((isMinusOne_iff _).1 hs2)
        rw [hl] at hz
        refine ⟨_, _, rfl, by simp [hl], Or.inr ⟨hs1, ?_, hne', ?_⟩⟩
        · rw [hz]; rfl
        · rw [hz, horner_replicate_zero, hs1] at he
          have : horner base zi - f = -1 + (base ^ zi.length + 1) * 1 := by linarith
          rw [this]
          exact Int.modEq_add_fac_self
      · rw [if_neg hs]
        have hdec : passMeasure (carryPass base (-f) zi).2 < passMeasure f := by
          apply passMeasure_decreases (base ^ zi.length) (horner base zi)
            (horner base (carryPass base (-f) zi).1) f _ hB hD0 hD hE0 hE hf he
          intro ⟨h1, h2⟩
          exact hs ⟨h1, (isMinusOne_iff _).2 (allZero_of_horner_eq_zero base hb0 _ hc1 h2)⟩
        have hne2 : (carryPass base (-f) zi).2 = 0 ∨ (carryPass base (-f) zi).1 ≠ [] := by
          right
          intro h
          rw [h] at hl
          exact hne' (List.length_eq_zero.1 hl.symm)
        obtain ⟨zi', f', hw, hl', hres⟩ := ih _ _ hc1 hne2 (by omega)
        refine ⟨zi', f', hw, by rw [hl', hl], ?_⟩
        rw [hl] at hres
        have key : horner base (carryPass base (-f) zi).1 - (carryPass base (-f) zi).2
            ≡ horner base zi - f [ZMOD base ^ zi.length + 1] := by
          have : horner base zi - f = horner base (carryPass base (-f) zi).1
              - (carryPass base (-f) zi).2
              + (base ^ zi.length + 1) * (carryPass base (-f) zi).2 := by linarith
          rw [this]
          exact (Int.modEq_add_fac_self).symm
        rcases hres with ⟨h1, h2, h3⟩ | ⟨h1, h2, _, h4⟩
        · exact Or.inl ⟨h1, h2, h3.trans key⟩
        · exact Or.inr ⟨h1, h2, hne', key.symm.trans h4⟩

/-- Fuel is monotone: a result obtained with `fuel` passes is obtained with more. -/
theorem whileLoop_mono (base : Int) (fuel : Nat) :
    ∀ (k : Nat) (f : Int) (zi : List Int) (r : List Int × Int),
      whileLoop base fuel f zi = some r → whileLoop base (fuel + k) f zi = some r := by
  induction fuel with
  | zero =>
    intro k f zi r h
    by_cases hf : f = 0
    · cases k <;> simpa [whileLoop, hf] using h
    · simp [whileLoop, hf] at h
  | succ fuel ih =>
    intro k f zi r h
    rw [show fuel + 1 + k = (fuel + k) + 1 by omega]
    simp only [whileLoop] at h ⊢
    by_cases hf : f = 0
    · simpa [hf] using h
    · rw [if_neg hf] at h ⊢
      split_ifs at h ⊢ with hs
      · exact h
      · exact ih k _ _ r h

/-- Outcome of `unbalance`: it returns, with canonical digits of the same
residue or with the special vector when the residue is `-1`. -/
theorem unbalance_spec (b : Nat) (hb : 2 ≤ b) (zi : List Int) :
    ∃ zi', unbalance b zi = some zi' ∧ zi'.length = zi.length ∧
      ((Canonical b zi' ∧ horner b zi' ≡ horner b zi [ZMOD (b : Int) ^ zi.length + 1]) ∨
       (zi' = minusOneVec zi.length ∧ zi ≠ [] ∧
          horner b zi ≡ -1 [ZMOD (b : Int) ^ zi.length + 1])) := by
  have hb2 : (2 : Int) ≤ (b : Int) := by exact_mod_cast hb
  have hb0 : (0 : Int) < (b : Int) := by omega
  obtain ⟨hl, hc, he⟩ := firstPass_spec (b : Int) hb0 zi 0
  have hne : (firstPass (b : Int) 0 zi).2 = 0 ∨ (firstPass (b : Int) 0 zi).1 ≠ [] := by
    cases zi with
    | nil => left; rfl
    | cons z zs =>
      right
      intro h
      rw [h] at hl
      simp at hl
  obtain ⟨zi', f', hw, hl', hres⟩ :=
    whileLoop_spec (b : Int) hb2 _ _ _ hc hne (passMeasure_le_passBound _)
  rw [hl] at hres
  have key : horner (b : Int) (firstPass (b : Int) 0 zi).1 - (firstPass (b : Int) 0 zi).2
      ≡ horner (b : Int) zi [ZMOD (b : Int) ^ zi.length + 1] := by
    have : horner (b : Int) zi = horner (b : Int) (firstPass (b : Int) 0 zi).1
        - (firstPass (b : Int) 0 zi).2
        + ((b : Int) ^ zi.length + 1) * (firstPass (b : Int) 0 zi).2 := by linarith
    rw [this]
    exact (Int.modEq_add_fac_self).symm
  refine ⟨zi', by simp [unbalance, hw], by rw [hl', hl], ?_⟩
  rcases hres with ⟨_, h2, h3⟩ | ⟨_, h2, h3, h4⟩
  · exact Or.inl ⟨h2, h3.trans key⟩
  · refine Or.inr ⟨h2, ?_, key.symm.trans h4⟩
    intro h
    apply h3
    subst h
    rfl

theorem foldl_and_eq (l : List Int) (a : Bool) :
    l.foldl (fun acc z => acc && decide (z = 0)) a = (a && l.all (fun z => decide (z = 0))) := by
  induction l generalizing a with
  | nil => simp
  | cons z zs ih => simp [List.foldl_cons, ih, Bool.and_assoc]

theorem isOneFlag_cons (z : Int) (zs : List Int) :
    isOneFlag (z :: zs) = true ↔ z = 1 ∧ ∀ x ∈ zs, x = 0 := by
  unfold isOneFlag
  simp only [List.getD_cons_zero, List.drop_one, List.tail_cons, foldl_and_eq]
  by_cases h : z = 1 <;> simp [h, List.all_eq_true]

theorem isOneFlag_minusOneVec (n : Nat) : isOneFlag (minusOneVec n) = false := by
  cases n with
  | zero => rfl
  | succ n =>
    rw [minusOneVec_succ]
    apply Bool.eq_false_iff.2
    intro h
    have := ((isOneFlag_cons _ _).1 h).1
    omega

theorem minusOneVec_eq (n : Nat) (hn : 0 < n) :
    minusOneVec n = -1 :: List.replicate (n - 1) 0 := by
  obtain ⟨m, rfl⟩ := Nat.exists_eq_succ_of_ne_zero (Nat.pos_iff_ne_zero.1 hn)
  simp [minusOneVec_succ]

/-- A canonical digit vector congruent to `-1` does not exist. -/
theorem canonical_not_minusOne (base : Int) (hb : 0 < base) (zi : List Int) (n : Nat)
    (hc : Canonical base zi) (hl : zi.length = n)
    (h : horner base zi ≡ -1 [ZMOD base ^ n + 1]) : False := by
  obtain ⟨h0, h1⟩ := horner_bounds base hb zi hc
  rw [hl] at h1
  have hd : base ^ n + 1 ∣ horner base zi + 1 := by
    have := (Int.modEq_iff_dvd.1 h.symm)
    simpa [sub_neg_eq_add] using this
  have := Int.le_of_dvd (by omega) hd
  omega

/-- A canonical digit vector congruent to `1` is `(1, 0, ..., 0)`. -/
theorem canonical_one (base : Int) (hb : 2 ≤ base) (zi : List Int) (n : Nat)
    (hc : Canonical base zi) (hl : zi.length = n) (hn : 0 < n)
    (h : horner base zi ≡ 1 [ZMOD base ^ n + 1]) : isOneFlag zi = true := by
  have hb0 : 0 < base := by omega
  obtain ⟨h0, h1⟩ := horner_bounds base hb0 zi hc
  rw [hl] at h1
  have hv : horner base zi = 1 := by
    have hd : base ^ n + 1 ∣ horner base zi - 1 := by
      have := (Int.modEq_iff_dvd.1 h.symm)
      simpa using this
    by_contra hne
    rcases lt_or_gt_of_ne hne with hlt | hgt
    · have h00 : horner base zi = 0 := by omega
      rw [h00] at hd
      have hd1 : base ^ n + 1 ∣ 1 := by
        have : base ^ n + 1 ∣ -1 := by simpa using hd
        exact (Int.dvd_neg).1 this
      have := Int.le_of_dvd one_pos hd1
      have : (1:Int) ≤ base ^ n := one_le_pow₀ (by omega)
      omega
    · have := Int.le_of_dvd (by omega) hd
      omega
  cases zi with
  | nil => simp at hl; omega
  | cons z zs =>
    have hc2 : Canonical base zs := fun x hx => hc x (List.mem_cons_of_mem _ hx)
    obtain ⟨g0, _⟩ := horner_bounds base hb0 zs hc2
    obtain ⟨hz0, hz1⟩ := hc z (List.mem_cons_self _ _)
    simp only [horner] at hv
    have hh : horner base zs = 0 := by
      by_contra hne
      have : 1 ≤ horner base zs := by omega
      nlinarith
    rw [hh] at hv
    exact (isOneFlag_cons z zs).2 ⟨by linarith, allZero_of_horner_eq_zero base hb0 zs hc2 hh⟩

theorem horner_of_isOneFlag (base : Int) (zi : List Int) (hne : zi ≠ [])
    (h : isOneFlag zi = true) : horner base zi = 1 := by
  obtain ⟨z, zs, rfl⟩ := List.exists_cons_of_ne_nil hne
  obtain ⟨hz, hzs⟩ := (isOneFlag_cons z zs).1 h
  rw [eq_replicate_of_allZero zs hzs]
  simp [horner, horner_replicate_zero, hz]

/-! ## Residue extraction: the properties -/

/-- On unbounded integers: for every base `b >= 2` and every digit vector `zi` of
length `N >= 8`, `isOne` returns, and the boolean it returns is true if and only
if `sum_i zi[i] * b^i` is congruent to 1 modulo `b^N + 1`. -/
theorem isOne_iff_residue_one_int (b : Nat) (hb : 2 ≤ b) (zi : List Int)
    (hN : 8 ≤ zi.length) :
    ∃ flag residue, isOne b zi = some (flag, residue) ∧
      (flag = true ↔ digitSum b zi ≡ 1 [ZMOD (b : Int) ^ zi.length + 1]) := by
  have hb2 : (2 : Int) ≤ (b : Int) := by exact_mod_cast hb
  have hne : zi ≠ [] := by
    intro h
    rw [h] at hN
    simp at hN
  obtain ⟨zi', hu, hl, hres⟩ := unbalance_spec b hb zi
  refine ⟨isOneFlag zi', fingerprint zi.length zi', ?_, ?_⟩
  · simp [isOne, hu, Nat.not_lt.2 hN]
  · rw [digitSum_eq_horner]
    rcases hres with ⟨hc, hm⟩ | ⟨hv, _, hm⟩
    · constructor
      · intro hflag
        have hne' : zi' ≠ [] := by
          intro h
          rw [h] at hl
          exact hne (List.length_eq_zero.1 hl.symm)
        have h1 := horner_of_isOneFlag (b : Int) zi' hne' hflag
        have h2 := hm.symm
        rwa [h1] at h2
      · intro h1
        exact canonical_one (b : Int) hb2 zi' zi.length hc hl (by omega) (hm.trans h1)
    · rw [hv, isOneFlag_minusOneVec]
      constructor
      · intro h
        exact absurd h (by decide)
      · intro h1
        exfalso
        have hB := two_le_pow_length (b : Int) hb2 zi hne
        have hd : (b : Int) ^ zi.length + 1 ∣ 1 - -1 := Int.modEq_iff_dvd.1 (hm.symm.trans h1)
        have := Int.le_of_dvd (by norm_num) hd
        omega

/-- On unbounded integers: for every base `b >= 2` and every digit vector `zi`,
`unbalance` preserves the represented residue: the sum `sum_i zi'[i] * b^i` of
its output is congruent to `sum_i zi[i] * b^i` modulo `b^N + 1`, the special
output `(-1, 0, ..., 0)` included. -/
theorem unbalance_preserves_residue_int (b : Nat) (hb : 2 ≤ b) (zi : List Int) :
    ∃ zi', unbalance b zi = some zi' ∧
      digitSum b zi' ≡ digitSum b zi [ZMOD (b : Int) ^ zi.length + 1] := by
  obtain ⟨zi', hu, _, hres⟩ := unbalance_spec b hb zi
  refine ⟨zi', hu, ?_⟩
  rw [digitSum_eq_horner, digitSum_eq_horner]
  rcases hres with ⟨_, hm⟩ | ⟨hv, hne, hm⟩
  · exact hm
  · rw [hv, horner_minusOneVec _ _ (List.length_pos.2 hne)]
    exact hm.symm

/-- Balanced digits represent an integer of absolute value below `b^N`. -/
theorem balanced_bound (base : Int) (hb : 2 ≤ base) (zi : List Int) (hbal : Balanced base zi) :
    -(base * (base ^ zi.length - 1)) ≤ 2 * (base - 1) * horner base zi ∧
      2 * (base - 1) * horner base zi ≤ base * (base ^ zi.length - 1) := by
  induction zi with
  | nil => simp [horner]
  | cons z zs ih =>
    have hb2 : Balanced base zs := fun x hx => hbal x (List.mem_cons_of_mem _ hx)
    obtain ⟨h0, h1⟩ := ih hb2
    obtain ⟨hz0, hz1⟩ := hbal z (List.mem_cons_self _ _)
    simp only [horner, List.length_cons, pow_succ]
    constructor
    · nlinarith
    · nlinarith

/-- After the first pass over balanced digits the carry is `0` or `-1`. -/
theorem firstPass_carry_of_balanced (base : Int) (hb : 2 ≤ base) (zi : List Int)
    (hbal : Balanced base zi) :
    (firstPass base 0 zi).2 = 0 ∨ (firstPass base 0 zi).2 = -1 := by
  have hb0 : 0 < base := by omega
  obtain ⟨hl, hc, he⟩ := firstPass_spec base hb0 zi 0
  obtain ⟨hD0, hD⟩ := horner_bounds base hb0 _ hc
  obtain ⟨h0, h1⟩ := balanced_bound base hb zi hbal
  rw [hl] at hD
  have hB : (1 : Int) ≤ base ^ zi.length := one_le_pow₀ (by omega)
  rw [zero_add] at he
  rw [he] at h0 h1
  have hu : (firstPass base 0 zi).2 ≤ 0 := by
    by_contra h
    have h' : 1 ≤ (firstPass base 0 zi).2 := by omega
    nlinarith [mul_nonneg (show (0:Int) ≤ base - 2 by omega) (show (0:Int) ≤ base ^ zi.length by omega),
      mul_nonneg (show (0:Int) ≤ (firstPass base 0 zi).2 - 1 by omega) (show (0:Int) ≤ base ^ zi.length by omega),
      mul_nonneg (mul_nonneg (show (0:Int) ≤ (firstPass base 0 zi).2 - 1 by omega) (show (0:Int) ≤ base ^ zi.length by omega)) (show (0:Int) ≤ base - 1 by omega),
      mul_nonneg (show (0:Int) ≤ base - 1 by omega) hD0]
  have hlow : -1 ≤ (firstPass base 0 zi).2 := by
    by_contra h
    have h' : (firstPass base 0 zi).2 ≤ -2 := by omega
    nlinarith [mul_nonneg (show (0:Int) ≤ base - 2 by omega) (show (0:Int) ≤ base ^ zi.length by omega),
      mul_nonneg (show (0:Int) ≤ -(firstPass base 0 zi).2 - 2 by omega) (show (0:Int) ≤ base ^ zi.length by omega),
      mul_nonneg (mul_nonneg (show (0:Int) ≤ -(firstPass base 0 zi).2 - 2 by omega) (show (0:Int) ≤ base ^ zi.length by omega)) (show (0:Int) ≤ base - 1 by omega),
      mul_nonneg (show (0:Int) ≤ base - 1 by omega) (show (0:Int) ≤ base ^ zi.length - 1 - horner base (firstPass base 0 zi).1 by omega)]
  omega

/-- C4. For every base `b >= 2` and every vector of `N >= 1` balanced digits
in `(-b/2, b/2]`, the `while` loop of `unbalance` terminates within two
passes, and it exits either with carry `f = 0` or through the special case
(carry `f = 1`) that leaves `(-1, 0, ..., 0)` in `zi`. -/
theorem whileLoop_terminates_balanced (b : Nat) (hb : 2 ≤ b) (zi : List Int)
    (hN : 1 ≤ zi.length) (hbal : Balanced (b : Int) zi) :
    ∃ zi' f', whileLoop (b : Int) 2 (firstPass (b : Int) 0 zi).2 (firstPass (b : Int) 0 zi).1
        = some (zi', f') ∧
      unbalance b zi = some zi' ∧
      (f' = 0 ∨ (f' = 1 ∧ zi' = -1 :: List.replicate (zi.length - 1) 0)) := by
  have hb2 : (2 : Int) ≤ (b : Int) := by exact_mod_cast hb
  have hb0 : (0 : Int) < (b : Int) := by omega
  obtain ⟨hl, hc, _⟩ := firstPass_spec (b : Int) hb0 zi 0
  have hne : (firstPass (b : Int) 0 zi).2 = 0 ∨ (firstPass (b : Int) 0 zi).1 ≠ [] := by
    right
    intro h
    rw [h] at hl
    simp at hl
    omega
  have hm : passMeasure (firstPass (b : Int) 0 zi).2 ≤ 2 := by
    rcases firstPass_carry_of_balanced (b : Int) hb2 zi hbal with h | h <;>
      rw [h] <;> decide
  obtain ⟨zi', f', hw, _, hres⟩ := whileLoop_spec (b : Int) hb2 2 _ _ hc hne hm
  have hk : 2 + (passBound (firstPass (b : Int) 0 zi).2 - 2)
      = passBound (firstPass (b : Int) 0 zi).2 := by
    unfold passBound
    omega
  have hw2 := whileLoop_mono (b : Int) 2 (passBound (firstPass (b : Int) 0 zi).2 - 2) _ _ _ hw
  rw [hk] at hw2
  refine ⟨zi', f', hw, by simp [unbalance, hw2], ?_⟩
  rcases hres with ⟨h1, _, _⟩ | ⟨h1, h2, _, _⟩
  · exact Or.inl h1
  · right
    refine ⟨h1, ?_⟩
    rw [h2, hl]
    exact minusOneVec_eq _ (by omega)

/-- Witness for C4: base 10, the balanced digits of `-1`. -/
theorem whileLoop_terminates_balanced_witness :
    (2 ≤ 10 ∧ 1 ≤ [(-1 : Int), 0, 0].length ∧ Balanced ((10 : Nat) : Int) [-1, 0, 0]) ∧
    ∃ zi' f', whileLoop ((10 : Nat) : Int) 2 (firstPass ((10 : Nat) : Int) 0 [-1, 0, 0]).2
          (firstPass ((10 : Nat) : Int) 0 [-1, 0, 0]).1 = some (zi', f') ∧
      unbalance 10 [-1, 0, 0] = some zi' ∧
      (f' = 0 ∨ (f' = 1 ∧ zi' = -1 :: List.replicate ([(-1 : Int), 0, 0].length - 1) 0)) :=
  have hbal : Balanced ((10 : Nat) : Int) [-1, 0, 0] := by
    intro z hz
    simp only [List.mem_cons, List.mem_singleton, List.not_mem_nil, or_false] at hz
    rcases hz with rfl | rfl | rfl <;> decide
  ⟨⟨by decide, by decide, hbal⟩,
    whileLoop_terminates_balanced 10 (by decide) [-1, 0, 0] (by decide) hbal⟩

/-- C5. For every base `b >= 2` and every digit vector of length `N` (balanced
or not) whose value `sum_i zi[i] * b^i` is congruent to `-1` modulo `b^N + 1`,
`unbalance` leaves `zi[0] = -1` and every other digit `0`; on that vector the
test of `isOne` is false, so `isOne` returns false (it returns for `N >= 8`). -/
theorem unbalance_minusOne (b : Nat) (hb : 2 ≤ b) (zi : List Int)
    (hm : digitSum b zi ≡ -1 [ZMOD (b : Int) ^ zi.length + 1]) :
    unbalance b zi = some (-1 :: List.replicate (zi.length - 1) 0) ∧
      isOneFlag (-1 :: List.replicate (zi.length - 1) 0) = false ∧
      (8 ≤ zi.length → ∃ residue, isOne b zi = some (false, residue)) := by
  have hb0 : (0 : Int) < (b : Int) := by exact_mod_cast (show 0 < b by omega)
  rw [digitSum_eq_horner] at hm
  obtain ⟨zi', hu, hl, hres⟩ := unbalance_spec b hb zi
  rcases hres with ⟨hc, h⟩ | ⟨hv, hne, _⟩
  · exact (canonical_not_minusOne (b : Int) hb0 zi' zi.length hc hl (h.trans hm)).elim
  · have hpos : 0 < zi.length := List.length_pos.2 hne
    have hflag : isOneFlag (-1 :: List.replicate (zi.length - 1) 0) = false := by
      rw [← minusOneVec_eq _ hpos]
      exact isOneFlag_minusOneVec _
    rw [minusOneVec_eq _ hpos] at hv
    rw [hv] at hu
    refine ⟨hu, hflag, ?_⟩
    intro hN
    exact ⟨fingerprint zi.length (-1 :: List.replicate (zi.length - 1) 0),
      by simp only [isOne, hu, Nat.not_lt.2 hN, if_false, Option.map_some', hflag]⟩

/-- The digits `(0, 0, b)` of `b^N` for `b = 10`, `N = 3` are turned into the
special vector on the second pass of the `while` loop. -/
theorem unbalance_digits_of_pow :
    unbalance 10 [0, 0, 10] = some [-1, 0, 0] ∧
      whileLoop 10 1 (firstPass 10 0 [0, 0, 10]).2 (firstPass 10 0 [0, 0, 10]).1 = none ∧
      whileLoop 10 2 (firstPass 10 0 [0, 0, 10]).2 (firstPass 10 0 [0, 0, 10]).1
        = some ([-1, 0, 0], 1) := by
  decide

/-- Witness for C5: base 10, nine digits, the vector `(-1, 0, ..., 0)`. -/
theorem unbalance_minusOne_witness :
    (2 ≤ 10 ∧ digitSum ((10 : Nat) : Int) [-1, 0, 0, 0, 0, 0, 0, 0, 0]
        ≡ -1 [ZMOD ((10 : Nat) : Int) ^ [(-1 : Int), 0, 0, 0, 0, 0, 0, 0, 0].length + 1]) ∧
    (unbalance 10 [-1, 0, 0, 0, 0, 0, 0, 0, 0]
        = some (-1 :: List.replicate ([(-1 : Int), 0, 0, 0, 0, 0, 0, 0, 0].length - 1) 0) ∧
      isOneFlag (-1 :: List.replicate ([(-1 : Int), 0, 0, 0, 0, 0, 0, 0, 0].length - 1) 0)
        = false ∧
      (8 ≤ [(-1 : Int), 0, 0, 0, 0, 0, 0, 0, 0].length →
        ∃ residue, isOne 10 [-1, 0, 0, 0, 0, 0, 0, 0, 0] = some (false, residue))) :=
  have hm : digitSum ((10 : Nat) : Int) [-1, 0, 0, 0, 0, 0, 0, 0, 0]
      ≡ -1 [ZMOD ((10 : Nat) : Int) ^ [(-1 : Int), 0, 0, 0, 0, 0, 0, 0, 0].length + 1] := by
    decide
  ⟨⟨by decide, hm⟩, unbalance_minusOne 10 (by decide) [-1, 0, 0, 0, 0, 0, 0, 0, 0] hm⟩

theorem toUChar_lt (z : Int) : toUChar z < 256 := by
  unfold toUChar
  have h1 : 0 ≤ z % 256 := Int.emod_nonneg _ (by norm_num)
  have h2 : z % 256 < 256 := Int.emod_lt_of_pos _ (by norm_num)
  omega

/-- One step of the fingerprint loop on a value that still fits below `2^56`. -/
theorem shiftOr_eq (res c : Nat) (hr : res < 2 ^ 56) (hc : c < 256) :
    ((res <<< 8) % 2 ^ 64) ||| c = res * 256 + c := by
  have h1 : res <<< 8 = 2 ^ 8 * res := by rw [Nat.shiftLeft_eq, Nat.mul_comm]
  have h2 : 2 ^ 8 * res < 2 ^ 64 := by omega
  rw [h1, Nat.mod_eq_of_lt h2, ← Nat.mul_add_lt_is_or (by simpa using hc) res]
  omega

theorem fingerprint_eq_sum (size : Nat) (zi : List Int) :
    fingerprint size zi
      = ∑ i in Finset.Icc 1 8, (zi.getD (size - i) 0 % 256).toNat * 256 ^ (i - 1) := by
  have hsum : ∀ c : Nat → Nat, ∑ i in Finset.Icc 1 8, c i * 256 ^ (i - 1)
      = c 1 + c 2 * 256 + c 3 * 256 ^ 2 + c 4 * 256 ^ 3 + c 5 * 256 ^ 4 + c 6 * 256 ^ 5
        + c 7 * 256 ^ 6 + c 8 * 256 ^ 7 := by
    intro c
    have : Finset.Icc 1 8 = ({1, 2, 3, 4, 5, 6, 7, 8} : Finset Nat) := by decide
    rw [this]
    simp [Finset.sum_insert]
    ring
  rw [hsum (fun i => (zi.getD (size - i) 0 % 256).toNat)]
  unfold fingerprint
  simp only [List.foldl]
  have b1 := toUChar_lt (zi.getD (size - 1) 0)
  have b2 := toUChar_lt (zi.getD (size - 2) 0)
  have b3 := toUChar_lt (zi.getD (size - 3) 0)
  have b4 := toUChar_lt (zi.getD (size - 4) 0)
  have b5 := toUChar_lt (zi.getD (size - 5) 0)
  have b6 := toUChar_lt (zi.getD (size - 6) 0)
  have b7 := toUChar_lt (zi.getD (size - 7) 0)
  have b8 := toUChar_lt (zi.getD (size - 8) 0)
  change _ = toUChar (zi.getD (size - 1) 0) + toUChar (zi.getD (size - 2) 0) * 256
    + toUChar (zi.getD (size - 3) 0) * 256 ^ 2 + toUChar (zi.getD (size - 4) 0) * 256 ^ 3
    + toUChar (zi.getD (size - 5) 0) * 256 ^ 4 + toUChar (zi.getD (size - 6) 0) * 256 ^ 5
    + toUChar (zi.getD (size - 7) 0) * 256 ^ 6 + toUChar (zi.getD (size - 8) 0) * 256 ^ 7
  generalize toUChar (zi.getD (size - 1) 0) = c1 at *
  generalize toUChar (zi.getD (size - 2) 0) = c2 at *
  generalize toUChar (zi.getD (size - 3) 0) = c3 at *
  generalize toUChar (zi.getD (size - 4) 0) = c4 at *
  generalize toUChar (zi.getD (size - 5) 0) = c5 at *
  generalize toUChar (zi.getD (size - 6) 0) = c6 at *
  generalize toUChar (zi.getD (size - 7) 0) = c7 at *
  generalize toUChar (zi.getD (size - 8) 0) = c8 at *
  rw [shiftOr_eq 0 c8 (by norm_num) b8]
  rw [shiftOr_eq _ c7 (by omega) b7]
  rw [shiftOr_eq _ c6 (by omega) b6]
  rw [shiftOr_eq _ c5 (by omega) b5]
  rw [shiftOr_eq _ c4 (by omega) b4]
  rw [shiftOr_eq _ c3 (by omega) b3]
  rw [shiftOr_eq _ c2 (by omega) b2]
  rw [shiftOr_eq _ c1 (by omega) b1]
  ring

/-- C6. For every size `N >= 8` the fingerprint returned by `isOne` is built
from the last eight unbalanced digits, each truncated to its low 8 bits:
`residue = sum_{i=1..8} (zi[N - i] mod 256) * 256^(i-1)`, with `zi[N-8]` the
most significant and `zi[N-1]` the least significant byte. -/
theorem isOne_fingerprint (b : Nat) (zi : List Int) (hN : 8 ≤ zi.length) :
    isOne b zi = (unbalance b zi).map (fun z =>
      (isOneFlag z,
        ∑ i in Finset.Icc 1 8, (z.getD (zi.length - i) 0 % 256).toNat * 256 ^ (i - 1))) ∧
    (2 ≤ b → ∃ zi', unbalance b zi = some zi' ∧ zi'.length = zi.length ∧
      isOne b zi = some (isOneFlag zi',
        ∑ i in Finset.Icc 1 8, (zi'.getD (zi.length - i) 0 % 256).toNat * 256 ^ (i - 1))) := by
  have hmap : isOne b zi = (unbalance b zi).map (fun z =>
      (isOneFlag z,
        ∑ i in Finset.Icc 1 8, (z.getD (zi.length - i) 0 % 256).toNat * 256 ^ (i - 1))) := by
    unfold isOne
    simp only [Nat.not_lt.2 hN, if_false, fingerprint_eq_sum]
  refine ⟨hmap, ?_⟩
  intro hb
  obtain ⟨zi', hu, hl, _⟩ := unbalance_spec b hb zi
  refine ⟨zi', hu, hl, ?_⟩
  rw [hmap, hu]
  rfl

/-- Witness for C6: base 1000, nine digits with top digit 999. -/
theorem isOne_fingerprint_witness :
    8 ≤ [(-1 : Int), 0, 0, 0, 0, 0, 0, 0, 999].length ∧
    (isOne 1000 [-1, 0, 0, 0, 0, 0, 0, 0, 999]
      = (unbalance 1000 [-1, 0, 0, 0, 0, 0, 0, 0, 999]).map (fun z =>
        (isOneFlag z,
          ∑ i in Finset.Icc 1 8,
            (z.getD ([(-1 : Int), 0, 0, 0, 0, 0, 0, 0, 999].length - i) 0 % 256).toNat
              * 256 ^ (i - 1))) ∧
    (2 ≤ 1000 → ∃ zi', unbalance 1000 [-1, 0, 0, 0, 0, 0, 0, 0, 999] = some zi' ∧
      zi'.length = [(-1 : Int), 0, 0, 0, 0, 0, 0, 0, 999].length ∧
      isOne 1000 [-1, 0, 0, 0, 0, 0, 0, 0, 999] = some (isOneFlag zi',
        ∑ i in Finset.Icc 1 8,
          (zi'.getD ([(-1 : Int), 0, 0, 0, 0, 0, 0, 0, 999].length - i) 0 % 256).toNat
            * 256 ^ (i - 1)))) :=
  ⟨by decide, isOne_fingerprint 1000 [-1, 0, 0, 0, 0, 0, 0, 0, 999] (by decide)⟩

theorem firstPass_replicate_zero (base : Int) (hb : 0 < base) (n : Nat) :
    firstPass base 0 (List.replicate n 0) = (List.replicate n 0, 0) := by
  induction n with
  | zero => rfl
  | succ n ih =>
    rw [List.replicate_succ, firstPass_eq base hb]
    simp [ih]

/-- The digits of the integer 1 are left unchanged by `unbalance`. -/
theorem unbalance_one (b : Nat) (hb : 2 ≤ b) (n : Nat) :
    unbalance b (1 :: List.replicate n 0) = some (1 :: List.replicate n 0) := by
  have hb2 : (2 : Int) ≤ (b : Int) := by exact_mod_cast hb
  have hb0 : (0 : Int) < (b : Int) := by omega
  have h1 : (1 : Int) % (b : Int) = 1 := Int.emod_eq_of_lt (by norm_num) (by omega)
  have h2 : (1 : Int) / (b : Int) = 0 := Int.ediv_eq_zero_of_lt (by norm_num) (by omega)
  have hf : firstPass (b : Int) 0 (1 :: List.replicate n 0) = (1 :: List.replicate n 0, 0) := by
    rw [firstPass_eq (b : Int) hb0]
    simp [h1, h2, firstPass_replicate_zero (b : Int) hb0]
  unfold unbalance
  simp only [hf]
  simp [passBound, whileLoop]

theorem getD_one_zeros (n k : Nat) (hk : 0 < k) :
    (1 :: List.replicate n (0 : Int)).getD k 0 = 0 := by
  obtain ⟨m, rfl⟩ := Nat.exists_eq_succ_of_ne_zero (Nat.pos_iff_ne_zero.1 hk)
  rw [List.getD_cons_succ, List.getD_eq_getElem?_getD, List.getElem?_replicate]
  split_ifs <;> rfl

/-- The run of `isOne` on the digits `(1, 0, ..., 0)` of the integer 1, for a
size of at least nine digits: the test succeeds and the residue is zero. -/
theorem isOne_one_aux (b : Nat) (hb : 2 ≤ b) (n : Nat) (hn : 8 ≤ n) :
    isOne b (1 :: List.replicate n 0) = some (true, 0) := by
  have hlen : (1 :: List.replicate n (0 : Int)).length = n + 1 := by simp
  have hflag : isOneFlag (1 :: List.replicate n (0 : Int)) = true :=
    (isOneFlag_cons _ _).2 ⟨rfl, fun x hx => (List.mem_replicate.1 hx).2⟩
  have hfp : fingerprint (n + 1) (1 :: List.replicate n (0 : Int)) = 0 := by
    rw [fingerprint_eq_sum]
    apply Finset.sum_eq_zero
    intro i hi
    obtain ⟨h1, h8⟩ := Finset.mem_Icc.1 hi
    rw [getD_one_zeros n (n + 1 - i) (by omega)]
    simp
  unfold isOne
  rw [hlen, if_neg (by omega), unbalance_one b hb n]
  simp [hflag, hfp]

/-- C7 (as amended). For every base `b >= 2` and every size `N >= 9`, `isOne`
applied to the digit vector `(1, 0, ..., 0)` of the integer 1 returns true
together with the fingerprint `0x0000000000000000`: the fingerprint is made of
the last eight digits, which are all zero. -/
theorem isOne_of_one (b : Nat) (hb : 2 ≤ b) (n : Nat) (hn : 8 ≤ n) :
    isOne b (1 :: List.replicate n 0) = some (true, 0) :=
  isOne_one_aux b hb n hn

/-- Witness for C7: the first test case of the driver, `b = 399998300`,
`N = 1024`. -/
theorem isOne_of_one_witness :
    (2 ≤ 399998300 ∧ 8 ≤ 1023) ∧
      isOne 399998300 (1 :: List.replicate 1023 0) = some (true, 0) :=
  ⟨by decide, isOne_of_one 399998300 (by decide) 1023 (by decide)⟩

/-- C7 as stated fails: for `b = 399998300`, `N = 1024` the call of `isOne` on
the digits of 1 does not return the fingerprint `0x0000000000000001`. -/
theorem isOne_of_one_fingerprint_ne_one :
    isOne 399998300 (1 :: List.replicate 1023 0) ≠ some (true, 1) := by
  rw [isOne_one_aux 399998300 (by decide) 1023 (by decide)]
  decide

/-! ## Vcx::shift -/

theorem Vd.get_set {α : Type} {N : Nat} (v : Vd α N) (i j : Fin N) (f : α) :
    (v.set i f).get j = if j = i then f else v.get j := by
  unfold Vd.get Vd.set
  by_cases h : j = i
  · subst h; simp
  · simp [h]

/-- Effect of the loop of `shift`: lanes `1..i` receive their left neighbour,
the other lanes keep their value. -/
theorem Vcx.shiftLoop_get {α : Type} {N : Nat} (i : Nat) :
    ∀ (x : Vcx α N) (h : i < N) (j : Fin N),
      ((x.shiftLoop i h).re.get j
          = if hj : 0 < j.val ∧ j.val ≤ i then x.re.get ⟨j.val - 1, by omega⟩ else x.re.get j) ∧
      ((x.shiftLoop i h).im.get j
          = if hj : 0 < j.val ∧ j.val ≤ i then x.im.get ⟨j.val - 1, by omega⟩ else x.im.get j) := by
  induction i with
  | zero =>
    intro x h j
    have h0 : ¬ (0 < j.val ∧ j.val ≤ 0) := by omega
    simp only [Vcx.shiftLoop, dif_neg h0, and_self]
  | succ i ih =>
    intro x h j
    have hi := ih ⟨x.re.set ⟨i + 1, h⟩ (x.re.get ⟨i, Nat.lt_of_succ_lt h⟩),
        x.im.set ⟨i + 1, h⟩ (x.im.get ⟨i, Nat.lt_of_succ_lt h⟩)⟩ (Nat.lt_of_succ_lt h) j
    simp only [Vcx.shiftLoop]
    rw [hi.1, hi.2]
    by_cases h1 : 0 < j.val ∧ j.val ≤ i
    · have h2 : 0 < j.val ∧ j.val ≤ i + 1 := ⟨h1.1, by omega⟩
      have hne : (⟨j.val - 1, by omega⟩ : Fin N) ≠ ⟨i + 1, h⟩ := by
        intro hc
        have := congrArg Fin.val hc
        simp at this
        omega
      simp only [dif_pos h1, dif_pos h2, Vd.get_set, if_neg hne, and_self]
    · by_cases h3 : j.val = i + 1
      · have h2 : 0 < j.val ∧ j.val ≤ i + 1 := by omega
        have hje : j = ⟨i + 1, h⟩ := Fin.ext h3
        simp only [dif_neg h1, dif_pos h2, Vd.get_set, if_pos hje]
        simp [h3]
      · have h2 : ¬ (0 < j.val ∧ j.val ≤ i + 1) := by omega
        have hje : j ≠ ⟨i + 1, h⟩ := fun hc => h3 (congrArg Fin.val hc)
        simp only [dif_neg h1, dif_neg h2, Vd.get_set, if_neg hje, and_self]

/-- Lanes of the result of `shift`. -/
theorem Vcx.shift_get {α : Type} [Neg α] {N : Nat} (x rhs : Vcx α N) (rotate : Bool)
    (hN : 0 < N) (j : Fin N) :
    ((x.shift rhs rotate hN).re.get j
        = if hj : 0 < j.val then x.re.get ⟨j.val - 1, by omega⟩
          else if rotate then -rhs.im.get ⟨N - 1, by omega⟩ else rhs.re.get ⟨N - 1, by omega⟩) ∧
    ((x.shift rhs rotate hN).im.get j
        = if hj : 0 < j.val then x.im.get ⟨j.val - 1, by omega⟩
          else if rotate then rhs.re.get ⟨N - 1, by omega⟩ else rhs.im.get ⟨N - 1, by omega⟩) := by
  have hl := Vcx.shiftLoop_get (N - 1) x (Nat.sub_lt hN Nat.one_pos) j
  unfold Vcx.shift
  simp only [Vd.get_set]
  by_cases hj : 0 < j.val
  · have hne : j ≠ ⟨0, hN⟩ := by
      intro hc
      have := congrArg Fin.val hc
      simp at this
      omega
    have h2 : 0 < j.val ∧ j.val ≤ N - 1 := ⟨hj, by omega⟩
    rw [if_neg hne, if_neg hne, hl.1, hl.2]
    simp only [dif_pos h2, dif_pos hj, and_self]
  · have he : j = ⟨0, hN⟩ := Fin.ext (by simp; omega)
    rw [if_pos he, if_pos he]
    simp only [dif_neg hj, and_self]

/-- C8 (as amended). For every lane width `W > 0` and vectors `x`, `rhs`,
`x.shift(rhs, rotate)` moves lane `i - 1` of `x` into lane `i` for every
`1 <= i < W`; lane 0 becomes the last lane of `rhs` when `rotate` is false, and
the last lane of `rhs` multiplied by the imaginary unit, that is
`(-rhs.im[W-1], rhs.re[W-1])`, when `rotate` is true. -/
theorem Vcx.shift_lanes {α : Type} [Neg α] {W : Nat} (x rhs : Vcx α W) (rotate : Bool)
    (hW : 0 < W) :
    (∀ (i : Nat) (h1 : 1 ≤ i) (h : i < W),
      (x.shift rhs rotate hW).re.get ⟨i, h⟩ = x.re.get ⟨i - 1, by omega⟩ ∧
      (x.shift rhs rotate hW).im.get ⟨i, h⟩ = x.im.get ⟨i - 1, by omega⟩) ∧
    (rotate = false →
      (x.shift rhs rotate hW).re.get ⟨0, hW⟩ = rhs.re.get ⟨W - 1, by omega⟩ ∧
      (x.shift rhs rotate hW).im.get ⟨0, hW⟩ = rhs.im.get ⟨W - 1, by omega⟩) ∧
    (rotate = true →
      (x.shift rhs rotate hW).re.get ⟨0, hW⟩ = -rhs.im.get ⟨W - 1, by omega⟩ ∧
      (x.shift rhs rotate hW).im.get ⟨0, hW⟩ = rhs.re.get ⟨W - 1, by omega⟩) := by
  refine ⟨?_, ?_, ?_⟩
  · intro i h1 h
    have hg := Vcx.shift_get x rhs rotate hW ⟨i, h⟩
    have hj : 0 < (⟨i, h⟩ : Fin W).val := h1
    rw [hg.1, hg.2]
    simp only [dif_pos hj, and_self]
  · intro hr
    have hg := Vcx.shift_get x rhs rotate hW ⟨0, hW⟩
    rw [hg.1, hg.2]
    simp [hr]
  · intro hr
    have hg := Vcx.shift_get x rhs rotate hW ⟨0, hW⟩
    rw [hg.1, hg.2]
    simp [hr]

/-- Witness for C8: two lanes, `rotate = true`. -/
theorem Vcx.shift_lanes_witness :
    0 < 2 ∧
    ((∀ (i : Nat) (h1 : 1 ≤ i) (h : i < 2),
      (shiftInputX.shift shiftInputRhs true (by decide)).re.get ⟨i, h⟩
          = shiftInputX.re.get ⟨i - 1, by omega⟩ ∧
      (shiftInputX.shift shiftInputRhs true (by decide)).im.get ⟨i, h⟩
          = shiftInputX.im.get ⟨i - 1, by omega⟩) ∧
    (true = false →
      (shiftInputX.shift shiftInputRhs true (by decide)).re.get ⟨0, by decide⟩
          = shiftInputRhs.re.get ⟨2 - 1, by omega⟩ ∧
      (shiftInputX.shift shiftInputRhs true (by decide)).im.get ⟨0, by decide⟩
          = shiftInputRhs.im.get ⟨2 - 1, by omega⟩) ∧
    (true = true →
      (shiftInputX.shift shiftInputRhs true (by decide)).re.get ⟨0, by decide⟩
          = -shiftInputRhs.im.get ⟨2 - 1, by omega⟩ ∧
      (shiftInputX.shift shiftInputRhs true (by decide)).im.get ⟨0, by decide⟩
          = shiftInputRhs.re.get ⟨2 - 1, by omega⟩)) :=
  ⟨by decide, Vcx.shift_lanes shiftInputX shiftInputRhs true (by decide)⟩

/-- C8 as stated fails: with `rotate = true` and last lane `(3, 5)` of `rhs`,
lane 0 of the result is `(-5, 3)`, not the negation `(-3, -5)`. -/
theorem Vcx.shift_rotate_not_negation :
    ¬ ((shiftInputX.shift shiftInputRhs true (by decide)).re.get ⟨0, by decide⟩
          = -shiftInputRhs.re.get ⟨1, by decide⟩ ∧
       (shiftInputX.shift shiftInputRhs true (by decide)).im.get ⟨0, by decide⟩
          = -shiftInputRhs.im.get ⟨1, by decide⟩) := by
  decide

/-! ## transformCPUf64s::copy -/

namespace transformCPUf64s

theorem assignVc_apply {α : Type} (VSIZE dst src : Nat) (mem : Nat → α) (k a : Nat) :
    assignVc VSIZE dst src mem k a
      = if dst + k * sizeofVc VSIZE ≤ a ∧ a < dst + (k + 1) * sizeofVc VSIZE
        then mem (src + (a - dst)) else mem a := rfl

/-- Effect of the first `n` iterations of the copy loop, when the source and
destination blocks are equal or disjoint. -/
theorem copyLoop_spec {α : Type} (VSIZE dst src total : Nat) (mem : Nat → α)
    (H : src = dst ∨ src + total * sizeofVc VSIZE ≤ dst ∨ dst + total * sizeofVc VSIZE ≤ src)
    (n : Nat) (hn : n ≤ total) (a : Nat) :
    (List.range n).foldl (assignVc VSIZE dst src) mem a
      = if dst ≤ a ∧ a < dst + n * sizeofVc VSIZE then mem (src + (a - dst)) else mem a := by
  induction n generalizing a with
  | zero =>
    simp only [List.range_zero, List.foldl_nil]
    rw [if_neg (by omega)]
  | succ n ih =>
    have h1 : (n + 1) * sizeofVc VSIZE = n * sizeofVc VSIZE + sizeofVc VSIZE := by ring
    have h2 : (n + 1) * sizeofVc VSIZE ≤ total * sizeofVc VSIZE := Nat.mul_le_mul_right _ hn
    have h3 : n * sizeofVc VSIZE ≤ total * sizeofVc VSIZE :=
      Nat.mul_le_mul_right _ (by omega)
    rw [List.range_succ, List.foldl_append]
    simp only [List.foldl_cons, List.foldl_nil]
    rw [assignVc_apply]
    by_cases hin : dst + n * sizeofVc VSIZE ≤ a ∧ a < dst + (n + 1) * sizeofVc VSIZE
    · rw [if_pos hin, ih (by omega)]
      have hout : ¬ (dst ≤ src + (a - dst) ∧ src + (a - dst) < dst + n * sizeofVc VSIZE) := by
        rcases H with h | h | h <;> omega
      rw [if_neg hout, if_pos (by omega)]
    · rw [if_neg hin, ih (by omega)]
      by_cases hlo : dst ≤ a ∧ a < dst + n * sizeofVc VSIZE
      · rw [if_pos hlo, if_pos (by omega)]
      · rw [if_neg hlo, if_neg (by omega)]

/-- The words moved by `copy` fit in one register block. -/
theorem wordCount_mul_le (N VSIZE : Nat) :
    wordCount N VSIZE * sizeofVc VSIZE ≤ zSize N VSIZE := by
  unfold wordCount sizeofVc zSize sizeofComplex
  have h := Nat.div_mul_le_self (index N VSIZE N) VSIZE
  have e : index N VSIZE N / VSIZE * (2 * VSIZE * 8) = index N VSIZE N / VSIZE * VSIZE * 16 := by
    ring
  omega

/-- The register blocks of two different registers do not meet, and the
block of register 0 extended by `zh` does not meet another register. -/
theorem regOffset_disjoint (N VSIZE r s : Nat) (h : r ≠ s) :
    regOffset N VSIZE r + zSize N VSIZE ≤ regOffset N VSIZE s ∨
      regOffset N VSIZE s + zSize N VSIZE ≤ regOffset N VSIZE r := by
  unfold regOffset zrOffset zhpOffset zlpOffset fcOffset zhOffset
  rcases Nat.lt_or_gt_of_ne h with hlt | hgt
  · left
    by_cases hr : r = 0
    · have hs : s ≠ 0 := by omega
      rw [if_pos hr, if_neg hs]
      omega
    · have hs : s ≠ 0 := by omega
      rw [if_neg hr, if_neg hs]
      have : (r - 1) * zSize N VSIZE + zSize N VSIZE ≤ (s - 1) * zSize N VSIZE := by
        have h1 : (r - 1 + 1) * zSize N VSIZE ≤ (s - 1) * zSize N VSIZE :=
          Nat.mul_le_mul_right _ (by omega)
        have h2 : (r - 1 + 1) * zSize N VSIZE = (r - 1) * zSize N VSIZE + zSize N VSIZE := by
          ring
        omega
      omega
  · right
    by_cases hs : s = 0
    · have hr : r ≠ 0 := by omega
      rw [if_pos hs, if_neg hr]
      omega
    · have hr : r ≠ 0 := by omega
      rw [if_neg hr, if_neg hs]
      have : (s - 1) * zSize N VSIZE + zSize N VSIZE ≤ (r - 1) * zSize N VSIZE := by
        have h1 : (s - 1 + 1) * zSize N VSIZE ≤ (r - 1) * zSize N VSIZE :=
          Nat.mul_le_mul_right _ (by omega)
        have h2 : (s - 1 + 1) * zSize N VSIZE = (s - 1) * zSize N VSIZE + zSize N VSIZE := by
          ring
        omega
      omega

/-- Every register block lies inside the buffer of `_mem_size` bytes. -/
theorem regOffset_in_bounds (N VSIZE num_regs r : Nat) (h : r < num_regs) :
    regOffset N VSIZE r + zSize N VSIZE ≤ mem_size N VSIZE num_regs := by
  unfold regOffset zrOffset zhpOffset zlpOffset fcOffset zhOffset zlOffset wsOffset wOffset
    mem_size
  by_cases hr : r = 0
  · rw [if_pos hr]
    omega
  · rw [if_neg hr]
    have h1 : (r - 1 + 1) * zSize N VSIZE ≤ (num_regs - 1) * zSize N VSIZE :=
      Nat.mul_le_mul_right _ (by omega)
    have h2 : (r - 1 + 1) * zSize N VSIZE = (r - 1) * zSize N VSIZE + zSize N VSIZE := by ring
    have h3 : (num_regs - 1) * 2 * zSize N VSIZE = 2 * ((num_regs - 1) * zSize N VSIZE) := by
      ring
    omega

/-- Closed form of `copy`: the bytes of the destination words receive the
bytes of the source words, every other byte is unchanged. -/
theorem copy_apply {α : Type} (N VSIZE : Nat) (mem : Nat → α) (dst src a : Nat) :
    copy N VSIZE mem dst src a
      = if regOffset N VSIZE dst ≤ a ∧
            a < regOffset N VSIZE dst + wordCount N VSIZE * sizeofVc VSIZE
        then mem (regOffset N VSIZE src + (a - regOffset N VSIZE dst)) else mem a := by
  unfold copy
  apply copyLoop_spec VSIZE _ _ (wordCount N VSIZE) mem _ _ (le_refl _)
  have hw := wordCount_mul_le N VSIZE
  by_cases h : src = dst
  · left; rw [h]
  · rcases regOffset_disjoint N VSIZE src dst h with h1 | h1
    · right; left; omega
    · right; right; omega

/-- C9. For all register indices `dst` and `src` below `num_regs`, after
`copy(dst, src)` every spectral word of register `dst` that `getZi` decodes
equals the corresponding word of register `src`; register `src` is unchanged;
every register other than `dst` is unchanged (indeed every byte outside the
words of `dst`); hence whatever is decoded from the words of `dst` equals what
is decoded from the words of `src`.  The bytes written lie inside `_mem`. -/
theorem copy_frame {α : Type} (N VSIZE num_regs : Nat) (mem : Nat → α) (dst src : Nat)
    (hd : dst < num_regs) (hs : src < num_regs) :
    (∀ k j, k < wordCount N VSIZE → j < sizeofVc VSIZE →
      copy N VSIZE mem dst src (regOffset N VSIZE dst + k * sizeofVc VSIZE + j)
        = mem (regOffset N VSIZE src + k * sizeofVc VSIZE + j)) ∧
    (∀ i, i < zSize N VSIZE →
      copy N VSIZE mem dst src (regOffset N VSIZE src + i) = mem (regOffset N VSIZE src + i)) ∧
    (∀ r, r < num_regs → r ≠ dst → ∀ i, i < zSize N VSIZE →
      copy N VSIZE mem dst src (regOffset N VSIZE r + i) = mem (regOffset N VSIZE r + i)) ∧
    (∀ a, (a < regOffset N VSIZE dst ∨
        regOffset N VSIZE dst + wordCount N VSIZE * sizeofVc VSIZE ≤ a) →
      copy N VSIZE mem dst src a = mem a) ∧
    regWords N VSIZE (copy N VSIZE mem dst src) dst = regWords N VSIZE mem src ∧
    (∀ (β : Type) (decode : (Nat → Option α) → β),
      decode (regWords N VSIZE (copy N VSIZE mem dst src) dst)
        = decode (regWords N VSIZE mem src)) ∧
    regOffset N VSIZE dst + wordCount N VSIZE * sizeofVc VSIZE
      ≤ mem_size N VSIZE num_regs ∧
    regOffset N VSIZE src + wordCount N VSIZE * sizeofVc VSIZE
      ≤ mem_size N VSIZE num_regs := by
  have hw := wordCount_mul_le N VSIZE
  have hother : ∀ r, r ≠ dst → ∀ i, i < zSize N VSIZE →
      copy N VSIZE mem dst src (regOffset N VSIZE r + i) = mem (regOffset N VSIZE r + i) := by
    intro r hr i hi
    rw [copy_apply]
    rcases regOffset_disjoint N VSIZE r dst hr with h | h
    · rw [if_neg (by omega)]
    · rw [if_neg (by omega)]
  have hwords : regWords N VSIZE (copy N VSIZE mem dst src) dst = regWords N VSIZE mem src := by
    funext i
    unfold regWords
    by_cases hi : i < wordCount N VSIZE * sizeofVc VSIZE
    · rw [if_pos hi, if_pos hi, copy_apply, if_pos (by omega)]
      congr 2
      omega
    · rw [if_neg hi, if_neg hi]
  refine ⟨?_, ?_, ?_, ?_, hwords, ?_, ?_, ?_⟩
  · intro k j hk hj
    have h1 : (k + 1) * sizeofVc VSIZE ≤ wordCount N VSIZE * sizeofVc VSIZE :=
      Nat.mul_le_mul_right _ hk
    have h2 : (k + 1) * sizeofVc VSIZE = k * sizeofVc VSIZE + sizeofVc VSIZE := by ring
    rw [copy_apply, if_pos (by omega)]
    congr 1
    omega
  · intro i hi
    by_cases h : src = dst
    · subst h
      rw [copy_apply]
      split_ifs with hc
      · congr 1
        omega
      · rfl
    · exact hother src h i hi
  · intro r _ hr i hi
    exact hother r hr i hi
  · intro a ha
    rw [copy_apply, if_neg (by omega)]
  · intro β decode
    rw [hwords]
  · have := regOffset_in_bounds N VSIZE num_regs dst hd
    omega
  · have := regOffset_in_bounds N VSIZE num_regs src hs
    omega

/-- Witness for C9: `N = 2^11`, four lanes, three registers, `copy(1, 0)`. -/
theorem copy_frame_witness :
    (1 < 3 ∧ 0 < 3) ∧
    ((∀ k j, k < wordCount 2048 4 → j < sizeofVc 4 →
      copy 2048 4 copyInputMem 1 0 (regOffset 2048 4 1 + k * sizeofVc 4 + j)
        = copyInputMem (regOffset 2048 4 0 + k * sizeofVc 4 + j)) ∧
    (∀ i, i < zSize 2048 4 →
      copy 2048 4 copyInputMem 1 0 (regOffset 2048 4 0 + i)
        = copyInputMem (regOffset 2048 4 0 + i)) ∧
    (∀ r, r < 3 → r ≠ 1 → ∀ i, i < zSize 2048 4 →
      copy 2048 4 copyInputMem 1 0 (regOffset 2048 4 r + i)
        = copyInputMem (regOffset 2048 4 r + i)) ∧
    (∀ a, (a < regOffset 2048 4 1 ∨
        regOffset 2048 4 1 + wordCount 2048 4 * sizeofVc 4 ≤ a) →
      copy 2048 4 copyInputMem 1 0 a = copyInputMem a) ∧
    regWords 2048 4 (copy 2048 4 copyInputMem 1 0) 1 = regWords 2048 4 copyInputMem 0 ∧
    (∀ (β : Type) (decode : (Nat → Option Nat) → β),
      decode (regWords 2048 4 (copy 2048 4 copyInputMem 1 0) 1)
        = decode (regWords 2048 4 copyInputMem 0)) ∧
    regOffset 2048 4 1 + wordCount 2048 4 * sizeofVc 4 ≤ mem_size 2048 4 3 ∧
    regOffset 2048 4 0 + wordCount 2048 4 * sizeofVc 4 ≤ mem_size 2048 4 3) :=
  ⟨by decide, copy_frame 2048 4 3 copyInputMem 1 0 (by decide) (by decide)⟩

end transformCPUf64s

/-! ## Thread ranges -/

theorem l_max_eq (T S t : Nat) (hT : 1 ≤ T) :
    l_max T S t = (t + 1) * S / T := by
  unfold l_max
  split_ifs with h
  · rw [h, Nat.mul_comm, Nat.mul_div_cancel _ (by omega)]
  · rfl

theorem l_min_mono (T S : Nat) {t u : Nat} (h : t ≤ u) : l_min T S t ≤ l_min T S u := by
  unfold l_min
  exact Nat.div_le_div_right (Nat.mul_le_mul_right _ h)

/-- Discrete intermediate value: a block below `S` lies in the range of
some thread. -/
theorem exists_thread_of_lt (T S l : Nat) (k : Nat) :
    l < l_min T S k → ∃ t, t < k ∧ l_min T S t ≤ l ∧ l < l_min T S (t + 1) := by
  induction k with
  | zero =>
    intro h
    simp [l_min] at h
  | succ k ih =>
    intro h
    by_cases hk : l < l_min T S k
    · obtain ⟨t, ht, h1, h2⟩ := ih hk
      exact ⟨t, by omega, h1, h2⟩
    · exact ⟨k, by omega, by omega, h⟩

/-- C16. For every thread count `T >= 1` and `S = N / n_io`, the pass-1
ranges `[l_min(t), l_max(t))`, `t < T`, are consecutive
(`l_max(t) = l_min(t + 1)`), pairwise disjoint, start at 0, end at `S`, cover
every block of `[0, S)` and nothing else, and each equals
`[floor(t * S / T), floor((t + 1) * S / T))`. -/
theorem pass1_ranges_partition (T S : Nat) (hT : 1 ≤ T) :
    (∀ t, t < T → l_min T S t = t * S / T ∧ l_max T S t = (t + 1) * S / T) ∧
    (∀ t, t + 1 < T → l_max T S t = l_min T S (t + 1)) ∧
    l_min T S 0 = 0 ∧ l_max T S (T - 1) = S ∧
    (∀ t u, t < u → u < T → l_max T S t ≤ l_min T S u) ∧
    (∀ t l, t < T → l_min T S t ≤ l → l < l_max T S t → l < S) ∧
    (∀ l, l < S → ∃ t, t < T ∧ l_min T S t ≤ l ∧ l < l_max T S t ∧
      ∀ u, u < T → l_min T S u ≤ l → l < l_max T S u → u = t) := by
  have hlast : l_min T S T = S := by
    unfold l_min
    rw [Nat.mul_comm, Nat.mul_div_cancel _ (by omega)]
  have hmax : ∀ t, t < T → l_max T S t = l_min T S (t + 1) := fun t _ => l_max_eq T S t hT
  have hdisj : ∀ t u, t < u → u < T → l_max T S t ≤ l_min T S u := by
    intro t u htu hu
    rw [hmax t (by omega)]
    exact l_min_mono T S (by omega)
  refine ⟨fun t ht => ⟨rfl, l_max_eq T S t hT⟩, fun t ht => hmax t (by omega), ?_, ?_,
    hdisj, ?_, ?_⟩
  · simp [l_min]
  · unfold l_max
    rw [if_pos (by omega)]
  · intro t l ht _ h2
    rw [hmax t ht] at h2
    have := l_min_mono T S (show t + 1 ≤ T by omega)
    omega
  · intro l hl
    obtain ⟨t, ht, h1, h2⟩ := exists_thread_of_lt T S l T (by rw [hlast]; exact hl)
    refine ⟨t, ht, h1, by rw [hmax t ht]; exact h2, ?_⟩
    intro u hu hu1 hu2
    by_contra hne
    rcases Nat.lt_or_gt_of_ne hne with h | h
    · have := hdisj u t h ht
      omega
    · have := hdisj t u h hu
      rw [hmax t ht] at this
      omega

/-- Witness for C16: three threads, sixteen blocks. -/
theorem pass1_ranges_partition_witness :
    1 ≤ 3 ∧
    ((∀ t, t < 3 → l_min 3 16 t = t * 16 / 3 ∧ l_max 3 16 t = (t + 1) * 16 / 3) ∧
    (∀ t, t + 1 < 3 → l_max 3 16 t = l_min 3 16 (t + 1)) ∧
    l_min 3 16 0 = 0 ∧ l_max 3 16 (3 - 1) = 16 ∧
    (∀ t u, t < u → u < 3 → l_max 3 16 t ≤ l_min 3 16 u) ∧
    (∀ t l, t < 3 → l_min 3 16 t ≤ l → l < l_max 3 16 t → l < 16) ∧
    (∀ l, l < 16 → ∃ t, t < 3 ∧ l_min 3 16 t ≤ l ∧ l < l_max 3 16 t ∧
      ∀ u, u < 3 → l_min 3 16 u ≤ l → l < l_max 3 16 u → u = t)) :=
  ⟨by decide, pass1_ranges_partition 3 16 (by decide)⟩

namespace transformCPUf64s

theorem n_io_pos (N : Nat) : 0 < n_io N := by
  unfold n_io
  split_ifs <;> decide

/-- When the thread count does not exceed `n_io_s`, every thread owns at
least one half-block in `pass2_0`, the tile of `pass2_1` is the first of them,
and different threads have different tiles. -/
theorem pass2_1_tile_owned (N T t : Nat) (hT : 1 ≤ T) (hTs : T ≤ n_io_s N) :
    l_min T (n_io_s N) t ≤ pass2_1_lh N T t ∧ pass2_1_lh N T t < l_max T (n_io_s N) t ∧
      (∀ u, u < T → pass2_1_lh N T u = pass2_1_lh N T t → u = t) := by
  have hstep : ∀ v, l_min T (n_io_s N) v < l_min T (n_io_s N) (v + 1) := by
    intro v
    unfold l_min
    have h1 : (v + 1) * n_io_s N = v * n_io_s N + n_io_s N := by ring
    have h2 : (v * n_io_s N + T) / T = v * n_io_s N / T + 1 := Nat.add_div_right _ (by omega)
    have h3 : (v * n_io_s N + T) / T ≤ (v + 1) * n_io_s N / T :=
      Nat.div_le_div_right (by omega)
    omega
  refine ⟨le_refl _, ?_, ?_⟩
  · rw [l_max_eq T _ t hT]
    exact hstep t
  · intro u _ hu
    by_contra hne
    unfold pass2_1_lh at hu
    rcases Nat.lt_or_gt_of_ne hne with h | h
    · have h1 := hstep u
      have h2 := l_min_mono T (n_io_s N) (show u + 1 ≤ t by omega)
      unfold l_min at h1 h2
      omega
    · have h1 := hstep t
      have h2 := l_min_mono T (n_io_s N) (show t + 1 ≤ u by omega)
      unfold l_min at h1 h2
      omega

/-- C17 fails on the code for `N = 2^11` (`n_io_s = 8`) and `T = 9` threads:
thread 0 owns no half-block in `pass2_0`, yet `pass2_1` makes it write tile 0,
which is also the tile written by thread 1. -/
theorem pass2_1_tile_not_owned :
    n_io_s 2048 = 8 ∧
    pass2_0_range 2048 9 0 = [] ∧ pass2_1_lh 2048 9 0 = 0 ∧
    pass2_0_range 2048 9 1 = [0] ∧ pass2_1_lh 2048 9 1 = 0 := by
  decide

/-- Closed form of `index`: a gap of `n_gap / sizeof(Complex)` samples after
every `n_io` samples. -/
theorem index_eq (N VSIZE k : Nat) :
    index N VSIZE k = k + (if VSIZE ≤ 4 then 4 else VSIZE) * (k / n_io N) := by
  have hg : n_gap VSIZE / sizeofComplex = if VSIZE ≤ 4 then 4 else VSIZE := by
    unfold n_gap sizeofComplex
    split_ifs
    · rfl
    · rw [Nat.mul_comm, Nat.mul_div_cancel _ (by decide)]
  unfold index
  simp only [hg]
  have h := Nat.div_add_mod k (n_io N)
  have e : k / n_io N * (n_io N + if VSIZE ≤ 4 then 4 else VSIZE)
      = n_io N * (k / n_io N) + (if VSIZE ≤ 4 then 4 else VSIZE) * (k / n_io N) := by ring
  omega

/-- C18 (as amended). For every `k`, `index(k)` of transformCPUf64s.h inserts
a gap of `n_gap` bytes after every `n_io` samples, where `n_gap` is 64 bytes
(4 complex samples) for lane widths `W <= 4` and `16 * W` bytes (`W` complex
samples, 128 bytes for `W = 8`) for `W > 4`: `index(k) = k + g * floor(k / n_io)`
with `g = n_gap / 16`; `index` is strictly increasing and
`index(k) mod (n_io + g) < n_io`.  In main.cpp `index(k) = k + 4 * floor(k / n_io)`
for every lane width. -/
theorem index_gap (N W k : Nat) :
    index N W k = k + (n_gap W / 16) * (k / n_io N) ∧
    (W ≤ 4 → index N W k = k + 4 * (k / n_io N)) ∧
    (4 < W → index N W k = k + W * (k / n_io N) ∧ n_gap W = 16 * W) ∧
    (∀ k', k < k' → index N W k < index N W k') ∧
    index N W k % (n_io N + n_gap W / 16) < n_io N ∧
    CZIT_CPU_vec_mt.index k = k + 4 * (k / CZIT_CPU_vec_mt.n_io) ∧
    (∀ k', k < k' → CZIT_CPU_vec_mt.index k < CZIT_CPU_vec_mt.index k') ∧
    CZIT_CPU_vec_mt.index k % (CZIT_CPU_vec_mt.n_io + 4) < CZIT_CPU_vec_mt.n_io := by
  have hpos := n_io_pos N
  have hg : n_gap W / 16 = if W ≤ 4 then 4 else W := by
    unfold n_gap
    split_ifs
    · rfl
    · rw [Nat.mul_comm, Nat.mul_div_cancel _ (by decide)]
  have hc : ∀ j, CZIT_CPU_vec_mt.index j = j + 4 * (j / CZIT_CPU_vec_mt.n_io) := by
    intro j
    unfold CZIT_CPU_vec_mt.index CZIT_CPU_vec_mt.n_io
    simp only
    omega
  refine ⟨by rw [hg]; exact index_eq N W k, ?_, ?_, ?_, ?_, hc k, ?_, ?_⟩
  · intro h
    rw [index_eq, if_pos h]
  · intro h
    refine ⟨by rw [index_eq, if_neg (by omega)], ?_⟩
    unfold n_gap
    rw [if_neg (by omega)]
  · intro k' hk
    rw [index_eq, index_eq]
    have := Nat.div_le_div_right (c := n_io N) (le_of_lt hk)
    have := Nat.mul_le_mul_left (if W ≤ 4 then 4 else W) this
    omega
  · unfold index
    simp only
    rw [show n_gap W / sizeofComplex = n_gap W / 16 from rfl, Nat.mul_add_mod']
    have h1 := Nat.mod_lt k hpos
    rw [Nat.mod_eq_of_lt (by omega)]
    exact h1
  · intro k' hk
    rw [hc, hc]
    have := Nat.div_le_div_right (c := CZIT_CPU_vec_mt.n_io) (le_of_lt hk)
    omega
  · unfold CZIT_CPU_vec_mt.index CZIT_CPU_vec_mt.n_io
    simp only
    omega

/-- C18 as stated fails for lane width 8 in transformCPUf64s.h: with
`N = 2^11` the sample 64 is stored at index 72, a gap of 8 samples (128
bytes), not at `64 + 4`. -/
theorem index_gap_width8 :
    index 2048 8 64 = 72 ∧ index 2048 8 64 ≠ 64 + 4 * (64 / n_io 2048) := by
  decide

end transformCPUf64s

/-! ## Engine construction -/

namespace transformCPUf64s

/-- What `create_transformCPUf64s` returns, by build and size: the first
chain serves `n = 12..16`, the second `n = 17..23`, and the engine has
transform length `2^(n-1)`. -/
theorem create_eq (m : BuildMacros) (VSIZE b n T r : Nat) (c : Bool) :
    create_transformCPUf64s m VSIZE b n T r c =
      if (12 ≤ n ∧ n ≤ 16 ∧ (m.DTRANSFORM || m.IBDTRANSFORM) = false) ∨
          (17 ≤ n ∧ n ≤ 23 ∧ m.SBDTRANSFORM = true)
      then Except.ok (construct (2 ^ (n - 1)) VSIZE b n T r c)
      else Except.error "exponent is not supported" := by
  unfold create_transformCPUf64s
  by_cases h1 : 12 ≤ n ∧ n ≤ 23
  · obtain ⟨h12, h23⟩ := h1
    interval_cases n <;>
      cases hd : (m.DTRANSFORM || m.IBDTRANSFORM) <;> cases hs : m.SBDTRANSFORM <;>
        simp [createSmall, createLarge]
  · have hn : ¬ ((12 ≤ n ∧ n ≤ 16 ∧ (m.DTRANSFORM || m.IBDTRANSFORM) = false) ∨
        (17 ≤ n ∧ n ≤ 23 ∧ m.SBDTRANSFORM = true)) := by omega
    rw [if_neg hn]
    have e1 : createSmall VSIZE b n T r c = none := by
      unfold createSmall
      simp only [show n ≠ 12 by omega, show n ≠ 13 by omega, show n ≠ 14 by omega,
        show n ≠ 15 by omega, show n ≠ 16 by omega, if_false]
    have e2 : ∀ p, createLarge VSIZE b n T r c p = p := by
      intro p
      unfold createLarge
      simp only [show n ≠ 17 by omega, show n ≠ 18 by omega, show n ≠ 19 by omega,
        show n ≠ 20 by omega, show n ≠ 21 by omega, show n ≠ 22 by omega,
        show n ≠ 23 by omega, if_false]
    simp only [e1, e2, ite_self]

/-- C12 (as amended). In the build that compiles both if-chains,
`create_transformCPUf64s` returns an engine of transform length `N = 2^(n-1)`
for every size argument `n` in `{12, ..., 23}`, that is for every `N` in
`{2^11, ..., 2^22}`, and throws the runtime error "exponent is not supported"
for every other size; `N = 2^23` is not supported. -/
theorem create_supported_sizes (VSIZE b n T r : Nat) (c : Bool) :
    (12 ≤ n ∧ n ≤ 23 →
      create_transformCPUf64s fullBuild VSIZE b n T r c
        = Except.ok (construct (2 ^ (n - 1)) VSIZE b n T r c) ∧
      (construct (2 ^ (n - 1)) VSIZE b n T r c).N = 2 ^ (n - 1) ∧
      2 ^ 11 ≤ 2 ^ (n - 1) ∧ 2 ^ (n - 1) ≤ 2 ^ 22) ∧
    (n < 12 ∨ 23 < n →
      create_transformCPUf64s fullBuild VSIZE b n T r c
        = Except.error "exponent is not supported") := by
  rw [create_eq]
  constructor
  · intro ⟨h1, h2⟩
    refine ⟨?_, rfl, Nat.pow_le_pow_right (by decide) (by omega),
      Nat.pow_le_pow_right (by decide) (by omega)⟩
    rw [if_pos]
    simp only [fullBuild, Bool.or_self, and_true]
    omega
  · intro h
    rw [if_neg]
    omega

/-- Witness for C12: the sizes `n = 12` and `n = 24`. -/
theorem create_supported_sizes_witness :
    ((12 ≤ 12 ∧ 12 ≤ 23) ∧ (24 < 12 ∨ 23 < 24)) ∧
    create_transformCPUf64s fullBuild 4 399998300 12 3 1 false
      = Except.ok (construct (2 ^ (12 - 1)) 4 399998300 12 3 1 false) ∧
    create_transformCPUf64s fullBuild 4 399998300 24 3 1 false
      = Except.error "exponent is not supported" :=
  ⟨by decide,
    ((create_supported_sizes 4 399998300 12 3 1 false).1 (by decide)).1,
    (create_supported_sizes 4 399998300 24 3 1 false).2 (by decide)⟩

/-- C12 as stated fails: no build and no argument make
`create_transformCPUf64s` return an engine of transform length `2^23`; the
size `n = 24` throws, and `n = 23` gives length `2^22`.  The size `n = 11`
(`2^11` digits, transform length `2^10`) throws as well, so thirteen sizes are
not supported under either reading of `N`. -/
theorem create_no_length_two_pow_23 :
    create_transformCPUf64s fullBuild 4 399998300 24 3 1 false
      = Except.error "exponent is not supported" ∧
    create_transformCPUf64s fullBuild 4 399998300 23 3 1 false
      = Except.ok (construct (2 ^ 22) 4 399998300 23 3 1 false) ∧
    create_transformCPUf64s fullBuild 4 399998300 11 3 1 false
      = Except.error "exponent is not supported" ∧
    (∀ (m : BuildMacros) (VSIZE b n T r : Nat) (c : Bool) (e : Engine),
      create_transformCPUf64s m VSIZE b n T r c = Except.ok e → e.N ≠ 2 ^ 23) := by
  refine ⟨?_, ?_, ?_, ?_⟩
  · rw [create_eq, if_neg (by decide)]
  · rw [create_eq, if_pos (by decide)]
  · rw [create_eq, if_neg (by decide)]
  · intro m VSIZE b n T r c e h
    rw [create_eq] at h
    split_ifs at h with hc
    · injection h with h
      rw [← h]
      show 2 ^ (n - 1) ≠ 2 ^ 23
      intro hp
      have := Nat.pow_right_injective (le_refl 2) hp
      omega

/-- With a positive thread count the range computation of `pass1` never
divides by zero. -/
theorem squareDupPass1_isSome (e : Engine) (h : 1 ≤ e.num_threads) :
    (squareDupPass1 e).isSome = true := by
  unfold squareDupPass1
  have hr : ∀ t, pass1Range e.num_threads (e.N / n_io e.N) t
      = some (l_min e.num_threads (e.N / n_io e.N) t, l_max e.num_threads (e.N / n_io e.N) t) := by
    intro t
    unfold pass1Range
    rw [if_neg (by omega)]
  split_ifs
  · have : ∀ l : List Nat, (l.mapM' (fun t => pass1Range e.num_threads (e.N / n_io e.N) t))
        = some (l.map (fun t => (l_min e.num_threads (e.N / n_io e.N) t,
            l_max e.num_threads (e.N / n_io e.N) t))) := by
      intro l
      induction l with
      | nil => rfl
      | cons a l ih =>
        rw [List.mapM'_cons, ih, hr a]
        rfl
    rw [this]
    rfl
  · rw [hr]
    rfl

/-- C13 (as amended). The thread count is not checked at construction: for
every size that the build supports, `create_transformCPUf64s` returns an
engine that stores the thread count `T` as given, `T = 0` included, and
whether it throws does not depend on `T`.  With `T = 0` the first `squareDup`
divides by the thread count in `pass1`; with `T >= 1` it does not. -/
theorem create_threads_unchecked (m : BuildMacros) (VSIZE b n T r : Nat) (c : Bool)
    (e : Engine) (h : create_transformCPUf64s m VSIZE b n T r c = Except.ok e) :
    e.num_threads = T ∧
    (∀ T', ∃ e', create_transformCPUf64s m VSIZE b n T' r c = Except.ok e' ∧
      e'.num_threads = T') ∧
    (T = 0 → squareDupPass1 e = none) ∧
    (1 ≤ T → (squareDupPass1 e).isSome = true) := by
  rw [create_eq] at h
  split_ifs at h with hc
  injection h with h
  have hT : e.num_threads = T := by rw [← h]; rfl
  refine ⟨hT, ?_, ?_, ?_⟩
  · intro T'
    refine ⟨construct (2 ^ (n - 1)) VSIZE b n T' r c, ?_, rfl⟩
    rw [create_eq, if_pos hc]
  · intro h0
    unfold squareDupPass1 pass1Range
    rw [hT, h0]
    rfl
  · intro h1
    exact squareDupPass1_isSome e (by omega)

/-- Witness for C13: `n = 12`, zero threads. -/
theorem create_threads_unchecked_witness :
    create_transformCPUf64s fullBuild 4 399998300 12 0 1 false
      = Except.ok (construct (2 ^ (12 - 1)) 4 399998300 12 0 1 false) ∧
    ((construct (2 ^ (12 - 1)) 4 399998300 12 0 1 false).num_threads = 0 ∧
    (∀ T', ∃ e', create_transformCPUf64s fullBuild 4 399998300 12 T' 1 false = Except.ok e' ∧
      e'.num_threads = T') ∧
    (0 = 0 → squareDupPass1 (construct (2 ^ (12 - 1)) 4 399998300 12 0 1 false) = none) ∧
    (1 ≤ 0 → (squareDupPass1 (construct (2 ^ (12 - 1)) 4 399998300 12 0 1 false)).isSome
      = true)) :=
  have h : create_transformCPUf64s fullBuild 4 399998300 12 0 1 false
      = Except.ok (construct (2 ^ (12 - 1)) 4 399998300 12 0 1 false) := by
    rw [create_eq, if_pos (by decide)]
  ⟨h, create_threads_unchecked fullBuild 4 399998300 12 0 1 false _ h⟩

/-- C13 as stated fails: construction with zero threads raises no error, and
the `squareDup` that follows divides by the thread count. -/
theorem create_zero_threads_accepted :
    create_transformCPUf64s fullBuild 4 399998300 12 0 1 false
      = Except.ok (construct 2048 4 399998300 12 0 1 false) ∧
    squareDupPass1 (construct 2048 4 399998300 12 0 1 false) = none := by
  refine ⟨?_, rfl⟩
  rw [create_eq, if_pos (by decide)]
  rfl

end transformCPUf64s

theorem genefer.check_select_eq (n : Nat) :
    genefer.check_select n =
      if n = 1024 ∨ n = 2048 ∨ n = 4096 ∨ n = 8192
      then Except.ok (n, if n = 4096 then 2 else if n = 8192 then 4 else 8)
      else Except.error "exponent is not supported" := by
  unfold genefer.check_select
  by_cases h1 : n = 1024
  · subst h1; rfl
  by_cases h2 : n = 2048
  · subst h2; rfl
  by_cases h3 : n = 4096
  · subst h3; rfl
  by_cases h4 : n = 8192
  · subst h4; rfl
  simp [h1, h2, h3, h4]

/-! ## Error of a squaring -/

section ErrorBound

variable {α : Type} [LinearOrderedField α]

theorem stdMax_eq_max (a b : α) : stdMax a b = max a b := by
  unfold stdMax
  split_ifs with h
  · exact (max_eq_right (le_of_lt h)).symm
  · exact (max_eq_left (not_lt.1 h)).symm

/-- The distance of a value to its rounding is at most one half. -/
theorem abs_sub_stdRound_le [FloorRing α] (x : α) : |x - stdRound x| ≤ 1 / 2 := by
  unfold stdRound
  split_ifs with h
  · have h1 := Int.floor_le (x + 1 / 2)
    have h2 := Int.lt_floor_add_one (x + 1 / 2)
    rw [abs_le]
    constructor <;> linarith
  · have h1 := Int.le_ceil (x - 1 / 2)
    have h2 := Int.ceil_lt_add_one (x - 1 / 2)
    rw [abs_le]
    constructor <;> linarith

theorem Vd.hmax_inHalf {N : Nat} (a : Vd α N) (hN : 0 < N) (h : a.InHalf) :
    0 ≤ a.hmax hN ∧ a.hmax hN ≤ 1 / 2 := by
  unfold Vd.hmax
  have key : ∀ (l : List (Fin N)) (m : α), 0 ≤ m ∧ m ≤ 1 / 2 →
      0 ≤ l.foldl (fun m i => stdMax m (a.r i)) m ∧
        l.foldl (fun m i => stdMax m (a.r i)) m ≤ 1 / 2 := by
    intro l
    induction l with
    | nil => intro m hm; exact hm
    | cons i l ih =>
      intro m hm
      rw [List.foldl_cons]
      apply ih
      rw [stdMax_eq_max]
      exact ⟨le_max_of_le_left hm.1, max_le hm.2 (h i).2⟩
  exact key _ _ (h _)

theorem Vcx.errStep_inHalf [FloorRing α] {N : Nat} (err o : Vcx α N) (h1 : err.re.InHalf)
    (h2 : err.im.InHalf) :
    (err.max ((o - o.round).abs)).re.InHalf ∧ (err.max ((o - o.round).abs)).im.InHalf := by
  constructor
  · intro i
    show 0 ≤ stdMax (err.re.r i) |o.re.r i - stdRound (o.re.r i)| ∧
      stdMax (err.re.r i) |o.re.r i - stdRound (o.re.r i)| ≤ 1 / 2
    rw [stdMax_eq_max]
    exact ⟨le_max_of_le_left (h1 i).1, max_le (h1 i).2 (abs_sub_stdRound_le _)⟩
  · intro i
    show 0 ≤ stdMax (err.im.r i) |o.im.r i - stdRound (o.im.r i)| ∧
      stdMax (err.im.r i) |o.im.r i - stdRound (o.im.r i)| ≤ 1 / 2
    rw [stdMax_eq_max]
    exact ⟨le_max_of_le_left (h2 i).1, max_le (h2 i).2 (abs_sub_stdRound_le _)⟩

/-- The error returned by `pass2` lies between 0 and one half. -/
theorem pass2Err_bounds [FloorRing α] {W : Nat} (hW : 0 < W) (os : List (Vcx α W)) :
    0 ≤ pass2Err hW os ∧ pass2Err hW os ≤ 1 / 2 := by
  unfold pass2Err
  have key : ∀ (l : List (Vcx α W)) (err : Vcx α W), err.re.InHalf → err.im.InHalf →
      (l.foldl (fun err o => err.max ((o - o.round).abs)) err).re.InHalf ∧
        (l.foldl (fun err o => err.max ((o - o.round).abs)) err).im.InHalf := by
    intro l
    induction l with
    | nil => intro err h1 h2; exact ⟨h1, h2⟩
    | cons o l ih =>
      intro err h1 h2
      rw [List.foldl_cons]
      obtain ⟨g1, g2⟩ := Vcx.errStep_inHalf err o h1 h2
      exact ih _ g1 g2
  have h0 : (Vd.ofScalar (0 : α) : Vd α W).InHalf := by
    intro i
    show 0 ≤ (if i.val = 0 then (0 : α) else 0) ∧ (if i.val = 0 then (0 : α) else 0) ≤ 1 / 2
    rw [ite_self]
    exact ⟨le_refl _, by norm_num⟩
  obtain ⟨g1, g2⟩ := key os (Vcx.ofReal 0) h0 h0
  obtain ⟨a1, a2⟩ := Vd.hmax_inHalf _ hW g1
  obtain ⟨b1, b2⟩ := Vd.hmax_inHalf _ hW g2
  unfold Vcx.hmax
  rw [stdMax_eq_max]
  exact ⟨le_max_of_le_left a1, max_le a2 b2⟩

theorem squareDupErr_bounds (e : List α) (h : ∀ x ∈ e, 0 ≤ x ∧ x ≤ 1 / 2) :
    0 ≤ squareDupErr e ∧ squareDupErr e ≤ 1 / 2 := by
  unfold squareDupErr
  have key : ∀ (l : List α) (m : α), (∀ x ∈ l, 0 ≤ x ∧ x ≤ 1 / 2) → 0 ≤ m ∧ m ≤ 1 / 2 →
      0 ≤ l.foldl stdMax m ∧ l.foldl stdMax m ≤ 1 / 2 := by
    intro l
    induction l with
    | nil => intro m _ hm; exact hm
    | cons x l ih =>
      intro m hl hm
      rw [List.foldl_cons]
      apply ih _ (fun y hy => hl y (List.mem_cons_of_mem _ hy))
      rw [stdMax_eq_max]
      exact ⟨le_max_of_le_left hm.1, max_le hm.2 (hl x (List.mem_cons_self _ _)).2⟩
  exact key e 0 h ⟨le_refl _, by norm_num⟩

/-- C11. For every squaring, whatever the values `o` met by the carry pass of
each thread, the error returned, the maximum over all lanes and digits of
`|o - round(o)|` starting from 0 and then maximised over the threads, lies in
`[0, 1)`; it is at most one half. -/
theorem squareDup_error_range [FloorRing α] {W : Nat} (hW : 0 < W) (threads : List (List (Vcx α W))) :
    0 ≤ squareDupErr (threads.map (pass2Err hW)) ∧
      squareDupErr (threads.map (pass2Err hW)) < 1 ∧
      squareDupErr (threads.map (pass2Err hW)) ≤ 1 / 2 := by
  have h := squareDupErr_bounds (threads.map (pass2Err hW)) (by
    intro x hx
    obtain ⟨os, _, rfl⟩ := List.mem_map.1 hx
    exact pass2Err_bounds hW os)
  refine ⟨h.1, lt_of_le_of_lt h.2 (by norm_num), h.2⟩

/-- Witness for C11: two lanes of rationals, two threads. -/
theorem squareDup_error_range_witness :
    0 < 2 ∧
    (0 ≤ squareDupErr ([[errInputO], [errInputO, errInputO]].map
        (pass2Err (show 0 < 2 by decide))) ∧
      squareDupErr ([[errInputO], [errInputO, errInputO]].map
        (pass2Err (show 0 < 2 by decide))) < 1 ∧
      squareDupErr ([[errInputO], [errInputO, errInputO]].map
        (pass2Err (show 0 < 2 by decide))) ≤ 1 / 2) :=
  ⟨by decide, squareDup_error_range (by decide) [[errInputO], [errInputO, errInputO]]⟩

end ErrorBound

/-! ## Twiddle multiplication and the squaring butterfly -/

section Butterfly

theorem Vd.add_r {α : Type} [Add α] {N : Nat} (a b : Vd α N) (i : Fin N) :
    (a + b).r i = a.r i + b.r i := rfl

theorem Vd.sub_r {α : Type} [Sub α] {N : Nat} (a b : Vd α N) (i : Fin N) :
    (a - b).r i = a.r i - b.r i := rfl

theorem Vd.mul_r {α : Type} [Mul α] {N : Nat} (a b : Vd α N) (i : Fin N) :
    (a * b).r i = a.r i * b.r i := rfl

theorem Vd.neg_r {α : Type} [Neg α] {N : Nat} (a : Vd α N) (i : Fin N) :
    (-a).r i = -a.r i := rfl

theorem Vd.scale_r {α : Type} [Mul α] {N : Nat} (a : Vd α N) (f : α) (i : Fin N) :
    (a.scale f).r i = a.r i * f := rfl

theorem Vd.ext_r {α : Type} {N : Nat} {a b : Vd α N} (h : ∀ i, a.r i = b.r i) : a = b := by
  cases a
  cases b
  congr
  funext i
  exact h i

theorem Vcx.ext_re_im {α : Type} {N : Nat} {a b : Vcx α N}
    (h : ∀ i, a.re.r i = b.re.r i ∧ a.im.r i = b.im.r i) : a = b := by
  cases a
  cases b
  congr
  · exact Vd.ext_r (fun i => (h i).1)
  · exact Vd.ext_r (fun i => (h i).2)

theorem Vcx.lane_add {N : Nat} (a b : Vcx ℝ N) (i : Fin N) :
    (a + b).lane i = a.lane i + b.lane i := by
  apply Complex.ext <;> rfl

theorem Vcx.lane_sub {N : Nat} (a b : Vcx ℝ N) (i : Fin N) :
    (a - b).lane i = a.lane i - b.lane i := by
  apply Complex.ext <;> rfl

theorem Vcx.lane_mul {N : Nat} (a b : Vcx ℝ N) (i : Fin N) :
    (a * b).lane i = a.lane i * b.lane i := by
  apply Complex.ext
  · show a.re.r i * b.re.r i - a.im.r i * b.im.r i = _
    simp [Complex.mul_re, Vcx.lane]
  · show a.im.r i * b.re.r i + a.re.r i * b.im.r i = _
    simp [Complex.mul_im, Vcx.lane]
    ring

theorem Vcx.lane_sqr {N : Nat} (a : Vcx ℝ N) (i : Fin N) :
    a.sqr.lane i = a.lane i * a.lane i := by
  apply Complex.ext
  · show a.re.r i * a.re.r i - a.im.r i * a.im.r i = _
    simp [Complex.mul_re, Vcx.lane]
  · show (a.re.r i + a.re.r i) * a.im.r i = _
    simp [Complex.mul_im, Vcx.lane]
    ring

theorem Vcx.lane_mulW {N : Nat} (a w : Vcx ℝ N) (i : Fin N) :
    (a.mulW w).lane i = a.lane i * w.twiddle i := by
  apply Complex.ext
  · show (a.re.r i - a.im.r i * w.im.r i) * w.re.r i = _
    simp [Complex.mul_re, Vcx.lane, Vcx.twiddle]
    ring
  · show (a.im.r i + a.re.r i * w.im.r i) * w.re.r i = _
    simp [Complex.mul_im, Vcx.lane, Vcx.twiddle]
    ring

theorem Vcx.lane_mulWconj {N : Nat} (a w : Vcx ℝ N) (i : Fin N) :
    (a.mulWconj w).lane i = a.lane i * (starRingEnd ℂ) (w.twiddle i) := by
  apply Complex.ext
  · show (a.re.r i + a.im.r i * w.im.r i) * w.re.r i = _
    simp [Complex.mul_re, Vcx.lane, Vcx.twiddle]
    ring
  · show (a.im.r i - a.re.r i * w.im.r i) * w.re.r i = _
    simp [Complex.mul_im, Vcx.lane, Vcx.twiddle]
    ring

/-- A stored twiddle `(c, t)` with `c^2 * (1 + t^2) = 1` denotes a complex number
of modulus one. -/
theorem Vcx.twiddle_mul_conj {N : Nat} (w : Vcx ℝ N) (i : Fin N)
    (hw : w.re.r i ^ 2 * (1 + w.im.r i ^ 2) = 1) :
    w.twiddle i * (starRingEnd ℂ) (w.twiddle i) = 1 := by
  apply Complex.ext
  · simp [Complex.mul_re, Vcx.twiddle]
    linear_combination hw
  · simp [Complex.mul_im, Vcx.twiddle]
    ring

/-- C19. Over any commutative ring, for every complex vector `z` and every
twiddle stored as `w = (c, t)`, `z.mulW(w)` is the complex product
`z * (c + i*c*t)` and `z.mulWconj(w)` is `z * (c - i*c*t)`; over the reals, with
`c = cos(alpha)`, `t = tan(alpha)` (where the tangent is defined) these are the
multiplications by `e^(i*alpha)` and by its conjugate. -/
theorem mulW_eq_complex_product :
    (∀ (α : Type) [CommRing α] (N : Nat) (z w : Vcx α N),
      z.mulW w = z * (⟨w.re, w.re * w.im⟩ : Vcx α N) ∧
      z.mulWconj w = z * (⟨w.re, -(w.re * w.im)⟩ : Vcx α N)) ∧
    (∀ (N : Nat) (z w : Vcx ℝ N) (i : Fin N) (alpha : ℝ), Real.cos alpha ≠ 0 →
      w.re.r i = Real.cos alpha → w.im.r i = Real.tan alpha →
      (z.mulW w).lane i = z.lane i * Complex.exp (alpha * Complex.I) ∧
      (z.mulWconj w).lane i
        = z.lane i * (starRingEnd ℂ) (Complex.exp (alpha * Complex.I))) := by
  constructor
  · intro α _ N z w
    constructor
    · apply Vcx.ext_re_im
      intro i
      constructor
      · show (z.re.r i - z.im.r i * w.im.r i) * w.re.r i
          = z.re.r i * w.re.r i - z.im.r i * (w.re.r i * w.im.r i)
        ring
      · show (z.im.r i + z.re.r i * w.im.r i) * w.re.r i
          = z.im.r i * w.re.r i + z.re.r i * (w.re.r i * w.im.r i)
        ring
    · apply Vcx.ext_re_im
      intro i
      constructor
      · show (z.re.r i + z.im.r i * w.im.r i) * w.re.r i
          = z.re.r i * w.re.r i - z.im.r i * (-(w.re.r i * w.im.r i))
        ring
      · show (z.im.r i - z.re.r i * w.im.r i) * w.re.r i
          = z.im.r i * w.re.r i + z.re.r i * (-(w.re.r i * w.im.r i))
        ring
  · intro N z w i alpha hc hre him
    have htw : w.twiddle i = Complex.exp (alpha * Complex.I) := by
      apply Complex.ext
      · rw [Complex.exp_ofReal_mul_I_re]
        exact hre
      · rw [Complex.exp_ofReal_mul_I_im]
        show w.re.r i * w.im.r i = Real.sin alpha
        rw [hre, him, Real.tan_eq_sin_div_cos]
        field_simp
    rw [Vcx.lane_mulW, Vcx.lane_mulWconj, htw]
    exact ⟨rfl, rfl⟩

/-- Witness for C19: one lane, `alpha = 0`, the twiddle stored as `(1, 0)`. -/
theorem mulW_eq_complex_product_witness :
    (Real.cos 0 ≠ 0 ∧ (1 : ℝ) = Real.cos 0 ∧ (0 : ℝ) = Real.tan 0) ∧
    ((⟨⟨fun _ => 3⟩, ⟨fun _ => 4⟩⟩ : Vcx ℝ 1).mulW ⟨⟨fun _ => 1⟩, ⟨fun _ => 0⟩⟩).lane 0
      = (⟨⟨fun _ => 3⟩, ⟨fun _ => 4⟩⟩ : Vcx ℝ 1).lane 0
          * Complex.exp (((0 : ℝ) : ℂ) * Complex.I) ∧
    ((⟨⟨fun _ => 3⟩, ⟨fun _ => 4⟩⟩ : Vcx ℝ 1).mulWconj ⟨⟨fun _ => 1⟩, ⟨fun _ => 0⟩⟩).lane 0
      = (⟨⟨fun _ => 3⟩, ⟨fun _ => 4⟩⟩ : Vcx ℝ 1).lane 0
          * (starRingEnd ℂ) (Complex.exp (((0 : ℝ) : ℂ) * Complex.I)) :=
  have h1 : Real.cos 0 ≠ 0 := by simp
  have h2 : (1 : ℝ) = Real.cos 0 := by simp
  have h3 : (0 : ℝ) = Real.tan 0 := by simp
  ⟨⟨h1, h2, h3⟩,
    mulW_eq_complex_product.2 1 ⟨⟨fun _ => 3⟩, ⟨fun _ => 4⟩⟩ ⟨⟨fun _ => 1⟩, ⟨fun _ => 0⟩⟩ 0 0
      h1 h2 h3⟩

/-- The four outputs of the squaring butterfly, as complex numbers: twice the
coefficients of the square of `z0 + z1 x + z2 x^2 + z3 x^3` folded with
`x^4 = W^2`. -/
theorem Vradix4.square4e_lanes {N : Nat} (z : Vradix4 ℝ N) (w : Vcx ℝ N) (i : Fin N)
    (hw : w.re.r i ^ 2 * (1 + w.im.r i ^ 2) = 1) :
    (z.square4e w).z0.lane i
      = 2 * (z.z0.lane i ^ 2 + w.twiddle i ^ 2 * (z.z2.lane i ^ 2
          + 2 * z.z1.lane i * z.z3.lane i)) ∧
    (z.square4e w).z1.lane i
      = 2 * (2 * z.z0.lane i * z.z1.lane i
          + w.twiddle i ^ 2 * (2 * z.z2.lane i * z.z3.lane i)) ∧
    (z.square4e w).z2.lane i
      = 2 * (2 * z.z0.lane i * z.z2.lane i + z.z1.lane i ^ 2
          + w.twiddle i ^ 2 * z.z3.lane i ^ 2) ∧
    (z.square4e w).z3.lane i
      = 2 * (2 * z.z0.lane i * z.z3.lane i + 2 * z.z1.lane i * z.z2.lane i) := by
  have hWW := Vcx.twiddle_mul_conj w i hw
  unfold Vradix4.square4e
  simp only [Vcx.lane_add, Vcx.lane_sub, Vcx.lane_mul, Vcx.lane_sqr, Vcx.lane_mulW,
    Vcx.lane_mulWconj]
  refine ⟨by ring, by ring, ?_, ?_⟩
  · linear_combination (4 * z.z0.lane i * z.z2.lane i + 2 * z.z1.lane i ^ 2
      + 2 * w.twiddle i ^ 2 * z.z3.lane i ^ 2) * hWW
  · linear_combination (4 * z.z0.lane i * z.z3.lane i + 4 * z.z1.lane i * z.z2.lane i) * hWW

/-- Remainder of twice the square of a cubic modulo `x^4 - a`. -/
theorem two_sq_cubic_modByMonic (z0 z1 z2 z3 a : ℂ) :
    (2 * (Polynomial.C z0 + Polynomial.C z1 * Polynomial.X
        + Polynomial.C z2 * Polynomial.X ^ 2 + Polynomial.C z3 * Polynomial.X ^ 3) ^ 2)
      %ₘ (Polynomial.X ^ 4 - Polynomial.C a)
    = Polynomial.C (2 * (2 * z0 * z3 + 2 * z1 * z2)) * Polynomial.X ^ 3
      + Polynomial.C (2 * (2 * z0 * z2 + z1 ^ 2 + a * z3 ^ 2)) * Polynomial.X ^ 2
      + Polynomial.C (2 * (2 * z0 * z1 + a * (2 * z2 * z3))) * Polynomial.X
      + Polynomial.C (2 * (z0 ^ 2 + a * (z2 ^ 2 + 2 * z1 * z3))) := by
  have hm : (Polynomial.X ^ 4 - Polynomial.C a : Polynomial ℂ).Monic :=
    Polynomial.monic_X_pow_sub_C a (by norm_num)
  refine (Polynomial.div_modByMonic_unique
    (Polynomial.C (2 * z3 ^ 2) * Polynomial.X ^ 2 + Polynomial.C (2 * (2 * z2 * z3)) * Polynomial.X
      + Polynomial.C (2 * (z2 ^ 2 + 2 * z1 * z3))) _ hm ⟨?_, ?_⟩).2
  · simp only [map_add, map_mul, map_pow, map_ofNat]
    ring
  · rw [Polynomial.degree_X_pow_sub_C (by norm_num) a]
    exact lt_of_le_of_lt Polynomial.degree_cubic_le (by norm_num)

theorem cubic_coeffs (a b c d : ℂ) :
    (Polynomial.C a * Polynomial.X ^ 3 + Polynomial.C b * Polynomial.X ^ 2
        + Polynomial.C c * Polynomial.X + Polynomial.C d).coeff 0 = d ∧
    (Polynomial.C a * Polynomial.X ^ 3 + Polynomial.C b * Polynomial.X ^ 2
        + Polynomial.C c * Polynomial.X + Polynomial.C d).coeff 1 = c ∧
    (Polynomial.C a * Polynomial.X ^ 3 + Polynomial.C b * Polynomial.X ^ 2
        + Polynomial.C c * Polynomial.X + Polynomial.C d).coeff 2 = b ∧
    (Polynomial.C a * Polynomial.X ^ 3 + Polynomial.C b * Polynomial.X ^ 2
        + Polynomial.C c * Polynomial.X + Polynomial.C d).coeff 3 = a := by
  refine ⟨?_, ?_, ?_, ?_⟩ <;>
    simp [Polynomial.coeff_X, Polynomial.coeff_C, Polynomial.coeff_X_pow]

theorem Vcx8s.square4e_eq {N : Nat} (v : Vcx8s ℝ N) (w : Vcx ℝ N) :
    (v.square4e w).z 0 = ((Vradix4.mk (v.z 0) (v.z 1) (v.z 2) (v.z 3)).square4e w).z0 ∧
    (v.square4e w).z 1 = ((Vradix4.mk (v.z 0) (v.z 1) (v.z 2) (v.z 3)).square4e w).z1 ∧
    (v.square4e w).z 2 = ((Vradix4.mk (v.z 0) (v.z 1) (v.z 2) (v.z 3)).square4e w).z2 ∧
    (v.square4e w).z 3 = ((Vradix4.mk (v.z 0) (v.z 1) (v.z 2) (v.z 3)).square4e w).z3 ∧
    (∀ k : Fin 8, 4 ≤ k.val → (v.square4e w).z k = v.z k) := by
  refine ⟨rfl, rfl, rfl, rfl, ?_⟩
  intro k hk
  have h0 : k ≠ 0 := by intro h; subst h; exact absurd hk (by decide)
  have h1 : k ≠ 1 := by intro h; subst h; exact absurd hk (by decide)
  have h2 : k ≠ 2 := by intro h; subst h; exact absurd hk (by decide)
  have h3 : k ≠ 3 := by intro h; subst h; exact absurd hk (by decide)
  show (if k = 0 then _ else if k = 2 then _ else if k = 1 then _ else if k = 3 then _
    else v.z k) = v.z k
  rw [if_neg h0, if_neg h2, if_neg h1, if_neg h3]

/-- C20. Over exact complex arithmetic, for every twiddle `W = c + i*c*t` of
modulus one (stored as `(c, t)` with `c^2 * (1 + t^2) = 1`) and every four inputs
`z0..z3`, `square4e` writes the four coefficients of
`2 * (z0 + z1*x + z2*x^2 + z3*x^3)^2` reduced modulo `x^4 - W^2`, in every lane;
this holds for `Vradix4::square4e` and for `Vcx8s::square4e` on `z[0..3]`. -/
theorem square4e_poly {N : Nat} (z : Vradix4 ℝ N) (w : Vcx ℝ N) (i : Fin N)
    (hw : w.re.r i ^ 2 * (1 + w.im.r i ^ 2) = 1) :
    ∃ R : Polynomial ℂ,
      R = (2 * (Polynomial.C (z.z0.lane i) + Polynomial.C (z.z1.lane i) * Polynomial.X
            + Polynomial.C (z.z2.lane i) * Polynomial.X ^ 2
            + Polynomial.C (z.z3.lane i) * Polynomial.X ^ 3) ^ 2)
          %ₘ (Polynomial.X ^ 4 - Polynomial.C (w.twiddle i ^ 2)) ∧
      (z.square4e w).z0.lane i = R.coeff 0 ∧ (z.square4e w).z1.lane i = R.coeff 1 ∧
      (z.square4e w).z2.lane i = R.coeff 2 ∧ (z.square4e w).z3.lane i = R.coeff 3 ∧
      (∀ v : Vcx8s ℝ N, v.z 0 = z.z0 → v.z 1 = z.z1 → v.z 2 = z.z2 → v.z 3 = z.z3 →
        ((v.square4e w).z 0).lane i = R.coeff 0 ∧ ((v.square4e w).z 1).lane i = R.coeff 1 ∧
        ((v.square4e w).z 2).lane i = R.coeff 2 ∧ ((v.square4e w).z 3).lane i = R.coeff 3) := by
  obtain ⟨h0, h1, h2, h3⟩ := Vradix4.square4e_lanes z w i hw
  obtain ⟨c0, c1, c2, c3⟩ := cubic_coeffs
    (2 * (2 * z.z0.lane i * z.z3.lane i + 2 * z.z1.lane i * z.z2.lane i))
    (2 * (2 * z.z0.lane i * z.z2.lane i + z.z1.lane i ^ 2 + w.twiddle i ^ 2 * z.z3.lane i ^ 2))
    (2 * (2 * z.z0.lane i * z.z1.lane i + w.twiddle i ^ 2 * (2 * z.z2.lane i * z.z3.lane i)))
    (2 * (z.z0.lane i ^ 2 + w.twiddle i ^ 2 * (z.z2.lane i ^ 2
      + 2 * z.z1.lane i * z.z3.lane i)))
  refine ⟨_, rfl, ?_, ?_, ?_, ?_, ?_⟩
  · rw [two_sq_cubic_modByMonic, c0, h0]
  · rw [two_sq_cubic_modByMonic, c1, h1]
  · rw [two_sq_cubic_modByMonic, c2, h2]
  · rw [two_sq_cubic_modByMonic, c3, h3]
  · intro v e0 e1 e2 e3
    obtain ⟨g0, g1, g2, g3, _⟩ := Vcx8s.square4e_eq v w
    have hz : Vradix4.mk (v.z 0) (v.z 1) (v.z 2) (v.z 3) = z := by
      rw [e0, e1, e2, e3]
    rw [g0, g1, g2, g3, hz, two_sq_cubic_modByMonic, c0, c1, c2, c3]
    exact ⟨h0, h1, h2, h3⟩

/-- Witness for C20: one lane, inputs `1, 2, 3, 4` and the twiddle stored as
`(1, 0)`. -/
theorem square4e_poly_witness :
    ((1 : ℝ) ^ 2 * (1 + (0 : ℝ) ^ 2) = 1) ∧
    ∃ R : Polynomial ℂ,
      R = (2 * (Polynomial.C ((⟨⟨fun _ => 1⟩, ⟨fun _ => 0⟩⟩ : Vcx ℝ 1).lane 0)
            + Polynomial.C ((⟨⟨fun _ => 2⟩, ⟨fun _ => 0⟩⟩ : Vcx ℝ 1).lane 0) * Polynomial.X
            + Polynomial.C ((⟨⟨fun _ => 3⟩, ⟨fun _ => 0⟩⟩ : Vcx ℝ 1).lane 0) * Polynomial.X ^ 2
            + Polynomial.C ((⟨⟨fun _ => 4⟩, ⟨fun _ => 0⟩⟩ : Vcx ℝ 1).lane 0) * Polynomial.X ^ 3)
              ^ 2)
          %ₘ (Polynomial.X ^ 4
            - Polynomial.C ((⟨⟨fun _ => 1⟩, ⟨fun _ => 0⟩⟩ : Vcx ℝ 1).twiddle 0 ^ 2)) ∧
      ((Vradix4.mk (⟨⟨fun _ => 1⟩, ⟨fun _ => 0⟩⟩ : Vcx ℝ 1) ⟨⟨fun _ => 2⟩, ⟨fun _ => 0⟩⟩
          ⟨⟨fun _ => 3⟩, ⟨fun _ => 0⟩⟩ ⟨⟨fun _ => 4⟩, ⟨fun _ => 0⟩⟩).square4e
        ⟨⟨fun _ => 1⟩, ⟨fun _ => 0⟩⟩).z0.lane 0 = R.coeff 0 :=
  have hw : (1 : ℝ) ^ 2 * (1 + (0 : ℝ) ^ 2) = 1 := by norm_num
  ⟨hw, by
    obtain ⟨R, hR, h0, _⟩ := square4e_poly
      (Vradix4.mk (⟨⟨fun _ => 1⟩, ⟨fun _ => 0⟩⟩ : Vcx ℝ 1) ⟨⟨fun _ => 2⟩, ⟨fun _ => 0⟩⟩
        ⟨⟨fun _ => 3⟩, ⟨fun _ => 0⟩⟩ ⟨⟨fun _ => 4⟩, ⟨fun _ => 0⟩⟩)
      ⟨⟨fun _ => 1⟩, ⟨fun _ => 0⟩⟩ 0 hw
    exact ⟨R, hR, h0⟩⟩

end Butterfly

/-! ## Butterflies: inverse pairs and homogeneity -/

theorem Vcx.add_re {α : Type} [Add α] {N : Nat} (a b : Vcx α N) : (a + b).re = a.re + b.re := rfl
theorem Vcx.add_im {α : Type} [Add α] {N : Nat} (a b : Vcx α N) : (a + b).im = a.im + b.im := rfl
theorem Vcx.sub_re {α : Type} [Sub α] {N : Nat} (a b : Vcx α N) : (a - b).re = a.re - b.re := rfl
theorem Vcx.sub_im {α : Type} [Sub α] {N : Nat} (a b : Vcx α N) : (a - b).im = a.im - b.im := rfl
theorem Vcx.broadcast_re {α : Type} {N : Nat} (w : α × α) (i : Fin N) :
    (Vcx.broadcast w : Vcx α N).re.r i = w.1 := rfl
theorem Vcx.broadcast_im {α : Type} {N : Nat} (w : α × α) (i : Fin N) :
    (Vcx.broadcast w : Vcx α N).im.r i = w.2 := rfl

theorem Vcx.broadcast_unit {α : Type} [CommRing α] {N : Nat} (w : α × α)
    (h : w.1 ^ 2 * (1 + w.2 ^ 2) = 1) : (Vcx.broadcast w : Vcx α N).UnitTwiddle :=
  fun _ => h

theorem Vradix4.ext_lanes4 {α : Type} {N : Nat} {a b : Vradix4 α N}
    (h0 : ∀ i, a.z0.re.r i = b.z0.re.r i ∧ a.z0.im.r i = b.z0.im.r i)
    (h1 : ∀ i, a.z1.re.r i = b.z1.re.r i ∧ a.z1.im.r i = b.z1.im.r i)
    (h2 : ∀ i, a.z2.re.r i = b.z2.re.r i ∧ a.z2.im.r i = b.z2.im.r i)
    (h3 : ∀ i, a.z3.re.r i = b.z3.re.r i ∧ a.z3.im.r i = b.z3.im.r i) : a = b := by
  cases a
  cases b
  congr
  · exact Vcx.ext_re_im h0
  · exact Vcx.ext_re_im h1
  · exact Vcx.ext_re_im h2
  · exact Vcx.ext_re_im h3

theorem Vradix8.ext_lanes8 {α : Type} {N : Nat} {a b : Vradix8 α N}
    (h0 : ∀ i, a.z0.re.r i = b.z0.re.r i ∧ a.z0.im.r i = b.z0.im.r i)
    (h1 : ∀ i, a.z1.re.r i = b.z1.re.r i ∧ a.z1.im.r i = b.z1.im.r i)
    (h2 : ∀ i, a.z2.re.r i = b.z2.re.r i ∧ a.z2.im.r i = b.z2.im.r i)
    (h3 : ∀ i, a.z3.re.r i = b.z3.re.r i ∧ a.z3.im.r i = b.z3.im.r i)
    (h4 : ∀ i, a.z4.re.r i = b.z4.re.r i ∧ a.z4.im.r i = b.z4.im.r i)
    (h5 : ∀ i, a.z5.re.r i = b.z5.re.r i ∧ a.z5.im.r i = b.z5.im.r i)
    (h6 : ∀ i, a.z6.re.r i = b.z6.re.r i ∧ a.z6.im.r i = b.z6.im.r i)
    (h7 : ∀ i, a.z7.re.r i = b.z7.re.r i ∧ a.z7.im.r i = b.z7.im.r i) : a = b := by
  cases a
  cases b
  congr
  · exact Vcx.ext_re_im h0
  · exact Vcx.ext_re_im h1
  · exact Vcx.ext_re_im h2
  · exact Vcx.ext_re_im h3
  · exact Vcx.ext_re_im h4
  · exact Vcx.ext_re_im h5
  · exact Vcx.ext_re_im h6
  · exact Vcx.ext_re_im h7

section ButterflyAlgebra

variable {α : Type} [CommRing α] {N : Nat}

/-- The radix-4 even butterflies are inverse up to the factor 4. -/
theorem Vradix4.backward4e_forward4e (v : Vradix4 α N) (w0 w1 : Vcx α N)
    (h0 : w0.UnitTwiddle) (h1 : w1.UnitTwiddle) :
    (v.forward4e w0 w1).backward4e w0 w1 = v.scale 4 := by
  apply Vradix4.ext_lanes4 <;> intro i <;> constructor <;>
    simp only [Vradix4.forward4e, Vradix4.backward4e, Vradix4.scale, Vcx.scale, Vcx.mulW,
      Vcx.mulWconj, Vcx.addi, Vcx.subi, Vcx.sub_i, Vcx.mul1i, Vcx.mul1mi, Vcx.add_re,
      Vcx.add_im, Vcx.sub_re, Vcx.sub_im, Vcx.broadcast_re, Vcx.broadcast_im,
      Vd.add_r, Vd.sub_r, Vd.mul_r, Vd.scale_r]
  · ring
  · ring
  · linear_combination (4 * v.z1.re.r i) * h1 i
  · linear_combination (4 * v.z1.im.r i) * h1 i
  · linear_combination (4 * v.z2.re.r i) * h0 i
  · linear_combination (4 * v.z2.im.r i) * h0 i
  · linear_combination (4 * v.z3.re.r i * (w1.re.r i ^ 2 * (1 + w1.im.r i ^ 2))) * h0 i
      + (4 * v.z3.re.r i) * h1 i
  · linear_combination (4 * v.z3.im.r i * (w1.re.r i ^ 2 * (1 + w1.im.r i ^ 2))) * h0 i
      + (4 * v.z3.im.r i) * h1 i

/-- The radix-4 odd butterflies are inverse up to the factor 4. -/
theorem Vradix4.backward4o_forward4o (v : Vradix4 α N) (w0 w2 : Vcx α N)
    (h0 : w0.UnitTwiddle) (h2 : w2.UnitTwiddle) :
    (v.forward4o w0 w2).backward4o w0 w2 = v.scale 4 := by
  apply Vradix4.ext_lanes4 <;> intro i <;> constructor <;>
    simp only [Vradix4.forward4o, Vradix4.backward4o, Vradix4.scale, Vcx.scale, Vcx.mulW,
      Vcx.mulWconj, Vcx.addi, Vcx.subi, Vcx.sub_i, Vcx.mul1i, Vcx.mul1mi, Vcx.add_re,
      Vcx.add_im, Vcx.sub_re, Vcx.sub_im, Vcx.broadcast_re, Vcx.broadcast_im,
      Vd.add_r, Vd.sub_r, Vd.mul_r, Vd.scale_r]
  · ring
  · ring
  · linear_combination (4 * v.z1.re.r i) * h2 i
  · linear_combination (4 * v.z1.im.r i) * h2 i
  · linear_combination (4 * v.z2.re.r i) * h0 i
  · linear_combination (4 * v.z2.im.r i) * h0 i
  · linear_combination (4 * v.z3.re.r i * (w2.re.r i ^ 2 * (1 + w2.im.r i ^ 2))) * h0 i
      + (4 * v.z3.re.r i) * h2 i
  · linear_combination (4 * v.z3.im.r i * (w2.re.r i ^ 2 * (1 + w2.im.r i ^ 2))) * h0 i
      + (4 * v.z3.im.r i) * h2 i

/-- The first radix-4 butterflies are inverse up to the factor 4. -/
theorem Vradix4.backward4_0_forward4_0 (s : α) (v : Vradix4 α N) (w0 : Vcx α N)
    (hs : 2 * s ^ 2 = 1) (h0 : w0.UnitTwiddle) :
    Vradix4.backward4_0 s (Vradix4.forward4_0 s v w0) w0 = v.scale 4 := by
  apply Vradix4.ext_lanes4 <;> intro i <;> constructor <;>
    simp only [Vradix4.forward4_0, Vradix4.backward4_0, Vradix4.scale, Vcx.scale, Vcx.mulW,
      Vcx.mulWconj, Vcx.addi, Vcx.subi, Vcx.sub_i, Vcx.mul1i, Vcx.mul1mi, Vcx.add_re,
      Vcx.add_im, Vcx.sub_re, Vcx.sub_im, Vcx.broadcast_re, Vcx.broadcast_im,
      Vd.add_r, Vd.sub_r, Vd.mul_r, Vd.scale_r]
  · ring
  · ring
  · linear_combination (4 * v.z1.re.r i) * h0 i
  · linear_combination (4 * v.z1.im.r i) * h0 i
  · linear_combination (4 * v.z2.re.r i) * hs
  · linear_combination (4 * v.z2.im.r i) * hs
  · linear_combination (4 * v.z3.re.r i) * h0 i
  · linear_combination (4 * v.z3.im.r i) * h0 i

theorem Vradix4.forward4e_scale (v : Vradix4 α N) (w0 w1 : Vcx α N) (k : α) :
    (v.scale k).forward4e w0 w1 = (v.forward4e w0 w1).scale k := by
  apply Vradix4.ext_lanes4 <;> intro i <;> constructor <;>
    simp only [Vradix4.forward4e, Vradix4.scale, Vcx.scale, Vcx.mulW,
      Vcx.mulWconj, Vcx.addi, Vcx.subi, Vcx.sub_i, Vcx.mul1i, Vcx.mul1mi, Vcx.add_re,
      Vcx.add_im, Vcx.sub_re, Vcx.sub_im, Vcx.broadcast_re, Vcx.broadcast_im,
      Vd.add_r, Vd.sub_r, Vd.mul_r, Vd.scale_r] <;> ring

theorem Vradix4.forward4o_scale (v : Vradix4 α N) (w0 w1 : Vcx α N) (k : α) :
    (v.scale k).forward4o w0 w1 = (v.forward4o w0 w1).scale k := by
  apply Vradix4.ext_lanes4 <;> intro i <;> constructor <;>
    simp only [Vradix4.forward4o, Vradix4.scale, Vcx.scale, Vcx.mulW,
      Vcx.mulWconj, Vcx.addi, Vcx.subi, Vcx.sub_i, Vcx.mul1i, Vcx.mul1mi, Vcx.add_re,
      Vcx.add_im, Vcx.sub_re, Vcx.sub_im, Vcx.broadcast_re, Vcx.broadcast_im,
      Vd.add_r, Vd.sub_r, Vd.mul_r, Vd.scale_r] <;> ring

theorem Vradix4.backward4e_scale (v : Vradix4 α N) (w0 w1 : Vcx α N) (k : α) :
    (v.scale k).backward4e w0 w1 = (v.backward4e w0 w1).scale k := by
  apply Vradix4.ext_lanes4 <;> intro i <;> constructor <;>
    simp only [Vradix4.backward4e, Vradix4.scale, Vcx.scale, Vcx.mulW,
      Vcx.mulWconj, Vcx.addi, Vcx.subi, Vcx.sub_i, Vcx.mul1i, Vcx.mul1mi, Vcx.add_re,
      Vcx.add_im, Vcx.sub_re, Vcx.sub_im, Vcx.broadcast_re, Vcx.broadcast_im,
      Vd.add_r, Vd.sub_r, Vd.mul_r, Vd.scale_r] <;> ring

theorem Vradix4.backward4o_scale (v : Vradix4 α N) (w0 w1 : Vcx α N) (k : α) :
    (v.scale k).backward4o w0 w1 = (v.backward4o w0 w1).scale k := by
  apply Vradix4.ext_lanes4 <;> intro i <;> constructor <;>
    simp only [Vradix4.backward4o, Vradix4.scale, Vcx.scale, Vcx.mulW,
      Vcx.mulWconj, Vcx.addi, Vcx.subi, Vcx.sub_i, Vcx.mul1i, Vcx.mul1mi, Vcx.add_re,
      Vcx.add_im, Vcx.sub_re, Vcx.sub_im, Vcx.broadcast_re, Vcx.broadcast_im,
      Vd.add_r, Vd.sub_r, Vd.mul_r, Vd.scale_r] <;> ring

theorem Vradix4.forward4_0_scale (s : α) (v : Vradix4 α N) (w0 : Vcx α N) (k : α) :
    Vradix4.forward4_0 s (v.scale k) w0 = (Vradix4.forward4_0 s v w0).scale k := by
  apply Vradix4.ext_lanes4 <;> intro i <;> constructor <;>
    simp only [Vradix4.forward4_0, Vradix4.scale, Vcx.scale, Vcx.mulW,
      Vcx.mulWconj, Vcx.addi, Vcx.subi, Vcx.sub_i, Vcx.mul1i, Vcx.mul1mi, Vcx.add_re,
      Vcx.add_im, Vcx.sub_re, Vcx.sub_im, Vcx.broadcast_re, Vcx.broadcast_im,
      Vd.add_r, Vd.sub_r, Vd.mul_r, Vd.scale_r] <;> ring

theorem Vradix4.backward4_0_scale (s : α) (v : Vradix4 α N) (w0 : Vcx α N) (k : α) :
    Vradix4.backward4_0 s (v.scale k) w0 = (Vradix4.backward4_0 s v w0).scale k := by
  apply Vradix4.ext_lanes4 <;> intro i <;> constructor <;>
    simp only [Vradix4.backward4_0, Vradix4.scale, Vcx.scale, Vcx.mulW,
      Vcx.mulWconj, Vcx.addi, Vcx.subi, Vcx.sub_i, Vcx.mul1i, Vcx.mul1mi, Vcx.add_re,
      Vcx.add_im, Vcx.sub_re, Vcx.sub_im, Vcx.broadcast_re, Vcx.broadcast_im,
      Vd.add_r, Vd.sub_r, Vd.mul_r, Vd.scale_r] <;> ring

theorem Vradix8.forward8_0_scale (c : Consts α) (v : Vradix8 α N) (k : α) :
    Vradix8.forward8_0 c (v.scale k) = (Vradix8.forward8_0 c v).scale k := by
  apply Vradix8.ext_lanes8 <;> intro i <;> constructor <;>
    simp only [Vradix8.forward8_0, Vradix8.scale, Vcx.scale, Vcx.mulW,
      Vcx.mulWconj, Vcx.addi, Vcx.subi, Vcx.sub_i, Vcx.mul1i, Vcx.mul1mi, Vcx.add_re,
      Vcx.add_im, Vcx.sub_re, Vcx.sub_im, Vcx.broadcast_re, Vcx.broadcast_im,
      Vd.add_r, Vd.sub_r, Vd.mul_r, Vd.scale_r] <;> ring

theorem Vradix8.backward8_0_scale (c : Consts α) (v : Vradix8 α N) (k : α) :
    Vradix8.backward8_0 c (v.scale k) = (Vradix8.backward8_0 c v).scale k := by
  apply Vradix8.ext_lanes8 <;> intro i <;> constructor <;>
    simp only [Vradix8.backward8_0, Vradix8.scale, Vcx.scale, Vcx.mulW,
      Vcx.mulWconj, Vcx.addi, Vcx.subi, Vcx.sub_i, Vcx.mul1i, Vcx.mul1mi, Vcx.add_re,
      Vcx.add_im, Vcx.sub_re, Vcx.sub_im, Vcx.broadcast_re, Vcx.broadcast_im,
      Vd.add_r, Vd.sub_r, Vd.mul_r, Vd.scale_r] <;> ring

end ButterflyAlgebra

section ButterflyAlgebra8

variable {α : Type} [CommRing α] {N : Nat}

set_option maxHeartbeats 4000000 in
/-- The radix-8 butterflies are inverse up to the factor 8 for ideal constants. -/
theorem Vradix8.backward8_0_forward8_0 (c : Consts α) (hc : c.Ideal) (v : Vradix8 α N) :
    Vradix8.backward8_0 c (Vradix8.forward8_0 c v) = v.scale 8 := by
  obtain ⟨hs, h0, h1, h2, hA, hB⟩ := hc
  obtain ⟨s, ⟨c0, t0⟩, ⟨c1, t1⟩, ⟨c2, t2⟩⟩ := c
  simp only at hs h0 h1 h2 hA hB
  apply Vradix8.ext_lanes8 <;> intro i <;> constructor <;>
    simp only [Vradix8.forward8_0, Vradix8.backward8_0, Vradix8.scale, Vcx.scale, Vcx.mulW,
      Vcx.mulWconj, Vcx.addi, Vcx.subi, Vcx.sub_i, Vcx.mul1i, Vcx.mul1mi, Vcx.add_re,
      Vcx.add_im, Vcx.sub_re, Vcx.sub_im, Vcx.broadcast_re, Vcx.broadcast_im,
      Vd.add_r, Vd.sub_r, Vd.mul_r, Vd.scale_r]
  · ring
  · ring
  · linear_combination (4 * v.z1.re.r i + 4 * s * (v.z5.re.r i - v.z5.im.r i)) * h1
      + (4 * v.z1.re.r i - 4 * s * (v.z5.re.r i - v.z5.im.r i)) * h2
  · linear_combination (4 * v.z1.im.r i + 4 * s * (v.z5.re.r i + v.z5.im.r i)) * h1
      + (4 * v.z1.im.r i - 4 * s * (v.z5.re.r i + v.z5.im.r i)) * h2
  · linear_combination (8 * v.z2.re.r i) * h0
  · linear_combination (8 * v.z2.im.r i) * h0
  · linear_combination
      (4 * (c0 ^ 2 * (1 + t0 ^ 2)) * v.z3.re.r i
        + 4 * s * (c0 ^ 2 * (1 + t0 ^ 2)) * (v.z7.re.r i - v.z7.im.r i)) * h1
      + (4 * (c0 ^ 2 * (1 + t0 ^ 2)) * v.z3.re.r i
        - 4 * s * (c0 ^ 2 * (1 + t0 ^ 2)) * (v.z7.re.r i - v.z7.im.r i)) * h2
      + (8 * v.z3.re.r i) * h0
  · linear_combination
      (4 * (c0 ^ 2 * (1 + t0 ^ 2)) * v.z3.im.r i
        + 4 * s * (c0 ^ 2 * (1 + t0 ^ 2)) * (v.z7.re.r i + v.z7.im.r i)) * h1
      + (4 * (c0 ^ 2 * (1 + t0 ^ 2)) * v.z3.im.r i
        - 4 * s * (c0 ^ 2 * (1 + t0 ^ 2)) * (v.z7.re.r i + v.z7.im.r i)) * h2
      + (8 * v.z3.im.r i) * h0
  · linear_combination (8 * v.z4.re.r i) * hs
  · linear_combination (8 * v.z4.im.r i) * hs
  · linear_combination (4 * s * (v.z1.re.r i + v.z1.im.r i) + 8 * s ^ 2 * v.z5.re.r i) * h1
      + (8 * s ^ 2 * v.z5.re.r i - 4 * s * (v.z1.re.r i + v.z1.im.r i)) * h2
      + (8 * v.z5.re.r i) * hs
  · linear_combination (4 * s * (v.z1.im.r i - v.z1.re.r i) + 8 * s ^ 2 * v.z5.im.r i) * h1
      + (8 * s ^ 2 * v.z5.im.r i - 4 * s * (v.z1.im.r i - v.z1.re.r i)) * h2
      + (8 * v.z5.im.r i) * hs
  · linear_combination (8 * s * v.z6.re.r i + 8 * s * v.z6.im.r i) * hA
      + (8 * s * v.z6.re.r i - 8 * s * v.z6.im.r i) * hB + (8 * v.z6.re.r i) * hs
  · linear_combination (8 * s * v.z6.im.r i - 8 * s * v.z6.re.r i) * hA
      + (8 * s * v.z6.im.r i + 8 * s * v.z6.re.r i) * hB + (8 * v.z6.im.r i) * hs
  · linear_combination
      (4 * (c0 ^ 2 * (1 - t0 ^ 2) * v.z3.im.r i + 2 * c0 ^ 2 * t0 * v.z3.re.r i)
        + 4 * (s * (c0 ^ 2 * (1 - t0 ^ 2) + 2 * c0 ^ 2 * t0) * v.z7.re.r i
          - s * (2 * c0 ^ 2 * t0 - c0 ^ 2 * (1 - t0 ^ 2)) * v.z7.im.r i)) * h1
      + (4 * (s * (c0 ^ 2 * (1 - t0 ^ 2) + 2 * c0 ^ 2 * t0) * v.z7.re.r i
          - s * (2 * c0 ^ 2 * t0 - c0 ^ 2 * (1 - t0 ^ 2)) * v.z7.im.r i)
        - 4 * (c0 ^ 2 * (1 - t0 ^ 2) * v.z3.im.r i + 2 * c0 ^ 2 * t0 * v.z3.re.r i)) * h2
      + (8 * s * v.z7.re.r i + 8 * s * v.z7.im.r i) * hA
      + (8 * s * v.z7.re.r i - 8 * s * v.z7.im.r i) * hB + (8 * v.z7.re.r i) * hs
  · linear_combination
      (4 * (s * (c0 ^ 2 * (1 - t0 ^ 2) + 2 * c0 ^ 2 * t0) * v.z7.im.r i
          + s * (2 * c0 ^ 2 * t0 - c0 ^ 2 * (1 - t0 ^ 2)) * v.z7.re.r i)
        - 4 * (c0 ^ 2 * (1 - t0 ^ 2) * v.z3.re.r i - 2 * c0 ^ 2 * t0 * v.z3.im.r i)) * h1
      + (4 * (c0 ^ 2 * (1 - t0 ^ 2) * v.z3.re.r i - 2 * c0 ^ 2 * t0 * v.z3.im.r i)
        + 4 * (s * (c0 ^ 2 * (1 - t0 ^ 2) + 2 * c0 ^ 2 * t0) * v.z7.im.r i
          + s * (2 * c0 ^ 2 * t0 - c0 ^ 2 * (1 - t0 ^ 2)) * v.z7.re.r i)) * h2
      + (8 * s * v.z7.im.r i - 8 * s * v.z7.re.r i) * hA
      + (8 * s * v.z7.im.r i + 8 * s * v.z7.re.r i) * hB + (8 * v.z7.im.r i) * hs

end ButterflyAlgebra8

/-! ## Locality of the in-place loops -/

section Locality

variable {α : Type} [CommRing α]

theorem IsLocal.congr {fp : Nat → Prop} {A : (Nat → α) → Nat → α} (h : IsLocal fp A)
    {z z' : Nat → α} (hz : ∀ d, fp d → z' d = z d) : ∀ d, fp d → A z' d = A z d := by
  intro d hd
  have := h.2 1 z z' (fun d hd => by rw [hz d hd, mul_one]) d hd
  rw [this, mul_one]

theorem IsLocal.mono {fp fp' : Nat → Prop} {A : (Nat → α) → Nat → α} (h : IsLocal fp A)
    (hsub : ∀ d, fp d → fp' d) : IsLocal fp' A := by
  refine ⟨fun z d hd => h.1 z d (fun hfp => hd (hsub d hfp)), ?_⟩
  intro c z z' hz d hd
  by_cases hfp : fp d
  · exact h.2 c z z' (fun d hd => hz d (hsub d hd)) d hfp
  · rw [h.1 z' d hfp, h.1 z d hfp, hz d hd]

theorem IsLocal.comp {fp : Nat → Prop} {A B : (Nat → α) → Nat → α} (hA : IsLocal fp A)
    (hB : IsLocal fp B) : IsLocal fp (fun z => B (A z)) := by
  refine ⟨fun z d hd => ?_, ?_⟩
  · show B (A z) d = z d
    rw [hB.1 _ d hd, hA.1 z d hd]
  · intro c z z' hz d hd
    exact hB.2 c (A z) (A z') (hA.2 c z z' hz) d hd

theorem IsLocal.id (fp : Nat → Prop) : IsLocal fp (fun z : Nat → α => z) :=
  ⟨fun _ _ _ => rfl, fun _ _ _ hz d hd => hz d hd⟩

theorem IsLocal.foldl {fp : Nat → Prop} (A : Nat → (Nat → α) → Nat → α) (l : List Nat)
    (h : ∀ k ∈ l, IsLocal fp (A k)) : IsLocal fp (fun z => l.foldl (fun z k => A k z) z) := by
  induction l with
  | nil => exact IsLocal.id fp
  | cons a l ih =>
    have h1 := h a (List.mem_cons_self a l)
    have h2 := ih (fun k hk => h k (List.mem_cons_of_mem a hk))
    exact IsLocal.comp h1 h2

theorem StagePair.congr_fp {fp fp' : Nat → Prop} {F B : (Nat → α) → Nat → α} {c : α}
    (h : StagePair fp F B c) (hfp : ∀ d, fp d ↔ fp' d) : StagePair fp' F B c := by
  have e : fp = fp' := funext fun d => propext (hfp d)
  rw [← e]
  exact h

/-- Two pairs on disjoint footprints, run one after the other. -/
theorem StagePair.union {fp1 fp2 : Nat → Prop} {F1 B1 F2 B2 : (Nat → α) → Nat → α} {c : α}
    (h1 : StagePair fp1 F1 B1 c) (h2 : StagePair fp2 F2 B2 c)
    (hdisj : ∀ d, fp1 d → fp2 d → False) :
    StagePair (fun d => fp1 d ∨ fp2 d) (fun z => F2 (F1 z)) (fun z => B2 (B1 z)) c := by
  obtain ⟨hF1, hB1, hI1⟩ := h1
  obtain ⟨hF2, hB2, hI2⟩ := h2
  refine ⟨IsLocal.comp (hF1.mono fun d h => Or.inl h) (hF2.mono fun d h => Or.inr h),
    IsLocal.comp (hB1.mono fun d h => Or.inl h) (hB2.mono fun d h => Or.inr h), ?_⟩
  intro z d hd
  show B2 (B1 (F2 (F1 z))) d = z d * c
  rcases hd with hd | hd
  · have hn : ¬ fp2 d := fun h => hdisj d hd h
    rw [hB2.1 _ d hn]
    rw [hB1.congr (fun d hd => hF2.1 (F1 z) d (fun h => hdisj d hd h)) d hd]
    exact hI1 z d hd
  · have hn : ¬ fp1 d := fun h => hdisj d h hd
    rw [hB2.congr (fun d hd => hB1.1 (F2 (F1 z)) d (fun h => hdisj d h hd)) d hd]
    rw [hI2 (F1 z) d hd, hF1.1 z d hn]

/-- Two pairs on the same footprint, nested: the scale factors multiply. -/
theorem StagePair.nest {fp : Nat → Prop} {F1 B1 F2 B2 : (Nat → α) → Nat → α} {c1 c2 : α}
    (h1 : StagePair fp F1 B1 c1) (h2 : StagePair fp F2 B2 c2) :
    StagePair fp (fun z => F2 (F1 z)) (fun z => B1 (B2 z)) (c1 * c2) := by
  obtain ⟨hF1, hB1, hI1⟩ := h1
  obtain ⟨hF2, hB2, hI2⟩ := h2
  refine ⟨IsLocal.comp hF1 hF2, IsLocal.comp hB2 hB1, ?_⟩
  intro z d hd
  show B1 (B2 (F2 (F1 z))) d = z d * (c1 * c2)
  rw [hB1.2 c2 (F1 z) (B2 (F2 (F1 z))) (fun d hd => hI2 (F1 z) d hd) d hd, hI1 z d hd,
    mul_assoc]

/-- A family of pairs on pairwise disjoint footprints, run by a loop. -/
theorem StagePair.foldl_range (fp : Nat → Nat → Prop) (F B : Nat → (Nat → α) → Nat → α)
    (c : α) (n : Nat) (h : ∀ k, k < n → StagePair (fp k) (F k) (B k) c)
    (hdisj : ∀ k k' d, k < k' → k' < n → fp k d → fp k' d → False) :
    StagePair (fun d => ∃ k, k < n ∧ fp k d)
      (fun z => (List.range n).foldl (fun z k => F k z) z)
      (fun z => (List.range n).foldl (fun z k => B k z) z) c := by
  induction n with
  | zero =>
    refine ⟨⟨fun _ _ _ => rfl, fun _ _ _ _ d hd => ?_⟩, ⟨fun _ _ _ => rfl, fun _ _ _ _ d hd => ?_⟩,
      fun z d hd => ?_⟩ <;>
    · obtain ⟨k, hk, _⟩ := hd
      exact absurd hk (Nat.not_lt_zero k)
  | succ n ih =>
    have ih1 := ih (fun k hk => h k (Nat.lt_succ_of_lt hk))
      (fun k k' d hkk hk => hdisj k k' d hkk (Nat.lt_succ_of_lt hk))
    have hu := StagePair.union ih1 (h n (Nat.lt_succ_self n)) (by
      rintro d ⟨k, hk, hkd⟩ hnd
      exact hdisj k n d hk (Nat.lt_succ_self n) hkd hnd)
    have hu2 : StagePair (fun d => ∃ k, k < n + 1 ∧ fp k d)
        (fun z => F n ((List.range n).foldl (fun z k => F k z) z))
        (fun z => B n ((List.range n).foldl (fun z k => B k z) z)) c := by
      refine hu.congr_fp (fun d => ⟨?_, ?_⟩)
      · rintro (⟨k, hk, hkd⟩ | hnd)
        · exact ⟨k, Nat.lt_succ_of_lt hk, hkd⟩
        · exact ⟨n, Nat.lt_succ_self n, hnd⟩
      · rintro ⟨k, hk, hkd⟩
        rcases Nat.lt_succ_iff_lt_or_eq.mp hk with hk | rfl
        · exact Or.inl ⟨k, hk, hkd⟩
        · exact Or.inr hkd
    simpa only [List.range_succ, List.foldl_append, List.foldl_cons, List.foldl_nil] using hu2

end Locality

/-! ## Reading and writing vectors in the array -/

section Memory

variable {α : Type} {V : Nat}

theorem Vcx.write_of_not_cell (v : Vcx α V) (z : Nat → α) (p d : Nat) (h : ¬ cell V p d) :
    v.write z p d = z d := by
  unfold cell at h
  unfold Vcx.write
  rw [dif_neg (by omega), dif_neg (by omega)]

theorem Vcx.read_write_same (v : Vcx α V) (z : Nat → α) (p : Nat) :
    Vcx.read (v.write z p) p = v := by
  apply Vcx.ext_re_im
  intro i
  have hi := i.isLt
  constructor
  · show v.write z p (2 * p + i.val) = v.re.r i
    unfold Vcx.write
    rw [dif_pos (by omega)]
    congr 1
    apply Fin.ext
    show 2 * p + i.val - 2 * p = i.val
    omega
  · show v.write z p (2 * p + V + i.val) = v.im.r i
    unfold Vcx.write
    rw [dif_neg (by omega), dif_pos (by omega)]
    congr 1
    apply Fin.ext
    show 2 * p + V + i.val - (2 * p + V) = i.val
    omega

theorem Vcx.read_congr {z z' : Nat → α} {p : Nat} (h : ∀ d, cell V p d → z' d = z d) :
    (Vcx.read z' p : Vcx α V) = Vcx.read z p := by
  apply Vcx.ext_re_im
  intro i
  have hi := i.isLt
  exact ⟨h _ ⟨by omega, by omega⟩, h _ ⟨by omega, by omega⟩⟩

theorem Vcx.read_write_other (v : Vcx α V) (z : Nat → α) (p p' : Nat)
    (h : p + V ≤ p' ∨ p' + V ≤ p) : (Vcx.read (v.write z p) p' : Vcx α V) = Vcx.read z p' := by
  apply Vcx.read_congr
  intro d hd
  apply Vcx.write_of_not_cell
  unfold cell at hd ⊢
  omega

theorem Vcx.read_scale [Mul α] {z z' : Nat → α} {p : Nat} {c : α}
    (h : ∀ d, cell V p d → z' d = z d * c) :
    (Vcx.read z' p : Vcx α V) = (Vcx.read z p).scale c := by
  apply Vcx.ext_re_im
  intro i
  have hi := i.isLt
  exact ⟨h _ ⟨by omega, by omega⟩, h _ ⟨by omega, by omega⟩⟩

theorem Vcx.of_read_eq {z z' : Nat → α} {p : Nat} (f : Vcx α V → Vcx α V)
    (g : α → α) (hf : ∀ (v : Vcx α V) i, (f v).re.r i = g (v.re.r i) ∧ (f v).im.r i = g (v.im.r i))
    (h : (Vcx.read z' p : Vcx α V) = f (Vcx.read z p)) :
    ∀ d, cell V p d → z' d = g (z d) := by
  intro d hd
  unfold cell at hd
  by_cases hlt : d < 2 * p + V
  · have := congrArg (fun v : Vcx α V => v.re.r ⟨d - 2 * p, by omega⟩) h
    simp only [(hf _ _).1] at this
    simp only [Vcx.read] at this
    rwa [show 2 * p + (d - 2 * p) = d by omega] at this
  · have := congrArg (fun v : Vcx α V => v.im.r ⟨d - (2 * p + V), by omega⟩) h
    simp only [(hf _ _).2] at this
    simp only [Vcx.read] at this
    rwa [show 2 * p + V + (d - (2 * p + V)) = d by omega] at this

theorem Vcx.of_read_scale [Mul α] {z z' : Nat → α} {p : Nat} {c : α}
    (h : (Vcx.read z' p : Vcx α V) = (Vcx.read z p).scale c) :
    ∀ d, cell V p d → z' d = z d * c :=
  Vcx.of_read_eq (fun v => v.scale c) (fun x => x * c) (fun _ _ => ⟨rfl, rfl⟩) h

end Memory

/-! ## One butterfly in place -/

section Site

variable {α : Type} {V : Nat}

theorem Vradix4.site4_frame (op : Vradix4 α V → Vradix4 α V) (mi p : Nat) (z : Nat → α)
    (d : Nat) (h : ¬ fp4 V p mi d) : Vradix4.site op mi p z d = z d := by
  unfold fp4 at h
  simp only [not_or] at h
  obtain ⟨h0, h1, h2, h3⟩ := h
  unfold Vradix4.site Vradix4.store
  simp only [Nat.zero_mul, Nat.one_mul, Nat.add_zero]
  rw [Vcx.write_of_not_cell _ _ _ _ h3, Vcx.write_of_not_cell _ _ _ _ h2,
    Vcx.write_of_not_cell _ _ _ _ h1, Vcx.write_of_not_cell _ _ _ _ h0]

theorem Vradix4.site4_load (op : Vradix4 α V → Vradix4 α V) (mi p : Nat) (z : Nat → α)
    (hV : V ≤ mi) : Vradix4.load (Vradix4.site op mi p z) p mi = op (Vradix4.load z p mi) := by
  unfold Vradix4.site Vradix4.store
  generalize op (Vradix4.load z p mi) = v
  unfold Vradix4.load
  simp only [Nat.zero_mul, Nat.one_mul, Nat.add_zero]
  rw [Vcx.read_write_same]
  rw [Vcx.read_write_other _ _ _ (p + 2 * mi) (by omega), Vcx.read_write_same]
  rw [Vcx.read_write_other _ _ _ (p + mi) (by omega),
    Vcx.read_write_other _ _ _ (p + mi) (by omega), Vcx.read_write_same]
  rw [Vcx.read_write_other _ _ _ p (by omega), Vcx.read_write_other _ _ _ p (by omega),
    Vcx.read_write_other _ _ _ p (by omega), Vcx.read_write_same]

theorem Vradix4.load4_scale [Mul α] {z z' : Nat → α} {p mi : Nat} {c : α}
    (h : ∀ d, fp4 V p mi d → z' d = z d * c) :
    (Vradix4.load z' p mi : Vradix4 α V) = (Vradix4.load z p mi).scale c := by
  unfold Vradix4.load Vradix4.scale
  simp only [Nat.zero_mul, Nat.one_mul, Nat.add_zero]
  rw [Vcx.read_scale fun d hd => h d (Or.inl hd),
    Vcx.read_scale fun d hd => h d (Or.inr (Or.inl hd)),
    Vcx.read_scale fun d hd => h d (Or.inr (Or.inr (Or.inl hd))),
    Vcx.read_scale fun d hd => h d (Or.inr (Or.inr (Or.inr hd)))]

theorem Vradix4.of_load4_scale [Mul α] {z z' : Nat → α} {p mi : Nat} {c : α}
    (h : (Vradix4.load z' p mi : Vradix4 α V) = (Vradix4.load z p mi).scale c) :
    ∀ d, fp4 V p mi d → z' d = z d * c := by
  have e0 := congrArg Vradix4.z0 h
  have e1 := congrArg Vradix4.z1 h
  have e2 := congrArg Vradix4.z2 h
  have e3 := congrArg Vradix4.z3 h
  simp only [Vradix4.load, Vradix4.scale, Nat.zero_mul, Nat.one_mul, Nat.add_zero]
    at e0 e1 e2 e3
  rintro d (hd | hd | hd | hd)
  · exact Vcx.of_read_scale e0 d hd
  · exact Vcx.of_read_scale e1 d hd
  · exact Vcx.of_read_scale e2 d hd
  · exact Vcx.of_read_scale e3 d hd

/-- One radix-4 butterfly and its inverse, in place. -/
theorem Vradix4.site4_pair [Mul α] (f b : Vradix4 α V → Vradix4 α V) (c : α) (mi p : Nat)
    (hV : V ≤ mi) (hinv : ∀ v, b (f v) = v.scale c)
    (hf : ∀ v k, f (v.scale k) = (f v).scale k) (hb : ∀ v k, b (v.scale k) = (b v).scale k) :
    StagePair (fp4 V p mi) (Vradix4.site f mi p) (Vradix4.site b mi p) c := by
  have loc : ∀ g : Vradix4 α V → Vradix4 α V, (∀ v k, g (v.scale k) = (g v).scale k) →
      IsLocal (fp4 V p mi) (Vradix4.site g mi p) := by
    intro g hg
    refine ⟨fun z d hd => Vradix4.site4_frame g mi p z d hd, ?_⟩
    intro k z z' hz
    apply Vradix4.of_load4_scale
    rw [Vradix4.site4_load g mi p z' hV, Vradix4.site4_load g mi p z hV, Vradix4.load4_scale hz,
      hg]
  refine ⟨loc f hf, loc b hb, ?_⟩
  intro z
  apply Vradix4.of_load4_scale
  rw [Vradix4.site4_load b mi p _ hV, Vradix4.site4_load f mi p z hV, hinv]

theorem Vradix8.site8_frame (op : Vradix8 α V → Vradix8 α V) (mi p : Nat) (z : Nat → α)
    (d : Nat) (h : ¬ fp8 V p mi d) : Vradix8.site op mi p z d = z d := by
  unfold fp8 at h
  simp only [not_or] at h
  obtain ⟨h0, h1, h2, h3, h4, h5, h6, h7⟩ := h
  unfold Vradix8.site Vradix8.store
  simp only [Nat.zero_mul, Nat.one_mul, Nat.add_zero]
  rw [Vcx.write_of_not_cell _ _ _ _ h7, Vcx.write_of_not_cell _ _ _ _ h6,
    Vcx.write_of_not_cell _ _ _ _ h5, Vcx.write_of_not_cell _ _ _ _ h4,
    Vcx.write_of_not_cell _ _ _ _ h3, Vcx.write_of_not_cell _ _ _ _ h2,
    Vcx.write_of_not_cell _ _ _ _ h1, Vcx.write_of_not_cell _ _ _ _ h0]

theorem Vradix8.site8_load (op : Vradix8 α V → Vradix8 α V) (mi p : Nat) (z : Nat → α)
    (hV : V ≤ mi) : Vradix8.load (Vradix8.site op mi p z) p mi = op (Vradix8.load z p mi) := by
  unfold Vradix8.site Vradix8.store
  generalize op (Vradix8.load z p mi) = v
  unfold Vradix8.load
  simp only [Nat.zero_mul, Nat.one_mul, Nat.add_zero]
  have ro : ∀ (u : Vcx α V) (w : Nat → α) (a b : Nat), a + V ≤ b ∨ b + V ≤ a →
      (Vcx.read (u.write w a) b : Vcx α V) = Vcx.read w b :=
    fun u w a b h => Vcx.read_write_other u w a b h
  rw [Vcx.read_write_same]
  rw [ro _ _ _ (p + 6 * mi) (by omega), Vcx.read_write_same]
  rw [ro _ _ _ (p + 5 * mi) (by omega), ro _ _ _ (p + 5 * mi) (by omega),
    Vcx.read_write_same]
  rw [ro _ _ _ (p + 4 * mi) (by omega), ro _ _ _ (p + 4 * mi) (by omega),
    ro _ _ _ (p + 4 * mi) (by omega), Vcx.read_write_same]
  rw [ro _ _ _ (p + 3 * mi) (by omega), ro _ _ _ (p + 3 * mi) (by omega),
    ro _ _ _ (p + 3 * mi) (by omega), ro _ _ _ (p + 3 * mi) (by omega), Vcx.read_write_same]
  rw [ro _ _ _ (p + 2 * mi) (by omega), ro _ _ _ (p + 2 * mi) (by omega),
    ro _ _ _ (p + 2 * mi) (by omega), ro _ _ _ (p + 2 * mi) (by omega),
    ro _ _ _ (p + 2 * mi) (by omega), Vcx.read_write_same]
  rw [ro _ _ _ (p + mi) (by omega), ro _ _ _ (p + mi) (by omega),
    ro _ _ _ (p + mi) (by omega), ro _ _ _ (p + mi) (by omega),
    ro _ _ _ (p + mi) (by omega), ro _ _ _ (p + mi) (by omega), Vcx.read_write_same]
  rw [ro _ _ _ p (by omega), ro _ _ _ p (by omega), ro _ _ _ p (by omega),
    ro _ _ _ p (by omega), ro _ _ _ p (by omega), ro _ _ _ p (by omega),
    ro _ _ _ p (by omega), Vcx.read_write_same]

theorem Vradix8.load8_scale [Mul α] {z z' : Nat → α} {p mi : Nat} {c : α}
    (h : ∀ d, fp8 V p mi d → z' d = z d * c) :
    (Vradix8.load z' p mi : Vradix8 α V) = (Vradix8.load z p mi).scale c := by
  unfold Vradix8.load Vradix8.scale
  simp only [Nat.zero_mul, Nat.one_mul, Nat.add_zero]
  rw [Vcx.read_scale fun d hd => h d (Or.inl hd),
    Vcx.read_scale fun d hd => h d (Or.inr (Or.inl hd)),
    Vcx.read_scale fun d hd => h d (Or.inr (Or.inr (Or.inl hd))),
    Vcx.read_scale fun d hd => h d (Or.inr (Or.inr (Or.inr (Or.inl hd)))),
    Vcx.read_scale fun d hd => h d (Or.inr (Or.inr (Or.inr (Or.inr (Or.inl hd))))),
    Vcx.read_scale fun d hd => h d (Or.inr (Or.inr (Or.inr (Or.inr (Or.inr (Or.inl hd)))))),
    Vcx.read_scale fun d hd =>
      h d (Or.inr (Or.inr (Or.inr (Or.inr (Or.inr (Or.inr (Or.inl hd))))))),
    Vcx.read_scale fun d hd =>
      h d (Or.inr (Or.inr (Or.inr (Or.inr (Or.inr (Or.inr (Or.inr hd)))))))]

theorem Vradix8.of_load8_scale [Mul α] {z z' : Nat → α} {p mi : Nat} {c : α}
    (h : (Vradix8.load z' p mi : Vradix8 α V) = (Vradix8.load z p mi).scale c) :
    ∀ d, fp8 V p mi d → z' d = z d * c := by
  have e0 := congrArg Vradix8.z0 h
  have e1 := congrArg Vradix8.z1 h
  have e2 := congrArg Vradix8.z2 h
  have e3 := congrArg Vradix8.z3 h
  have e4 := congrArg Vradix8.z4 h
  have e5 := congrArg Vradix8.z5 h
  have e6 := congrArg Vradix8.z6 h
  have e7 := congrArg Vradix8.z7 h
  simp only [Vradix8.load, Vradix8.scale, Nat.zero_mul, Nat.one_mul, Nat.add_zero]
    at e0 e1 e2 e3 e4 e5 e6 e7
  rintro d (hd | hd | hd | hd | hd | hd | hd | hd)
  · exact Vcx.of_read_scale e0 d hd
  · exact Vcx.of_read_scale e1 d hd
  · exact Vcx.of_read_scale e2 d hd
  · exact Vcx.of_read_scale e3 d hd
  · exact Vcx.of_read_scale e4 d hd
  · exact Vcx.of_read_scale e5 d hd
  · exact Vcx.of_read_scale e6 d hd
  · exact Vcx.of_read_scale e7 d hd

/-- One radix-8 butterfly and its inverse, in place. -/
theorem Vradix8.site8_pair [Mul α] (f b : Vradix8 α V → Vradix8 α V) (c : α) (mi p : Nat)
    (hV : V ≤ mi) (hinv : ∀ v, b (f v) = v.scale c)
    (hf : ∀ v k, f (v.scale k) = (f v).scale k) (hb : ∀ v k, b (v.scale k) = (b v).scale k) :
    StagePair (fp8 V p mi) (Vradix8.site f mi p) (Vradix8.site b mi p) c := by
  have loc : ∀ g : Vradix8 α V → Vradix8 α V, (∀ v k, g (v.scale k) = (g v).scale k) →
      IsLocal (fp8 V p mi) (Vradix8.site g mi p) := by
    intro g hg
    refine ⟨fun z d hd => Vradix8.site8_frame g mi p z d hd, ?_⟩
    intro k z z' hz
    apply Vradix8.of_load8_scale
    rw [Vradix8.site8_load g mi p z' hV, Vradix8.site8_load g mi p z hV, Vradix8.load8_scale hz,
      hg]
  refine ⟨loc f hf, loc b hb, ?_⟩
  intro z
  apply Vradix8.of_load8_scale
  rw [Vradix8.site8_load b mi p _ hV, Vradix8.site8_load f mi p z hV, hinv]

end Site

/-! ## The loop nests over one block of rows -/

section Loops

theorem index_n_io : CZIT_CPU_vec_mt.index CZIT_CPU_vec_mt.n_io = 68 := by decide

theorem fp4_disjoint_cols (V R p r k k' d : Nat) (hV : V = 2 ∨ V = 4 ∨ V = 8)
    (hk : k < k') (hk' : k' < 8 / V) (h : fp4 V (p + (r * 68 + k * V)) (68 * R) d)
    (h' : fp4 V (p + (r * 68 + k' * V)) (68 * R) d) : False := by
  unfold fp4 cell at h h'
  rcases hV with rfl | rfl | rfl <;> simp only [Nat.reduceDiv] at hk' <;> omega

theorem fp4_disjoint_rows (V R p r r' k k' d : Nat) (hV : V = 2 ∨ V = 4 ∨ V = 8)
    (hr : r < r') (hr' : r' < R) (hk : k < 8 / V) (hk' : k' < 8 / V)
    (h : fp4 V (p + (r * 68 + k * V)) (68 * R) d)
    (h' : fp4 V (p + (r' * 68 + k' * V)) (68 * R) d) : False := by
  unfold fp4 cell at h h'
  rcases hV with rfl | rfl | rfl <;> simp only [Nat.reduceDiv] at hk hk' <;> omega

theorem fp4_rows (V R p d : Nat) (hV : V = 2 ∨ V = 4 ∨ V = 8) :
    (∃ r, r < R ∧ ∃ k, k < 8 / V ∧ fp4 V (p + (r * 68 + k * V)) (68 * R) d) ↔
      rows p 0 (4 * R) d := by
  unfold fp4 cell rows
  constructor
  · rintro ⟨r, hr, k, hk, h⟩
    rcases hV with rfl | rfl | rfl <;> simp only [Nat.reduceDiv] at hk <;>
      rcases h with h | h | h | h
    all_goals first
      | exact ⟨r, by omega, by omega, by omega, by omega⟩
      | exact ⟨r + R, by omega, by omega, by omega, by omega⟩
      | exact ⟨r + 2 * R, by omega, by omega, by omega, by omega⟩
      | exact ⟨r + 3 * R, by omega, by omega, by omega, by omega⟩
  · rintro ⟨r, _, hr, h1, h2⟩
    have hq : r < R ∨ (R ≤ r ∧ r < 2 * R) ∨ (2 * R ≤ r ∧ r < 3 * R) ∨ (3 * R ≤ r) := by omega
    rcases hV with rfl | rfl | rfl
    · rcases hq with hq | hq | hq | hq
      · exact ⟨r, by omega, (d - 2 * (p + 68 * r)) / 4, by omega, by omega⟩
      · exact ⟨r - R, by omega, (d - 2 * (p + 68 * r)) / 4, by omega, by omega⟩
      · exact ⟨r - 2 * R, by omega, (d - 2 * (p + 68 * r)) / 4, by omega, by omega⟩
      · exact ⟨r - 3 * R, by omega, (d - 2 * (p + 68 * r)) / 4, by omega, by omega⟩
    · rcases hq with hq | hq | hq | hq
      · exact ⟨r, by omega, (d - 2 * (p + 68 * r)) / 8, by omega, by omega⟩
      · exact ⟨r - R, by omega, (d - 2 * (p + 68 * r)) / 8, by omega, by omega⟩
      · exact ⟨r - 2 * R, by omega, (d - 2 * (p + 68 * r)) / 8, by omega, by omega⟩
      · exact ⟨r - 3 * R, by omega, (d - 2 * (p + 68 * r)) / 8, by omega, by omega⟩
    · rcases hq with hq | hq | hq | hq
      · exact ⟨r, by omega, 0, by omega, by omega⟩
      · exact ⟨r - R, by omega, 0, by omega, by omega⟩
      · exact ⟨r - 2 * R, by omega, 0, by omega, by omega⟩
      · exact ⟨r - 3 * R, by omega, 0, by omega, by omega⟩

theorem fp8_disjoint_cols (V R p r k k' d : Nat) (hV : V = 2 ∨ V = 4 ∨ V = 8)
    (hk : k < k') (hk' : k' < 8 / V) (h : fp8 V (p + (r * 68 + k * V)) (68 * R) d)
    (h' : fp8 V (p + (r * 68 + k' * V)) (68 * R) d) : False := by
  unfold fp8 cell at h h'
  rcases hV with rfl | rfl | rfl <;> simp only [Nat.reduceDiv] at hk' <;> omega

theorem fp8_disjoint_rows (V R p r r' k k' d : Nat) (hV : V = 2 ∨ V = 4 ∨ V = 8)
    (hr : r < r') (hr' : r' < R) (hk : k < 8 / V) (hk' : k' < 8 / V)
    (h : fp8 V (p + (r * 68 + k * V)) (68 * R) d)
    (h' : fp8 V (p + (r' * 68 + k' * V)) (68 * R) d) : False := by
  unfold fp8 cell at h h'
  rcases hV with rfl | rfl | rfl <;> simp only [Nat.reduceDiv] at hk hk' <;> omega

theorem fp8_rows (V R p d : Nat) (hV : V = 2 ∨ V = 4 ∨ V = 8) :
    (∃ r, r < R ∧ ∃ k, k < 8 / V ∧ fp8 V (p + (r * 68 + k * V)) (68 * R) d) ↔
      rows p 0 (8 * R) d := by
  unfold fp8 cell rows
  constructor
  · rintro ⟨r, hr, k, hk, h⟩
    rcases hV with rfl | rfl | rfl <;> simp only [Nat.reduceDiv] at hk <;>
      rcases h with h | h | h | h | h | h | h | h
    all_goals first
      | exact ⟨r, by omega, by omega, by omega, by omega⟩
      | exact ⟨r + R, by omega, by omega, by omega, by omega⟩
      | exact ⟨r + 2 * R, by omega, by omega, by omega, by omega⟩
      | exact ⟨r + 3 * R, by omega, by omega, by omega, by omega⟩
      | exact ⟨r + 4 * R, by omega, by omega, by omega, by omega⟩
      | exact ⟨r + 5 * R, by omega, by omega, by omega, by omega⟩
      | exact ⟨r + 6 * R, by omega, by omega, by omega, by omega⟩
      | exact ⟨r + 7 * R, by omega, by omega, by omega, by omega⟩
  · rintro ⟨r, _, hr, h1, h2⟩
    have hq : r < R ∨ (R ≤ r ∧ r < 2 * R) ∨ (2 * R ≤ r ∧ r < 3 * R) ∨
        (3 * R ≤ r ∧ r < 4 * R) ∨ (4 * R ≤ r ∧ r < 5 * R) ∨ (5 * R ≤ r ∧ r < 6 * R) ∨
        (6 * R ≤ r ∧ r < 7 * R) ∨ (7 * R ≤ r) := by omega
    have hk : ∃ k, k < 8 / V ∧ 2 * (p + 68 * r) + 2 * (k * V) ≤ d ∧
        d < 2 * (p + 68 * r) + 2 * (k * V) + 2 * V := by
      rcases hV with rfl | rfl | rfl
      · exact ⟨(d - 2 * (p + 68 * r)) / 4, by omega, by omega, by omega⟩
      · exact ⟨(d - 2 * (p + 68 * r)) / 8, by omega, by omega, by omega⟩
      · exact ⟨0, by omega, by omega, by omega⟩
    obtain ⟨k, hk, hk1, hk2⟩ := hk
    rcases hq with hq | hq | hq | hq | hq | hq | hq | hq
    · exact ⟨r, by omega, k, hk, by omega⟩
    · exact ⟨r - R, by omega, k, hk, by omega⟩
    · exact ⟨r - 2 * R, by omega, k, hk, by omega⟩
    · exact ⟨r - 3 * R, by omega, k, hk, by omega⟩
    · exact ⟨r - 4 * R, by omega, k, hk, by omega⟩
    · exact ⟨r - 5 * R, by omega, k, hk, by omega⟩
    · exact ⟨r - 6 * R, by omega, k, hk, by omega⟩
    · exact ⟨r - 7 * R, by omega, k, hk, by omega⟩

variable {α : Type} [CommRing α]

/-- The two nested loops of radix-4 butterflies over `R` rows, and the loops of
the inverse butterflies. -/
theorem sites4_pair (V R p : Nat) (f b : Vradix4 α V → Vradix4 α V) (c : α)
    (hV : V = 2 ∨ V = 4 ∨ V = 8) (hR : 1 ≤ R) (hinv : ∀ v, b (f v) = v.scale c)
    (hf : ∀ v k, f (v.scale k) = (f v).scale k) (hb : ∀ v k, b (v.scale k) = (b v).scale k) :
    StagePair (rows p 0 (4 * R))
      (fun z => (List.range R).foldl (fun z r => (List.range (8 / V)).foldl
        (fun z k => Vradix4.site f (68 * R) (p + (r * 68 + k * V)) z) z) z)
      (fun z => (List.range R).foldl (fun z r => (List.range (8 / V)).foldl
        (fun z k => Vradix4.site b (68 * R) (p + (r * 68 + k * V)) z) z) z) c := by
  have hVR : V ≤ 68 * R := by rcases hV with rfl | rfl | rfl <;> omega
  refine (StagePair.foldl_range
    (fun r d => ∃ k, k < 8 / V ∧ fp4 V (p + (r * 68 + k * V)) (68 * R) d)
    (fun r z => (List.range (8 / V)).foldl
      (fun z k => Vradix4.site f (68 * R) (p + (r * 68 + k * V)) z) z)
    (fun r z => (List.range (8 / V)).foldl
      (fun z k => Vradix4.site b (68 * R) (p + (r * 68 + k * V)) z) z) c R ?_ ?_).congr_fp
    (fun d => fp4_rows V R p d hV)
  · intro r _
    exact StagePair.foldl_range (fun k => fp4 V (p + (r * 68 + k * V)) (68 * R))
      (fun k => Vradix4.site f (68 * R) (p + (r * 68 + k * V)))
      (fun k => Vradix4.site b (68 * R) (p + (r * 68 + k * V))) c (8 / V)
      (fun k _ => Vradix4.site4_pair f b c _ _ hVR hinv hf hb)
      (fun k k' d hkk hk' h h' => fp4_disjoint_cols V R p r k k' d hV hkk hk' h h')
  · rintro r r' d hrr hr' ⟨k, hk, h⟩ ⟨k', hk', h'⟩
    exact fp4_disjoint_rows V R p r r' k k' d hV hrr hr' hk hk' h h'

/-- The two nested loops of radix-8 butterflies over `R` rows, and the loops of
the inverse butterflies. -/
theorem sites8_pair (V R p : Nat) (f b : Vradix8 α V → Vradix8 α V) (c : α)
    (hV : V = 2 ∨ V = 4 ∨ V = 8) (hR : 1 ≤ R) (hinv : ∀ v, b (f v) = v.scale c)
    (hf : ∀ v k, f (v.scale k) = (f v).scale k) (hb : ∀ v k, b (v.scale k) = (b v).scale k) :
    StagePair (rows p 0 (8 * R))
      (fun z => (List.range R).foldl (fun z r => (List.range (8 / V)).foldl
        (fun z k => Vradix8.site f (68 * R) (p + (r * 68 + k * V)) z) z) z)
      (fun z => (List.range R).foldl (fun z r => (List.range (8 / V)).foldl
        (fun z k => Vradix8.site b (68 * R) (p + (r * 68 + k * V)) z) z) z) c := by
  have hVR : V ≤ 68 * R := by rcases hV with rfl | rfl | rfl <;> omega
  refine (StagePair.foldl_range
    (fun r d => ∃ k, k < 8 / V ∧ fp8 V (p + (r * 68 + k * V)) (68 * R) d)
    (fun r z => (List.range (8 / V)).foldl
      (fun z k => Vradix8.site f (68 * R) (p + (r * 68 + k * V)) z) z)
    (fun r z => (List.range (8 / V)).foldl
      (fun z k => Vradix8.site b (68 * R) (p + (r * 68 + k * V)) z) z) c R ?_ ?_).congr_fp
    (fun d => fp8_rows V R p d hV)
  · intro r _
    exact StagePair.foldl_range (fun k => fp8 V (p + (r * 68 + k * V)) (68 * R))
      (fun k => Vradix8.site f (68 * R) (p + (r * 68 + k * V)))
      (fun k => Vradix8.site b (68 * R) (p + (r * 68 + k * V))) c (8 / V)
      (fun k _ => Vradix8.site8_pair f b c _ _ hVR hinv hf hb)
      (fun k k' d hkk hk' h h' => fp8_disjoint_cols V R p r k k' d hV hkk hk' h h')
  · rintro r r' d hrr hr' ⟨k, hk, h⟩ ⟨k', hk', h'⟩
    exact fp8_disjoint_rows V R p r r' k k' d hV hrr hr' hk hk' h h'

theorem loop4_eq {β : Type} (V R p : Nat) (op : Vradix4 β V → Vradix4 β V) (z : Nat → β)
    (hV : V = 2 ∨ V = 4 ∨ V = 8) :
    CZIT_CPU_vec_mt.loop4 V (CZIT_CPU_vec_mt.index CZIT_CPU_vec_mt.n_io) (2 * 4) op (68 * R) z p
      = (List.range R).foldl (fun z r => (List.range (8 / V)).foldl
        (fun z k => Vradix4.site op (68 * R) (p + (r * 68 + k * V)) z) z) z := by
  unfold CZIT_CPU_vec_mt.loop4 forStep
  have h1 : ¬ ((68 : Nat) = 1) := by decide
  have h2 : (2 * 4 : Nat) ≠ 1 := by decide
  rw [index_n_io]
  simp only [if_neg h1, if_pos h2]
  have e1 : (68 * R + 68 - 1) / 68 = R := by omega
  have e2 : (2 * 4 + V - 1) / V = 8 / V := by rcases hV with rfl | rfl | rfl <;> rfl
  rw [e1, e2]
  rfl

theorem loop4_0_eq {β : Type} (V R p : Nat) (op : Vradix4 β V → Vradix4 β V) (z : Nat → β)
    (hV : V = 2 ∨ V = 4 ∨ V = 8) :
    CZIT_CPU_vec_mt.loop4_0 V (CZIT_CPU_vec_mt.index CZIT_CPU_vec_mt.n_io) (2 * 4) op (68 * R)
      z p
      = (List.range R).foldl (fun z r => (List.range (8 / V)).foldl
        (fun z k => Vradix4.site op (68 * R) (p + (r * 68 + k * V)) z) z) z := by
  unfold CZIT_CPU_vec_mt.loop4_0 forStep
  rw [index_n_io]
  have e1 : (68 * R + 68 - 1) / 68 = R := by omega
  have e2 : (2 * 4 + V - 1) / V = 8 / V := by rcases hV with rfl | rfl | rfl <;> rfl
  rw [e1, e2]
  rfl

theorem loop8_0_eq {β : Type} (V R p : Nat) (op : Vradix8 β V → Vradix8 β V) (z : Nat → β)
    (hV : V = 2 ∨ V = 4 ∨ V = 8) :
    CZIT_CPU_vec_mt.loop8_0 V (CZIT_CPU_vec_mt.index CZIT_CPU_vec_mt.n_io) (2 * 4) op (68 * R)
      z p
      = (List.range R).foldl (fun z r => (List.range (8 / V)).foldl
        (fun z k => Vradix8.site op (68 * R) (p + (r * 68 + k * V)) z) z) z := by
  unfold CZIT_CPU_vec_mt.loop8_0 forStep
  rw [index_n_io]
  have e1 : (68 * R + 68 - 1) / 68 = R := by omega
  have e2 : (2 * 4 + V - 1) / V = 8 / V := by rcases hV with rfl | rfl | rfl <;> rfl
  rw [e1, e2]
  rfl

end Loops

/-! ## The stages of the outer transform -/

section Stages

theorem rows_shift (p a n d : Nat) : rows (p + 68 * a) 0 n d ↔ rows p a n d := by
  unfold rows
  constructor
  · rintro ⟨r, _, h1, h2, h3⟩
    exact ⟨r + a, by omega, by omega, by omega, by omega⟩
  · rintro ⟨r, h0, h1, h2, h3⟩
    exact ⟨r - a, by omega, by omega, by omega, by omega⟩

theorem rows_disjoint (p a n b m d : Nat) (h : a + n ≤ b) (h1 : rows p a n d)
    (h2 : rows p b m d) : False := by
  obtain ⟨r, _, _, _, _⟩ := h1
  obtain ⟨r', _, _, _, _⟩ := h2
  omega

theorem rows_union (p a n m d : Nat) :
    (rows p a n d ∨ rows p (a + n) m d) ↔ rows p a (n + m) d := by
  unfold rows
  constructor
  · rintro (⟨r, h0, h1, h2, h3⟩ | ⟨r, h0, h1, h2, h3⟩)
    · exact ⟨r, by omega, by omega, by omega, by omega⟩
    · exact ⟨r, by omega, by omega, by omega, by omega⟩
  · rintro ⟨r, h0, h1, h2, h3⟩
    by_cases hr : r < a + n
    · exact Or.inl ⟨r, by omega, by omega, by omega, by omega⟩
    · exact Or.inr ⟨r, by omega, by omega, by omega, by omega⟩

theorem rows_blocks (p L s d : Nat) :
    (∃ j, j < s ∧ rows p (L * j) L d) ↔ rows p 0 (L * s) d := by
  unfold rows
  constructor
  · rintro ⟨j, hj, r, h0, h1, h2, h3⟩
    have : L * j + L ≤ L * s := by
      have := Nat.mul_le_mul_left L (Nat.succ_le_of_lt hj)
      rwa [Nat.mul_succ] at this
    exact ⟨r, by omega, by omega, h2, h3⟩
  · rintro ⟨r, _, h1, h2, h3⟩
    rw [Nat.zero_add] at h1
    have hL : 0 < L := by
      rcases Nat.eq_zero_or_pos L with h | h
      · rw [h, Nat.zero_mul] at h1
        omega
      · exact h
    refine ⟨r / L, (Nat.div_lt_iff_lt_mul hL).mpr (by rwa [Nat.mul_comm] at h1), r, ?_, ?_, h2, h3⟩
    · exact Nat.mul_div_le r L
    · have := Nat.lt_mul_div_succ r hL
      rwa [Nat.mul_succ] at this

theorem rows_blocks_disjoint (p L j j' d : Nat) (hj : j < j') (h1 : rows p (L * j) L d)
    (h2 : rows p (L * j') L d) : False := by
  refine rows_disjoint p (L * j) L (L * j') L d ?_ h1 h2
  have := Nat.mul_le_mul_left L (Nat.succ_le_of_lt hj)
  rwa [Nat.mul_succ] at this

variable {α : Type} [CommRing α]

/-- One stage of `forward_out` and the same stage of `backward_out`. -/
theorem stage_pair (V R s lh : Nat) (w : Nat → α × α)
    (hw : ∀ i, (w i).1 ^ 2 * (1 + (w i).2 ^ 2) = 1) (hV : V = 2 ∨ V = 4 ∨ V = 8)
    (hR : 1 ≤ R) :
    StagePair (rows (2 * 4 * lh) 0 (8 * R * s))
      (CZIT_CPU_vec_mt.forwardStage V w lh (68 * R) s)
      (CZIT_CPU_vec_mt.backwardStage V w lh (68 * R) s) 4 := by
  refine (StagePair.foldl_range (fun j => rows (2 * 4 * lh) (8 * R * j) (8 * R))
    (fun j z => CZIT_CPU_vec_mt.forward4o V (CZIT_CPU_vec_mt.index CZIT_CPU_vec_mt.n_io) (2 * 4)
      (68 * R)
      (CZIT_CPU_vec_mt.forward4e V (CZIT_CPU_vec_mt.index CZIT_CPU_vec_mt.n_io) (2 * 4) (68 * R)
        z (2 * 4 * lh + 8 * (68 * R) * j + 0 * 4 * (68 * R)) (Vcx.broadcast (w (s + 3 * j + 0)))
        (Vcx.broadcast (w (s + 3 * j + 1))))
      (2 * 4 * lh + 8 * (68 * R) * j + 1 * 4 * (68 * R)) (Vcx.broadcast (w (s + 3 * j + 0)))
      (Vcx.broadcast (w (s + 3 * j + 2))))
    (fun j z => CZIT_CPU_vec_mt.backward4o V (CZIT_CPU_vec_mt.index CZIT_CPU_vec_mt.n_io) (2 * 4)
      (68 * R)
      (CZIT_CPU_vec_mt.backward4e V (CZIT_CPU_vec_mt.index CZIT_CPU_vec_mt.n_io) (2 * 4) (68 * R)
        z (2 * 4 * lh + 8 * (68 * R) * j + 0 * 4 * (68 * R)) (Vcx.broadcast (w (s + 3 * j + 0)))
        (Vcx.broadcast (w (s + 3 * j + 1))))
      (2 * 4 * lh + 8 * (68 * R) * j + 1 * 4 * (68 * R)) (Vcx.broadcast (w (s + 3 * j + 0)))
      (Vcx.broadcast (w (s + 3 * j + 2)))) 4 s ?_ ?_).congr_fp
    (fun d => rows_blocks (2 * 4 * lh) (8 * R) s d)
  · intro j _
    have u0 : (Vcx.broadcast (w (s + 3 * j + 0)) : Vcx α V).UnitTwiddle :=
      Vcx.broadcast_unit _ (hw _)
    have u1 : (Vcx.broadcast (w (s + 3 * j + 1)) : Vcx α V).UnitTwiddle :=
      Vcx.broadcast_unit _ (hw _)
    have u2 : (Vcx.broadcast (w (s + 3 * j + 2)) : Vcx α V).UnitTwiddle :=
      Vcx.broadcast_unit _ (hw _)
    have he := sites4_pair V R (2 * 4 * lh + 8 * (68 * R) * j + 0 * 4 * (68 * R))
      (fun vr => vr.forward4e (Vcx.broadcast (w (s + 3 * j + 0)))
        (Vcx.broadcast (w (s + 3 * j + 1))))
      (fun vr => vr.backward4e (Vcx.broadcast (w (s + 3 * j + 0)))
        (Vcx.broadcast (w (s + 3 * j + 1)))) 4 hV hR
      (fun v => Vradix4.backward4e_forward4e v _ _ u0 u1)
      (fun v k => Vradix4.forward4e_scale v _ _ k)
      (fun v k => Vradix4.backward4e_scale v _ _ k)
    have ho := sites4_pair V R (2 * 4 * lh + 8 * (68 * R) * j + 1 * 4 * (68 * R))
      (fun vr => vr.forward4o (Vcx.broadcast (w (s + 3 * j + 0)))
        (Vcx.broadcast (w (s + 3 * j + 2))))
      (fun vr => vr.backward4o (Vcx.broadcast (w (s + 3 * j + 0)))
        (Vcx.broadcast (w (s + 3 * j + 2)))) 4 hV hR
      (fun v => Vradix4.backward4o_forward4o v _ _ u0 u2)
      (fun v k => Vradix4.forward4o_scale v _ _ k)
      (fun v k => Vradix4.backward4o_scale v _ _ k)
    simp only [← loop4_eq _ _ _ _ _ hV] at he ho
    have be : 2 * 4 * lh + 8 * (68 * R) * j + 0 * 4 * (68 * R) = 2 * 4 * lh + 68 * (8 * R * j) := by
      ring
    have bo : 2 * 4 * lh + 8 * (68 * R) * j + 1 * 4 * (68 * R)
        = 2 * 4 * lh + 68 * (8 * R * j + 4 * R) := by
      ring
    have fe : ∀ d, rows (2 * 4 * lh + 8 * (68 * R) * j + 0 * 4 * (68 * R)) 0 (4 * R) d ↔
        rows (2 * 4 * lh) (8 * R * j) (4 * R) d := by
      intro d
      rw [be]
      exact rows_shift _ _ _ d
    have fo : ∀ d, rows (2 * 4 * lh + 8 * (68 * R) * j + 1 * 4 * (68 * R)) 0 (4 * R) d ↔
        rows (2 * 4 * lh) (8 * R * j + 4 * R) (4 * R) d := by
      intro d
      rw [bo]
      exact rows_shift _ _ _ d
    have he2 := he.congr_fp fe
    have ho2 := ho.congr_fp fo
    have hu := StagePair.union he2 ho2
      (fun d h1 h2 => rows_disjoint _ _ _ _ _ d (le_refl _) h1 h2)
    have fu : ∀ d, (rows (2 * 4 * lh) (8 * R * j) (4 * R) d ∨
        rows (2 * 4 * lh) (8 * R * j + 4 * R) (4 * R) d) ↔
        rows (2 * 4 * lh) (8 * R * j) (8 * R) d := by
      intro d
      have e8 : 8 * R = 4 * R + 4 * R := by omega
      rw [e8]
      exact rows_union _ _ _ _ d
    exact hu.congr_fp fu
  · intro j j' d hjj _ h1 h2
    exact rows_blocks_disjoint _ _ j j' d hjj h1 h2

end Stages

/-! ## The chain of stages -/

section Chain

theorem forwardStages_succ {α : Type} [CommRing α] (V : Nat) (w : Nat → α × α)
    (lh fuel mi s : Nat) (z : Nat → α) (h : 68 ≤ mi) :
    CZIT_CPU_vec_mt.forwardStages V w lh (fuel + 1) mi s z
      = CZIT_CPU_vec_mt.forwardStages V w lh fuel (mi / 4) (s * 4) (CZIT_CPU_vec_mt.forwardStage V w lh mi s z) := by
  rw [CZIT_CPU_vec_mt.forwardStages, index_n_io, if_pos h]

theorem forwardStages_stop {α : Type} [CommRing α] (V : Nat) (w : Nat → α × α)
    (lh fuel mi s : Nat) (z : Nat → α) (h : mi < 68) :
    CZIT_CPU_vec_mt.forwardStages V w lh fuel mi s z = z := by
  cases fuel with
  | zero => rfl
  | succ n => rw [CZIT_CPU_vec_mt.forwardStages, index_n_io, if_neg (by omega)]

theorem backwardStages_succ {α : Type} [CommRing α] (V : Nat) (w : Nat → α × α)
    (lh fuel mi s : Nat) (z : Nat → α) (h : 2 ≤ s) :
    CZIT_CPU_vec_mt.backwardStages V w lh (fuel + 1) mi s z
      = CZIT_CPU_vec_mt.backwardStages V w lh fuel (mi * 4) (s / 4) (CZIT_CPU_vec_mt.backwardStage V w lh mi s z) := by
  rw [CZIT_CPU_vec_mt.backwardStages, if_pos h]

theorem backwardStages_stop {α : Type} [CommRing α] (V : Nat) (w : Nat → α × α)
    (lh fuel mi s : Nat) (z : Nat → α) (h : s < 2) :
    CZIT_CPU_vec_mt.backwardStages V w lh fuel mi s z = (z, s) := by
  cases fuel with
  | zero => rfl
  | succ n => rw [CZIT_CPU_vec_mt.backwardStages, if_neg (by omega)]

theorem pow4_div (s k : Nat) : s * 4 ^ (k + 1) / 4 = s * 4 ^ k := by
  rw [pow_succ, ← Nat.mul_assoc, Nat.mul_div_cancel _ (by decide : 0 < 4)]

theorem two_le_mul_pow4 (s k : Nat) (h : 1 ≤ s) : 2 ≤ s * 4 ^ (k + 1) := by
  have h1 : 1 ≤ 4 ^ k := Nat.one_le_pow _ _ (by decide)
  have h2 : 1 * 1 ≤ s * 4 ^ k := Nat.mul_le_mul h h1
  rw [pow_succ, ← Nat.mul_assoc]
  omega

/-- After `k` stages that start at `s * 4 ^ k`, the counter of `backward_out` is `s`. -/
theorem backwardStages_snd {α : Type} [CommRing α] (V : Nat) (w : Nat → α × α) (lh : Nat)
    (k mi s : Nat) (z : Nat → α) (h : 1 ≤ s) :
    (CZIT_CPU_vec_mt.backwardStages V w lh k mi (s * 4 ^ k) z).2 = s := by
  induction k generalizing mi z with
  | zero => simp [CZIT_CPU_vec_mt.backwardStages]
  | succ k ih =>
    rw [backwardStages_succ V w lh k mi _ z (two_le_mul_pow4 s k h), pow4_div]
    exact ih _ _

/-- The last of `k + 1` stages of `backward_out`. -/
theorem backwardStages_snoc {α : Type} [CommRing α] (V : Nat) (w : Nat → α × α) (lh : Nat)
    (k mi s : Nat) (z : Nat → α) :
    CZIT_CPU_vec_mt.backwardStages V w lh (k + 1) mi s z
      = CZIT_CPU_vec_mt.backwardStages V w lh 1 (mi * 4 ^ k) (CZIT_CPU_vec_mt.backwardStages V w lh k mi s z).2
          (CZIT_CPU_vec_mt.backwardStages V w lh k mi s z).1 := by
  induction k generalizing mi s z with
  | zero => simp [CZIT_CPU_vec_mt.backwardStages]
  | succ k ih =>
    by_cases h : 2 ≤ s
    · rw [backwardStages_succ V w lh (k + 1) mi s z h, ih,
        backwardStages_succ V w lh k mi s z h]
      have e : mi * 4 * 4 ^ k = mi * 4 ^ (k + 1) := by ring
      rw [e]
    · rw [backwardStages_stop V w lh (k + 1 + 1) mi s z (by omega),
        backwardStages_stop V w lh (k + 1) mi s z (by omega),
        backwardStages_stop V w lh 1 _ s z (by omega)]

theorem backwardStages_last {α : Type} [CommRing α] (V : Nat) (w : Nat → α × α) (lh : Nat)
    (k mi s : Nat) (z : Nat → α) (h : 2 ≤ s) :
    CZIT_CPU_vec_mt.backwardStages V w lh (k + 1) mi (s * 4 ^ k) z
      = (CZIT_CPU_vec_mt.backwardStage V w lh (mi * 4 ^ k) s (CZIT_CPU_vec_mt.backwardStages V w lh k mi (s * 4 ^ k) z).1,
          s / 4) := by
  rw [backwardStages_snoc, backwardStages_snd V w lh k mi s z (by omega),
    backwardStages_succ V w lh 0 _ s _ h]
  rfl

/-- The stages of `forward_out` from `mi = 68 * R * 4 ^ k` and the stages of
`backward_out` from `mi = 68 * R`: `k + 1` stages each, in opposite orders. -/
theorem chain_pair {α : Type} [CommRing α] (V lh : Nat) (w : Nat → α × α)
    (hw : ∀ i, (w i).1 ^ 2 * (1 + (w i).2 ^ 2) = 1) (hV : V = 2 ∨ V = 4 ∨ V = 8)
    (k R s : Nat) (hR : 1 ≤ R) (hs : 2 ≤ s) :
    StagePair (rows (2 * 4 * lh) 0 (8 * (R * 4 ^ k) * s))
      (CZIT_CPU_vec_mt.forwardStages V w lh (k + 1) (68 * (R * 4 ^ k)) s)
      (fun z => (CZIT_CPU_vec_mt.backwardStages V w lh (k + 1) (68 * R) (s * 4 ^ k) z).1) (4 ^ (k + 1)) := by
  induction k generalizing s with
  | zero =>
    have h1 := stage_pair V R s lh w hw hV hR
    have eF : CZIT_CPU_vec_mt.forwardStages V w lh (0 + 1) (68 * (R * 4 ^ 0)) s
        = CZIT_CPU_vec_mt.forwardStage V w lh (68 * R) s := by
      funext z
      rw [pow_zero, Nat.mul_one, forwardStages_succ V w lh 0 _ s z (by omega)]
      rfl
    have eB : (fun z => (CZIT_CPU_vec_mt.backwardStages V w lh (0 + 1) (68 * R) (s * 4 ^ 0) z).1)
        = CZIT_CPU_vec_mt.backwardStage V w lh (68 * R) s := by
      funext z
      rw [pow_zero, Nat.mul_one, backwardStages_succ V w lh 0 _ s z hs]
      rfl
    rw [eF, eB, pow_zero, Nat.mul_one, zero_add, pow_one]
    exact h1
  | succ k ih =>
    have hR4 : 1 ≤ R * 4 ^ (k + 1) :=
      Nat.mul_le_mul hR (Nat.one_le_pow _ _ (by decide))
    have h1 := stage_pair V (R * 4 ^ (k + 1)) s lh w hw hV hR4
    have h2 := ih (s * 4) (by omega)
    have efp : 8 * (R * 4 ^ k) * (s * 4) = 8 * (R * 4 ^ (k + 1)) * s := by ring
    rw [efp] at h2
    have hn := StagePair.nest h1 h2
    have eF : CZIT_CPU_vec_mt.forwardStages V w lh (k + 1 + 1) (68 * (R * 4 ^ (k + 1))) s
        = fun z => CZIT_CPU_vec_mt.forwardStages V w lh (k + 1) (68 * (R * 4 ^ k)) (s * 4)
            (CZIT_CPU_vec_mt.forwardStage V w lh (68 * (R * 4 ^ (k + 1))) s z) := by
      funext z
      have hge : 68 ≤ 68 * (R * 4 ^ (k + 1)) := by omega
      rw [forwardStages_succ V w lh (k + 1) _ s z hge]
      have ed : 68 * (R * 4 ^ (k + 1)) / 4 = 68 * (R * 4 ^ k) := by
        have : 68 * (R * 4 ^ (k + 1)) = 68 * R * 4 ^ (k + 1) := by ring
        rw [this, pow4_div]
        ring
      rw [ed]
    have eB : (fun z => (CZIT_CPU_vec_mt.backwardStages V w lh (k + 1 + 1) (68 * R) (s * 4 ^ (k + 1)) z).1)
        = fun z => CZIT_CPU_vec_mt.backwardStage V w lh (68 * (R * 4 ^ (k + 1))) s
            (CZIT_CPU_vec_mt.backwardStages V w lh (k + 1) (68 * R) (s * 4 * 4 ^ k) z).1 := by
      funext z
      rw [backwardStages_last V w lh (k + 1) (68 * R) s z hs]
      have e1 : 68 * R * 4 ^ (k + 1) = 68 * (R * 4 ^ (k + 1)) := by ring
      have e2 : s * 4 ^ (k + 1) = s * 4 * 4 ^ k := by ring
      rw [e1, e2]
    rw [eF, eB]
    have ec : (4 : α) ^ (k + 1 + 1) = 4 * 4 ^ (k + 1) := by ring
    rw [ec]
    exact hn

end Chain

/-! ## The round trip of the outer transform -/

section RoundTrip

theorem index_mul_n_io (a : Nat) : CZIT_CPU_vec_mt.index (64 * a) = 68 * a := by
  unfold CZIT_CPU_vec_mt.index CZIT_CPU_vec_mt.n_io
  have h1 : 64 * a / (16 * 4) = a := by omega
  have h2 : 64 * a % (16 * 4) = 0 := by omega
  rw [h1, h2]
  show a * (16 * 4 + 64 / 16) + 0 = 68 * a
  omega

theorem reduceS_pow4 (k e s : Nat) (h2 : 2 ≤ s) (h8 : s < 8) :
    CZIT_CPU_vec_mt.reduceS (k + e) (s * 4 ^ k) = s := by
  induction k with
  | zero =>
    rw [pow_zero, Nat.mul_one, Nat.zero_add]
    cases e with
    | zero => rfl
    | succ e => rw [CZIT_CPU_vec_mt.reduceS, if_neg (by omega)]
  | succ k ih =>
    have hge : 4 * 2 ≤ s * 4 ^ (k + 1) := by
      have h1 : 1 ≤ 4 ^ k := Nat.one_le_pow _ _ (by decide)
      have h3 : 2 * 1 ≤ s * 4 ^ k := Nat.mul_le_mul h2 h1
      rw [pow_succ, ← Nat.mul_assoc]
      omega
    have e1 : k + 1 + e = (k + e) + 1 := by omega
    rw [e1, CZIT_CPU_vec_mt.reduceS, if_pos hge, pow4_div]
    exact ih

theorem forwardStages_fuel {α : Type} [CommRing α] (V : Nat) (w : Nat → α × α) (lh : Nat)
    (k e s : Nat) (z : Nat → α) :
    CZIT_CPU_vec_mt.forwardStages V w lh (k + 1 + e) (68 * (1 * 4 ^ k)) s z
      = CZIT_CPU_vec_mt.forwardStages V w lh (k + 1) (68 * (1 * 4 ^ k)) s z := by
  induction k generalizing s z with
  | zero =>
    have e1 : 0 + 1 + e = e + 1 := by omega
    rw [e1, pow_zero, forwardStages_succ V w lh e _ s z (by omega),
      forwardStages_succ V w lh 0 _ s z (by omega),
      forwardStages_stop V w lh e _ _ _ (by omega),
      forwardStages_stop V w lh 0 _ _ _ (by omega)]
  | succ k ih =>
    have hge : 68 ≤ 68 * (1 * 4 ^ (k + 1)) := by
      have h1 : 1 ≤ 4 ^ (k + 1) := Nat.one_le_pow _ _ (by decide)
      omega
    have ed : 68 * (1 * 4 ^ (k + 1)) / 4 = 68 * (1 * 4 ^ k) := by
      have : 68 * (1 * 4 ^ (k + 1)) = 68 * 4 ^ (k + 1) := by ring
      rw [this, pow4_div]
      ring
    have e1 : k + 1 + 1 + e = (k + 1 + e) + 1 := by omega
    rw [e1, forwardStages_succ V w lh (k + 1 + e) _ s z hge,
      forwardStages_succ V w lh (k + 1) _ s z hge, ed]
    exact ih _ _

theorem backwardStages_fuel {α : Type} [CommRing α] (V : Nat) (w : Nat → α × α) (lh : Nat)
    (k e mi s : Nat) (z : Nat → α) (h2 : 2 ≤ s) (h8 : s < 8) :
    CZIT_CPU_vec_mt.backwardStages V w lh (k + 1 + e) mi (s * 4 ^ k) z
      = CZIT_CPU_vec_mt.backwardStages V w lh (k + 1) mi (s * 4 ^ k) z := by
  induction k generalizing mi z with
  | zero =>
    have e1 : 0 + 1 + e = e + 1 := by omega
    rw [e1, pow_zero, Nat.mul_one, backwardStages_succ V w lh e _ s z h2,
      backwardStages_succ V w lh 0 _ s z h2,
      backwardStages_stop V w lh e _ _ _ (by omega),
      backwardStages_stop V w lh 0 _ _ _ (by omega)]
  | succ k ih =>
    have hge : 2 ≤ s * 4 ^ (k + 1) := two_le_mul_pow4 s k (by omega)
    have e1 : k + 1 + 1 + e = (k + 1 + e) + 1 := by omega
    rw [e1, backwardStages_succ V w lh (k + 1 + e) _ _ z hge,
      backwardStages_succ V w lh (k + 1) _ _ z hge, pow4_div]
    exact ih _ _

variable {α : Type} [CommRing α]

/-- The first radix-4 pass of `forward_out` and the last pass of `backward_out`. -/
theorem top4_pair (V R lh : Nat) (c : Consts α) (hs : 2 * c.csqrt2_2 ^ 2 = 1)
    (h16 : c.cs2pi_1_16.1 ^ 2 * (1 + c.cs2pi_1_16.2 ^ 2) = 1)
    (hV : V = 2 ∨ V = 4 ∨ V = 8) (hR : 1 ≤ R) :
    StagePair (rows (2 * 4 * lh) 0 (4 * R))
      (fun z => CZIT_CPU_vec_mt.forward4_0 V (CZIT_CPU_vec_mt.index CZIT_CPU_vec_mt.n_io) (2 * 4)
        c (68 * R) z (2 * 4 * lh))
      (fun z => CZIT_CPU_vec_mt.backward4_0 V (CZIT_CPU_vec_mt.index CZIT_CPU_vec_mt.n_io)
        (2 * 4) c (68 * R) z (2 * 4 * lh)) 4 := by
  have h := sites4_pair V R (2 * 4 * lh)
    (fun vr => Vradix4.forward4_0 c.csqrt2_2 vr (Vcx.broadcast c.cs2pi_1_16))
    (fun vr => Vradix4.backward4_0 c.csqrt2_2 vr (Vcx.broadcast c.cs2pi_1_16)) 4 hV hR
    (fun v => Vradix4.backward4_0_forward4_0 _ v _ hs (Vcx.broadcast_unit _ h16))
    (fun v k => Vradix4.forward4_0_scale _ v _ k)
    (fun v k => Vradix4.backward4_0_scale _ v _ k)
  simp only [← loop4_0_eq _ _ _ _ _ hV] at h
  exact h

/-- The first radix-8 pass of `forward_out` and the last pass of `backward_out`. -/
theorem top8_pair (V R lh : Nat) (c : Consts α) (hc : c.Ideal)
    (hV : V = 2 ∨ V = 4 ∨ V = 8) (hR : 1 ≤ R) :
    StagePair (rows (2 * 4 * lh) 0 (8 * R))
      (fun z => CZIT_CPU_vec_mt.forward8_0 V (CZIT_CPU_vec_mt.index CZIT_CPU_vec_mt.n_io) (2 * 4)
        c (68 * R) z (2 * 4 * lh))
      (fun z => CZIT_CPU_vec_mt.backward8_0 V (CZIT_CPU_vec_mt.index CZIT_CPU_vec_mt.n_io)
        (2 * 4) c (68 * R) z (2 * 4 * lh)) 8 := by
  have h := sites8_pair V R (2 * 4 * lh)
    (fun vr => Vradix8.forward8_0 c vr) (fun vr => Vradix8.backward8_0 c vr) 8 hV hR
    (fun v => Vradix8.backward8_0_forward8_0 c hc v)
    (fun v k => Vradix8.forward8_0_scale c v k)
    (fun v k => Vradix8.backward8_0_scale c v k)
  simp only [← loop8_0_eq _ _ _ _ _ hV] at h
  exact h

theorem le_pow4 (k : Nat) : k + 1 ≤ 4 ^ k * 4 := by
  induction k with
  | zero => decide
  | succ k ih =>
    rw [pow_succ]
    omega

theorem forward_out_eq4 (k V lh : Nat) (c : Consts α) (w : Nat → α × α) (z : Nat → α) :
    CZIT_CPU_vec_mt.forward_out (1024 * 4 ^ k) V c z lh w
      = CZIT_CPU_vec_mt.forwardStages V w lh (k + 1) (68 * (1 * 4 ^ k)) 2
          (CZIT_CPU_vec_mt.forward4_0 V (CZIT_CPU_vec_mt.index CZIT_CPU_vec_mt.n_io) (2 * 4) c
            (68 * (4 * 4 ^ k)) z (2 * 4 * lh)) := by
  have hP : 1 ≤ 4 ^ k := Nat.one_le_pow _ _ (by decide)
  have hk := le_pow4 k
  have hS : 1024 * 4 ^ k / 4 / CZIT_CPU_vec_mt.n_io / 2 = 2 * 4 ^ k := by
    unfold CZIT_CPU_vec_mt.n_io
    omega
  have h4 : 1024 * 4 ^ k / 4 = 64 * (4 * 4 ^ k) := by omega
  have h16 : 1024 * 4 ^ k / 16 = 64 * (1 * 4 ^ k) := by omega
  have hfuel : 1024 * 4 ^ k = k + 1 + (1024 * 4 ^ k - (k + 1)) := by omega
  have hfuel2 : 1024 * 4 ^ k = k + (1024 * 4 ^ k - k) := by omega
  have hred : CZIT_CPU_vec_mt.reduceS (1024 * 4 ^ k) (2 * 4 ^ k) = 2 := by
    rw [hfuel2]
    exact reduceS_pow4 k _ 2 (by decide) (by decide)
  dsimp only [CZIT_CPU_vec_mt.forward_out]
  rw [hS, hred, if_neg (by decide), if_neg (by decide), h4, h16, index_mul_n_io,
    index_mul_n_io]
  rw [hfuel]
  exact forwardStages_fuel V w lh k _ 2 _

theorem backward_out_eq4 (k V lh : Nat) (c : Consts α) (w : Nat → α × α) (z : Nat → α) :
    CZIT_CPU_vec_mt.backward_out (1024 * 4 ^ k) V c z lh w
      = CZIT_CPU_vec_mt.backward4_0 V (CZIT_CPU_vec_mt.index CZIT_CPU_vec_mt.n_io) (2 * 4) c
          (68 * (4 * 4 ^ k))
          (CZIT_CPU_vec_mt.backwardStages V w lh (k + 1) (68 * 1) (2 * 4 ^ k) z).1
          (2 * 4 * lh) := by
  have hP : 1 ≤ 4 ^ k := Nat.one_le_pow _ _ (by decide)
  have hk := le_pow4 k
  have hS : 1024 * 4 ^ k / 4 / CZIT_CPU_vec_mt.n_io / 2 = 2 * 4 ^ k := by
    unfold CZIT_CPU_vec_mt.n_io
    omega
  have h4 : 1024 * 4 ^ k / 4 = 64 * (4 * 4 ^ k) := by omega
  have hfuel : 1024 * 4 ^ k = k + 1 + (1024 * 4 ^ k - (k + 1)) := by omega
  dsimp only [CZIT_CPU_vec_mt.backward_out]
  rw [hS, h4, index_mul_n_io]
  have e68 : CZIT_CPU_vec_mt.index CZIT_CPU_vec_mt.n_io = 68 * 1 := index_n_io
  have hb : CZIT_CPU_vec_mt.backwardStages V w lh (1024 * 4 ^ k)
      (CZIT_CPU_vec_mt.index CZIT_CPU_vec_mt.n_io) (2 * 4 ^ k) z
      = CZIT_CPU_vec_mt.backwardStages V w lh (k + 1) (68 * 1) (2 * 4 ^ k) z := by
    rw [e68, hfuel]
    exact backwardStages_fuel V w lh k _ _ 2 z (by decide) (by decide)
  rw [hb]
  have h2 : (CZIT_CPU_vec_mt.backwardStages V w lh (k + 1) (68 * 1) (2 * 4 ^ k) z).2 = 0 := by
    rw [backwardStages_last V w lh k (68 * 1) 2 z (le_refl 2)]
  rw [h2, if_neg (by decide)]

theorem forward_out_eq8 (k V lh : Nat) (c : Consts α) (w : Nat → α × α) (z : Nat → α) :
    CZIT_CPU_vec_mt.forward_out (2048 * 4 ^ k) V c z lh w
      = CZIT_CPU_vec_mt.forwardStages V w lh (k + 1) (68 * (1 * 4 ^ k)) 4
          (CZIT_CPU_vec_mt.forward8_0 V (CZIT_CPU_vec_mt.index CZIT_CPU_vec_mt.n_io) (2 * 4) c
            (68 * (4 * 4 ^ k)) z (2 * 4 * lh)) := by
  have hP : 1 ≤ 4 ^ k := Nat.one_le_pow _ _ (by decide)
  have hk := le_pow4 k
  have hS : 2048 * 4 ^ k / 4 / CZIT_CPU_vec_mt.n_io / 2 = 4 * 4 ^ k := by
    unfold CZIT_CPU_vec_mt.n_io
    omega
  have h8 : 2048 * 4 ^ k / 8 = 64 * (4 * 4 ^ k) := by omega
  have h32 : 2048 * 4 ^ k / 32 = 64 * (1 * 4 ^ k) := by omega
  have hfuel : 2048 * 4 ^ k = k + 1 + (2048 * 4 ^ k - (k + 1)) := by omega
  have hfuel2 : 2048 * 4 ^ k = k + (2048 * 4 ^ k - k) := by omega
  have hred : CZIT_CPU_vec_mt.reduceS (2048 * 4 ^ k) (4 * 4 ^ k) = 4 := by
    rw [hfuel2]
    exact reduceS_pow4 k _ 4 (by decide) (by decide)
  dsimp only [CZIT_CPU_vec_mt.forward_out]
  rw [hS, hred, if_pos rfl, if_pos rfl, h8, h32, index_mul_n_io, index_mul_n_io]
  rw [hfuel]
  exact forwardStages_fuel V w lh k _ 4 _

theorem backward_out_eq8 (k V lh : Nat) (c : Consts α) (w : Nat → α × α) (z : Nat → α) :
    CZIT_CPU_vec_mt.backward_out (2048 * 4 ^ k) V c z lh w
      = CZIT_CPU_vec_mt.backward8_0 V (CZIT_CPU_vec_mt.index CZIT_CPU_vec_mt.n_io) (2 * 4) c
          (68 * (4 * 4 ^ k))
          (CZIT_CPU_vec_mt.backwardStages V w lh (k + 1) (68 * 1) (4 * 4 ^ k) z).1
          (2 * 4 * lh) := by
  have hP : 1 ≤ 4 ^ k := Nat.one_le_pow _ _ (by decide)
  have hk := le_pow4 k
  have hS : 2048 * 4 ^ k / 4 / CZIT_CPU_vec_mt.n_io / 2 = 4 * 4 ^ k := by
    unfold CZIT_CPU_vec_mt.n_io
    omega
  have h8 : 2048 * 4 ^ k / 8 = 64 * (4 * 4 ^ k) := by omega
  have hfuel : 2048 * 4 ^ k = k + 1 + (2048 * 4 ^ k - (k + 1)) := by omega
  dsimp only [CZIT_CPU_vec_mt.backward_out]
  rw [hS, h8, index_mul_n_io]
  have e68 : CZIT_CPU_vec_mt.index CZIT_CPU_vec_mt.n_io = 68 * 1 := index_n_io
  have hb : CZIT_CPU_vec_mt.backwardStages V w lh (2048 * 4 ^ k)
      (CZIT_CPU_vec_mt.index CZIT_CPU_vec_mt.n_io) (4 * 4 ^ k) z
      = CZIT_CPU_vec_mt.backwardStages V w lh (k + 1) (68 * 1) (4 * 4 ^ k) z := by
    rw [e68, hfuel]
    exact backwardStages_fuel V w lh k _ _ 4 z (by decide) (by decide)
  rw [hb]
  have h2 : (CZIT_CPU_vec_mt.backwardStages V w lh (k + 1) (68 * 1) (4 * 4 ^ k) z).2 = 1 := by
    rw [backwardStages_last V w lh k (68 * 1) 4 z (by decide)]
  rw [h2, if_pos rfl]

theorem rows_n_io_eq4 (k : Nat) : 1024 * 4 ^ k / CZIT_CPU_vec_mt.n_io = 16 * 4 ^ k := by
  unfold CZIT_CPU_vec_mt.n_io
  omega

theorem rows_n_io_eq8 (k : Nat) : 2048 * 4 ^ k / CZIT_CPU_vec_mt.n_io = 32 * 4 ^ k := by
  unfold CZIT_CPU_vec_mt.n_io
  omega

/-- The round trip for the sizes `N = 1024 * 4 ^ k`, whose first pass is radix 4. -/
theorem round_trip_pair4 (k V lh : Nat) (c : Consts α) (w : Nat → α × α)
    (hs : 2 * c.csqrt2_2 ^ 2 = 1) (h16 : c.cs2pi_1_16.1 ^ 2 * (1 + c.cs2pi_1_16.2 ^ 2) = 1)
    (hw : ∀ i, (w i).1 ^ 2 * (1 + (w i).2 ^ 2) = 1) (hV : V = 2 ∨ V = 4 ∨ V = 8) :
    StagePair (slice (1024 * 4 ^ k) lh)
      (fun z => CZIT_CPU_vec_mt.forward_out (1024 * 4 ^ k) V c z lh w)
      (fun z => CZIT_CPU_vec_mt.backward_out (1024 * 4 ^ k) V c z lh w) (4 * 4 ^ (k + 1)) := by
  have hP : 1 ≤ 4 ^ k := Nat.one_le_pow _ _ (by decide)
  have ht := top4_pair V (4 * 4 ^ k) lh c hs h16 hV (by omega)
  have hc := chain_pair V lh w hw hV k 1 2 (le_refl 1) (le_refl 2)
  have e1 : 4 * (4 * 4 ^ k) = 16 * 4 ^ k := by omega
  have e2 : 8 * (1 * 4 ^ k) * 2 = 16 * 4 ^ k := by omega
  rw [e1] at ht
  rw [e2] at hc
  have hn := StagePair.nest ht hc
  unfold slice
  rw [rows_n_io_eq4, funext (forward_out_eq4 k V lh c w), funext (backward_out_eq4 k V lh c w)]
  exact hn

/-- The round trip for the sizes `N = 2048 * 4 ^ k`, whose first pass is radix 8. -/
theorem round_trip_pair8 (k V lh : Nat) (c : Consts α) (w : Nat → α × α) (hc : c.Ideal)
    (hw : ∀ i, (w i).1 ^ 2 * (1 + (w i).2 ^ 2) = 1) (hV : V = 2 ∨ V = 4 ∨ V = 8) :
    StagePair (slice (2048 * 4 ^ k) lh)
      (fun z => CZIT_CPU_vec_mt.forward_out (2048 * 4 ^ k) V c z lh w)
      (fun z => CZIT_CPU_vec_mt.backward_out (2048 * 4 ^ k) V c z lh w) (8 * 4 ^ (k + 1)) := by
  have hP : 1 ≤ 4 ^ k := Nat.one_le_pow _ _ (by decide)
  have ht := top8_pair V (4 * 4 ^ k) lh c hc hV (by omega)
  have hch := chain_pair V lh w hw hV k 1 4 (le_refl 1) (by decide)
  have e1 : 8 * (4 * 4 ^ k) = 32 * 4 ^ k := by omega
  have e2 : 8 * (1 * 4 ^ k) * 4 = 32 * 4 ^ k := by omega
  rw [e1] at ht
  rw [e2] at hch
  have hn := StagePair.nest ht hch
  unfold slice
  rw [rows_n_io_eq8, funext (forward_out_eq8 k V lh c w), funext (backward_out_eq8 k V lh c w)]
  exact hn

theorem two_pow_cases (n : Nat) (hn : 10 ≤ n) :
    ∃ k, 2 ^ n = 1024 * 4 ^ k ∨ 2 ^ n = 2048 * 4 ^ k := by
  obtain ⟨k, hk | hk⟩ := Nat.even_or_odd' (n - 10)
  · refine ⟨k, Or.inl ?_⟩
    have e : n = 10 + 2 * k := by omega
    rw [e, pow_add, pow_mul]
    norm_num
  · refine ⟨k, Or.inr ?_⟩
    have e : n = 11 + 2 * k := by omega
    rw [e, pow_add, pow_mul]
    norm_num

/-- The round trip of the outer transform for every size `N = 2 ^ n`, `n ≥ 10`:
`backward_out` after `forward_out` multiplies the slice by `N / n_io`. -/
theorem round_trip_pair (n V lh : Nat) (c : Consts α) (w : Nat → α × α) (hn : 10 ≤ n)
    (hc : c.Ideal) (hw : ∀ i, (w i).1 ^ 2 * (1 + (w i).2 ^ 2) = 1)
    (hV : V = 2 ∨ V = 4 ∨ V = 8) :
    StagePair (slice (2 ^ n) lh)
      (fun z => CZIT_CPU_vec_mt.forward_out (2 ^ n) V c z lh w)
      (fun z => CZIT_CPU_vec_mt.backward_out (2 ^ n) V c z lh w)
      ((2 ^ n / CZIT_CPU_vec_mt.n_io : Nat) : α) := by
  obtain ⟨k, hk | hk⟩ := two_pow_cases n hn
  · rw [hk, rows_n_io_eq4]
    have h := round_trip_pair4 k V lh c w hc.sqrt hc.unit16 hw hV
    have e : ((16 * 4 ^ k : Nat) : α) = 4 * 4 ^ (k + 1) := by
      push_cast
      ring
    rw [e]
    exact h
  · rw [hk, rows_n_io_eq8]
    have h := round_trip_pair8 k V lh c w hc hw hV
    have e : ((32 * 4 ^ k : Nat) : α) = 8 * 4 ^ (k + 1) := by
      push_cast
      ring
    rw [e]
    exact h

end RoundTrip

/-! ## Locality of the loops of radix-8 butterflies -/

section Exact

variable {α : Type} [CommRing α]

theorem Vradix8.site8_local {V : Nat} (g : Vradix8 α V → Vradix8 α V) (mi p : Nat)
    (hV : V ≤ mi) (hg : ∀ v k, g (v.scale k) = (g v).scale k) :
    IsLocal (fp8 V p mi) (Vradix8.site g mi p) := by
  refine ⟨fun z d hd => Vradix8.site8_frame g mi p z d hd, ?_⟩
  intro k z z' hz
  apply Vradix8.of_load8_scale
  rw [Vradix8.site8_load g mi p z' hV, Vradix8.site8_load g mi p z hV, Vradix8.load8_scale hz, hg]

theorem cols8_local (V R p r : Nat) (g : Vradix8 α V → Vradix8 α V)
    (hV : V = 2 ∨ V = 4 ∨ V = 8) (hR : 1 ≤ R) (hg : ∀ v k, g (v.scale k) = (g v).scale k) :
    IsLocal (fun d => ∃ k, k < 8 / V ∧ fp8 V (p + (r * 68 + k * V)) (68 * R) d)
      (fun z => (List.range (8 / V)).foldl
        (fun z k => Vradix8.site g (68 * R) (p + (r * 68 + k * V)) z) z) := by
  have hVR : V ≤ 68 * R := by rcases hV with rfl | rfl | rfl <;> omega
  exact IsLocal.foldl (fun k => Vradix8.site g (68 * R) (p + (r * 68 + k * V)))
    (List.range (8 / V)) (fun k hk =>
      (Vradix8.site8_local g (68 * R) _ hVR hg).mono
        (fun d hd => ⟨k, List.mem_range.mp hk, hd⟩))

theorem sites8_local (V R p : Nat) (g : Vradix8 α V → Vradix8 α V)
    (hV : V = 2 ∨ V = 4 ∨ V = 8) (hR : 1 ≤ R) (hg : ∀ v k, g (v.scale k) = (g v).scale k) :
    IsLocal (rows p 0 (8 * R))
      (fun z => (List.range R).foldl (fun z r => (List.range (8 / V)).foldl
        (fun z k => Vradix8.site g (68 * R) (p + (r * 68 + k * V)) z) z) z) := by
  exact IsLocal.foldl (fun r z => (List.range (8 / V)).foldl
      (fun z k => Vradix8.site g (68 * R) (p + (r * 68 + k * V)) z) z)
    (List.range R) (fun r hr =>
      (cols8_local V R p r g hV hR hg).mono
        (fun d hd => (fp8_rows V R p d hV).mp ⟨r, List.mem_range.mp hr, hd⟩))

end Exact

/-! ## C15: the round trip of the outer transform -/

theorem unit_of_cos_ne_zero (x : ℝ) (h : Real.cos x ≠ 0) :
    Real.cos x ^ 2 * (1 + Real.tan x ^ 2) = 1 := by
  have ht := Real.tan_mul_cos h
  have e : Real.cos x ^ 2 * (1 + Real.tan x ^ 2)
      = Real.cos x ^ 2 + (Real.tan x * Real.cos x) ^ 2 := by ring
  rw [e, ht]
  exact Real.cos_sq_add_sin_sq x

/-- The ideal values of the constants of main.cpp, lines 349-352, are ideal
constants: `sqrt(2)/2` and the pairs `(cos a, tan a)` for `a = pi/8, pi/16,
5*pi/16`. -/
theorem ideal_of_true_values :
    Consts.Ideal (⟨Real.sqrt 2 / 2, (Real.cos (Real.pi / 8), Real.tan (Real.pi / 8)),
      (Real.cos (Real.pi / 16), Real.tan (Real.pi / 16)),
      (Real.cos (5 * Real.pi / 16), Real.tan (5 * Real.pi / 16))⟩ : Consts ℝ) := by
  have hpi := Real.pi_pos
  have c8 : Real.cos (Real.pi / 8) ≠ 0 :=
    ne_of_gt (Real.cos_pos_of_mem_Ioo ⟨by linarith, by linarith⟩)
  have c16 : Real.cos (Real.pi / 16) ≠ 0 :=
    ne_of_gt (Real.cos_pos_of_mem_Ioo ⟨by linarith, by linarith⟩)
  have c516 : Real.cos (5 * Real.pi / 16) ≠ 0 :=
    ne_of_gt (Real.cos_pos_of_mem_Ioo ⟨by linarith, by linarith⟩)
  have ht := Real.tan_mul_cos c8
  have hsq : Real.sqrt 2 ^ 2 = 2 := Real.sq_sqrt (by norm_num)
  have h4 : 2 * (Real.pi / 8) = Real.pi / 4 := by ring
  have hcos : Real.cos (Real.pi / 8) ^ 2 - Real.sin (Real.pi / 8) ^ 2 = Real.sqrt 2 / 2 := by
    rw [← Real.cos_pi_div_four, ← h4, Real.cos_two_mul]
    linarith [Real.sin_sq_add_cos_sq (Real.pi / 8)]
  have hsin : 2 * Real.sin (Real.pi / 8) * Real.cos (Real.pi / 8) = Real.sqrt 2 / 2 := by
    rw [← Real.sin_pi_div_four, ← h4, Real.sin_two_mul]
  refine ⟨?_, unit_of_cos_ne_zero _ c8, unit_of_cos_ne_zero _ c16, unit_of_cos_ne_zero _ c516,
    ?_, ?_⟩
  · show 2 * (Real.sqrt 2 / 2) ^ 2 = 1
    linarith
  · show Real.cos (Real.pi / 8) ^ 2 * (1 - Real.tan (Real.pi / 8) ^ 2) = Real.sqrt 2 / 2
    have e : Real.cos (Real.pi / 8) ^ 2 * (1 - Real.tan (Real.pi / 8) ^ 2)
        = Real.cos (Real.pi / 8) ^ 2 - (Real.tan (Real.pi / 8) * Real.cos (Real.pi / 8)) ^ 2 := by
      ring
    rw [e, ht]
    exact hcos
  · show 2 * Real.cos (Real.pi / 8) ^ 2 * Real.tan (Real.pi / 8) = Real.sqrt 2 / 2
    have e : 2 * Real.cos (Real.pi / 8) ^ 2 * Real.tan (Real.pi / 8)
        = 2 * (Real.tan (Real.pi / 8) * Real.cos (Real.pi / 8)) * Real.cos (Real.pi / 8) := by
      ring
    rw [e, ht]
    exact hsin

/-- For constants that are ideal in the sense of `Consts.Ideal`: over the reals,
for every size `N = 2^n` with `n >= 10`, every lane width `V` in `{2, 4, 8}` and
every slice `lh`, if every twiddle `(c, t)` of the table satisfies
`c^2 * (1 + t^2) = 1`, then `backward_out` after `forward_out` multiplies the
array by `N / n_io` on the slice and leaves it unchanged elsewhere. -/
theorem backward_out_forward_out_of_ideal (n V lh : Nat) (c : Consts ℝ) (w : Nat → ℝ × ℝ)
    (z : Nat → ℝ) (d : Nat) (hn : 10 ≤ n) (hV : V = 2 ∨ V = 4 ∨ V = 8) (hc : c.Ideal)
    (hw : ∀ i, (w i).1 ^ 2 * (1 + (w i).2 ^ 2) = 1) :
    (slice (2 ^ n) lh d →
      CZIT_CPU_vec_mt.backward_out (2 ^ n) V c
          (CZIT_CPU_vec_mt.forward_out (2 ^ n) V c z lh w) lh w d
        = ((2 ^ n / CZIT_CPU_vec_mt.n_io : Nat) : ℝ) * z d) ∧
    (¬ slice (2 ^ n) lh d →
      CZIT_CPU_vec_mt.backward_out (2 ^ n) V c
          (CZIT_CPU_vec_mt.forward_out (2 ^ n) V c z lh w) lh w d = z d) := by
  obtain ⟨hF, hB, hI⟩ := round_trip_pair n V lh c w hn hc hw hV
  constructor
  · intro hd
    rw [mul_comm]
    exact hI z d hd
  · intro hd
    exact (hB.1 _ d hd).trans (hF.1 z d hd)

/-- C15. Over exact real arithmetic with ideal twiddles, that is with the
constants of main.cpp, lines 349-352, at their exact values `csqrt2_2 = sqrt(2)/2`,
`cs2pi_1_16 = (cos(pi/8), tan(pi/8))`, `cs2pi_1_32 = (cos(pi/16), tan(pi/16))`,
`cs2pi_5_32 = (cos(5*pi/16), tan(5*pi/16))`, and every stored pair `(c, t)` of the
table satisfying `c^2 * (1 + t^2) = 1`: for every size `N = 2^n` with `n >= 10`,
every lane width `V` in `{2, 4, 8}` and every 8-column slice `lh`, `backward_out`
applied after `forward_out` multiplies the data of the slice by `N / n_io`, and
leaves the rest of the array unchanged. -/
theorem backward_out_forward_out (n V lh : Nat) (w : Nat → ℝ × ℝ)
    (z : Nat → ℝ) (d : Nat) (hn : 10 ≤ n) (hV : V = 2 ∨ V = 4 ∨ V = 8)
    (hw : ∀ i, (w i).1 ^ 2 * (1 + (w i).2 ^ 2) = 1) :
    (slice (2 ^ n) lh d →
      CZIT_CPU_vec_mt.backward_out (2 ^ n) V
          ⟨Real.sqrt 2 / 2, (Real.cos (Real.pi / 8), Real.tan (Real.pi / 8)),
            (Real.cos (Real.pi / 16), Real.tan (Real.pi / 16)),
            (Real.cos (5 * Real.pi / 16), Real.tan (5 * Real.pi / 16))⟩
          (CZIT_CPU_vec_mt.forward_out (2 ^ n) V
            ⟨Real.sqrt 2 / 2, (Real.cos (Real.pi / 8), Real.tan (Real.pi / 8)),
              (Real.cos (Real.pi / 16), Real.tan (Real.pi / 16)),
              (Real.cos (5 * Real.pi / 16), Real.tan (5 * Real.pi / 16))⟩ z lh w) lh w d
        = ((2 ^ n / CZIT_CPU_vec_mt.n_io : Nat) : ℝ) * z d) ∧
    (¬ slice (2 ^ n) lh d →
      CZIT_CPU_vec_mt.backward_out (2 ^ n) V
          ⟨Real.sqrt 2 / 2, (Real.cos (Real.pi / 8), Real.tan (Real.pi / 8)),
            (Real.cos (Real.pi / 16), Real.tan (Real.pi / 16)),
            (Real.cos (5 * Real.pi / 16), Real.tan (5 * Real.pi / 16))⟩
          (CZIT_CPU_vec_mt.forward_out (2 ^ n) V
            ⟨Real.sqrt 2 / 2, (Real.cos (Real.pi / 8), Real.tan (Real.pi / 8)),
              (Real.cos (Real.pi / 16), Real.tan (Real.pi / 16)),
              (Real.cos (5 * Real.pi / 16), Real.tan (5 * Real.pi / 16))⟩ z lh w) lh w d
        = z d) :=
  backward_out_forward_out_of_ideal n V lh _ w z d hn hV ideal_of_true_values hw

/-- Witness for C15: `N = 1024`, `V = 8`, slice 0, every twiddle of the table equal
to `(1, 0)`, at the double offset 0, which belongs to the slice. -/
theorem backward_out_forward_out_witness :
    ((10 : Nat) ≤ 10 ∧ ((8 : Nat) = 2 ∨ (8 : Nat) = 4 ∨ (8 : Nat) = 8) ∧
      ∀ i : Nat, ((fun _ : Nat => ((1 : ℝ), (0 : ℝ))) i).1 ^ 2
        * (1 + ((fun _ : Nat => ((1 : ℝ), (0 : ℝ))) i).2 ^ 2) = 1) ∧
    slice (2 ^ 10) 0 0 ∧
    CZIT_CPU_vec_mt.backward_out (2 ^ 10) 8
        ⟨Real.sqrt 2 / 2, (Real.cos (Real.pi / 8), Real.tan (Real.pi / 8)),
          (Real.cos (Real.pi / 16), Real.tan (Real.pi / 16)),
          (Real.cos (5 * Real.pi / 16), Real.tan (5 * Real.pi / 16))⟩
        (CZIT_CPU_vec_mt.forward_out (2 ^ 10) 8
          ⟨Real.sqrt 2 / 2, (Real.cos (Real.pi / 8), Real.tan (Real.pi / 8)),
            (Real.cos (Real.pi / 16), Real.tan (Real.pi / 16)),
            (Real.cos (5 * Real.pi / 16), Real.tan (5 * Real.pi / 16))⟩
          (fun k => (k : ℝ) + 1) 0 (fun _ => (1, 0))) 0 (fun _ => (1, 0)) 0
      = ((2 ^ 10 / CZIT_CPU_vec_mt.n_io : Nat) : ℝ) * (fun k : Nat => (k : ℝ) + 1) 0 :=
  have hw : ∀ i : Nat, ((fun _ : Nat => ((1 : ℝ), (0 : ℝ))) i).1 ^ 2
      * (1 + ((fun _ : Nat => ((1 : ℝ), (0 : ℝ))) i).2 ^ 2) = 1 := fun _ => by norm_num
  have hs : slice (2 ^ 10) 0 0 := ⟨0, by decide, by decide, by decide, by decide⟩
  ⟨⟨le_refl 10, Or.inr (Or.inr rfl), hw⟩, hs,
    (backward_out_forward_out 10 8 0 _ (fun k => (k : ℝ) + 1) 0 (le_refl 10)
      (Or.inr (Or.inr rfl)) hw).1 hs⟩

/-! ## The footprint of `backward_out`, for any constants -/

section Footprint

variable {α : Type} [CommRing α]

theorem rows_mono (p a n m d : Nat) (h : n ≤ m) (hd : rows p a n d) : rows p a m d := by
  obtain ⟨r, h0, h1, h2, h3⟩ := hd
  exact ⟨r, h0, by omega, h2, h3⟩

theorem Vradix4.site4_local {V : Nat} (g : Vradix4 α V → Vradix4 α V) (mi p : Nat)
    (hV : V ≤ mi) (hg : ∀ v k, g (v.scale k) = (g v).scale k) :
    IsLocal (fp4 V p mi) (Vradix4.site g mi p) := by
  refine ⟨fun z d hd => Vradix4.site4_frame g mi p z d hd, ?_⟩
  intro k z z' hz
  apply Vradix4.of_load4_scale
  rw [Vradix4.site4_load g mi p z' hV, Vradix4.site4_load g mi p z hV, Vradix4.load4_scale hz, hg]

theorem sites4_local (V R p : Nat) (g : Vradix4 α V → Vradix4 α V)
    (hV : V = 2 ∨ V = 4 ∨ V = 8) (hR : 1 ≤ R) (hg : ∀ v k, g (v.scale k) = (g v).scale k) :
    IsLocal (rows p 0 (4 * R))
      (fun z => (List.range R).foldl (fun z r => (List.range (8 / V)).foldl
        (fun z k => Vradix4.site g (68 * R) (p + (r * 68 + k * V)) z) z) z) := by
  have hVR : V ≤ 68 * R := by rcases hV with rfl | rfl | rfl <;> omega
  exact IsLocal.foldl (fun r z => (List.range (8 / V)).foldl
      (fun z k => Vradix4.site g (68 * R) (p + (r * 68 + k * V)) z) z)
    (List.range R) (fun r hr =>
      IsLocal.foldl (fun k => Vradix4.site g (68 * R) (p + (r * 68 + k * V)))
        (List.range (8 / V)) (fun k hk =>
          (Vradix4.site4_local g (68 * R) _ hVR hg).mono
            (fun d hd => (fp4_rows V R p d hV).mp
              ⟨r, List.mem_range.mp hr, k, List.mem_range.mp hk, hd⟩)))

/-- One stage of `backward_out` writes only its slice. -/
theorem backwardStage_local (V R s lh : Nat) (w : Nat → α × α) (hV : V = 2 ∨ V = 4 ∨ V = 8)
    (hR : 1 ≤ R) :
    IsLocal (rows (2 * 4 * lh) 0 (8 * R * s))
      (CZIT_CPU_vec_mt.backwardStage V w lh (68 * R) s) := by
  refine IsLocal.foldl
    (fun j z => CZIT_CPU_vec_mt.backward4o V (CZIT_CPU_vec_mt.index CZIT_CPU_vec_mt.n_io) (2 * 4)
      (68 * R)
      (CZIT_CPU_vec_mt.backward4e V (CZIT_CPU_vec_mt.index CZIT_CPU_vec_mt.n_io) (2 * 4) (68 * R)
        z (2 * 4 * lh + 8 * (68 * R) * j + 0 * 4 * (68 * R)) (Vcx.broadcast (w (s + 3 * j + 0)))
        (Vcx.broadcast (w (s + 3 * j + 1))))
      (2 * 4 * lh + 8 * (68 * R) * j + 1 * 4 * (68 * R)) (Vcx.broadcast (w (s + 3 * j + 0)))
      (Vcx.broadcast (w (s + 3 * j + 2)))) (List.range s) ?_
  intro j hj
  have hjs := List.mem_range.mp hj
  have he := sites4_local V R (2 * 4 * lh + 8 * (68 * R) * j + 0 * 4 * (68 * R))
    (fun vr => vr.backward4e (Vcx.broadcast (w (s + 3 * j + 0)))
      (Vcx.broadcast (w (s + 3 * j + 1)))) hV hR
    (fun v k => Vradix4.backward4e_scale v _ _ k)
  have ho := sites4_local V R (2 * 4 * lh + 8 * (68 * R) * j + 1 * 4 * (68 * R))
    (fun vr => vr.backward4o (Vcx.broadcast (w (s + 3 * j + 0)))
      (Vcx.broadcast (w (s + 3 * j + 2)))) hV hR
    (fun v k => Vradix4.backward4o_scale v _ _ k)
  simp only [← loop4_eq _ _ _ _ _ hV] at he ho
  have be : 2 * 4 * lh + 8 * (68 * R) * j + 0 * 4 * (68 * R) = 2 * 4 * lh + 68 * (8 * R * j) := by
    ring
  have bo : 2 * 4 * lh + 8 * (68 * R) * j + 1 * 4 * (68 * R)
      = 2 * 4 * lh + 68 * (8 * R * j + 4 * R) := by
    ring
  have e8 : 8 * R = 4 * R + 4 * R := by omega
  have se : ∀ d, rows (2 * 4 * lh + 8 * (68 * R) * j + 0 * 4 * (68 * R)) 0 (4 * R) d →
      rows (2 * 4 * lh) 0 (8 * R * s) d := by
    intro d hd
    rw [be] at hd
    have h1 := (rows_shift _ _ _ d).mp hd
    have h2 : rows (2 * 4 * lh) (8 * R * j) (8 * R) d := by
      rw [e8]
      exact (rows_union _ _ _ _ d).mp (Or.inl (by rwa [e8] at h1))
    exact (rows_blocks _ (8 * R) s d).mp ⟨j, hjs, h2⟩
  have so : ∀ d, rows (2 * 4 * lh + 8 * (68 * R) * j + 1 * 4 * (68 * R)) 0 (4 * R) d →
      rows (2 * 4 * lh) 0 (8 * R * s) d := by
    intro d hd
    rw [bo] at hd
    have h1 := (rows_shift _ _ _ d).mp hd
    have h2 : rows (2 * 4 * lh) (8 * R * j) (8 * R) d := by
      rw [e8]
      exact (rows_union _ _ _ _ d).mp (Or.inr (by rwa [e8] at h1))
    exact (rows_blocks _ (8 * R) s d).mp ⟨j, hjs, h2⟩
  exact IsLocal.comp (he.mono se) (ho.mono so)

/-- The stages of `backward_out` write only the slice, for any fuel. -/
theorem backwardStages_local (V lh : Nat) (w : Nat → α × α) (hV : V = 2 ∨ V = 4 ∨ V = 8)
    (M fuel R S : Nat) (hR : 1 ≤ R) (hM : 8 * R * S ≤ M) :
    IsLocal (rows (2 * 4 * lh) 0 M)
      (fun z => (CZIT_CPU_vec_mt.backwardStages V w lh fuel (68 * R) S z).1) := by
  induction fuel generalizing R S with
  | zero => exact IsLocal.id _
  | succ fuel ih =>
    by_cases h : 2 ≤ S
    · have e : (fun z => (CZIT_CPU_vec_mt.backwardStages V w lh (fuel + 1) (68 * R) S z).1)
          = fun z => (CZIT_CPU_vec_mt.backwardStages V w lh fuel (68 * (R * 4)) (S / 4)
              (CZIT_CPU_vec_mt.backwardStage V w lh (68 * R) S z)).1 := by
        funext z
        rw [backwardStages_succ V w lh fuel _ S z h, Nat.mul_assoc]
      rw [e]
      have h1 := (backwardStage_local V R S lh w hV hR).mono
        (fun d hd => rows_mono _ _ _ M d hM hd)
      have hle : 8 * (R * 4) * (S / 4) ≤ M := by
        have h4 : 4 * (S / 4) ≤ S := Nat.mul_div_le S 4
        have h5 : 8 * R * (4 * (S / 4)) ≤ 8 * R * S := Nat.mul_le_mul_left _ h4
        have e5 : 8 * (R * 4) * (S / 4) = 8 * R * (4 * (S / 4)) := by ring
        omega
      exact IsLocal.comp h1 (ih (R * 4) (S / 4) (by omega) hle)
    · have e : (fun z => (CZIT_CPU_vec_mt.backwardStages V w lh (fuel + 1) (68 * R) S z).1)
          = fun z => z := by
        funext z
        rw [backwardStages_stop V w lh (fuel + 1) _ S z (by omega)]
      rw [e]
      exact IsLocal.id _

/-- The function `backward_out` writes only the slice `lh`, for any constants and
any twiddles. -/
theorem backward_out_local (n V lh : Nat) (c : Consts α) (w : Nat → α × α) (hn : 10 ≤ n)
    (hV : V = 2 ∨ V = 4 ∨ V = 8) :
    IsLocal (slice (2 ^ n) lh) (fun z => CZIT_CPU_vec_mt.backward_out (2 ^ n) V c z lh w) := by
  obtain ⟨k, hk | hk⟩ := two_pow_cases n hn
  · have hP : 1 ≤ 4 ^ k := Nat.one_le_pow _ _ (by decide)
    rw [hk]
    unfold slice
    rw [rows_n_io_eq4, funext (backward_out_eq4 k V lh c w)]
    have hst := backwardStages_local V lh w hV (16 * 4 ^ k) (k + 1) 1 (2 * 4 ^ k)
      (le_refl 1) (by omega)
    have ht := sites4_local V (4 * 4 ^ k) (2 * 4 * lh)
      (fun vr => Vradix4.backward4_0 c.csqrt2_2 vr (Vcx.broadcast c.cs2pi_1_16)) hV (by omega)
      (fun v k => Vradix4.backward4_0_scale _ v _ k)
    simp only [← loop4_0_eq _ _ _ _ _ hV] at ht
    have e1 : 4 * (4 * 4 ^ k) = 16 * 4 ^ k := by omega
    rw [e1] at ht
    exact IsLocal.comp hst ht
  · have hP : 1 ≤ 4 ^ k := Nat.one_le_pow _ _ (by decide)
    rw [hk]
    unfold slice
    rw [rows_n_io_eq8, funext (backward_out_eq8 k V lh c w)]
    have hst := backwardStages_local V lh w hV (32 * 4 ^ k) (k + 1) 1 (4 * 4 ^ k)
      (le_refl 1) (by omega)
    have ht := sites8_local V (4 * 4 ^ k) (2 * 4 * lh)
      (fun vr => Vradix8.backward8_0 c vr) hV (by omega)
      (fun v k => Vradix8.backward8_0_scale c v k)
    simp only [← loop8_0_eq _ _ _ _ _ hV] at ht
    have e1 : 8 * (4 * 4 ^ k) = 32 * 4 ^ k := by omega
    rw [e1] at ht
    exact IsLocal.comp hst ht

theorem index_two_pow (n : Nat) (hn : 10 ≤ n) :
    CZIT_CPU_vec_mt.index (2 ^ n) = 68 * (2 ^ n / CZIT_CPU_vec_mt.n_io) := by
  obtain ⟨k, hk | hk⟩ := two_pow_cases n hn
  · rw [hk, rows_n_io_eq4]
    have e : 1024 * 4 ^ k = 64 * (16 * 4 ^ k) := by omega
    rw [e, index_mul_n_io]
  · rw [hk, rows_n_io_eq8]
    have e : 2048 * 4 ^ k = 64 * (32 * 4 ^ k) := by omega
    rw [e, index_mul_n_io]

/-- The slices `lh < 8` lie inside the `index(N)` complex samples of the array. -/
theorem slice_lt (n lh d : Nat) (hn : 10 ≤ n) (hlh : lh < 8) (hd : slice (2 ^ n) lh d) :
    d < 2 * CZIT_CPU_vec_mt.index (2 ^ n) := by
  rw [index_two_pow n hn]
  obtain ⟨r, _, h1, _, h3⟩ := hd
  omega

end Footprint

/-! ## C14: the writes of getZi -/

theorem foldl_frame {β κ : Type} (l : List κ) (f : (Nat → β) → κ → Nat → β) (a : Nat)
    (h : ∀ g k, k ∈ l → f g k a = g a) (g : Nat → β) : l.foldl f g a = g a := by
  induction l generalizing g with
  | nil => rfl
  | cons k l ih =>
    rw [List.foldl_cons, ih (fun g k hk => h g k (List.mem_cons_of_mem _ hk)),
      h g k (List.mem_cons_self k l)]

theorem CZIT_CPU_vec_mt.copyLoop_frame {α : Type} (N zB copyB : Nat) (heap : Nat → α) (a : Nat)
    (ha : ¬ (copyB ≤ a ∧ a < copyB + 2 * CZIT_CPU_vec_mt.index N)) :
    CZIT_CPU_vec_mt.copyLoop N zB copyB heap a = heap a := by
  unfold CZIT_CPU_vec_mt.copyLoop
  apply foldl_frame
  intro g k hk
  have hk' := List.mem_range.mp hk
  show (if a = copyB + 2 * k then g (zB + 2 * k)
    else if a = copyB + 2 * k + 1 then g (zB + 2 * k + 1) else g a) = g a
  rw [if_neg (by omega), if_neg (by omega)]

theorem CZIT_CPU_vec_mt.atBase_frame {α : Type} (B L : Nat) (A : (Nat → α) → Nat → α)
    (fp : Nat → Prop) (hA : ∀ z d, ¬ fp d → A z d = z d) (hfp : ∀ d, fp d → d < L)
    (heap : Nat → α) (a : Nat) (ha : ¬ (B ≤ a ∧ a < B + L)) :
    CZIT_CPU_vec_mt.atBase B A heap a = heap a := by
  unfold CZIT_CPU_vec_mt.atBase
  by_cases hB : B ≤ a
  · rw [if_pos hB, hA _ _ (fun h => by have := hfp _ h; omega)]
    congr 1
    omega
  · rw [if_neg hB]

theorem CZIT_CPU_vec_mt.backwardLoop_frame {α : Type} [CommRing α] (n V : Nat) (c : Consts α)
    (wB copyB : Nat) (heap : Nat → α) (a : Nat) (hn : 10 ≤ n) (hV : V = 2 ∨ V = 4 ∨ V = 8)
    (ha : ¬ (copyB ≤ a ∧ a < copyB + 2 * CZIT_CPU_vec_mt.index (2 ^ n))) :
    CZIT_CPU_vec_mt.backwardLoop (2 ^ n) V c wB copyB heap a = heap a := by
  unfold CZIT_CPU_vec_mt.backwardLoop
  apply foldl_frame
  intro g lh hlh
  have h8 : CZIT_CPU_vec_mt.n_io / 4 / 2 = 8 := by decide
  rw [h8] at hlh
  have hlt := List.mem_range.mp hlh
  exact CZIT_CPU_vec_mt.atBase_frame copyB _ _ (slice (2 ^ n) lh)
    (backward_out_local n V lh c _ hn hV).1 (fun d hd => slice_lt n lh d hn hlt hd) g a ha

theorem CZIT_CPU_vec_mt.decodeLoop_frame {α : Type} [LinearOrderedField α] [FloorRing α]
    (n V : Nat) (sb : α) (z_copy : Nat → α) (zi : Nat → Int) (j : Nat) (hn : 10 ≤ n)
    (hV : V = 2 ∨ V = 4 ∨ V = 8) (hj : 2 ^ n ≤ j) :
    CZIT_CPU_vec_mt.decodeLoop (2 ^ n) V sb z_copy zi j = zi j := by
  unfold CZIT_CPU_vec_mt.decodeLoop forStep
  obtain ⟨m, hm⟩ : ∃ m, 2 ^ n = 1024 * m := by
    obtain ⟨k, hk | hk⟩ := two_pow_cases n hn
    · exact ⟨4 ^ k, hk⟩
    · exact ⟨2 * 4 ^ k, by omega⟩
  rw [hm] at hj ⊢
  apply foldl_frame
  intro g k hk
  have hk' := List.mem_range.mp hk
  apply foldl_frame
  intro g' i hi
  have hi' := List.mem_range.mp hi
  have hne : k * (V / 2) + i + 1024 * m / 2 ≠ j ∧ k * (V / 2) + i ≠ j := by
    rcases hV with rfl | rfl | rfl <;> simp only [Nat.reduceDiv] at hk' hi' ⊢ <;> omega
  show Function.update (Function.update g' (k * (V / 2) + i) _)
    (k * (V / 2) + i + 1024 * m / 2) _ j = g' j
  rw [Function.update_noteq (Ne.symm hne.1), Function.update_noteq (Ne.symm hne.2)]

/-- C14. The method `getZi` writes only its scratch copy and the array `zi`.  In
main.cpp, for every size `N = 2^n` with `n >= 10`, every lane width in
`{2, 4, 8}`, every content of the memory and every value of the constants:
every double outside the block `new Complex[index(N)]` has after `getZi` the
value it had before, and the entries of `zi` from `N` on are not written.  In
transformCPUf64s.h, whatever the routines of f64vector.h do to the buffer they
are given, `_mem` (which holds `zl`, `zh`, the twiddle tables and the carry
slots) and `_error` are the same after `getZi`. -/
theorem getZi_frame (n V : Nat) (hn : 10 ≤ n) (hV : V = 2 ∨ V = 4 ∨ V = 8) :
    (∀ (α : Type) [LinearOrderedField α] [FloorRing α] (c : Consts α) (sb : α)
      (zB wB copyB : Nat) (heap : Nat → α) (zi : Nat → Int),
      (∀ a, ¬ (copyB ≤ a ∧ a < copyB + 2 * CZIT_CPU_vec_mt.index (2 ^ n)) →
        (CZIT_CPU_vec_mt.getZi (2 ^ n) V c sb zB wB copyB heap zi).1 a = heap a) ∧
      (∀ j, 2 ^ n ≤ j →
        (CZIT_CPU_vec_mt.getZi (2 ^ n) V c sb zB wB copyB heap zi).2 j = zi j)) ∧
    (∀ (α : Type) [LinearOrderedField α] [FloorRing α] (N VSIZE : Nat)
      (K : transformCPUf64s.Kernels α) (s : transformCPUf64s.State α) (zi : Nat → Int),
      (transformCPUf64s.getZi N VSIZE K s zi).1.mem = s.mem ∧
      (transformCPUf64s.getZi N VSIZE K s zi).1.error = s.error) := by
  refine ⟨?_, fun α _ _ N VSIZE K s zi => ⟨rfl, rfl⟩⟩
  intro α _ _ c sb zB wB copyB heap zi
  constructor
  · intro a ha
    show CZIT_CPU_vec_mt.backwardLoop (2 ^ n) V c wB copyB
      (CZIT_CPU_vec_mt.copyLoop (2 ^ n) zB copyB heap) a = heap a
    rw [CZIT_CPU_vec_mt.backwardLoop_frame n V c wB copyB _ a hn hV ha,
      CZIT_CPU_vec_mt.copyLoop_frame _ zB copyB heap a ha]
  · intro j hj
    exact CZIT_CPU_vec_mt.decodeLoop_frame n V sb _ zi j hn hV hj

/-- Witness for C14: `N = 1024`, `VSIZE = 8`, rational doubles, the constants of
the source, `_z` at offset 0, `_w122i` at offset 4000 and the scratch copy at
offset 8000. -/
theorem getZi_frame_witness :
    ((10 : Nat) ≤ 10 ∧ ((8 : Nat) = 2 ∨ (8 : Nat) = 4 ∨ (8 : Nat) = 8)) ∧
    (∀ a, ¬ (8000 ≤ a ∧ a < 8000 + 2 * CZIT_CPU_vec_mt.index (2 ^ 10)) →
      (CZIT_CPU_vec_mt.getZi (2 ^ 10) 8 sourceConsts (3 : ℚ) 0 4000 8000
        (fun a => (a : ℚ)) (fun _ => 0)).1 a = (fun a : Nat => (a : ℚ)) a) ∧
    (∀ j, 2 ^ 10 ≤ j →
      (CZIT_CPU_vec_mt.getZi (2 ^ 10) 8 sourceConsts (3 : ℚ) 0 4000 8000
        (fun a => (a : ℚ)) (fun _ => 0)).2 j = (fun _ : Nat => (0 : Int)) j) :=
  ⟨⟨le_refl 10, Or.inr (Or.inr rfl)⟩,
    (getZi_frame 10 8 (le_refl 10) (Or.inr (Or.inr rfl))).1 ℚ sourceConsts 3 0 4000 8000
      (fun a => (a : ℚ)) (fun _ => 0)⟩

/-! ## bitRev -/

theorem two_mul_lor (r b : Nat) (hb : b < 2) : (2 * r) ||| b = 2 * r + b := by
  have h := Nat.mul_add_lt_is_or (show b < 2 ^ 1 by omega) r
  rw [pow_one] at h
  exact h.symm

theorem bitRevLoop_pow (m fuel j r : Nat) (h : m ≤ fuel) :
    bitRevLoop fuel (2 ^ m) j r = r * 2 ^ m + revBits m j := by
  induction m generalizing fuel j r with
  | zero =>
    cases fuel with
    | zero => simp [bitRevLoop, revBits]
    | succ f => simp [bitRevLoop, revBits]
  | succ m ih =>
    obtain ⟨f, rfl⟩ : ∃ f, fuel = f + 1 := ⟨fuel - 1, by omega⟩
    have h1 : 1 < 2 ^ (m + 1) := Nat.one_lt_two_pow (by omega)
    have h2 : 2 ^ (m + 1) / 2 = 2 ^ m := by
      rw [pow_succ, Nat.mul_div_cancel _ (by decide)]
    rw [bitRevLoop, if_pos h1, h2, ih f (j / 2) _ (by omega),
      two_mul_lor r (j % 2) (Nat.mod_lt _ (by decide))]
    show (2 * r + j % 2) * 2 ^ m + revBits m (j / 2)
      = r * 2 ^ (m + 1) + (j % 2 * 2 ^ m + revBits m (j / 2))
    ring

theorem bitRev_pow (m i : Nat) : bitRev i (2 ^ m) = revBits m i := by
  unfold bitRev
  rw [bitRevLoop_pow m _ i 0 (le_of_lt (Nat.lt_two_pow m)), Nat.zero_mul, Nat.zero_add]

theorem revBits_lt (m j : Nat) : revBits m j < 2 ^ m := by
  induction m generalizing j with
  | zero => simp [revBits]
  | succ m ih =>
    have h1 := ih (j / 2)
    have h2 : j % 2 < 2 := Nat.mod_lt _ (by decide)
    have h3 : j % 2 * 2 ^ m ≤ 1 * 2 ^ m := Nat.mul_le_mul_right _ (by omega)
    show j % 2 * 2 ^ m + revBits m (j / 2) < 2 ^ (m + 1)
    rw [pow_succ]
    omega

/-- The top bit of the argument becomes the low bit of the result. -/
theorem revBits_top (m a c : Nat) (ha : a < 2 ^ m) (hc : c < 2) :
    revBits (m + 1) (a + 2 ^ m * c) = 2 * revBits m a + c := by
  induction m generalizing a with
  | zero =>
    have : a = 0 := by simpa using ha
    subst this
    simp only [revBits, pow_zero]
    omega
  | succ m ih =>
    have e0 : 2 ^ (m + 1) * c = 2 * (2 ^ m * c) := by ring
    have e1 : (a + 2 ^ (m + 1) * c) % 2 = a % 2 := by
      rw [e0]
      omega
    have e2 : (a + 2 ^ (m + 1) * c) / 2 = a / 2 + 2 ^ m * c := by
      rw [e0]
      omega
    have ha2 : a / 2 < 2 ^ m := by
      rw [pow_succ] at ha
      omega
    show (a + 2 ^ (m + 1) * c) % 2 * 2 ^ (m + 1) + revBits (m + 1) ((a + 2 ^ (m + 1) * c) / 2)
      = 2 * (a % 2 * 2 ^ m + revBits m (a / 2)) + c
    rw [e1, e2, ih (a / 2) ha2, pow_succ]
    ring

theorem revBits_revBits (m j : Nat) (hj : j < 2 ^ m) : revBits m (revBits m j) = j := by
  induction m generalizing j with
  | zero =>
    have : j = 0 := by simpa using hj
    subst this
    rfl
  | succ m ih =>
    have hj2 : j / 2 < 2 ^ m := by
      rw [pow_succ] at hj
      omega
    have h2 : j % 2 < 2 := Nat.mod_lt _ (by decide)
    have e : revBits (m + 1) j = revBits m (j / 2) + 2 ^ m * (j % 2) := by
      show j % 2 * 2 ^ m + revBits m (j / 2) = _
      ring
    rw [e, revBits_top m _ _ (revBits_lt m _) h2, ih (j / 2) hj2]
    omega

/-- C26. For every power of two `n = 2^m >= 2`, `bitRev(., n)` is a permutation of
`[0, n)` that is its own inverse: for every `i < n`, `bitRev(i, n) < n` and
`bitRev(bitRev(i, n), n) = i`; so it is injective on `[0, n)` and reaches every
value below `n`. -/
theorem bitRev_involutive (n : Nat) (hn : 2 ≤ n) (hp : ∃ m, n = 2 ^ m) :
    (∀ i, i < n → bitRev i n < n ∧ bitRev (bitRev i n) n = i) ∧
    (∀ i j, i < n → j < n → bitRev i n = bitRev j n → i = j) ∧
    (∀ k, k < n → ∃ i, i < n ∧ bitRev i n = k) := by
  obtain ⟨m, rfl⟩ := hp
  have h1 : ∀ i, i < 2 ^ m →
      bitRev i (2 ^ m) < 2 ^ m ∧ bitRev (bitRev i (2 ^ m)) (2 ^ m) = i := by
    intro i hi
    rw [bitRev_pow, bitRev_pow]
    exact ⟨revBits_lt m i, revBits_revBits m i hi⟩
  refine ⟨h1, ?_, ?_⟩
  · intro i j hi hj h
    rw [← (h1 i hi).2, ← (h1 j hj).2, h]
  · intro k hk
    exact ⟨bitRev k (2 ^ m), (h1 k hk).1, (h1 k hk).2⟩

/-- Witness for C26: `n = 8`, the index 3 = 011b is sent to 6 = 110b and back. -/
theorem bitRev_involutive_witness :
    bitRev 3 8 = 6 ∧ bitRev 6 8 = 3 ∧
    (∀ i, i < 8 → bitRev i 8 < 8 ∧ bitRev (bitRev i 8) 8 = i) :=
  ⟨by decide, by decide, (bitRev_involutive 8 (by decide) ⟨3, by decide⟩).1⟩

/-! ## The odd squaring butterfly -/

theorem Vcx.lane_addi {N : Nat} (a b : Vcx ℝ N) (i : Fin N) :
    (a.addi b).lane i = a.lane i + Complex.I * b.lane i := by
  apply Complex.ext
  · show a.re.r i - b.im.r i = _
    simp [Complex.mul_re, Vcx.lane]
    ring
  · show a.im.r i + b.re.r i = _
    simp [Complex.mul_im, Vcx.lane]

theorem Vcx.lane_subi {N : Nat} (a b : Vcx ℝ N) (i : Fin N) :
    (a.subi b).lane i = a.lane i - Complex.I * b.lane i := by
  apply Complex.ext
  · show a.re.r i + b.im.r i = _
    simp [Complex.mul_re, Vcx.lane]
  · show a.im.r i - b.re.r i = _
    simp [Complex.mul_im, Vcx.lane]

/-- The four outputs of the odd squaring butterfly, as complex numbers: twice the
coefficients of the square of `z0 + z1 x + z2 x^2 + z3 x^3` folded with
`x^4 = -W^2`. -/
theorem Vradix4.square4o_lanes {N : Nat} (z : Vradix4 ℝ N) (w : Vcx ℝ N) (i : Fin N)
    (hw : w.re.r i ^ 2 * (1 + w.im.r i ^ 2) = 1) :
    (z.square4o w).z0.lane i
      = 2 * (z.z0.lane i ^ 2 + -(w.twiddle i ^ 2) * (z.z2.lane i ^ 2
          + 2 * z.z1.lane i * z.z3.lane i)) ∧
    (z.square4o w).z1.lane i
      = 2 * (2 * z.z0.lane i * z.z1.lane i
          + -(w.twiddle i ^ 2) * (2 * z.z2.lane i * z.z3.lane i)) ∧
    (z.square4o w).z2.lane i
      = 2 * (2 * z.z0.lane i * z.z2.lane i + z.z1.lane i ^ 2
          + -(w.twiddle i ^ 2) * z.z3.lane i ^ 2) ∧
    (z.square4o w).z3.lane i
      = 2 * (2 * z.z0.lane i * z.z3.lane i + 2 * z.z1.lane i * z.z2.lane i) := by
  have hWW := Vcx.twiddle_mul_conj w i hw
  have hI : Complex.I ^ 2 = -1 := Complex.I_sq
  unfold Vradix4.square4o
  simp only [Vcx.lane_add, Vcx.lane_sub, Vcx.lane_mul, Vcx.lane_sqr, Vcx.lane_mulW,
    Vcx.lane_mulWconj, Vcx.lane_addi, Vcx.lane_subi]
  have h3 : Complex.I ^ 3 = -Complex.I := by
    rw [pow_succ, hI]
    ring
  have h4 : Complex.I ^ 4 = 1 := Complex.I_pow_four
  refine ⟨?_, ?_, ?_, ?_⟩
  · rw [← sub_eq_zero]
    ring_nf
    simp only [hI, h3, h4]
    ring
  · rw [← sub_eq_zero]
    ring_nf
    simp only [hI, h3, h4]
    ring
  · rw [← sub_eq_zero]
    ring_nf
    simp only [hI, h3, h4]
    linear_combination (4 * z.z0.lane i * z.z2.lane i + 2 * z.z1.lane i ^ 2
      - 2 * w.twiddle i ^ 2 * z.z3.lane i ^ 2) * hWW
  · rw [← sub_eq_zero]
    ring_nf
    simp only [hI, h3, h4]
    linear_combination (4 * z.z0.lane i * z.z3.lane i + 4 * z.z1.lane i * z.z2.lane i) * hWW

theorem Vcx8s.square4o_eq {N : Nat} (v : Vcx8s ℝ N) (w : Vcx ℝ N) :
    (v.square4o w).z 4 = ((Vradix4.mk (v.z 4) (v.z 5) (v.z 6) (v.z 7)).square4o w).z0 ∧
    (v.square4o w).z 5 = ((Vradix4.mk (v.z 4) (v.z 5) (v.z 6) (v.z 7)).square4o w).z1 ∧
    (v.square4o w).z 6 = ((Vradix4.mk (v.z 4) (v.z 5) (v.z 6) (v.z 7)).square4o w).z2 ∧
    (v.square4o w).z 7 = ((Vradix4.mk (v.z 4) (v.z 5) (v.z 6) (v.z 7)).square4o w).z3 ∧
    (∀ k : Fin 8, k.val < 4 → (v.square4o w).z k = v.z k) := by
  refine ⟨rfl, rfl, rfl, rfl, ?_⟩
  intro k hk
  have h4 : k ≠ 4 := by intro h; subst h; exact absurd hk (by decide)
  have h5 : k ≠ 5 := by intro h; subst h; exact absurd hk (by decide)
  have h6 : k ≠ 6 := by intro h; subst h; exact absurd hk (by decide)
  have h7 : k ≠ 7 := by intro h; subst h; exact absurd hk (by decide)
  show (if k = 4 then _ else if k = 6 then _ else if k = 5 then _ else if k = 7 then _
    else v.z k) = v.z k
  rw [if_neg h4, if_neg h6, if_neg h5, if_neg h7]

/-- C21. Over exact complex arithmetic, for every twiddle `W = c + i*c*t` of
modulus one (stored as `(c, t)` with `c^2 * (1 + t^2) = 1`) and every four inputs
`z0..z3`, `square4o` writes the four coefficients of
`2 * (z0 + z1*x + z2*x^2 + z3*x^3)^2` reduced modulo `x^4 + W^2`, in every lane;
this holds for `Vradix4::square4o` and for `Vcx8s::square4o` on `z[4..7]`. -/
theorem square4o_poly {N : Nat} (z : Vradix4 ℝ N) (w : Vcx ℝ N) (i : Fin N)
    (hw : w.re.r i ^ 2 * (1 + w.im.r i ^ 2) = 1) :
    ∃ R : Polynomial ℂ,
      R = (2 * (Polynomial.C (z.z0.lane i) + Polynomial.C (z.z1.lane i) * Polynomial.X
            + Polynomial.C (z.z2.lane i) * Polynomial.X ^ 2
            + Polynomial.C (z.z3.lane i) * Polynomial.X ^ 3) ^ 2)
          %ₘ (Polynomial.X ^ 4 + Polynomial.C (w.twiddle i ^ 2)) ∧
      (z.square4o w).z0.lane i = R.coeff 0 ∧ (z.square4o w).z1.lane i = R.coeff 1 ∧
      (z.square4o w).z2.lane i = R.coeff 2 ∧ (z.square4o w).z3.lane i = R.coeff 3 ∧
      (∀ v : Vcx8s ℝ N, v.z 4 = z.z0 → v.z 5 = z.z1 → v.z 6 = z.z2 → v.z 7 = z.z3 →
        ((v.square4o w).z 4).lane i = R.coeff 0 ∧ ((v.square4o w).z 5).lane i = R.coeff 1 ∧
        ((v.square4o w).z 6).lane i = R.coeff 2 ∧ ((v.square4o w).z 7).lane i = R.coeff 3) := by
  obtain ⟨h0, h1, h2, h3⟩ := Vradix4.square4o_lanes z w i hw
  obtain ⟨c0, c1, c2, c3⟩ := cubic_coeffs
    (2 * (2 * z.z0.lane i * z.z3.lane i + 2 * z.z1.lane i * z.z2.lane i))
    (2 * (2 * z.z0.lane i * z.z2.lane i + z.z1.lane i ^ 2
      + -(w.twiddle i ^ 2) * z.z3.lane i ^ 2))
    (2 * (2 * z.z0.lane i * z.z1.lane i
      + -(w.twiddle i ^ 2) * (2 * z.z2.lane i * z.z3.lane i)))
    (2 * (z.z0.lane i ^ 2 + -(w.twiddle i ^ 2) * (z.z2.lane i ^ 2
      + 2 * z.z1.lane i * z.z3.lane i)))
  have hm : (Polynomial.X ^ 4 + Polynomial.C (w.twiddle i ^ 2) : Polynomial ℂ)
      = Polynomial.X ^ 4 - Polynomial.C (-(w.twiddle i ^ 2)) := by
    rw [map_neg, sub_neg_eq_add]
  refine ⟨_, rfl, ?_, ?_, ?_, ?_, ?_⟩
  · rw [hm, two_sq_cubic_modByMonic, c0, h0]
  · rw [hm, two_sq_cubic_modByMonic, c1, h1]
  · rw [hm, two_sq_cubic_modByMonic, c2, h2]
  · rw [hm, two_sq_cubic_modByMonic, c3, h3]
  · intro v e0 e1 e2 e3
    obtain ⟨g0, g1, g2, g3, _⟩ := Vcx8s.square4o_eq v w
    have hz : Vradix4.mk (v.z 4) (v.z 5) (v.z 6) (v.z 7) = z := by
      rw [e0, e1, e2, e3]
    rw [g0, g1, g2, g3, hz, hm, two_sq_cubic_modByMonic, c0, c1, c2, c3]
    exact ⟨h0, h1, h2, h3⟩

/-- Witness for C21: one lane, inputs `1, 2, 3, 4` and the twiddle stored as
`(1, 0)`. -/
theorem square4o_poly_witness :
    ((1 : ℝ) ^ 2 * (1 + (0 : ℝ) ^ 2) = 1) ∧
    ∃ R : Polynomial ℂ,
      R = (2 * (Polynomial.C ((⟨⟨fun _ => 1⟩, ⟨fun _ => 0⟩⟩ : Vcx ℝ 1).lane 0)
            + Polynomial.C ((⟨⟨fun _ => 2⟩, ⟨fun _ => 0⟩⟩ : Vcx ℝ 1).lane 0) * Polynomial.X
            + Polynomial.C ((⟨⟨fun _ => 3⟩, ⟨fun _ => 0⟩⟩ : Vcx ℝ 1).lane 0) * Polynomial.X ^ 2
            + Polynomial.C ((⟨⟨fun _ => 4⟩, ⟨fun _ => 0⟩⟩ : Vcx ℝ 1).lane 0) * Polynomial.X ^ 3)
              ^ 2)
          %ₘ (Polynomial.X ^ 4
            + Polynomial.C ((⟨⟨fun _ => 1⟩, ⟨fun _ => 0⟩⟩ : Vcx ℝ 1).twiddle 0 ^ 2)) ∧
      ((Vradix4.mk (⟨⟨fun _ => 1⟩, ⟨fun _ => 0⟩⟩ : Vcx ℝ 1) ⟨⟨fun _ => 2⟩, ⟨fun _ => 0⟩⟩
          ⟨⟨fun _ => 3⟩, ⟨fun _ => 0⟩⟩ ⟨⟨fun _ => 4⟩, ⟨fun _ => 0⟩⟩).square4o
        ⟨⟨fun _ => 1⟩, ⟨fun _ => 0⟩⟩).z0.lane 0 = R.coeff 0 :=
  have hw : (1 : ℝ) ^ 2 * (1 + (0 : ℝ) ^ 2) = 1 := by norm_num
  ⟨hw, by
    obtain ⟨R, hR, h0, _⟩ := square4o_poly
      (Vradix4.mk (⟨⟨fun _ => 1⟩, ⟨fun _ => 0⟩⟩ : Vcx ℝ 1) ⟨⟨fun _ => 2⟩, ⟨fun _ => 0⟩⟩
        ⟨⟨fun _ => 3⟩, ⟨fun _ => 0⟩⟩ ⟨⟨fun _ => 4⟩, ⟨fun _ => 0⟩⟩)
      ⟨⟨fun _ => 1⟩, ⟨fun _ => 0⟩⟩ 0 hw
    exact ⟨R, hR, h0⟩⟩

/-! ## Multiplication by a prepared multiplicand -/

theorem Vcx.sqr_eq_mul {α : Type} [CommRing α] {N : Nat} (a : Vcx α N) : a.sqr = a * a := by
  apply Vcx.ext_re_im
  intro i
  constructor
  · rfl
  · show (a.re.r i + a.re.r i) * a.im.r i = a.im.r i * a.re.r i + a.re.r i * a.im.r i
    ring

theorem Vcx.two_mul_eq {α : Type} [CommRing α] {N : Nat} (a b : Vcx α N) :
    (a + a) * b = a * b + a * b := by
  apply Vcx.ext_re_im
  intro i
  constructor
  · show (a.re.r i + a.re.r i) * b.re.r i - (a.im.r i + a.im.r i) * b.im.r i
      = (a.re.r i * b.re.r i - a.im.r i * b.im.r i)
        + (a.re.r i * b.re.r i - a.im.r i * b.im.r i)
    ring
  · show (a.im.r i + a.im.r i) * b.re.r i + (a.re.r i + a.re.r i) * b.im.r i
      = (a.im.r i * b.re.r i + a.re.r i * b.im.r i)
        + (a.im.r i * b.re.r i + a.re.r i * b.im.r i)
    ring

theorem Vcx8s.ext_z {α : Type} {N : Nat} {a b : Vcx8s α N} (h : ∀ k, a.z k = b.z k) :
    a = b := by
  cases a
  cases b
  congr
  funext k
  exact h k

theorem Vcx8s.mul4_forward_odd {α : Type} [CommRing α] {N : Nat} (v : Vcx8s α N) (w : Vcx α N) :
    (v.mul4_forward w).z 4 = Vcx.addi (v.z 4) (Vcx.mulW (v.z 6) w) ∧
    (v.mul4_forward w).z 5 = Vcx.addi (v.z 5) (Vcx.mulW (v.z 7) w) ∧
    (v.mul4_forward w).z 6 = Vcx.subi (v.z 4) (Vcx.mulW (v.z 6) w) ∧
    (v.mul4_forward w).z 7 = Vcx.addi (Vcx.mulW (v.z 7) w) (v.z 5) :=
  ⟨rfl, rfl, rfl, rfl⟩

theorem Vcx8s.mul4_odd {α : Type} [CommRing α] {N : Nat} (v rhs : Vcx8s α N) (w : Vcx α N) :
    (v.mul4 rhs w).z 4 = Vcx.addi (Vcx.addi ((Vcx.subi (v.z 4) (Vcx.mulW (v.z 6) w)) * (rhs.z 6)) (Vcx.mulW ((Vcx.addi (Vcx.mulW (v.z 7) w) (v.z 5)) * (rhs.z 7)) w)) (Vcx.subi (Vcx.mulW ((Vcx.addi (v.z 5) (Vcx.mulW (v.z 7) w)) * (rhs.z 5)) w) ((Vcx.addi (v.z 4) (Vcx.mulW (v.z 6) w)) * (rhs.z 4))) ∧
    (v.mul4 rhs w).z 5 = Vcx.subi ((Vcx.addi (v.z 4) (Vcx.mulW (v.z 6) w)) * (rhs.z 5) + (rhs.z 4) * (Vcx.addi (v.z 5) (Vcx.mulW (v.z 7) w))) ((Vcx.subi (v.z 4) (Vcx.mulW (v.z 6) w)) * (rhs.z 7) + (rhs.z 6) * (Vcx.addi (Vcx.mulW (v.z 7) w) (v.z 5))) ∧
    (v.mul4 rhs w).z 6 = Vcx.mulWconj (Vcx.addi (Vcx.subi (Vcx.mulW ((Vcx.addi (v.z 5) (Vcx.mulW (v.z 7) w)) * (rhs.z 5)) w) ((Vcx.addi (v.z 4) (Vcx.mulW (v.z 6) w)) * (rhs.z 4))) (Vcx.addi ((Vcx.subi (v.z 4) (Vcx.mulW (v.z 6) w)) * (rhs.z 6)) (Vcx.mulW ((Vcx.addi (Vcx.mulW (v.z 7) w) (v.z 5)) * (rhs.z 7)) w))) w ∧
    (v.mul4 rhs w).z 7 = Vcx.mulWconj (Vcx.subi ((Vcx.subi (v.z 4) (Vcx.mulW (v.z 6) w)) * (rhs.z 7) + (rhs.z 6) * (Vcx.addi (Vcx.mulW (v.z 7) w) (v.z 5))) ((Vcx.addi (v.z 4) (Vcx.mulW (v.z 6) w)) * (rhs.z 5) + (rhs.z 4) * (Vcx.addi (v.z 5) (Vcx.mulW (v.z 7) w)))) w :=
  ⟨rfl, rfl, rfl, rfl⟩

theorem Vcx8s.square4o_odd {α : Type} [CommRing α] {N : Nat} (v : Vcx8s α N) (w : Vcx α N) :
    (v.square4o w).z 4 = Vcx.addi (Vcx.addi (Vcx.sqr (Vcx.subi (v.z 4) (Vcx.mulW (v.z 6) w))) (Vcx.mulW (Vcx.sqr (Vcx.addi (Vcx.mulW (v.z 7) w) (v.z 5))) w)) (Vcx.subi (Vcx.mulW (Vcx.sqr (Vcx.addi (v.z 5) (Vcx.mulW (v.z 7) w))) w) (Vcx.sqr (Vcx.addi (v.z 4) (Vcx.mulW (v.z 6) w)))) ∧
    (v.square4o w).z 5 = Vcx.subi (((Vcx.addi (v.z 4) (Vcx.mulW (v.z 6) w)) + (Vcx.addi (v.z 4) (Vcx.mulW (v.z 6) w))) * (Vcx.addi (v.z 5) (Vcx.mulW (v.z 7) w))) (((Vcx.subi (v.z 4) (Vcx.mulW (v.z 6) w)) + (Vcx.subi (v.z 4) (Vcx.mulW (v.z 6) w))) * (Vcx.addi (Vcx.mulW (v.z 7) w) (v.z 5))) ∧
    (v.square4o w).z 6 = Vcx.mulWconj (Vcx.addi (Vcx.subi (Vcx.mulW (Vcx.sqr (Vcx.addi (v.z 5) (Vcx.mulW (v.z 7) w))) w) (Vcx.sqr (Vcx.addi (v.z 4) (Vcx.mulW (v.z 6) w)))) (Vcx.addi (Vcx.sqr (Vcx.subi (v.z 4) (Vcx.mulW (v.z 6) w))) (Vcx.mulW (Vcx.sqr (Vcx.addi (Vcx.mulW (v.z 7) w) (v.z 5))) w))) w ∧
    (v.square4o w).z 7 = Vcx.mulWconj (Vcx.subi (((Vcx.subi (v.z 4) (Vcx.mulW (v.z 6) w)) + (Vcx.subi (v.z 4) (Vcx.mulW (v.z 6) w))) * (Vcx.addi (Vcx.mulW (v.z 7) w) (v.z 5))) (((Vcx.addi (v.z 4) (Vcx.mulW (v.z 6) w)) + (Vcx.addi (v.z 4) (Vcx.mulW (v.z 6) w))) * (Vcx.addi (v.z 5) (Vcx.mulW (v.z 7) w)))) w :=
  ⟨rfl, rfl, rfl, rfl⟩

/-- C29. Over any commutative ring (so over exact complex arithmetic),
multiplying a tile by a multiplicand prepared from the same tile equals squaring
it: for every tile `z` and twiddle `w`, `z.mul4(p, w)` with `p` obtained from a
copy of `z` by `mul4_forward(w)` gives the same eight outputs as applying
`square4e(w)` and then `square4o(w)` to `z`. -/
theorem mul4_self_eq_square {α : Type} [CommRing α] {N : Nat} (z : Vcx8s α N) (w : Vcx α N) :
    z.mul4 (z.mul4_forward w) w = (z.square4e w).square4o w := by
  have e4 : ∀ j : Fin 8, 4 ≤ j.val → (z.square4e w).z j = z.z j := by
    intro j hj
    have h0 : j ≠ 0 := by intro h; subst h; exact absurd hj (by decide)
    have h1 : j ≠ 1 := by intro h; subst h; exact absurd hj (by decide)
    have h2 : j ≠ 2 := by intro h; subst h; exact absurd hj (by decide)
    have h3 : j ≠ 3 := by intro h; subst h; exact absurd hj (by decide)
    show (if j = 0 then _ else if j = 2 then _ else if j = 1 then _ else if j = 3 then _
      else z.z j) = z.z j
    rw [if_neg h0, if_neg h2, if_neg h1, if_neg h3]
  have f4 := e4 4 (by decide)
  have f5 := e4 5 (by decide)
  have f6 := e4 6 (by decide)
  have f7 := e4 7 (by decide)
  obtain ⟨p4, p5, p6, p7⟩ := Vcx8s.mul4_forward_odd z w
  obtain ⟨m4, m5, m6, m7⟩ := Vcx8s.mul4_odd z (z.mul4_forward w) w
  obtain ⟨s4, s5, s6, s7⟩ := Vcx8s.square4o_odd (z.square4e w) w
  have g0 : (z.mul4 (z.mul4_forward w) w).z 0 = ((z.square4e w).square4o w).z 0 := by
    show (z.z 0 + (z.z 2).mulW w) * (z.z 0 + (z.z 2).mulW w)
        + ((z.z 1 + (z.z 3).mulW w) * (z.z 1 + (z.z 3).mulW w)).mulW w
        + ((z.z 0 - (z.z 2).mulW w) * (z.z 0 - (z.z 2).mulW w)
          - ((z.z 1 - (z.z 3).mulW w) * (z.z 1 - (z.z 3).mulW w)).mulW w)
      = (z.z 0 + (z.z 2).mulW w).sqr + ((z.z 1 + (z.z 3).mulW w).sqr).mulW w
        + ((z.z 0 - (z.z 2).mulW w).sqr - ((z.z 1 - (z.z 3).mulW w).sqr).mulW w)
    simp only [Vcx.sqr_eq_mul]
  have g1 : (z.mul4 (z.mul4_forward w) w).z 1 = ((z.square4e w).square4o w).z 1 := by
    show (z.z 0 + (z.z 2).mulW w) * (z.z 1 + (z.z 3).mulW w)
        + (z.z 0 + (z.z 2).mulW w) * (z.z 1 + (z.z 3).mulW w)
        + ((z.z 0 - (z.z 2).mulW w) * (z.z 1 - (z.z 3).mulW w)
          + (z.z 0 - (z.z 2).mulW w) * (z.z 1 - (z.z 3).mulW w))
      = (z.z 0 + (z.z 2).mulW w + (z.z 0 + (z.z 2).mulW w)) * (z.z 1 + (z.z 3).mulW w)
        + (z.z 0 - (z.z 2).mulW w + (z.z 0 - (z.z 2).mulW w)) * (z.z 1 - (z.z 3).mulW w)
    simp only [Vcx.two_mul_eq]
  have g2 : (z.mul4 (z.mul4_forward w) w).z 2 = ((z.square4e w).square4o w).z 2 := by
    show ((z.z 0 + (z.z 2).mulW w) * (z.z 0 + (z.z 2).mulW w)
        + ((z.z 1 + (z.z 3).mulW w) * (z.z 1 + (z.z 3).mulW w)).mulW w
        - ((z.z 0 - (z.z 2).mulW w) * (z.z 0 - (z.z 2).mulW w)
          - ((z.z 1 - (z.z 3).mulW w) * (z.z 1 - (z.z 3).mulW w)).mulW w)).mulWconj w
      = ((z.z 0 + (z.z 2).mulW w).sqr + ((z.z 1 + (z.z 3).mulW w).sqr).mulW w
        - ((z.z 0 - (z.z 2).mulW w).sqr - ((z.z 1 - (z.z 3).mulW w).sqr).mulW w)).mulWconj w
    simp only [Vcx.sqr_eq_mul]
  have g3 : (z.mul4 (z.mul4_forward w) w).z 3 = ((z.square4e w).square4o w).z 3 := by
    show ((z.z 0 + (z.z 2).mulW w) * (z.z 1 + (z.z 3).mulW w)
        + (z.z 0 + (z.z 2).mulW w) * (z.z 1 + (z.z 3).mulW w)
        - ((z.z 0 - (z.z 2).mulW w) * (z.z 1 - (z.z 3).mulW w)
          + (z.z 0 - (z.z 2).mulW w) * (z.z 1 - (z.z 3).mulW w))).mulWconj w
      = ((z.z 0 + (z.z 2).mulW w + (z.z 0 + (z.z 2).mulW w)) * (z.z 1 + (z.z 3).mulW w)
        - (z.z 0 - (z.z 2).mulW w + (z.z 0 - (z.z 2).mulW w))
          * (z.z 1 - (z.z 3).mulW w)).mulWconj w
    simp only [Vcx.two_mul_eq]
  have g4 : (z.mul4 (z.mul4_forward w) w).z 4 = ((z.square4e w).square4o w).z 4 := by
    rw [m4, s4, p4, p5, p6, p7, f4, f5, f6, f7]
    simp only [Vcx.sqr_eq_mul]
  have g5 : (z.mul4 (z.mul4_forward w) w).z 5 = ((z.square4e w).square4o w).z 5 := by
    rw [m5, s5, p4, p5, p6, p7, f4, f5, f6, f7]
    simp only [Vcx.two_mul_eq]
  have g6 : (z.mul4 (z.mul4_forward w) w).z 6 = ((z.square4e w).square4o w).z 6 := by
    rw [m6, s6, p4, p5, p6, p7, f4, f5, f6, f7]
    simp only [Vcx.sqr_eq_mul]
  have g7 : (z.mul4 (z.mul4_forward w) w).z 7 = ((z.square4e w).square4o w).z 7 := by
    rw [m7, s7, p4, p5, p6, p7, f4, f5, f6, f7]
    simp only [Vcx.two_mul_eq]
  apply Vcx8s.ext_z
  intro k
  fin_cases k
  · exact g0
  · exact g1
  · exact g2
  · exact g3
  · exact g4
  · exact g5
  · exact g6
  · exact g7

/-! ## Radix-4 butterflies: backward after forward -/

/-- C27. Over any commutative ring (so over exact complex arithmetic), with
twiddles of modulus one (stored as `(c, t)` with `c^2 * (1 + t^2) = 1` in every
lane), each radix-4 backward butterfly undoes its forward butterfly up to the
factor 4: `backward4e(forward4e(z, w0, w1), w0, w1) = 4*z` and
`backward4o(forward4o(z, w0, w2), w0, w2) = 4*z`; with `csqrt2_2^2 = 1/2`
(written `2 * csqrt2_2^2 = 1`) also `backward4_0(forward4_0(z, w0), w0) = 4*z`. -/
theorem radix4_backward_forward {α : Type} [CommRing α] {N : Nat} (csqrt2_2 : α)
    (z : Vradix4 α N) (w0 w1 w2 : Vcx α N)
    (h0 : w0.UnitTwiddle) (h1 : w1.UnitTwiddle) (h2 : w2.UnitTwiddle) :
    (z.forward4e w0 w1).backward4e w0 w1 = z.scale 4 ∧
    (z.forward4o w0 w2).backward4o w0 w2 = z.scale 4 ∧
    (2 * csqrt2_2 ^ 2 = 1 →
      Vradix4.backward4_0 csqrt2_2 (Vradix4.forward4_0 csqrt2_2 z w0) w0 = z.scale 4) :=
  ⟨Vradix4.backward4e_forward4e z w0 w1 h0 h1, Vradix4.backward4o_forward4o z w0 w2 h0 h2,
    fun hs => Vradix4.backward4_0_forward4_0 csqrt2_2 z w0 hs h0⟩

/-- Witness for C27: one real lane, inputs `1, 2, 3, 4`, every twiddle stored as
`(1, 0)` and `csqrt2_2 = sqrt(2)/2`. -/
theorem radix4_backward_forward_witness :
    (⟨⟨fun _ => 1⟩, ⟨fun _ => 0⟩⟩ : Vcx ℝ 1).UnitTwiddle ∧
    2 * (Real.sqrt 2 / 2) ^ 2 = (1 : ℝ) ∧
    ((Vradix4.mk (⟨⟨fun _ => 1⟩, ⟨fun _ => 0⟩⟩ : Vcx ℝ 1) ⟨⟨fun _ => 2⟩, ⟨fun _ => 0⟩⟩
        ⟨⟨fun _ => 3⟩, ⟨fun _ => 0⟩⟩ ⟨⟨fun _ => 4⟩, ⟨fun _ => 0⟩⟩).forward4e
          ⟨⟨fun _ => 1⟩, ⟨fun _ => 0⟩⟩ ⟨⟨fun _ => 1⟩, ⟨fun _ => 0⟩⟩).backward4e
        ⟨⟨fun _ => 1⟩, ⟨fun _ => 0⟩⟩ ⟨⟨fun _ => 1⟩, ⟨fun _ => 0⟩⟩
      = (Vradix4.mk (⟨⟨fun _ => 1⟩, ⟨fun _ => 0⟩⟩ : Vcx ℝ 1) ⟨⟨fun _ => 2⟩, ⟨fun _ => 0⟩⟩
        ⟨⟨fun _ => 3⟩, ⟨fun _ => 0⟩⟩ ⟨⟨fun _ => 4⟩, ⟨fun _ => 0⟩⟩).scale 4 ∧
    Vradix4.backward4_0 (Real.sqrt 2 / 2)
        (Vradix4.forward4_0 (Real.sqrt 2 / 2)
          (Vradix4.mk (⟨⟨fun _ => 1⟩, ⟨fun _ => 0⟩⟩ : Vcx ℝ 1) ⟨⟨fun _ => 2⟩, ⟨fun _ => 0⟩⟩
            ⟨⟨fun _ => 3⟩, ⟨fun _ => 0⟩⟩ ⟨⟨fun _ => 4⟩, ⟨fun _ => 0⟩⟩)
          ⟨⟨fun _ => 1⟩, ⟨fun _ => 0⟩⟩) ⟨⟨fun _ => 1⟩, ⟨fun _ => 0⟩⟩
      = (Vradix4.mk (⟨⟨fun _ => 1⟩, ⟨fun _ => 0⟩⟩ : Vcx ℝ 1) ⟨⟨fun _ => 2⟩, ⟨fun _ => 0⟩⟩
        ⟨⟨fun _ => 3⟩, ⟨fun _ => 0⟩⟩ ⟨⟨fun _ => 4⟩, ⟨fun _ => 0⟩⟩).scale 4 :=
  have hw : (⟨⟨fun _ => 1⟩, ⟨fun _ => 0⟩⟩ : Vcx ℝ 1).UnitTwiddle := fun _ => by
    show (1 : ℝ) ^ 2 * (1 + (0 : ℝ) ^ 2) = 1
    norm_num
  have hs : 2 * (Real.sqrt 2 / 2) ^ 2 = (1 : ℝ) := by
    have hsq : Real.sqrt 2 ^ 2 = 2 := Real.sq_sqrt (by norm_num)
    linarith
  ⟨hw, hs,
    (radix4_backward_forward (Real.sqrt 2 / 2) _ _ _ _ hw hw hw).1,
    (radix4_backward_forward (Real.sqrt 2 / 2) _ ⟨⟨fun _ => 1⟩, ⟨fun _ => 0⟩⟩
      ⟨⟨fun _ => 1⟩, ⟨fun _ => 0⟩⟩ ⟨⟨fun _ => 1⟩, ⟨fun _ => 0⟩⟩ hw hw hw).2.2 hs⟩

/-! ## Transpositions of a tile -/

section Transpose

variable {α : Type} {N : Nat}

theorem Vcx.get_of_set (v : Vcx α N) (i l : Fin N) (c : α × α) :
    (v.set i c).get l = if l = i then c else v.get l := by
  by_cases h : l = i
  · subst h
    rw [if_pos rfl]
    show (Function.update v.re.r l c.1 l, Function.update v.im.r l c.2 l) = c
    rw [Function.update_same, Function.update_same]
  · rw [if_neg h]
    show (Function.update v.re.r i c.1 l, Function.update v.im.r i c.2 l) = _
    rw [Function.update_noteq h, Function.update_noteq h]
    rfl

theorem Vcx.ext_get {a b : Vcx α N} (h : ∀ i, a.get i = b.get i) : a = b := by
  apply Vcx.ext_re_im
  intro i
  have hi := h i
  exact ⟨congrArg Prod.fst hi, congrArg Prod.snd hi⟩

theorem Vcx8.ext_cells {a b : Vcx8 α N} (h : ∀ k l, (a.z k).get l = (b.z k).get l) : a = b := by
  cases a
  cases b
  congr
  funext k
  exact Vcx.ext_get (h k)

theorem Vcx8.setZ_get (v : Vcx8 α N) (k k2 : Fin 8) (l l2 : Fin N) (c : α × α) :
    ((v.setZ k l c).z k2).get l2 = if k2 = k ∧ l2 = l then c else (v.z k2).get l2 := by
  by_cases hk : k2 = k
  · subst hk
    show ((Function.update v.z k2 ((v.z k2).set l c)) k2).get l2 = _
    rw [Function.update_same, Vcx.get_of_set]
    by_cases hl : l2 = l
    · rw [if_pos hl, if_pos ⟨rfl, hl⟩]
    · rw [if_neg hl, if_neg (fun h => hl h.2)]
  · show ((Function.update v.z k ((v.z k).set l c)) k2).get l2 = _
    rw [Function.update_noteq hk, if_neg (fun h => hk h.1)]

/-- A sequence of writes leaves a cell that is no target as it was. -/
theorem Vcx8.writes_frame {ι : Type} (t : ι → Fin 8 × Fin N) (val : ι → α × α) (L : List ι)
    (v : Vcx8 α N) (k : Fin 8) (l : Fin N) (h : ∀ y ∈ L, t y ≠ (k, l)) :
    ((L.foldl (fun acc x => acc.setZ (t x).1 (t x).2 (val x)) v).z k).get l = (v.z k).get l := by
  induction L generalizing v with
  | nil => rfl
  | cons a L ih =>
    rw [List.foldl_cons, ih _ (fun y hy => h y (List.mem_cons_of_mem _ hy)), Vcx8.setZ_get,
      if_neg]
    intro hh
    exact h a (List.mem_cons_self _ _) (Prod.ext hh.1.symm hh.2.symm)

/-- A sequence of writes whose writes to the target of `x` all carry the value of
`x` leaves that value in the target of `x`. -/
theorem Vcx8.writes_value {ι : Type} (t : ι → Fin 8 × Fin N) (val : ι → α × α) (L : List ι)
    (v : Vcx8 α N) (x : ι) (hx : x ∈ L) (h : ∀ y ∈ L, t y = t x → val y = val x) :
    ((L.foldl (fun acc x => acc.setZ (t x).1 (t x).2 (val x)) v).z (t x).1).get (t x).2
      = val x := by
  induction L generalizing v x with
  | nil => exact absurd hx (List.not_mem_nil _)
  | cons a L ih =>
    rw [List.foldl_cons]
    by_cases hex : ∃ y ∈ L, t y = t x
    · obtain ⟨y, hy, hty⟩ := hex
      have hv : val y = val x := h y (List.mem_cons_of_mem _ hy) hty
      have := ih (v.setZ (t a).1 (t a).2 (val a)) y hy (fun y2 hy2 h2 => by
        rw [hv]
        exact h y2 (List.mem_cons_of_mem _ hy2) (h2.trans hty))
      rw [hty, hv] at this
      exact this
    · have hne : ∀ y ∈ L, t y ≠ ((t x).1, (t x).2) := fun y hy hty => hex ⟨y, hy, hty⟩
      rw [Vcx8.writes_frame t val L _ _ _ hne, Vcx8.setZ_get]
      rcases List.mem_cons.1 hx with hxa | hxL
      · subst hxa
        rw [if_pos ⟨rfl, rfl⟩]
      · exact absurd ⟨x, hxL, rfl⟩ hex

/-- The two nested loops over `i < N` and `j < 8` perform the writes of the list
of all pairs `(i, j)`. -/
theorem Vcx8.nested_foldl (f : Vcx8 α N → Fin N × Fin 8 → Vcx8 α N) (L : List (Fin N))
    (M : List (Fin 8)) (v : Vcx8 α N) :
    L.foldl (fun acc i => M.foldl (fun acc j => f acc (i, j)) acc) v
      = (L.flatMap (fun i => M.map (fun j => (i, j)))).foldl f v := by
  induction L generalizing v with
  | nil => rfl
  | cons a L ih =>
    rw [List.foldl_cons, ih, List.flatMap_cons, List.foldl_append, List.foldl_map]

theorem Vcx8.mem_pairs (i : Fin N) (j : Fin 8) :
    (i, j) ∈ (List.finRange N).flatMap (fun i => (List.finRange 8).map (fun j => (i, j))) := by
  rw [List.mem_flatMap]
  exact ⟨i, List.mem_finRange i, List.mem_map.2 ⟨j, List.mem_finRange j, rfl⟩⟩

/-- The flat index `8 * i + j` determines `i` and `j`. -/
theorem Vcx8.flat_inj (i i2 : Fin N) (j j2 : Fin 8)
    (h : (Vcx8.flatRow i j, Vcx8.flatLane i j) = (Vcx8.flatRow i2 j2, Vcx8.flatLane i2 j2)) :
    (i, j) = (i2, j2) := by
  have h1 : (8 * i.val + j.val) / N = (8 * i2.val + j2.val) / N :=
    congrArg (fun p : Fin 8 × Fin N => p.1.val) h
  have h2 : (8 * i.val + j.val) % N = (8 * i2.val + j2.val) % N :=
    congrArg (fun p : Fin 8 × Fin N => p.2.val) h
  have h3 : 8 * i.val + j.val = 8 * i2.val + j2.val := by
    rw [← Nat.div_add_mod (8 * i.val + j.val) N, ← Nat.div_add_mod (8 * i2.val + j2.val) N,
      h1, h2]
  have hj := j.isLt
  have hj2 := j2.isLt
  exact Prod.ext (Fin.ext (by show i.val = i2.val; omega)) (Fin.ext (by show j.val = j2.val; omega))

theorem Vcx8.transpose_in_get (x v0 : Vcx8 α N) (i : Fin N) (j : Fin 8) :
    ((x.transpose_in v0).z j).get i = (x.z (Vcx8.flatRow i j)).get (Vcx8.flatLane i j) := by
  unfold Vcx8.transpose_in
  rw [Vcx8.nested_foldl (fun acc p => acc.setZ p.2 p.1
    ((x.z (Vcx8.flatRow p.1 p.2)).get (Vcx8.flatLane p.1 p.2)))]
  exact Vcx8.writes_value (fun p : Fin N × Fin 8 => (p.2, p.1))
    (fun p => (x.z (Vcx8.flatRow p.1 p.2)).get (Vcx8.flatLane p.1 p.2)) _ v0 (i, j)
    (Vcx8.mem_pairs i j) (fun y _ hy => by
      have e : y = (i, j) := Prod.ext (congrArg Prod.snd hy) (congrArg Prod.fst hy)
      rw [e])

theorem Vcx8.transpose_out_get (x v0 : Vcx8 α N) (i : Fin N) (j : Fin 8) :
    ((x.transpose_out v0).z (Vcx8.flatRow i j)).get (Vcx8.flatLane i j) = (x.z j).get i := by
  unfold Vcx8.transpose_out
  rw [Vcx8.nested_foldl (fun acc p => acc.setZ (Vcx8.flatRow p.1 p.2) (Vcx8.flatLane p.1 p.2)
    ((x.z p.2).get p.1))]
  exact Vcx8.writes_value (fun p : Fin N × Fin 8 => (Vcx8.flatRow p.1 p.2, Vcx8.flatLane p.1 p.2))
    (fun p => (x.z p.2).get p.1) _ v0 (i, j)
    (Vcx8.mem_pairs i j) (fun y _ hy => by
      have e : (y.1, y.2) = (i, j) := Vcx8.flat_inj y.1 i y.2 j hy
      have e2 : y = (i, j) := e
      rw [e2])

/-- Every cell `(k, l)` of a tile is the flat element `8 * i + j` for some
`i < N`, `j < 8`. -/
theorem Vcx8.flat_surj (k : Fin 8) (l : Fin N) :
    ∃ (i : Fin N) (j : Fin 8), Vcx8.flatRow i j = k ∧ Vcx8.flatLane i j = l := by
  have hk := k.isLt
  have hl := l.isLt
  have hi : (k.val * N + l.val) / 8 < N := (Nat.div_lt_iff_lt_mul (by omega)).2 (by
    have : k.val * N ≤ 7 * N := Nat.mul_le_mul_right _ (by omega)
    omega)
  refine ⟨⟨(k.val * N + l.val) / 8, hi⟩, ⟨(k.val * N + l.val) % 8, Nat.mod_lt _ (by omega)⟩,
    ?_, ?_⟩
  · apply Fin.ext
    show (8 * ((k.val * N + l.val) / 8) + (k.val * N + l.val) % 8) / N = k.val
    rw [Nat.div_add_mod, Nat.mul_comm, Nat.mul_add_div (by omega), Nat.div_eq_of_lt hl]
    rfl
  · apply Fin.ext
    show (8 * ((k.val * N + l.val) / 8) + (k.val * N + l.val) % 8) % N = l.val
    rw [Nat.div_add_mod, Nat.mul_comm, Nat.mul_add_mod, Nat.mod_eq_of_lt hl]

end Transpose

/-- C22. For every lane width `W` (so for `W` in {2, 4, 8}) and every tile `x` of
eight `W`-wide vectors, whatever the initial contents of the local tile that the
methods fill: `transpose_in` produces rows with `row[j]` lane `i` equal to the
flat element `8*i + j` of `x` (flat element `k` being `x[k / W]` lane `k mod W`),
and `transpose_out` is its inverse: `transpose_out(transpose_in(x)) = x` and
`transpose_in(transpose_out(x)) = x`. -/
theorem transpose_out_transpose_in {α : Type} {W : Nat} (x v0 v1 : Vcx8 α W) :
    (∀ (i : Fin W) (j : Fin 8) (r : Fin 8) (l : Fin W),
      r.val = (8 * i.val + j.val) / W → l.val = (8 * i.val + j.val) % W →
      ((x.transpose_in v0).z j).get i = (x.z r).get l) ∧
    (x.transpose_in v0).transpose_out v1 = x ∧
    (x.transpose_out v0).transpose_in v1 = x := by
  refine ⟨?_, ?_, ?_⟩
  · intro i j r l hr hl
    have e1 : r = Vcx8.flatRow i j := Fin.ext hr
    have e2 : l = Vcx8.flatLane i j := Fin.ext hl
    rw [e1, e2]
    exact Vcx8.transpose_in_get x v0 i j
  · apply Vcx8.ext_cells
    intro k l
    obtain ⟨i, j, hk, hl⟩ := Vcx8.flat_surj k l
    rw [← hk, ← hl, Vcx8.transpose_out_get, Vcx8.transpose_in_get]
  · apply Vcx8.ext_cells
    intro j i
    rw [Vcx8.transpose_in_get, Vcx8.transpose_out_get]

/-- Witness for C22: `W = 2`, the tile whose flat element `k` is `(k, 0)`; lane 1
of row 3 after `transpose_in` is the flat element `8*1 + 3 = 11`, that is lane 1
of `x[5]`. -/
theorem transpose_out_transpose_in_witness :
    (5 : Fin 8).val = (8 * (1 : Fin 2).val + (3 : Fin 8).val) / 2 ∧
    (1 : Fin 2).val = (8 * (1 : Fin 2).val + (3 : Fin 8).val) % 2 ∧
    (((⟨fun k => ⟨⟨fun l => 2 * k.val + l.val⟩, ⟨fun _ => 0⟩⟩⟩ : Vcx8 Nat 2).transpose_in
        ⟨fun _ => ⟨⟨fun _ => 0⟩, ⟨fun _ => 0⟩⟩⟩).z 3).get 1 = (11, 0) :=
  ⟨by decide, by decide,
    ((transpose_out_transpose_in
      (⟨fun k => ⟨⟨fun l => 2 * k.val + l.val⟩, ⟨fun _ => 0⟩⟩⟩ : Vcx8 Nat 2)
      ⟨fun _ => ⟨⟨fun _ => 0⟩, ⟨fun _ => 0⟩⟩⟩ ⟨fun _ => ⟨⟨fun _ => 0⟩, ⟨fun _ => 0⟩⟩⟩).1
        1 3 5 1 (by decide) (by decide)).trans rfl⟩

/-! ## The carry of the multiplication -/

/-- Splitting the first term off a sum over the indices `k >= i` of a tile. -/
theorem sum_from_split {β : Type} [AddCommMonoid β] (F : Fin 8 → β) (i : Nat) (h : i < 8) :
    (∑ k : Fin 8, if i ≤ k.val then F k else 0)
      = F ⟨i, h⟩ + ∑ k : Fin 8, if i + 1 ≤ k.val then F k else 0 := by
  have e : ∀ k : Fin 8, (if i ≤ k.val then F k else 0)
      = (if k = ⟨i, h⟩ then F k else 0) + (if i + 1 ≤ k.val then F k else 0) := by
    intro k
    by_cases h1 : k = ⟨i, h⟩
    · subst h1
      rw [if_pos (le_refl _), if_pos rfl, if_neg (by show ¬ (i + 1 ≤ i); omega), add_zero]
    · have h2 : k.val ≠ i := fun hh => h1 (Fin.ext hh)
      rw [if_neg h1, zero_add]
      by_cases h3 : i ≤ k.val
      · rw [if_pos h3, if_pos (by omega)]
      · rw [if_neg h3, if_neg (by omega)]
  rw [Finset.sum_congr rfl (fun k _ => e k), Finset.sum_add_distrib,
    Finset.sum_ite_eq' Finset.univ (⟨i, h⟩ : Fin 8) F, if_pos (Finset.mem_univ _)]

theorem sum_from_eight {β : Type} [AddCommMonoid β] (F : Fin 8 → β) (i : Nat) (h : 8 ≤ i) :
    (∑ k : Fin 8, if i ≤ k.val then F k else 0) = 0 := by
  apply Finset.sum_eq_zero
  intro k _
  have hk := k.isLt
  rw [if_neg (by omega)]

section MulCarry

variable {α : Type} [LinearOrderedField α] [FloorRing α] {N : Nat}

/-- The tracking of the error changes neither the tile nor the carry. -/
theorem Vcx8s.mul_carryErrLoop_eq (g b b_inv t2_n : α) (fuel i : Nat)
    (z : Fin 8 → Vcx α N) (f err : Vcx α N) :
    (Vcx8s.mul_carryErrLoop g b b_inv t2_n fuel i z f err).1
      = (Vcx8s.mul_carryLoop g b b_inv t2_n fuel i z f).1 ∧
    (Vcx8s.mul_carryErrLoop g b b_inv t2_n fuel i z f err).2.1
      = (Vcx8s.mul_carryLoop g b b_inv t2_n fuel i z f).2 := by
  induction fuel generalizing i z f err with
  | zero => exact ⟨rfl, rfl⟩
  | succ n ih =>
    unfold Vcx8s.mul_carryErrLoop Vcx8s.mul_carryLoop
    by_cases h : i < 8
    · rw [dif_pos h, dif_pos h]
      exact ih _ _ _ _
    · rw [dif_neg h, dif_neg h]
      exact ⟨rfl, rfl⟩

/-- The digit and the carry of one lane: `z' + b * f' = f + g * round(z * t2_n)`. -/
theorem mul_carryLane_sum (g b b_inv t2_n z f : α) :
    (mul_carryLane g b b_inv t2_n z f).1 + b * (mul_carryLane g b b_inv t2_n z f).2
      = f + g * stdRound (z * t2_n) := by
  unfold mul_carryLane
  ring

/-- The digit of one lane is at most `b / 2` in absolute value. -/
theorem mul_carryLane_digit (g b b_inv t2_n z f : α) (hb : 0 < b) (hinv : b_inv = 1 / b) :
    |(mul_carryLane g b b_inv t2_n z f).1| ≤ b / 2 := by
  unfold mul_carryLane
  simp only
  generalize f + (stdRound (z * t2_n) - stdRound (stdRound (z * t2_n) * b_inv) * b) * g = x
  have h := abs_sub_stdRound_le (x * b_inv)
  have e : x - stdRound (x * b_inv) * b = (x * b_inv - stdRound (x * b_inv)) * b := by
    rw [hinv, sub_mul, mul_assoc, one_div, inv_mul_cancel₀ hb.ne', mul_one]
  rw [e, abs_mul, abs_of_pos hb]
  calc |x * b_inv - stdRound (x * b_inv)| * b ≤ 1 / 2 * b :=
        mul_le_mul_of_nonneg_right h hb.le
    _ = b / 2 := by ring

/-- The invariant of the loop of `mul_carry`, for one lane `p` of the vectors (a
map that commutes with the lane-wise operations): the value is conserved from the
index `i` on, the digits below `i` are left, and the digits from `i` on are at
most `b / 2` in absolute value. -/
theorem Vcx8s.mul_carryLoop_inv (p : Vcx α N → α)
    (hadd : ∀ a c, p (a + c) = p a + p c) (hsub : ∀ a c, p (a - c) = p a - p c)
    (hscale : ∀ a (c : α), p (a.scale c) = p a * c) (hround : ∀ a, p a.round = stdRound (p a))
    (g b b_inv t2_n : α) (fuel i : Nat) (z : Fin 8 → Vcx α N) (f : Vcx α N)
    (hf : 8 ≤ fuel + i) (hi : i ≤ 8) :
    ((∑ k : Fin 8, if i ≤ k.val
          then p ((Vcx8s.mul_carryLoop g b b_inv t2_n fuel i z f).1 k) * b ^ k.val else 0)
        + p (Vcx8s.mul_carryLoop g b b_inv t2_n fuel i z f).2 * b ^ 8
      = p f * b ^ i
        + g * ∑ k : Fin 8, if i ≤ k.val then stdRound (p (z k) * t2_n) * b ^ k.val else 0) ∧
    (∀ k : Fin 8, k.val < i → (Vcx8s.mul_carryLoop g b b_inv t2_n fuel i z f).1 k = z k) ∧
    (0 < b → b_inv = 1 / b → ∀ k : Fin 8, i ≤ k.val →
      |p ((Vcx8s.mul_carryLoop g b b_inv t2_n fuel i z f).1 k)| ≤ b / 2) := by
  induction fuel generalizing i z f with
  | zero =>
    have hi8 : i = 8 := by omega
    subst hi8
    refine ⟨?_, fun k _ => rfl, ?_⟩
    · rw [sum_from_eight _ 8 (le_refl _), sum_from_eight _ 8 (le_refl _)]
      show 0 + p f * b ^ 8 = p f * b ^ 8 + g * 0
      ring
    · intro _ _ k hk
      have := k.isLt
      omega
  | succ n ih =>
    by_cases h : i < 8
    · have hstep : Vcx8s.mul_carryLoop g b b_inv t2_n (n + 1) i z f
          = Vcx8s.mul_carryLoop g b b_inv t2_n n (i + 1)
            (Function.update z ⟨i, h⟩
              ((f + (((z ⟨i, h⟩).scale t2_n).round
                  - ((((z ⟨i, h⟩).scale t2_n).round.scale b_inv).round).scale b).scale g)
                - (((f + (((z ⟨i, h⟩).scale t2_n).round
                  - ((((z ⟨i, h⟩).scale t2_n).round.scale b_inv).round).scale b).scale g).scale
                    b_inv).round).scale b))
            ((((f + (((z ⟨i, h⟩).scale t2_n).round
                  - ((((z ⟨i, h⟩).scale t2_n).round.scale b_inv).round).scale b).scale g).scale
                    b_inv).round)
              + ((((z ⟨i, h⟩).scale t2_n).round.scale b_inv).round).scale g) := by
        rw [Vcx8s.mul_carryLoop, dif_pos h]
      rw [hstep]
      generalize hd : (f + (((z ⟨i, h⟩).scale t2_n).round
                  - ((((z ⟨i, h⟩).scale t2_n).round.scale b_inv).round).scale b).scale g)
                - (((f + (((z ⟨i, h⟩).scale t2_n).round
                  - ((((z ⟨i, h⟩).scale t2_n).round.scale b_inv).round).scale b).scale g).scale
                    b_inv).round).scale b = d
      generalize hc : (((f + (((z ⟨i, h⟩).scale t2_n).round
                  - ((((z ⟨i, h⟩).scale t2_n).round.scale b_inv).round).scale b).scale g).scale
                    b_inv).round)
              + ((((z ⟨i, h⟩).scale t2_n).round.scale b_inv).round).scale g = c
      have pd : p d = (mul_carryLane g b b_inv t2_n (p (z ⟨i, h⟩)) (p f)).1 := by
        rw [← hd]
        simp only [hadd, hsub, hscale, hround]
        rfl
      have pc : p c = (mul_carryLane g b b_inv t2_n (p (z ⟨i, h⟩)) (p f)).2 := by
        rw [← hc]
        simp only [hadd, hsub, hscale, hround]
        rfl
      obtain ⟨i1, i2, i3⟩ := ih (i + 1) (Function.update z ⟨i, h⟩ d) c (by omega) (by omega)
      have hz : ∀ k : Fin 8, i + 1 ≤ k.val → Function.update z ⟨i, h⟩ d k = z k := by
        intro k hk
        apply Function.update_noteq
        intro e
        rw [e] at hk
        exact absurd hk (by show ¬ (i + 1 ≤ i); omega)
      have hri : (Vcx8s.mul_carryLoop g b b_inv t2_n n (i + 1) (Function.update z ⟨i, h⟩ d) c).1
          ⟨i, h⟩ = d := by
        rw [i2 ⟨i, h⟩ (by show i < i + 1; omega), Function.update_same]
      refine ⟨?_, ?_, ?_⟩
      · rw [sum_from_split _ i h, sum_from_split (fun k => stdRound (p (z k) * t2_n) * b ^ k.val)
          i h, hri]
        have e2 : (∑ k : Fin 8, if i + 1 ≤ k.val
              then stdRound (p (Function.update z ⟨i, h⟩ d k) * t2_n) * b ^ k.val else 0)
            = ∑ k : Fin 8, if i + 1 ≤ k.val then stdRound (p (z k) * t2_n) * b ^ k.val else 0 := by
          apply Finset.sum_congr rfl
          intro k _
          by_cases hk : i + 1 ≤ k.val
          · rw [if_pos hk, if_pos hk, hz k hk]
          · rw [if_neg hk, if_neg hk]
        rw [e2] at i1
        have hl := mul_carryLane_sum g b b_inv t2_n (p (z ⟨i, h⟩)) (p f)
        rw [← pd, ← pc] at hl
        show p d * b ^ i + _ + _ = _
        linear_combination i1 + b ^ i * hl
      · intro k hk
        rw [i2 k (by omega)]
        apply Function.update_noteq
        intro e
        rw [e] at hk
        exact absurd hk (lt_irrefl _)
      · intro hb hinv k hk
        by_cases hki : k = ⟨i, h⟩
        · rw [hki, hri, pd]
          exact mul_carryLane_digit g b b_inv t2_n _ _ hb hinv
        · have : k.val ≠ i := fun hh => hki (Fin.ext hh)
          exact i3 hb hinv k (by omega)
    · have hi8 : i = 8 := by omega
      subst hi8
      have hstep : Vcx8s.mul_carryLoop g b b_inv t2_n (n + 1) 8 z f = (z, f) := by
        rw [Vcx8s.mul_carryLoop, dif_neg h]
      rw [hstep]
      refine ⟨?_, fun k _ => rfl, ?_⟩
      · rw [sum_from_eight _ 8 (le_refl _), sum_from_eight _ 8 (le_refl _)]
        show 0 + p f * b ^ 8 = p f * b ^ 8 + g * 0
        ring
      · intro _ _ k hk
        have := k.isLt
        omega

end MulCarry

/-- C23. Over exact arithmetic (any ordered field with a floor, `round` the nearest
integer) with `b_inv = 1/b`, for every base `b > 0` (so for every integer base
`b >= 2`), every `g` (so for `g` in {1, 2}), every incoming carry `f_prev` and every
tile, in every real and imaginary lane `mul_carry` returns a carry `f_out` and
digits `z'_0..z'_7` with
`sum_{i<8} z'_i*b^i + f_out*b^8 = f_prev + g * sum_{i<8} o_i*b^i`, where
`o_i = round(z_i * t2_n)`, and every digit satisfies `|z'_i| <= b/2`. -/
theorem mul_carry_conserves {α : Type} [LinearOrderedField α] [FloorRing α] {N : Nat}
    (v : Vcx8s α N) (f_prev : Vcx α N) (g b b_inv t2_n : α) (i : Fin N)
    (hb : 0 < b) (hinv : b_inv = 1 / b) :
    ((∑ k : Fin 8, ((v.mul_carry f_prev g b b_inv t2_n).1.z k).re.r i * b ^ k.val)
        + (v.mul_carry f_prev g b b_inv t2_n).2.re.r i * b ^ 8
      = f_prev.re.r i + g * ∑ k : Fin 8, stdRound ((v.z k).re.r i * t2_n) * b ^ k.val) ∧
    ((∑ k : Fin 8, ((v.mul_carry f_prev g b b_inv t2_n).1.z k).im.r i * b ^ k.val)
        + (v.mul_carry f_prev g b b_inv t2_n).2.im.r i * b ^ 8
      = f_prev.im.r i + g * ∑ k : Fin 8, stdRound ((v.z k).im.r i * t2_n) * b ^ k.val) ∧
    (∀ k : Fin 8, |((v.mul_carry f_prev g b b_inv t2_n).1.z k).re.r i| ≤ b / 2 ∧
      |((v.mul_carry f_prev g b b_inv t2_n).1.z k).im.r i| ≤ b / 2) := by
  obtain ⟨r1, _, r3⟩ := Vcx8s.mul_carryLoop_inv (fun a : Vcx α N => a.re.r i)
    (fun _ _ => rfl) (fun _ _ => rfl) (fun _ _ => rfl) (fun _ => rfl)
    g b b_inv t2_n 8 0 v.z f_prev (le_refl _) (Nat.zero_le _)
  obtain ⟨m1, _, m3⟩ := Vcx8s.mul_carryLoop_inv (fun a : Vcx α N => a.im.r i)
    (fun _ _ => rfl) (fun _ _ => rfl) (fun _ _ => rfl) (fun _ => rfl)
    g b b_inv t2_n 8 0 v.z f_prev (le_refl _) (Nat.zero_le _)
  simp only [Nat.zero_le, if_true, pow_zero, mul_one] at r1 m1
  exact ⟨r1, m1, fun k => ⟨r3 hb hinv k (Nat.zero_le _), m3 hb hinv k (Nat.zero_le _)⟩⟩

/-- Witness for C23: one rational lane, base 10, `g = 2`, no incoming carry and
the tile `7, 0, ..., 0` with `t2_n = 1`. -/
theorem mul_carry_conserves_witness :
    (0 < (10 : ℚ) ∧ (1 / 10 : ℚ) = 1 / 10) ∧
    ((∑ k : Fin 8, (((⟨fun k => ⟨⟨fun _ => if k = 0 then 7 else 0⟩, ⟨fun _ => 0⟩⟩⟩ :
          Vcx8s ℚ 1).mul_carry ⟨⟨fun _ => 0⟩, ⟨fun _ => 0⟩⟩ 2 10 (1 / 10) 1).1.z k).re.r 0
          * 10 ^ k.val)
        + ((⟨fun k => ⟨⟨fun _ => if k = 0 then 7 else 0⟩, ⟨fun _ => 0⟩⟩⟩ :
          Vcx8s ℚ 1).mul_carry ⟨⟨fun _ => 0⟩, ⟨fun _ => 0⟩⟩ 2 10 (1 / 10) 1).2.re.r 0 * 10 ^ 8
      = (⟨⟨fun _ => 0⟩, ⟨fun _ => 0⟩⟩ : Vcx ℚ 1).re.r 0
        + 2 * ∑ k : Fin 8, stdRound (((⟨fun k => ⟨⟨fun _ => if k = 0 then 7 else 0⟩,
            ⟨fun _ => 0⟩⟩⟩ : Vcx8s ℚ 1).z k).re.r 0 * 1) * 10 ^ k.val) :=
  ⟨⟨by norm_num, rfl⟩,
    (mul_carry_conserves
      (⟨fun k => ⟨⟨fun _ => if k = 0 then 7 else 0⟩, ⟨fun _ => 0⟩⟩⟩ : Vcx8s ℚ 1)
      ⟨⟨fun _ => 0⟩, ⟨fun _ => 0⟩⟩ 2 10 (1 / 10) 1 0 (by norm_num) rfl).1⟩

/-- C28. The error-tracking and the non-tracking variants of `mul_carry` compute
the same result: for all inputs (tile, `f_prev`, `g`, `b`, `b_inv`, `t2_n`) and any
initial `err`, both overloads return the same carry and leave the same eight
digits in the tile; so the tile and `f[j]` after the statement of `pass2_0` are
the same whether `checkError` is set or not. -/
theorem mul_carry_err_same_result {α : Type} [LinearOrderedField α] [FloorRing α] {N : Nat}
    (v : Vcx8s α N) (f_prev : Vcx α N) (g b b_inv t2_n : α) (err : Vcx α N) :
    (v.mul_carry_err f_prev g b b_inv t2_n err).1 = (v.mul_carry f_prev g b b_inv t2_n).1 ∧
    (v.mul_carry_err f_prev g b b_inv t2_n err).2.1 = (v.mul_carry f_prev g b b_inv t2_n).2 ∧
    (∀ checkError : Bool,
      (Vcx8s.pass2_0_mul_carry checkError v f_prev g b b_inv t2_n err).1
        = (Vcx8s.pass2_0_mul_carry false v f_prev g b b_inv t2_n err).1 ∧
      (Vcx8s.pass2_0_mul_carry checkError v f_prev g b b_inv t2_n err).2.1
        = (Vcx8s.pass2_0_mul_carry false v f_prev g b b_inv t2_n err).2.1) := by
  obtain ⟨h1, h2⟩ := Vcx8s.mul_carryErrLoop_eq g b b_inv t2_n 8 0 v.z f_prev err
  have e1 : (v.mul_carry_err f_prev g b b_inv t2_n err).1
      = (v.mul_carry f_prev g b b_inv t2_n).1 := by
    show (⟨(Vcx8s.mul_carryErrLoop g b b_inv t2_n 8 0 v.z f_prev err).1⟩ : Vcx8s α N)
      = ⟨(Vcx8s.mul_carryLoop g b b_inv t2_n 8 0 v.z f_prev).1⟩
    rw [h1]
  have e2 : (v.mul_carry_err f_prev g b b_inv t2_n err).2.1
      = (v.mul_carry f_prev g b b_inv t2_n).2 := h2
  refine ⟨e1, e2, ?_⟩
  intro checkError
  cases checkError
  · exact ⟨rfl, rfl⟩
  · exact ⟨e1, e2⟩

/-! ## The carry propagation -/

theorem foldl_and_eq_true {ι : Type} (P : ι → Bool) (L : List ι) (init : Bool) :
    L.foldl (fun zero i => zero && P i) init = true ↔ init = true ∧ ∀ i ∈ L, P i = true := by
  induction L generalizing init with
  | nil => simp
  | cons a L ih =>
    rw [List.foldl_cons, ih]
    simp only [Bool.and_eq_true, List.mem_cons, forall_eq_or_imp]
    tauto

theorem Vd.isZero_iff_lanes {α : Type} [Zero α] [DecidableEq α] {N : Nat} (a : Vd α N) :
    a.isZero = true ↔ ∀ i, a.r i = 0 := by
  unfold Vd.isZero
  rw [foldl_and_eq_true (fun i => decide (a.r i = 0))]
  simp [List.mem_finRange]

theorem Vcx.isZero_iff_parts {α : Type} [Zero α] [DecidableEq α] {N : Nat} (a : Vcx α N) :
    a.isZero = true ↔ ∀ i, a.re.r i = 0 ∧ a.im.r i = 0 := by
  unfold Vcx.isZero
  rw [Bool.and_eq_true, Vd.isZero_iff_lanes, Vd.isZero_iff_lanes]
  exact ⟨fun h i => ⟨h.1 i, h.2 i⟩, fun h => ⟨fun i => (h i).1, fun i => (h i).2⟩⟩

theorem stdRound_intCast {α : Type} [LinearOrderedField α] [FloorRing α] (n : Int) :
    stdRound (n : α) = n := by
  unfold stdRound
  split_ifs with h
  · have e : ⌊(n : α) + 1 / 2⌋ = n := by
      rw [Int.floor_eq_iff]
      constructor <;> linarith
    rw [e]
  · have e : ⌈(n : α) - 1 / 2⌉ = n := by
      rw [Int.ceil_eq_iff]
      constructor <;> linarith
    rw [e]

section Carry

variable {α : Type} [LinearOrderedField α] [FloorRing α] {N : Nat}

/-- The invariant of the loop of `carry`, for one lane `p` of the vectors: from
the index `i` on the value is conserved when the digits are integers, and the
digits below `i` are left. -/
theorem Vcx8s.carryLoop_inv (p : Vcx α N → α)
    (hadd : ∀ a c, p (a + c) = p a + p c) (hsub : ∀ a c, p (a - c) = p a - p c)
    (hscale : ∀ a (c : α), p (a.scale c) = p a * c) (hround : ∀ a, p a.round = stdRound (p a))
    (hzero : ∀ a : Vcx α N, a.isZero = true → p a = 0)
    (b b_inv : α) (fuel i : Nat) (z : Fin 8 → Vcx α N) (f : Vcx α N)
    (hf : 8 ≤ fuel + i) (hi : i ≤ 7)
    (hint : ∀ k : Fin 8, i ≤ k.val → stdRound (p (z k)) = p (z k)) :
    ((∑ k : Fin 8, if i ≤ k.val then p (Vcx8s.carryLoop b b_inv fuel i z f k) * b ^ k.val else 0)
      = p f * b ^ i + ∑ k : Fin 8, if i ≤ k.val then p (z k) * b ^ k.val else 0) ∧
    (∀ k : Fin 8, k.val < i → Vcx8s.carryLoop b b_inv fuel i z f k = z k) := by
  induction fuel generalizing i z f with
  | zero => omega
  | succ n ih =>
    by_cases h : i < 8 - 1
    · have h8 : i < 8 := Nat.lt_of_lt_of_le h (by decide)
      generalize hd : (f + (z ⟨i, h8⟩).round)
        - (((f + (z ⟨i, h8⟩).round).scale b_inv).round).scale b = d
      generalize hc : ((f + (z ⟨i, h8⟩).round).scale b_inv).round = c
      have hstep : Vcx8s.carryLoop b b_inv (n + 1) i z f
          = if c.isZero then Function.update z ⟨i, h8⟩ d
            else Vcx8s.carryLoop b b_inv n (i + 1) (Function.update z ⟨i, h8⟩ d) c := by
        rw [Vcx8s.carryLoop, dif_pos h, ← hd, ← hc]
      have pd : p d + p c * b = p f + p (z ⟨i, h8⟩) := by
        rw [← hd, ← hc]
        simp only [hadd, hsub, hscale, hround]
        rw [hint ⟨i, h8⟩ (le_refl _)]
        ring
      have hz : ∀ k : Fin 8, i + 1 ≤ k.val → Function.update z ⟨i, h8⟩ d k = z k := by
        intro k hk
        apply Function.update_noteq
        intro e
        rw [e] at hk
        exact absurd hk (by show ¬ (i + 1 ≤ i); omega)
      have hz2 : ∀ k : Fin 8, k.val < i → Function.update z ⟨i, h8⟩ d k = z k := by
        intro k hk
        apply Function.update_noteq
        intro e
        rw [e] at hk
        exact absurd hk (lt_irrefl _)
      have e2 : ∀ F : Fin 8 → Vcx α N, (∀ k : Fin 8, i + 1 ≤ k.val → F k = z k) →
          (∑ k : Fin 8, if i + 1 ≤ k.val then p (F k) * b ^ k.val else 0)
            = ∑ k : Fin 8, if i + 1 ≤ k.val then p (z k) * b ^ k.val else 0 := by
        intro F hF
        apply Finset.sum_congr rfl
        intro k _
        by_cases hk : i + 1 ≤ k.val
        · rw [if_pos hk, if_pos hk, hF k hk]
        · rw [if_neg hk, if_neg hk]
      rw [hstep]
      by_cases hzc : c.isZero = true
      · rw [if_pos hzc]
        refine ⟨?_, hz2⟩
        rw [sum_from_split _ i h8, sum_from_split (fun k => p (z k) * b ^ k.val) i h8,
          Function.update_same, e2 _ hz]
        have hc0 := hzero c hzc
        rw [hc0] at pd
        linear_combination b ^ i * pd
      · rw [if_neg hzc]
        obtain ⟨i1, i2⟩ := ih (i + 1) (Function.update z ⟨i, h8⟩ d) c (by omega) (by omega)
          (fun k hk => by rw [hz k hk]; exact hint k (by omega))
        refine ⟨?_, fun k hk => by rw [i2 k (by omega)]; exact hz2 k hk⟩
        rw [sum_from_split _ i h8, sum_from_split (fun k => p (z k) * b ^ k.val) i h8,
          i2 ⟨i, h8⟩ (by show i < i + 1; omega), Function.update_same, i1, e2 _ hz]
        linear_combination b ^ i * pd
    · have hi7 : i = 7 := by omega
      subst hi7
      have hstep : Vcx8s.carryLoop b b_inv (n + 1) 7 z f
          = Function.update z 7 (f + (z 7).round) := by
        rw [Vcx8s.carryLoop, dif_neg h]
      rw [hstep]
      refine ⟨?_, ?_⟩
      · rw [sum_from_split _ 7 (by decide), sum_from_split (fun k => p (z k) * b ^ k.val) 7
          (by decide), sum_from_eight _ 8 (le_refl _), sum_from_eight _ 8 (le_refl _)]
        show p (Function.update z 7 (f + (z 7).round) 7) * b ^ 7 + 0 = _
        rw [Function.update_same, hadd, hround, hint 7 (le_refl _)]
        show (p f + p (z 7)) * b ^ 7 + 0 = p f * b ^ 7 + (p (z 7) * b ^ 7 + 0)
        ring
      · intro k hk
        apply Function.update_noteq
        intro e
        rw [e] at hk
        exact absurd hk (lt_irrefl _)

/-- The loop of `carry` from the index `i` on leaves the digits below `i`. -/
theorem Vcx8s.carryLoop_frame (b b_inv : α) (fuel i : Nat) (z : Fin 8 → Vcx α N) (f : Vcx α N)
    (hi : i ≤ 7) (k : Fin 8) (hk : k.val < i) : Vcx8s.carryLoop b b_inv fuel i z f k = z k := by
  induction fuel generalizing i z f with
  | zero => rfl
  | succ n ih =>
    by_cases h : i < 8 - 1
    · have h8 : i < 8 := Nat.lt_of_lt_of_le h (by decide)
      have hz2 : ∀ d, Function.update z ⟨i, h8⟩ d k = z k := by
        intro d
        apply Function.update_noteq
        intro e
        rw [e] at hk
        exact absurd hk (lt_irrefl _)
      rw [Vcx8s.carryLoop, dif_pos h]
      split_ifs
      · exact hz2 _
      · rw [ih (i + 1) _ _ (by omega) (by omega)]
        exact hz2 _
    · have hi7 : i = 7 := by omega
      subst hi7
      rw [Vcx8s.carryLoop, dif_neg h]
      apply Function.update_noteq
      intro e
      rw [e] at hk
      exact absurd hk (lt_irrefl _)

/-- The digits written by the loop of `carry` from the index `i` on, when the
running carry is the carry `carryAt i` of the call and the digits from `i` on are
those of the tile `v`. -/
theorem Vcx8s.carryLoop_stop (v : Vcx8s α N) (f0 : Vcx α N) (b b_inv : α) (fuel i : Nat)
    (z : Fin 8 → Vcx α N) (f : Vcx α N) (hf : 8 ≤ fuel + i) (hi : i ≤ 7)
    (hfe : f = v.carryAt f0 b_inv i) (hze : ∀ k : Fin 8, i ≤ k.val → z k = v.z k) :
    (∀ k : Fin 8, i ≤ k.val → k.val < 7 →
      (∀ j, i ≤ j → j < k.val → (v.carryAt f0 b_inv (j + 1)).isZero = false) →
      Vcx8s.carryLoop b b_inv fuel i z f k
        = (v.carryAt f0 b_inv k.val + (v.z k).round)
          - (v.carryAt f0 b_inv (k.val + 1)).scale b) ∧
    (∀ m, i ≤ m → m < 7 →
      (∀ j, i ≤ j → j < m → (v.carryAt f0 b_inv (j + 1)).isZero = false) →
      (v.carryAt f0 b_inv (m + 1)).isZero = true →
      ∀ k : Fin 8, m < k.val → Vcx8s.carryLoop b b_inv fuel i z f k = v.z k) ∧
    ((∀ j, i ≤ j → j < 7 → (v.carryAt f0 b_inv (j + 1)).isZero = false) →
      Vcx8s.carryLoop b b_inv fuel i z f 7 = v.carryAt f0 b_inv 7 + (v.z 7).round) := by
  induction fuel generalizing i z f with
  | zero => omega
  | succ n ih =>
    by_cases h : i < 8 - 1
    · have h8 : i < 8 := Nat.lt_of_lt_of_le h (by decide)
      have hc : ((f + (z ⟨i, h8⟩).round).scale b_inv).round = v.carryAt f0 b_inv (i + 1) := by
        rw [Vcx8s.carryAt, dif_pos h8, hfe, hze ⟨i, h8⟩ (le_refl _)]
      have hd : (f + (z ⟨i, h8⟩).round)
          - (((f + (z ⟨i, h8⟩).round).scale b_inv).round).scale b
          = (v.carryAt f0 b_inv i + (v.z ⟨i, h8⟩).round)
            - (v.carryAt f0 b_inv (i + 1)).scale b := by
        rw [hc, hfe, hze ⟨i, h8⟩ (le_refl _)]
      have hstep : Vcx8s.carryLoop b b_inv (n + 1) i z f
          = if (v.carryAt f0 b_inv (i + 1)).isZero
            then Function.update z ⟨i, h8⟩ ((v.carryAt f0 b_inv i + (v.z ⟨i, h8⟩).round)
              - (v.carryAt f0 b_inv (i + 1)).scale b)
            else Vcx8s.carryLoop b b_inv n (i + 1)
              (Function.update z ⟨i, h8⟩ ((v.carryAt f0 b_inv i + (v.z ⟨i, h8⟩).round)
                - (v.carryAt f0 b_inv (i + 1)).scale b)) (v.carryAt f0 b_inv (i + 1)) := by
        rw [Vcx8s.carryLoop, dif_pos h, ← hd, ← hc]
      generalize (v.carryAt f0 b_inv i + (v.z ⟨i, h8⟩).round)
        - (v.carryAt f0 b_inv (i + 1)).scale b = d at hstep hd
      have hd2 : d = (v.carryAt f0 b_inv i + (v.z ⟨i, h8⟩).round)
          - (v.carryAt f0 b_inv (i + 1)).scale b := by
        rw [← hd, hc, hfe, hze ⟨i, h8⟩ (le_refl _)]
      have hz : ∀ k : Fin 8, i + 1 ≤ k.val → Function.update z ⟨i, h8⟩ d k = v.z k := by
        intro k hk
        rw [Function.update_noteq, hze k (by omega)]
        intro e
        rw [e] at hk
        exact absurd hk (by show ¬ (i + 1 ≤ i); omega)
      rw [hstep]
      by_cases hzc : (v.carryAt f0 b_inv (i + 1)).isZero = true
      · rw [if_pos hzc]
        have hno : ∀ m, i < m →
            ¬ (∀ j, i ≤ j → j < m → (v.carryAt f0 b_inv (j + 1)).isZero = false) := by
          intro m hm hall
          have := hall i (le_refl _) hm
          rw [hzc] at this
          exact absurd this (by decide)
        refine ⟨?_, ?_, ?_⟩
        · intro k hk hk7 hall
          by_cases hki : k.val = i
          · have e : k = ⟨i, h8⟩ := Fin.ext hki
            subst e
            rw [Function.update_same, hd2]
          · exact absurd hall (hno k.val (by omega))
        · intro m hm hm7 hall _ k hk
          by_cases hmi : m = i
          · subst hmi
            exact hz k (by omega)
          · exact absurd hall (hno m (by omega))
        · intro hall
          exact absurd (fun j h1 (h2 : j < 7) => hall j h1 h2) (hno 7 (by omega))
      · rw [if_neg hzc]
        obtain ⟨a1, a2, a3⟩ := ih (i + 1) (Function.update z ⟨i, h8⟩ d)
          (v.carryAt f0 b_inv (i + 1)) (by omega) (by omega) rfl hz
        refine ⟨?_, ?_, ?_⟩
        · intro k hk hk7 hall
          by_cases hki : k.val = i
          · have e : k = ⟨i, h8⟩ := Fin.ext hki
            subst e
            rw [Vcx8s.carryLoop_frame b b_inv n (i + 1) _ _ (by omega) ⟨i, h8⟩
              (by show i < i + 1; omega), Function.update_same, hd2]
          · exact a1 k (by omega) hk7 (fun j h1 h2 => hall j (by omega) h2)
        · intro m hm hm7 hall hzm k hk
          by_cases hmi : m = i
          · subst hmi
            exact absurd hzm hzc
          · exact a2 m (by omega) hm7 (fun j h1 h2 => hall j (by omega) h2) hzm k hk
        · intro hall
          exact a3 (fun j h1 h2 => hall j (by omega) h2)
    · have hi7 : i = 7 := by omega
      subst hi7
      have hstep : Vcx8s.carryLoop b b_inv (n + 1) 7 z f
          = Function.update z 7 (f + (z 7).round) := by
        rw [Vcx8s.carryLoop, dif_neg h]
      rw [hstep]
      refine ⟨?_, ?_, ?_⟩
      · intro k hk hk7
        omega
      · intro m hm hm7
        omega
      · intro _
        rw [Function.update_same, hfe, hze 7 (le_refl _)]

end Carry

/-- C25. Over exact arithmetic (any ordered field with a floor), for every base
`b`, every integer-valued tile `z_0..z_7` and every incoming carry `f`,
`Vcx8s::carry` conserves the value with no carry out, in every real and imaginary
lane: `sum_{i<8} z'_i*b^i = f + sum_{i<8} z_i*b^i`.  A position `k < 7` reached by
the loop gets the digit `(c_k + round(z_k)) - c_(k+1) * b`, where `c_k` is the carry
entering the position `k`; the loop stops at the first position `m < 7` after which
the carry `c_(m+1)` is zero in all lanes, leaving every later digit unchanged, and
otherwise the remaining carry is added to the last digit:
`z'_7 = c_7 + round(z_7)`. -/
theorem carry_conserves {α : Type} [LinearOrderedField α] [FloorRing α] {N : Nat}
    (v : Vcx8s α N) (f : Vcx α N) (b b_inv : α)
    (hz : ∀ (k : Fin 8) (i : Fin N),
      (∃ n : Int, (v.z k).re.r i = n) ∧ ∃ n : Int, (v.z k).im.r i = n) :
    (∀ i : Fin N,
      (∑ k : Fin 8, ((v.carry f b b_inv).z k).re.r i * b ^ k.val)
        = f.re.r i + ∑ k : Fin 8, (v.z k).re.r i * b ^ k.val ∧
      (∑ k : Fin 8, ((v.carry f b b_inv).z k).im.r i * b ^ k.val)
        = f.im.r i + ∑ k : Fin 8, (v.z k).im.r i * b ^ k.val) ∧
    (∀ k : Fin 8, k.val < 7 →
      (∀ j, j < k.val → (v.carryAt f b_inv (j + 1)).isZero = false) →
      (v.carry f b b_inv).z k
        = (v.carryAt f b_inv k.val + (v.z k).round) - (v.carryAt f b_inv (k.val + 1)).scale b) ∧
    (∀ m, m < 7 → (∀ j, j < m → (v.carryAt f b_inv (j + 1)).isZero = false) →
      (v.carryAt f b_inv (m + 1)).isZero = true →
      ∀ k : Fin 8, m < k.val → (v.carry f b b_inv).z k = v.z k) ∧
    ((∀ j, j < 7 → (v.carryAt f b_inv (j + 1)).isZero = false) →
      (v.carry f b b_inv).z 7 = v.carryAt f b_inv 7 + (v.z 7).round) := by
  obtain ⟨a1, a2, a3⟩ := Vcx8s.carryLoop_stop v f b b_inv 8 0 v.z f (le_refl _)
    (Nat.zero_le _) rfl (fun _ _ => rfl)
  refine ⟨?_, ?_, ?_, ?_⟩
  · intro i
    have hre : ∀ k : Fin 8, 0 ≤ k.val →
        stdRound ((fun a : Vcx α N => a.re.r i) (v.z k)) = (fun a : Vcx α N => a.re.r i) (v.z k) := by
      intro k _
      obtain ⟨n, hn⟩ := (hz k i).1
      show stdRound ((v.z k).re.r i) = (v.z k).re.r i
      rw [hn, stdRound_intCast]
    have him : ∀ k : Fin 8, 0 ≤ k.val →
        stdRound ((fun a : Vcx α N => a.im.r i) (v.z k)) = (fun a : Vcx α N => a.im.r i) (v.z k) := by
      intro k _
      obtain ⟨n, hn⟩ := (hz k i).2
      show stdRound ((v.z k).im.r i) = (v.z k).im.r i
      rw [hn, stdRound_intCast]
    obtain ⟨r1, _⟩ := Vcx8s.carryLoop_inv (fun a : Vcx α N => a.re.r i)
      (fun _ _ => rfl) (fun _ _ => rfl) (fun _ _ => rfl) (fun _ => rfl)
      (fun a ha => ((Vcx.isZero_iff_parts a).1 ha i).1) b b_inv 8 0 v.z f (le_refl _)
      (Nat.zero_le _) hre
    obtain ⟨m1, _⟩ := Vcx8s.carryLoop_inv (fun a : Vcx α N => a.im.r i)
      (fun _ _ => rfl) (fun _ _ => rfl) (fun _ _ => rfl) (fun _ => rfl)
      (fun a ha => ((Vcx.isZero_iff_parts a).1 ha i).2) b b_inv 8 0 v.z f (le_refl _)
      (Nat.zero_le _) him
    simp only [Nat.zero_le, if_true, pow_zero, mul_one] at r1 m1
    exact ⟨r1, m1⟩
  · intro k hk hall
    exact a1 k (Nat.zero_le _) hk (fun j _ h2 => hall j h2)
  · intro m hm hall hzm k hk
    exact a2 m (Nat.zero_le _) hm (fun j _ h2 => hall j h2) hzm k hk
  · intro hall
    exact a3 (fun j _ h2 => hall j h2)

/-- Witness for C25: one rational lane, base 10, incoming carry 5 and the tile
`7, 0, ..., 0`. -/
theorem carry_conserves_witness :
    (∀ (k : Fin 8) (i : Fin 1),
      (∃ n : Int, ((⟨fun k => ⟨⟨fun _ => if k = 0 then 7 else 0⟩, ⟨fun _ => 0⟩⟩⟩ :
        Vcx8s ℚ 1).z k).re.r i = n) ∧
      ∃ n : Int, ((⟨fun k => ⟨⟨fun _ => if k = 0 then 7 else 0⟩, ⟨fun _ => 0⟩⟩⟩ :
        Vcx8s ℚ 1).z k).im.r i = n) ∧
    (∑ k : Fin 8, (((⟨fun k => ⟨⟨fun _ => if k = 0 then 7 else 0⟩, ⟨fun _ => 0⟩⟩⟩ :
        Vcx8s ℚ 1).carry ⟨⟨fun _ => 5⟩, ⟨fun _ => 0⟩⟩ 10 (1 / 10)).z k).re.r 0 * 10 ^ k.val)
      = (⟨⟨fun _ => 5⟩, ⟨fun _ => 0⟩⟩ : Vcx ℚ 1).re.r 0
        + ∑ k : Fin 8, ((⟨fun k => ⟨⟨fun _ => if k = 0 then 7 else 0⟩, ⟨fun _ => 0⟩⟩⟩ :
          Vcx8s ℚ 1).z k).re.r 0 * 10 ^ k.val :=
  have hz : ∀ (k : Fin 8) (i : Fin 1),
      (∃ n : Int, ((⟨fun k => ⟨⟨fun _ => if k = 0 then 7 else 0⟩, ⟨fun _ => 0⟩⟩⟩ :
        Vcx8s ℚ 1).z k).re.r i = n) ∧
      ∃ n : Int, ((⟨fun k => ⟨⟨fun _ => if k = 0 then 7 else 0⟩, ⟨fun _ => 0⟩⟩⟩ :
        Vcx8s ℚ 1).z k).im.r i = n := fun k _ =>
    ⟨⟨if k = 0 then 7 else 0, by
        show (if k = 0 then (7 : ℚ) else 0) = ((if k = 0 then 7 else 0 : Int) : ℚ)
        split_ifs <;> simp⟩,
      ⟨0, by
        show (0 : ℚ) = ((0 : Int) : ℚ)
        simp⟩⟩
  ⟨hz, ((carry_conserves
    (⟨fun k => ⟨⟨fun _ => if k = 0 then 7 else 0⟩, ⟨fun _ => 0⟩⟩⟩ : Vcx8s ℚ 1)
    ⟨⟨fun _ => 5⟩, ⟨fun _ => 0⟩⟩ 10 (1 / 10) hz).1 0).1⟩

/-! ## The split of a digit in the base `sqrt(b)` -/

section SplitBase

variable {α : Type} [LinearOrderedField α] [FloorRing α]

/-- The remainder of a value modulo `b`, taken with the nearest quotient, is at
most `b / 2` in absolute value. -/
theorem abs_sub_round_mul_le (x b b_inv : α) (hb : 0 < b) (hinv : b_inv = 1 / b) :
    |x - stdRound (x * b_inv) * b| ≤ b / 2 := by
  have h := abs_sub_stdRound_le (x * b_inv)
  have e : x - stdRound (x * b_inv) * b = (x * b_inv - stdRound (x * b_inv)) * b := by
    rw [hinv, sub_mul, mul_assoc, one_div, inv_mul_cancel₀ hb.ne', mul_one]
  rw [e, abs_mul, abs_of_pos hb]
  calc |x * b_inv - stdRound (x * b_inv)| * b ≤ 1 / 2 * b :=
        mul_le_mul_of_nonneg_right h hb.le
    _ = b / 2 := by ring

/-- The rounding of a value is at most one half further from zero than the
value. -/
theorem abs_stdRound_le (x : α) : |stdRound x| ≤ |x| + 1 / 2 := by
  have h := abs_sub_stdRound_le x
  have e : stdRound x = x - (x - stdRound x) := by ring
  calc |stdRound x| = |x - (x - stdRound x)| := by rw [← e]
    _ ≤ |x| + |x - stdRound x| := abs_sub _ _
    _ ≤ |x| + 1 / 2 := by linarith

/-- One lane of the split of a remainder `r` with `|r| <= b / 2`, for
`sb = sqrt(b)` split as `isb + fsb`. -/
theorem split_lane (sb isb fsb b sb_inv r : α) (hsb : 0 < sb) (hb : sb * sb = b)
    (hsplit : isb + fsb = sb) (hsinv : sb_inv = 1 / sb) (hr : |r| ≤ b / 2) :
    ((r - stdRound (r * sb_inv) * isb) - stdRound (r * sb_inv) * fsb)
        + stdRound (r * sb_inv) * sb = r ∧
    |(r - stdRound (r * sb_inv) * isb) - stdRound (r * sb_inv) * fsb| ≤ sb / 2 ∧
    |stdRound (r * sb_inv)| ≤ sb / 2 + 1 / 2 := by
  refine ⟨?_, ?_, ?_⟩
  · rw [← hsplit]
    ring
  · have e : (r - stdRound (r * sb_inv) * isb) - stdRound (r * sb_inv) * fsb
        = r - stdRound (r * sb_inv) * sb := by
      rw [← hsplit]
      ring
    rw [e]
    exact abs_sub_round_mul_le r sb sb_inv hsb hsinv
  · have h1 := abs_stdRound_le (r * sb_inv)
    have h2 : |r * sb_inv| ≤ sb / 2 := by
      rw [hsinv, abs_mul, abs_of_pos (one_div_pos.2 hsb), mul_one_div, div_le_iff₀ hsb]
      calc |r| ≤ b / 2 := hr
        _ = sb / 2 * sb := by rw [← hb]; ring
    linarith

/-- The rounding of a nonnegative value in `[n - 1/2, n + 1/2)` is `n`. -/
theorem stdRound_eq_of_nonneg (x : α) (n : Int) (hx : 0 ≤ x) (h1 : (n : α) - 1 / 2 ≤ x)
    (h2 : x < (n : α) + 1 / 2) : stdRound x = n := by
  unfold stdRound
  rw [if_pos hx]
  have e : ⌊x + 1 / 2⌋ = n := by
    rw [Int.floor_eq_iff]
    constructor <;> linarith
  rw [e]

end SplitBase

/-- C24 (amended). Over exact arithmetic, for every base `b > 0` with `sb = sqrt(b)`
(`sb > 0`, `sb * sb = b`), `isb + fsb = sb`, `b_inv = 1/b` and `sb_inv = 1/sb`, in
every real and imaginary lane of an iteration of the carry loop of `pass2`: the
remainder `r` satisfies `|r| <= b/2`, and the pair written back,
`h = round(r / sqrt(b))` in `z1` and `r' = r - h*sqrt(b)` in `z0`, satisfies
`r = r' + h*sqrt(b)`, `|r'| <= sqrt(b)/2` and `|h| <= sqrt(b)/2 + 1/2`. -/
theorem split_base_bounds {α : Type} [LinearOrderedField α] [FloorRing α] {N : Nat}
    (sb isb fsb b b_inv sb_inv t2_n g : α) (z0 z1 f_k_f err : Vcx α N) (i : Fin N)
    (hsb : 0 < sb) (hb : sb * sb = b) (hsplit : isb + fsb = sb) (hbinv : b_inv = 1 / b)
    (hsinv : sb_inv = 1 / sb) :
    (|(CZIT_CPU_vec_mt.pass2_r sb b b_inv t2_n g z0 z1 f_k_f).re.r i| ≤ b / 2 ∧
      |(CZIT_CPU_vec_mt.pass2_r sb b b_inv t2_n g z0 z1 f_k_f).im.r i| ≤ b / 2) ∧
    ((CZIT_CPU_vec_mt.pass2_body sb isb fsb b b_inv sb_inv t2_n g z0 z1 f_k_f err).1.re.r i
        + (CZIT_CPU_vec_mt.pass2_body sb isb fsb b b_inv sb_inv t2_n g z0 z1 f_k_f err).2.1.re.r i
          * sb
      = (CZIT_CPU_vec_mt.pass2_r sb b b_inv t2_n g z0 z1 f_k_f).re.r i ∧
     (CZIT_CPU_vec_mt.pass2_body sb isb fsb b b_inv sb_inv t2_n g z0 z1 f_k_f err).1.im.r i
        + (CZIT_CPU_vec_mt.pass2_body sb isb fsb b b_inv sb_inv t2_n g z0 z1 f_k_f err).2.1.im.r i
          * sb
      = (CZIT_CPU_vec_mt.pass2_r sb b b_inv t2_n g z0 z1 f_k_f).im.r i) ∧
    (|(CZIT_CPU_vec_mt.pass2_body sb isb fsb b b_inv sb_inv t2_n g z0 z1 f_k_f err).1.re.r i|
        ≤ sb / 2 ∧
     |(CZIT_CPU_vec_mt.pass2_body sb isb fsb b b_inv sb_inv t2_n g z0 z1 f_k_f err).1.im.r i|
        ≤ sb / 2) ∧
    (|(CZIT_CPU_vec_mt.pass2_body sb isb fsb b b_inv sb_inv t2_n g z0 z1 f_k_f err).2.1.re.r i|
        ≤ sb / 2 + 1 / 2 ∧
     |(CZIT_CPU_vec_mt.pass2_body sb isb fsb b b_inv sb_inv t2_n g z0 z1 f_k_f err).2.1.im.r i|
        ≤ sb / 2 + 1 / 2) := by
  have hbpos : 0 < b := by
    rw [← hb]
    exact mul_pos hsb hsb
  have hre : |(CZIT_CPU_vec_mt.pass2_r sb b b_inv t2_n g z0 z1 f_k_f).re.r i| ≤ b / 2 :=
    abs_sub_round_mul_le _ b b_inv hbpos hbinv
  have him : |(CZIT_CPU_vec_mt.pass2_r sb b b_inv t2_n g z0 z1 f_k_f).im.r i| ≤ b / 2 :=
    abs_sub_round_mul_le _ b b_inv hbpos hbinv
  obtain ⟨a1, a2, a3⟩ := split_lane sb isb fsb b sb_inv _ hsb hb hsplit hsinv hre
  obtain ⟨c1, c2, c3⟩ := split_lane sb isb fsb b sb_inv _ hsb hb hsplit hsinv him
  exact ⟨⟨hre, him⟩, ⟨a1, c1⟩, ⟨a2, c2⟩, ⟨a3, c3⟩⟩

/-- Witness for C24 (amended): one rational lane, base 4 with `sqrt(b) = 2` split
as `2 + 0`, `t2_n = 1`, `g = 1`, the pair `(3, 0)` and no incoming carry. -/
theorem split_base_bounds_witness :
    ((0 : ℚ) < 2 ∧ (2 : ℚ) * 2 = 4 ∧ (2 : ℚ) + 0 = 2 ∧ (1 / 4 : ℚ) = 1 / 4 ∧
      (1 / 2 : ℚ) = 1 / 2) ∧
    |(CZIT_CPU_vec_mt.pass2_body (2 : ℚ) 2 0 4 (1 / 4) (1 / 2) 1 1
        (⟨⟨fun _ => 3⟩, ⟨fun _ => 0⟩⟩ : Vcx ℚ 1) ⟨⟨fun _ => 0⟩, ⟨fun _ => 0⟩⟩
        ⟨⟨fun _ => 0⟩, ⟨fun _ => 0⟩⟩ ⟨⟨fun _ => 0⟩, ⟨fun _ => 0⟩⟩).2.1.re.r 0| ≤ 2 / 2 + 1 / 2 :=
  ⟨⟨by norm_num, by norm_num, by norm_num, rfl, rfl⟩,
    (split_base_bounds (2 : ℚ) 2 0 4 (1 / 4) (1 / 2) 1 1
      (⟨⟨fun _ => 3⟩, ⟨fun _ => 0⟩⟩ : Vcx ℚ 1) ⟨⟨fun _ => 0⟩, ⟨fun _ => 0⟩⟩
      ⟨⟨fun _ => 0⟩, ⟨fun _ => 0⟩⟩ ⟨⟨fun _ => 0⟩, ⟨fun _ => 0⟩⟩ 0 (by norm_num) (by norm_num)
      (by norm_num) rfl rfl).2.2.2.1⟩

/-- Counterexample for C24 as stated: base `b = 14` over the reals, `sqrt(14)` split
as `3 + (sqrt(14) - 3)`, `N = 1024` (`t2_n = 2/1024`), `g = 1`, no incoming carry
and the pair `z0 = 3072`, `z1 = 0`.  The remainder is `r = 6`, with `|r| <= 14/2`,
and the high part written to `z1` is `h = round(6 / sqrt(14)) = 2`, which is larger
than `sqrt(14)/2`. -/
theorem split_base_high_part_exceeds :
    (0 < Real.sqrt 14 ∧ Real.sqrt 14 * Real.sqrt 14 = 14 ∧
      (3 : ℝ) + (Real.sqrt 14 - 3) = Real.sqrt 14) ∧
    (CZIT_CPU_vec_mt.pass2_r (Real.sqrt 14) 14 (1 / 14) (2 / 1024) 1
      (⟨⟨fun _ => 3072⟩, ⟨fun _ => 0⟩⟩ : Vcx ℝ 1) ⟨⟨fun _ => 0⟩, ⟨fun _ => 0⟩⟩
      ⟨⟨fun _ => 0⟩, ⟨fun _ => 0⟩⟩).re.r 0 = 6 ∧
    |(6 : ℝ)| ≤ 14 / 2 ∧
    (CZIT_CPU_vec_mt.pass2_body (Real.sqrt 14) 3 (Real.sqrt 14 - 3) 14 (1 / 14)
      (1 / Real.sqrt 14) (2 / 1024) 1
      (⟨⟨fun _ => 3072⟩, ⟨fun _ => 0⟩⟩ : Vcx ℝ 1) ⟨⟨fun _ => 0⟩, ⟨fun _ => 0⟩⟩
      ⟨⟨fun _ => 0⟩, ⟨fun _ => 0⟩⟩ ⟨⟨fun _ => 0⟩, ⟨fun _ => 0⟩⟩).2.1.re.r 0 = 2 ∧
    ¬ (|(2 : ℝ)| ≤ Real.sqrt 14 / 2) := by
  have hpos : 0 < Real.sqrt 14 := Real.sqrt_pos.2 (by norm_num)
  have hsq : Real.sqrt 14 * Real.sqrt 14 = 14 := Real.mul_self_sqrt (by norm_num)
  have hlo : (12 / 5 : ℝ) < Real.sqrt 14 := by nlinarith
  have hhi : Real.sqrt 14 < 4 := by nlinarith
  have e1 : stdRound (((3072 : ℝ) + 0 * Real.sqrt 14) * (2 / 1024)) = 6 := by
    have e : ((3072 : ℝ) + 0 * Real.sqrt 14) * (2 / 1024) = ((6 : Int) : ℝ) := by norm_num
    rw [e, stdRound_intCast]
    norm_num
  have e2 : stdRound (((0 : ℝ) + 6 * 1) * (1 / 14)) = 0 := by
    have h := stdRound_eq_of_nonneg (((0 : ℝ) + 6 * 1) * (1 / 14)) 0 (by norm_num)
      (by norm_num) (by norm_num)
    rw [h]
    norm_num
  have hr : (CZIT_CPU_vec_mt.pass2_r (Real.sqrt 14) 14 (1 / 14) (2 / 1024) 1
      (⟨⟨fun _ => 3072⟩, ⟨fun _ => 0⟩⟩ : Vcx ℝ 1) ⟨⟨fun _ => 0⟩, ⟨fun _ => 0⟩⟩
      ⟨⟨fun _ => 0⟩, ⟨fun _ => 0⟩⟩).re.r 0 = 6 := by
    show ((0 : ℝ) + stdRound (((3072 : ℝ) + 0 * Real.sqrt 14) * (2 / 1024)) * 1)
      - stdRound (((0 : ℝ) + stdRound (((3072 : ℝ) + 0 * Real.sqrt 14) * (2 / 1024)) * 1)
        * (1 / 14)) * 14 = 6
    rw [e1, e2]
    norm_num
  have e3 : stdRound ((6 : ℝ) * (1 / Real.sqrt 14)) = 2 := by
    have h6 : (6 : ℝ) * (1 / Real.sqrt 14) = 6 / Real.sqrt 14 := by ring
    have h := stdRound_eq_of_nonneg ((6 : ℝ) * (1 / Real.sqrt 14)) 2
      (by rw [h6]; positivity)
      (by
        rw [h6, le_div_iff₀ hpos]
        push_cast
        linarith)
      (by
        rw [h6, div_lt_iff₀ hpos]
        push_cast
        linarith)
    rw [h]
    norm_num
  refine ⟨⟨hpos, hsq, by ring⟩, hr, by norm_num, ?_, ?_⟩
  · show stdRound ((CZIT_CPU_vec_mt.pass2_r (Real.sqrt 14) 14 (1 / 14) (2 / 1024) 1
      (⟨⟨fun _ => 3072⟩, ⟨fun _ => 0⟩⟩ : Vcx ℝ 1) ⟨⟨fun _ => 0⟩, ⟨fun _ => 0⟩⟩
      ⟨⟨fun _ => 0⟩, ⟨fun _ => 0⟩⟩).re.r 0 * (1 / Real.sqrt 14)) = 2
    rw [hr, e3]
  · rw [abs_of_pos (by norm_num : (0 : ℝ) < 2)]
    intro h
    linarith

/-! ## The twiddle tables -/

/-- The bit reversal on `m + 2` bits of an index below `2^m` is a multiple of 4
below `2^(m+2)`. -/
theorem revBits_low (m j : Nat) (hj : j < 2 ^ m) :
    revBits (m + 2) j = 4 * revBits m j ∧ revBits (m + 2) j + 4 ≤ 2 ^ (m + 2) := by
  have h1 : revBits (m + 1) j = 2 * revBits m j := by
    have h := revBits_top m j 0 hj (by decide)
    rw [Nat.mul_zero, Nat.add_zero, Nat.add_zero] at h
    exact h
  have hj2 : j < 2 ^ (m + 1) := by
    rw [pow_succ]
    omega
  have h2 : revBits (m + 2) j = 2 * revBits (m + 1) j := by
    have h := revBits_top (m + 1) j 0 hj2 (by decide)
    rw [Nat.mul_zero, Nat.add_zero, Nat.add_zero] at h
    exact h
  have h3 := revBits_lt m j
  have h4 : 2 ^ (m + 2) = 4 * 2 ^ m := by
    rw [pow_succ, pow_succ]
    ring
  rw [h2, h1, h4]
  omega

theorem w122iLoop_fuel (f1 f2 s : Nat) (h1 : s ≤ f1) (h2 : s ≤ f2) :
    w122iLoop f1 s = w122iLoop f2 s := by
  induction f1 generalizing f2 s with
  | zero =>
    have hs : s = 0 := by omega
    subst hs
    cases f2 with
    | zero => rfl
    | succ f => rw [w122iLoop, w122iLoop, if_neg (by decide)]
  | succ f ih =>
    cases f2 with
    | zero =>
      have hs : s = 0 := by omega
      subst hs
      rw [w122iLoop, w122iLoop, if_neg (by decide)]
    | succ g =>
      rw [w122iLoop, w122iLoop]
      by_cases h : 4 ≤ s
      · rw [if_pos h, if_pos h, ih g (s / 4) (by omega) (by omega)]
      · rw [if_neg h, if_neg h]

/-- The indices stored by one stage are the consecutive indices from `2 * s / 4`. -/
theorem w122iStage_indices (s : Nat) :
    (w122iStage s).map Prod.fst = List.range' (2 * s / 4) (3 * (s / 2)) := by
  unfold w122iStage
  generalize s / 2 = n
  induction n with
  | zero => rfl
  | succ n ih =>
    rw [List.range_succ, List.flatMap_append, List.map_append, ih]
    have e : 3 * (n + 1) = 3 + 3 * n := by ring
    rw [e, ← List.range'_append_1]
    rfl

theorem w122iLoop_index_bounds (fuel s x : Nat) (hx : x ∈ (w122iLoop fuel s).map Prod.fst) :
    2 ≤ x ∧ x < 2 * s := by
  induction fuel generalizing s with
  | zero => exact absurd hx (List.not_mem_nil _)
  | succ f ih =>
    rw [w122iLoop] at hx
    by_cases h : 4 ≤ s
    · rw [if_pos h, List.map_append, List.mem_append, w122iStage_indices,
        List.mem_range'_1] at hx
      rcases hx with hx | hx
      · omega
      · have := ih (s / 4) hx
        omega
    · rw [if_neg h] at hx
      exact absurd hx (List.not_mem_nil _)

theorem w122iLoop_nodup (fuel s : Nat) : ((w122iLoop fuel s).map Prod.fst).Nodup := by
  induction fuel generalizing s with
  | zero => exact List.nodup_nil
  | succ f ih =>
    rw [w122iLoop]
    by_cases h : 4 ≤ s
    · rw [if_pos h, List.map_append, w122iStage_indices]
      refine List.Nodup.append (List.nodup_range' _ _) (ih _) ?_
      intro x hx1 hx2
      rw [List.mem_range'_1] at hx1
      have := w122iLoop_index_bounds f (s / 4) x hx2
      omega
    · rw [if_neg h]
      exact List.nodup_nil

/-- The arguments of the three calls of `exp2iPi` of a stage `s = 2^(m+2)`. -/
theorem w122iStage_args (m : Nat) (w : Nat × Nat × Nat) (hw : w ∈ w122iStage (2 ^ (m + 2))) :
    0 < 4 * w.2.1 ∧ 4 * w.2.1 < w.2.2 := by
  unfold w122iStage at hw
  rw [List.mem_flatMap] at hw
  obtain ⟨j, hj, hw⟩ := hw
  rw [List.mem_range] at hj
  have hs : 2 ^ (m + 2) = 4 * 2 ^ m := by
    rw [pow_succ, pow_succ]
    ring
  have hj2 : j < 2 ^ (m + 1) := by
    rw [pow_succ]
    omega
  have hb : bitRev j (2 * 2 ^ (m + 2)) = revBits (m + 1 + 2) j := by
    have e : 2 * 2 ^ (m + 2) = 2 ^ (m + 1 + 2) := by
      rw [pow_succ 2 (m + 2)]
      ring
    rw [e, bitRev_pow]
  obtain ⟨_, h2⟩ := revBits_low (m + 1) j hj2
  have e3 : 2 ^ (m + 1 + 2) = 8 * 2 ^ m := by
    rw [pow_succ, pow_succ, pow_succ]
    ring
  unfold w122iStores at hw
  rw [hb] at hw
  simp only [List.mem_cons, List.mem_singleton, List.not_mem_nil, or_false] at hw
  rcases hw with rfl | rfl | rfl <;> dsimp only <;> omega

theorem w122iLoop_args (fuel e : Nat) (w : Nat × Nat × Nat) (hw : w ∈ w122iLoop fuel (2 ^ e)) :
    0 < 4 * w.2.1 ∧ 4 * w.2.1 < w.2.2 := by
  induction fuel generalizing e with
  | zero => exact absurd hw (List.not_mem_nil _)
  | succ f ih =>
    rw [w122iLoop] at hw
    by_cases h : 4 ≤ 2 ^ e
    · rw [if_pos h, List.mem_append] at hw
      have he : 2 ≤ e := by
        by_contra hc
        have : e = 0 ∨ e = 1 := by omega
        rcases this with rfl | rfl <;> exact absurd h (by decide)
      obtain ⟨m, rfl⟩ : ∃ m, e = m + 2 := ⟨e - 2, by omega⟩
      rcases hw with hw | hw
      · exact w122iStage_args m w hw
      · have e4 : 2 ^ (m + 2) / 4 = 2 ^ m := by
          rw [pow_succ, pow_succ, Nat.mul_assoc, Nat.mul_div_cancel _ (by decide)]
        rw [e4] at hw
        exact ih m hw
    · rw [if_neg h] at hw
      exact absurd hw (List.not_mem_nil _)

/-- The angle of `exp2iPi(a, b)` for `0 < 4 * a < b`. -/
theorem exp2iPi_angle (a b : Nat) (h1 : 0 < 4 * a) (h2 : 4 * a < b) :
    0 < 2 * Real.pi * (a : ℝ) / (b : ℝ) ∧ 2 * Real.pi * (a : ℝ) / (b : ℝ) < Real.pi / 2 ∧
    Real.cos (2 * Real.pi * (a : ℝ) / (b : ℝ)) ≠ 0 := by
  have ha : (0 : ℝ) < a := by
    have : 0 < a := by omega
    exact_mod_cast this
  have hb : (0 : ℝ) < b := by
    have : 0 < b := by omega
    exact_mod_cast this
  have hab : (4 : ℝ) * a < b := by exact_mod_cast h2
  have hpi := Real.pi_pos
  have p1 : 0 < 2 * Real.pi * (a : ℝ) / (b : ℝ) := by positivity
  have p2 : 2 * Real.pi * (a : ℝ) / (b : ℝ) < Real.pi / 2 := by
    rw [div_lt_iff₀ hb]
    nlinarith
  exact ⟨p1, p2, (Real.cos_pos_of_mem_Ioo ⟨by linarith, p2⟩).ne'⟩

/-- C30. For every power of two `N >= 64`, the construction of the twiddle tables
is well defined and in bounds: the loop on `s` ends (more fuel gives the same
stores), every `w122i` entry is written at an index in `[2, N/8)`, no index is
written twice across the stages `s = N/16, N/64, ...`, every `ws` store goes to a
vector `j < N/8/VSIZE` and a lane `i < VSIZE`, and every call `exp2iPi(a, b)` made
for `w122i` and `ws` has `0 < 4*a < b`, so that the angle `2*pi*a/b` lies strictly
between 0 and `pi/2` and its cosine, by which `exp2iPi` divides, is not zero. -/
theorem twiddle_tables_in_bounds (N : Nat) (hN : 64 ≤ N) (hp : ∃ n, N = 2 ^ n) :
    (∀ fuel, N ≤ fuel → w122iLoop fuel (N / 16) = w122iWrites N) ∧
    (∀ w ∈ w122iWrites N, 2 ≤ w.1 ∧ w.1 < N / 8) ∧
    ((w122iWrites N).map Prod.fst).Nodup ∧
    (∀ w ∈ w122iWrites N, 0 < 4 * w.2.1 ∧ 4 * w.2.1 < w.2.2 ∧
      0 < 2 * Real.pi * (w.2.1 : ℝ) / (w.2.2 : ℝ) ∧
      2 * Real.pi * (w.2.1 : ℝ) / (w.2.2 : ℝ) < Real.pi / 2 ∧
      Real.cos (2 * Real.pi * (w.2.1 : ℝ) / (w.2.2 : ℝ)) ≠ 0) ∧
    (∀ VSIZE, ∀ w ∈ wsWrites N VSIZE, w.1.1 < N / 8 / VSIZE ∧ w.1.2 < VSIZE ∧
      0 < 4 * w.2.1 ∧ 4 * w.2.1 < w.2.2 ∧
      0 < 2 * Real.pi * (w.2.1 : ℝ) / (w.2.2 : ℝ) ∧
      2 * Real.pi * (w.2.1 : ℝ) / (w.2.2 : ℝ) < Real.pi / 2 ∧
      Real.cos (2 * Real.pi * (w.2.1 : ℝ) / (w.2.2 : ℝ)) ≠ 0) := by
  obtain ⟨n, rfl⟩ := hp
  have hn : 6 ≤ n := by
    by_contra hc
    have h5 : n ≤ 5 := by omega
    have : 2 ^ n ≤ 2 ^ 5 := Nat.pow_le_pow_right (by decide) h5
    omega
  obtain ⟨m, rfl⟩ : ∃ m, n = m + 6 := ⟨n - 6, by omega⟩
  have hN64 : 2 ^ (m + 6) = 64 * 2 ^ m := by
    rw [pow_add]
    ring
  have h16 : 2 ^ (m + 6) / 16 = 2 ^ (m + 2) := by
    have : 2 ^ (m + 2) = 4 * 2 ^ m := by
      rw [pow_add]
      ring
    omega
  refine ⟨?_, ?_, ?_, ?_, ?_⟩
  · intro fuel hf
    exact w122iLoop_fuel fuel (2 ^ (m + 6)) _ (by omega) (by omega)
  · intro w hw
    have := w122iLoop_index_bounds _ _ w.1 (List.mem_map_of_mem Prod.fst hw)
    omega
  · exact w122iLoop_nodup _ _
  · intro w hw
    unfold w122iWrites at hw
    rw [h16] at hw
    obtain ⟨a1, a2⟩ := w122iLoop_args _ _ w hw
    exact ⟨a1, a2, exp2iPi_angle _ _ a1 a2⟩
  · intro VSIZE w hw
    unfold wsWrites at hw
    rw [List.mem_flatMap] at hw
    obtain ⟨j, hj, hw⟩ := hw
    rw [List.mem_map] at hw
    obtain ⟨i, hi, rfl⟩ := hw
    rw [List.mem_range] at hj hi
    have hk : VSIZE * j + i < 2 ^ (m + 6) / 8 := by
      have h1 : VSIZE * (j + 1) ≤ VSIZE * (2 ^ (m + 6) / 8 / VSIZE) :=
        Nat.mul_le_mul_left _ hj
      have h2 : VSIZE * (2 ^ (m + 6) / 8 / VSIZE) ≤ 2 ^ (m + 6) / 8 := Nat.mul_div_le _ _
      have h3 : VSIZE * (j + 1) = VSIZE * j + VSIZE := by ring
      omega
    have h8 : 2 ^ (m + 6) / 8 = 2 ^ (m + 3) := by
      have : 2 ^ (m + 3) = 8 * 2 ^ m := by
        rw [pow_add]
        ring
      omega
    have h4 : 2 * (2 ^ (m + 6) / 4) = 2 ^ (m + 3 + 2) := by
      have : 2 ^ (m + 3 + 2) = 32 * 2 ^ m := by
        rw [pow_add, pow_add]
        ring
      omega
    rw [h8] at hk
    obtain ⟨_, q2⟩ := revBits_low (m + 3) (VSIZE * j + i) hk
    have hb : bitRev (VSIZE * j + i) (2 * (2 ^ (m + 6) / 4)) = revBits (m + 3 + 2) (VSIZE * j + i) := by
      rw [h4, bitRev_pow]
    have e5 : 2 ^ (m + 3 + 2) = 32 * 2 ^ m := by
      rw [pow_add, pow_add]
      ring
    have a1 : 0 < 4 * (bitRev (VSIZE * j + i) (2 * (2 ^ (m + 6) / 4)) + 1) := by omega
    have a2 : 4 * (bitRev (VSIZE * j + i) (2 * (2 ^ (m + 6) / 4)) + 1)
        < 8 * (2 ^ (m + 6) / 4) := by
      rw [hb]
      omega
    exact ⟨hj, hi, a1, a2, exp2iPi_angle _ _ a1 a2⟩

/-- Witness for C30: `N = 64`, where the only stage is `s = 4` and the stores to
`w122i` go to the indices 2 to 7. -/
theorem twiddle_tables_in_bounds_witness :
    ((64 : Nat) ≤ 64 ∧ ∃ n, (64 : Nat) = 2 ^ n) ∧
    w122iWrites 64
      = [(2, 1, 32), (3, 1, 64), (4, 9, 64), (5, 5, 32), (6, 5, 64), (7, 13, 64)] ∧
    ∀ w ∈ w122iWrites 64, 2 ≤ w.1 ∧ w.1 < 64 / 8 :=
  ⟨⟨le_refl 64, 6, by decide⟩, by decide,
    (twiddle_tables_in_bounds 64 (le_refl 64) ⟨6, by decide⟩).2.1⟩

/-! ## The carry arithmetic on `int64_t` -/

theorem wrap64_of_fits (x : Int) (h1 : -2 ^ 63 ≤ x) (h2 : x < 2 ^ 63) : wrap64 x = x := by
  unfold wrap64
  rw [Int.emod_eq_of_lt (by omega) (by omega)]
  omega

/-- No `int64_t` operation of the loop body overflows when the carry and the digit
are at most `2^61` in absolute value and the base is a `uint32_t`. -/
theorem digitStep64_eq (base f z : Int) (hb : 2 ≤ base) (hb32 : base < 2 ^ 32)
    (hf : -2 ^ 61 ≤ f ∧ f ≤ 2 ^ 61) (hz : -2 ^ 61 ≤ z ∧ z ≤ 2 ^ 61) :
    digitStep64 base f z = digitStep base f z := by
  have hb0 : 0 < base := by omega
  have e1 : wrap64 (f + z) = f + z := wrap64_of_fits _ (by omega) (by omega)
  have h2 : Int.tmod (f + z) base < base := Int.tmod_lt_of_pos _ hb0
  have h3 : -base < Int.tmod (f + z) base := neg_lt_tmod _ _ hb0
  unfold digitStep64 digitStep
  simp only [e1]
  by_cases hneg : Int.tmod (f + z) base < 0
  · rw [if_pos hneg, if_pos hneg,
      wrap64_of_fits (Int.tmod (f + z) base + base) (by omega) (by omega),
      wrap64_of_fits (f + z - (Int.tmod (f + z) base + base)) (by omega) (by omega)]
  · rw [if_neg hneg, if_neg hneg,
      wrap64_of_fits (f + z - Int.tmod (f + z) base) (by omega) (by omega)]

theorem firstPass64_eq (base : Int) (hb : 2 ≤ base) (hb32 : base < 2 ^ 32) (zi : List Int)
    (f : Int) (hf : -2 ^ 61 ≤ f ∧ f ≤ 2 ^ 61) (hz : ∀ z ∈ zi, -2 ^ 61 ≤ z ∧ z ≤ 2 ^ 61) :
    firstPass64 base f zi = firstPass base f zi ∧
    (-2 ^ 61 ≤ (firstPass base f zi).2 ∧ (firstPass base f zi).2 ≤ 2 ^ 61) ∧
    (∀ z ∈ (firstPass base f zi).1, -2 ^ 61 ≤ z ∧ z ≤ 2 ^ 61) := by
  induction zi generalizing f with
  | nil => exact ⟨rfl, hf, fun z hz => absurd hz (List.not_mem_nil _)⟩
  | cons z zs ih =>
    have hz0 := hz z (List.mem_cons_self _ _)
    have hs := digitStep64_eq base f z hb hb32 hf hz0
    obtain ⟨hd, hc⟩ := digitStep_bounded base f z (2 ^ 61) hb hf hz0
    obtain ⟨i1, i2, i3⟩ := ih (digitStep base f z).2 hc
      (fun x hx => hz x (List.mem_cons_of_mem _ hx))
    refine ⟨?_, i2, ?_⟩
    · show ((digitStep64 base f z).1 :: (firstPass64 base (digitStep64 base f z).2 zs).1,
        (firstPass64 base (digitStep64 base f z).2 zs).2) = _
      rw [hs, i1]
      rfl
    · intro x hx
      rcases List.mem_cons.1 hx with rfl | hx
      · constructor <;> omega
      · exact i3 x hx

theorem carryPass64_eq (base : Int) (hb : 2 ≤ base) (hb32 : base < 2 ^ 32) (zi : List Int)
    (f : Int) (hf : -2 ^ 61 ≤ f ∧ f ≤ 2 ^ 61) (hz : ∀ z ∈ zi, -2 ^ 61 ≤ z ∧ z ≤ 2 ^ 61) :
    carryPass64 base f zi = carryPass base f zi ∧
    (-2 ^ 61 ≤ (carryPass base f zi).2 ∧ (carryPass base f zi).2 ≤ 2 ^ 61) ∧
    (∀ z ∈ (carryPass base f zi).1, -2 ^ 61 ≤ z ∧ z ≤ 2 ^ 61) := by
  induction zi generalizing f with
  | nil => exact ⟨rfl, hf, fun z hz => absurd hz (List.not_mem_nil _)⟩
  | cons z zs ih =>
    have hz0 := hz z (List.mem_cons_self _ _)
    have hzs : ∀ x ∈ zs, -2 ^ 61 ≤ x ∧ x ≤ 2 ^ 61 :=
      fun x hx => hz x (List.mem_cons_of_mem _ hx)
    have hs := digitStep64_eq base f z hb hb32 hf hz0
    obtain ⟨hd, hc⟩ := digitStep_bounded base f z (2 ^ 61) hb hf hz0
    obtain ⟨i1, i2, i3⟩ := ih (digitStep base f z).2 hc hzs
    have e64 : carryPass64 base f (z :: zs)
        = if (digitStep64 base f z).2 = 0 then ((digitStep64 base f z).1 :: zs,
            (digitStep64 base f z).2)
          else ((digitStep64 base f z).1 :: (carryPass64 base (digitStep64 base f z).2 zs).1,
            (carryPass64 base (digitStep64 base f z).2 zs).2) := rfl
    have e : carryPass base f (z :: zs)
        = if (digitStep base f z).2 = 0 then ((digitStep base f z).1 :: zs,
            (digitStep base f z).2)
          else ((digitStep base f z).1 :: (carryPass base (digitStep base f z).2 zs).1,
            (carryPass base (digitStep base f z).2 zs).2) := rfl
    rw [e64, e, hs, i1]
    refine ⟨rfl, ?_, ?_⟩
    · split_ifs
      · exact hc
      · exact i2
    · intro x hx
      split_ifs at hx
      · rcases List.mem_cons.1 hx with rfl | hx
        · constructor <;> omega
        · exact hzs x hx
      · rcases List.mem_cons.1 hx with rfl | hx
        · constructor <;> omega
        · exact i3 x hx

theorem whileLoop64_eq (base : Int) (hb : 2 ≤ base) (hb32 : base < 2 ^ 32) (fuel : Nat)
    (zi : List Int) (f : Int) (hf : -2 ^ 61 ≤ f ∧ f ≤ 2 ^ 61)
    (hz : ∀ z ∈ zi, -2 ^ 61 ≤ z ∧ z ≤ 2 ^ 61) :
    whileLoop64 base fuel f zi = whileLoop base fuel f zi := by
  induction fuel generalizing f zi with
  | zero => rfl
  | succ n ih =>
    have hw : wrap64 (-f) = -f := wrap64_of_fits _ (by omega) (by omega)
    obtain ⟨c1, c2, c3⟩ := carryPass64_eq base hb hb32 zi (-f) ⟨by omega, by omega⟩ hz
    have e64 : whileLoop64 base (n + 1) f zi
        = if f = 0 then some (zi, f)
          else if (carryPass64 base (wrap64 (-f)) zi).2 = 1
              ∧ isMinusOne (carryPass64 base (wrap64 (-f)) zi).1 = true
            then some ((carryPass64 base (wrap64 (-f)) zi).1.set 0 (-1),
              (carryPass64 base (wrap64 (-f)) zi).2)
            else whileLoop64 base n (carryPass64 base (wrap64 (-f)) zi).2
              (carryPass64 base (wrap64 (-f)) zi).1 := rfl
    have e : whileLoop base (n + 1) f zi
        = if f = 0 then some (zi, f)
          else if (carryPass base (-f) zi).2 = 1 ∧ isMinusOne (carryPass base (-f) zi).1 = true
            then some ((carryPass base (-f) zi).1.set 0 (-1), (carryPass base (-f) zi).2)
            else whileLoop base n (carryPass base (-f) zi).2 (carryPass base (-f) zi).1 := rfl
    rw [e64, e, hw, c1, ih _ _ c2 c3]

/-- On digits of absolute value at most `2^61` and a base `2 <= b < 2^32`, no
`int64_t` operation of `unbalance` overflows: the function computes what it
computes on unbounded integers. -/
theorem unbalance64_eq (b : Nat) (hb : 2 ≤ b) (hb32 : b < 2 ^ 32) (zi : List Int)
    (hz : ∀ z ∈ zi, -2 ^ 61 ≤ z ∧ z ≤ 2 ^ 61) : unbalance64 b zi = unbalance b zi := by
  have hb2 : (2 : Int) ≤ (b : Int) := by exact_mod_cast hb
  have hb3 : (b : Int) < 2 ^ 32 := by exact_mod_cast hb32
  obtain ⟨f1, f2, f3⟩ := firstPass64_eq (b : Int) hb2 hb3 zi 0 ⟨by norm_num, by norm_num⟩ hz
  unfold unbalance64 unbalance
  simp only
  rw [f1, whileLoop64_eq (b : Int) hb2 hb3 _ _ _ f2 f3]

theorem isOne64_eq (b : Nat) (hb : 2 ≤ b) (hb32 : b < 2 ^ 32) (zi : List Int)
    (hz : ∀ z ∈ zi, -2 ^ 61 ≤ z ∧ z ≤ 2 ^ 61) : isOne64 b zi = isOne b zi := by
  unfold isOne64 isOne
  simp only
  rw [unbalance64_eq b hb hb32 zi hz]

/-! ## Residue extraction on `int64_t` digits -/

/-- C1 (amended). For every base `2 <= b < 2^32`, every size `N >= 8` and every
digit vector `zi` of length `N` whose digits are at most `2^61` in absolute value
(as are balanced digits), `isOne`, computed on `int64_t`, returns, and the boolean
it returns is true if and only if `sum_i zi[i] * b^i` is congruent to 1 modulo
`b^N + 1`. -/
theorem isOne64_true_iff_residue_one (b : Nat) (hb : 2 ≤ b) (hb32 : b < 2 ^ 32)
    (zi : List Int) (hN : 8 ≤ zi.length) (hz : ∀ z ∈ zi, -2 ^ 61 ≤ z ∧ z ≤ 2 ^ 61) :
    ∃ flag residue, isOne64 b zi = some (flag, residue) ∧
      (flag = true ↔ digitSum b zi ≡ 1 [ZMOD (b : Int) ^ zi.length + 1]) := by
  rw [isOne64_eq b hb hb32 zi hz]
  exact isOne_iff_residue_one_int b hb zi hN

/-- Witness for C1 (amended): base 10, nine digits representing 1. -/
theorem isOne64_true_iff_residue_one_witness :
    (2 ≤ 10 ∧ 10 < 2 ^ 32 ∧ 8 ≤ [(1 : Int), 0, 0, 0, 0, 0, 0, 0, 0].length ∧
      ∀ z ∈ [(1 : Int), 0, 0, 0, 0, 0, 0, 0, 0], -2 ^ 61 ≤ z ∧ z ≤ 2 ^ 61) ∧
    ∃ flag residue, isOne64 10 [1, 0, 0, 0, 0, 0, 0, 0, 0] = some (flag, residue) ∧
      (flag = true ↔ digitSum ((10 : Nat) : Int) [1, 0, 0, 0, 0, 0, 0, 0, 0]
        ≡ 1 [ZMOD ((10 : Nat) : Int) ^ [(1 : Int), 0, 0, 0, 0, 0, 0, 0, 0].length + 1]) :=
  ⟨⟨by decide, by decide, by decide, by decide⟩,
    isOne64_true_iff_residue_one 10 (by decide) (by decide) [1, 0, 0, 0, 0, 0, 0, 0, 0]
      (by decide) (by decide)⟩

set_option maxRecDepth 100000 in
/-- Counterexample for C1 as stated: base `b = 65536` and the nine `int64_t`
digits `(1 - 2^32, -2^63, 1 - 2^47, 0, ..., 0)`.  The first step writes the digit 1
and leaves the carry `-65536`; in the second step `f += zi[1]` has the exact
value `-65536 - 2^63`, below `-2^63`, and wraps to `2^63 - 65536`; the digits 0
follow and the carry ends at 0, so `isOne` returns true.  The vector
represents `1 - 2^80`, which is not congruent to 1 modulo `65536^9 + 1`. -/
theorem isOne64_overflow_verdict :
    ((2 : Nat) ≤ 65536 ∧ 65536 < 2 ^ 32 ∧
      8 ≤ [1 - 2 ^ 32, -2 ^ 63, 1 - 2 ^ 47, 0, 0, 0, 0, 0, (0 : Int)].length ∧
      ∀ z ∈ [1 - 2 ^ 32, -2 ^ 63, 1 - 2 ^ 47, 0, 0, 0, 0, 0, (0 : Int)],
        -2 ^ 63 ≤ z ∧ z < 2 ^ 63) ∧
    digitStep64 65536 0 (1 - 2 ^ 32) = (1, -65536) ∧
    digitStep64 65536 (-65536) (-2 ^ 63) = (0, 2 ^ 47 - 1) ∧
    digitStep64 65536 (2 ^ 47 - 1) (1 - 2 ^ 47) = (0, 0) ∧
    isOne64 65536 [1 - 2 ^ 32, -2 ^ 63, 1 - 2 ^ 47, 0, 0, 0, 0, 0, 0] = some (true, 0) ∧
    digitSum ((65536 : Nat) : Int) [1 - 2 ^ 32, -2 ^ 63, 1 - 2 ^ 47, 0, 0, 0, 0, 0, 0]
      = 1 - 2 ^ 80 ∧
    ¬ (digitSum ((65536 : Nat) : Int) [1 - 2 ^ 32, -2 ^ 63, 1 - 2 ^ 47, 0, 0, 0, 0, 0, 0]
      ≡ 1 [ZMOD ((65536 : Nat) : Int)
        ^ [1 - 2 ^ 32, -2 ^ 63, 1 - 2 ^ 47, 0, 0, 0, 0, 0, (0 : Int)].length + 1]) := by
  refine ⟨⟨by decide, by decide, by decide, by decide⟩, by decide, by decide, by decide,
    by decide, by decide, by decide⟩

/-- C3 (amended). For every base `2 <= b < 2^32` and every digit vector `zi` of
length `N` whose digits are at most `2^61` in absolute value (as are balanced
digits), `unbalance`, computed on `int64_t`, returns and preserves the
represented residue: the sum `sum_i zi'[i] * b^i` of its output is congruent to
`sum_i zi[i] * b^i` modulo `b^N + 1`, the special output `(-1, 0, ..., 0)`
included. -/
theorem unbalance64_preserves_residue (b : Nat) (hb : 2 ≤ b) (hb32 : b < 2 ^ 32)
    (zi : List Int) (hz : ∀ z ∈ zi, -2 ^ 61 ≤ z ∧ z ≤ 2 ^ 61) :
    ∃ zi', unbalance64 b zi = some zi' ∧
      digitSum b zi' ≡ digitSum b zi [ZMOD (b : Int) ^ zi.length + 1] := by
  rw [unbalance64_eq b hb hb32 zi hz]
  exact unbalance_preserves_residue_int b hb zi

/-- Witness for C3 (amended): base 10 and a vector with negative and oversized
digits. -/
theorem unbalance64_preserves_residue_witness :
    (2 ≤ 10 ∧ 10 < 2 ^ 32 ∧ ∀ z ∈ [(5 : Int), -4, 3, 12, -100], -2 ^ 61 ≤ z ∧ z ≤ 2 ^ 61) ∧
    ∃ zi', unbalance64 10 [5, -4, 3, 12, -100] = some zi' ∧
      digitSum ((10 : Nat) : Int) zi' ≡ digitSum ((10 : Nat) : Int) [5, -4, 3, 12, -100]
        [ZMOD ((10 : Nat) : Int) ^ [(5 : Int), -4, 3, 12, -100].length + 1] :=
  ⟨⟨by decide, by decide, by decide⟩,
    unbalance64_preserves_residue 10 (by decide) (by decide) [5, -4, 3, 12, -100] (by decide)⟩

set_option maxRecDepth 100000 in
/-- Counterexample for C3 as stated: base `b = 2` and the eight `int64_t` digits
`(2^63 - 1, 2^63 - 1, 0, ..., 0)`.  The first step writes the digit 1 and leaves
the carry `2^62 - 1`; in the second step `f += zi[1]` has the exact value
`2^62 - 1 + 2^63 - 1`, above `2^63 - 1`, and wraps to `-2^62 - 2`.  `unbalance`
ends with the digits `(1, 0, 1, 1, 1, 1, 1, 0)`, of value 125, while the input
has the residue 127 modulo `2^8 + 1 = 257`. -/
theorem unbalance64_overflow_residue :
    ((2 : Nat) ≤ 2 ∧ 2 < 2 ^ 32 ∧
      ∀ z ∈ [2 ^ 63 - 1, 2 ^ 63 - 1, 0, 0, 0, 0, 0, (0 : Int)], -2 ^ 63 ≤ z ∧ z < 2 ^ 63) ∧
    digitStep64 2 0 (2 ^ 63 - 1) = (1, 2 ^ 62 - 1) ∧
    digitStep64 2 (2 ^ 62 - 1) (2 ^ 63 - 1) = (0, -2 ^ 61 - 1) ∧
    unbalance64 2 [2 ^ 63 - 1, 2 ^ 63 - 1, 0, 0, 0, 0, 0, 0] = some [1, 0, 1, 1, 1, 1, 1, 0] ∧
    digitSum ((2 : Nat) : Int) [1, 0, 1, 1, 1, 1, 1, 0] % (2 ^ 8 + 1) = 125 ∧
    digitSum ((2 : Nat) : Int) [2 ^ 63 - 1, 2 ^ 63 - 1, 0, 0, 0, 0, 0, 0] % (2 ^ 8 + 1) = 127 ∧
    ¬ (digitSum ((2 : Nat) : Int) [1, 0, 1, 1, 1, 1, 1, 0]
      ≡ digitSum ((2 : Nat) : Int) [2 ^ 63 - 1, 2 ^ 63 - 1, 0, 0, 0, 0, 0, 0]
        [ZMOD ((2 : Nat) : Int) ^ [2 ^ 63 - 1, 2 ^ 63 - 1, 0, 0, 0, 0, 0, (0 : Int)].length + 1]) := by
  refine ⟨⟨by decide, by decide, by decide⟩, by decide, by decide, by decide,
    by decide, by decide, by decide⟩

end Genefer
